import Mathlib

/-!
PathFinder graph algorithms: a shallow embedding of `GraphTheory.cpp`.

The functions `dijsktra`, `path`, `allPaths`, `flows`, `spanningTree`, `dfs`,
`dfs_allpaths` and `dfs_cycle_finder` of `src/GraphTheory.cpp` are translated
one by one.  A C++ `int` is an `Int`, a
`double` is a rational number, a `std::vector` is a `List` read and written
through `vget` and `vset`, and every way a call can end other than by a normal
return is a `Fault` carried in `Except`.  A `while` loop without a bound takes
a fuel argument and ends in `Fault.fuel` when the fuel runs out.

The class `cGraph` is used by these functions but its header is not among the
sources; it is modelled from the specification.  Attribute slot 0 of an edge,
a text that the algorithms read with `atof` at each use, is held as the number
it stands for.
-/

namespace PathFinder

/-! ## Machine level conventions -/

/-- The C++ constant `INT_MAX` for a 32 bit `int`. -/
def INT_MAX : Int := 2147483647

/-- Ways in which a call ends without a normal return. -/
inductive Fault where
  /-- a `std::vector` element outside `0 .. size-1` is read or written -/
  | outOfRange
  /-- the graph store refuses an attribute access (IndexOutOfRange) -/
  | indexOutOfRange
  /-- a `std::runtime_error` is thrown -/
  | runtimeError (what : String)
  /-- the loop was still running when the fuel ran out -/
  | fuel
  deriving DecidableEq, Repr

deriving instance DecidableEq for Except

/-- Conversion `double → int`: the fractional part is discarded. -/
def toInt (x : ℚ) : Int := if 0 ≤ x then ⌊x⌋ else ⌈x⌉

/-- Arithmetic of a 32 bit `int`: the value wraps around in two's complement. -/
def wrap32 (x : Int) : Int := (x + 2147483648) % 4294967296 - 2147483648

/-- Element `v[i]` of a vector, `d` standing for whatever lies outside it. -/
def vget {α : Type} (v : List α) (i : Int) (d : α) : α :=
  if i < 0 then d else v.getD i.toNat d

/-- The vector after `v[i] = x`. -/
def vset {α : Type} (v : List α) (i : Int) (x : α) : List α :=
  if i < 0 then v else v.set i.toNat x

/-- The values `0, 1, .., n-1` of a loop `for (int i = 0; i < n; i++)`. -/
def intRange (n : Nat) : List Int := (List.range n).map Int.ofNat

/-! ## The graph store -/

/-- Modelled from the spec: an edge of `cGraph` (`cGraph.h` is not among the
sources): source vertex index, destination vertex index, and attribute slot 0,
held as the number that `atof` reads from its text. -/
structure cEdge where
  src : Int
  dest : Int
  attr0 : ℚ
  deriving DecidableEq, Repr

/-- Modelled from the spec: the graph store `cGraph` (`cGraph.h` is not among
the sources): a `directed` flag, vertices `0 .. nVertex-1` and the edges in
insertion order; an edge's position in the list is its index. -/
structure cGraph where
  fDirected : Bool
  nVertex : Nat
  vEdge : List cEdge
  deriving DecidableEq, Repr

namespace cGraph

/-- Modelled from the spec: `vertexCount()` of the missing `cGraph`. -/
def vertexCount (g : cGraph) : Nat := g.nVertex

/-- Modelled from the spec: `edgeCount()` of the missing `cGraph`. -/
def edgeCount (g : cGraph) : Nat := g.vEdge.length

/-- Modelled from the spec: `isDirected()` of the missing `cGraph`. -/
def isDirected (g : cGraph) : Bool := g.fDirected

/-- Modelled from the spec: whether edge `e` is a match for the pair `(u,v)` in
the missing `cGraph::find(u,v)`: "if undirected, matches either direction". -/
def joins (g : cGraph) (u v : Int) (e : cEdge) : Bool :=
  (e.src == u && e.dest == v) || (!g.fDirected && e.src == v && e.dest == u)

/-- Modelled from the spec: `find(u,v)` of the missing `cGraph`: the index of
the first matching edge, `-1` when there is none. -/
def find (g : cGraph) (u v : Int) : Int :=
  if g.vEdge.findIdx (g.joins u v) < g.vEdge.length
  then (g.vEdge.findIdx (g.joins u v) : Int) else -1

/-- Modelled from the spec: `adjacentOut(v)` of the missing `cGraph`, "derived
on demand from the edge list in edge-insertion order; when `directed` is false,
an edge contributes to both vertices' adjacency". -/
def adjacentOut (g : cGraph) (v : Int) : List Int :=
  g.vEdge.filterMap fun e =>
    if e.src = v then some e.dest
    else if !g.fDirected && e.dest = v then some e.src
    else none

/-- Modelled from the spec: `rEdgeAttr(ei,0)` of the missing `cGraph` followed
by `atof`: "on an out-of-range edge index, fails with IndexOutOfRange". -/
def rEdgeAttr (g : cGraph) (ei : Int) : Except Fault ℚ :=
  if ei < 0 then .error .indexOutOfRange
  else match g.vEdge.get? ei.toNat with
    | some e => .ok e.attr0
    | none => .error .indexOutOfRange

/-- The graph with edge number `n` replaced by `e1`. -/
def setEdge (g : cGraph) (n : Nat) (e1 : cEdge) : cGraph :=
  { g with vEdge := g.vEdge.set n e1 }

/-- Modelled from the spec: `wEdgeAttr(ei,{text})` of the missing `cGraph`,
the text being given by the number it stands for. -/
def wEdgeAttr (g : cGraph) (ei : Int) (x : ℚ) : Except Fault cGraph :=
  if ei < 0 then .error .indexOutOfRange
  else match g.vEdge.get? ei.toNat with
    | some e => .ok (g.setEdge ei.toNat { e with attr0 := x })
    | none => .error .indexOutOfRange

/-- Modelled from the spec: `remove(u,v)` of the missing `cGraph`: "removes
first matching edge, renumbers trailing edges". -/
def remove (g : cGraph) (u v : Int) : cGraph :=
  { g with vEdge := g.vEdge.eraseIdx (g.vEdge.findIdx (g.joins u v)) }

/-- Modelled from the spec: `dest(ei)` of the missing `cGraph`.  The answer
`-1` for an index that names no edge is not given by the spec: it is the value
that line 691 of `flows` tests for. -/
def dest (g : cGraph) (ei : Int) : Int :=
  if ei < 0 then -1
  else match g.vEdge.get? ei.toNat with
    | some e => e.dest
    | none => -1

end cGraph

/-! ## `dijsktra` (GraphTheory.cpp 14-72) -/

/-- The three vectors `dijsktra` works on.  The entries of `dist` are `double`s
in the code and exact rationals here: on whole weights the sums and
comparisons of the code are exact and the two agree; on weights with a
fractional part the code rounds where the model does not. -/
structure DijState where
  dist : List ℚ
  pred : List Int
  sptSet : List Bool
  deriving DecidableEq, Repr

/-- Lines 40-46: the scan for the unprocessed vertex of least distance; the
pair is `(min, uidx)`, `uidx` being `none` while it is uninitialised.  `min` is
an `int`, so the distance stored in it loses its fractional part. -/
def pickMin (s : DijState) : List Int → Int × Option Int → Int × Option Int
  | [], acc => acc
  | vidx :: rest, (min, uidx) =>
    if vget s.sptSet vidx false = false ∧ vget s.dist vidx 0 ≤ (min : ℚ) then
      pickMin s rest (toInt (vget s.dist vidx 0), some vidx)
    else pickMin s rest (min, uidx)

/-- Lines 57-70: the update of the neighbours `vp` of the picked vertex.  The
sum `dist[uidx] + cost` and its comparison are exact here; the code makes them
in `double`, which is the same on whole weights. -/
def relax (g : cGraph) (uidx : Int) : List Int → DijState → Except Fault DijState
  | [], s => .ok s
  | vp :: rest, s =>
    if vget s.sptSet vp false then relax g uidx rest s
    else
      match g.rEdgeAttr (g.find uidx vp) with
      | .error e => .error e
      | .ok cost =>
        if vget s.dist uidx 0 + cost < vget s.dist vp 0 then
          relax g uidx rest
            { s with dist := vset s.dist vp (vget s.dist uidx 0 + cost),
                     pred := vset s.pred vp uidx }
        else relax g uidx rest s

/-- Lines 36-71: the loop `for (count = 0; count < vertexCount - 1; count++)`,
the first argument being the number of rounds left. -/
def dijLoop (g : cGraph) : Nat → DijState → Except Fault DijState
  | 0, s => .ok s
  | n + 1, s =>
    match pickMin s (intRange g.vertexCount) (INT_MAX, none) with
    | (min, uidx) =>
      if min = INT_MAX then .ok s
      else
        match uidx with
        | none => .error .outOfRange
        | some u =>
          match relax g u (g.adjacentOut u) { s with sptSet := vset s.sptSet u true } with
          | .error e => .error e
          | .ok s1 => dijLoop g n s1

/-- Lines 20-33: the vectors before the first round. -/
def dijInit (g : cGraph) (start : Int) : DijState :=
  { dist := vset (List.replicate g.vertexCount (INT_MAX : ℚ)) start 0,
    pred := vset (List.replicate g.vertexCount (-1 : Int)) start 0,
    sptSet := List.replicate g.vertexCount false }

/-- The function `dijsktra(g, start, dist, pred)`; the result is `(dist, pred)`.
Writing `dist[start]` outside the vector is a fault. -/
def dijsktra (g : cGraph) (start : Int) : Except Fault (List ℚ × List Int) :=
  if start < 0 ∨ (g.vertexCount : Int) ≤ start then .error .outOfRange
  else
    match dijLoop g (g.vertexCount - 1) (dijInit g start) with
    | .error e => .error e
    | .ok s => .ok (s.dist, s.pred)

/-! ## `path` (GraphTheory.cpp 86-119) -/

/-- Lines 109-115: the loop `while (1)` that follows `pred` from `next` until
`start` is met; `vpath` is the vector built so far. -/
def walkBack (pred : List Int) (start : Int) : Nat → Int → List Int → Except Fault (List Int)
  | 0, _, _ => .error .fuel
  | n + 1, next, vpath =>
    if next < 0 ∨ (pred.length : Int) ≤ next then .error .outOfRange
    else
      if vget pred next (-1) = start then .ok (vpath ++ [vget pred next (-1)])
      else walkBack pred start n (vget pred next (-1)) (vpath ++ [vget pred next (-1)])

/-- The function `path(g, start, end)`: the vertex sequence and its cost.  The
`while (1)` loop is given `vertexCount + 1` rounds. -/
def path (g : cGraph) (start end_ : Int) : Except Fault (List Int × ℚ) :=
  if 0 > start ∨ start > g.vertexCount ∨ 0 > end_ ∨ end_ > g.vertexCount then
    .ok ([], -1)
  else
    match dijsktra g start with
    | .error e => .error e
    | .ok (dist, pred) =>
      if (pred.length : Int) ≤ end_ then .error .outOfRange
      else if vget pred end_ (-1) = -1 then .ok ([], -1)
      else
        match walkBack pred start (g.vertexCount + 1) end_ [end_] with
        | .error e => .error e
        | .ok vpath => .ok (vpath.reverse, vget dist end_ 0)

/-! ## `allPaths` (GraphTheory.cpp 121-169) -/

/-- The call `std::equal(prevPath.begin(), prevPath.end(), p.begin())`: the
elements of `prevPath` are compared with those of `p` at the same positions,
stopping at the first difference; reading past the end of `p` is a fault. -/
def stdEqual : List Int → List Int → Except Fault Bool
  | [], _ => .ok true
  | _ :: _, [] => .error .outOfRange
  | a :: as, b :: bs => if a = b then stdEqual as bs else .ok false

/-- Lines 141-150: the value of `fnew` after the loop over `ret`. -/
def isNew : List (List Int) → List Int → Except Fault Bool
  | [], _ => .ok true
  | prevPath :: rest, p =>
    match stdEqual prevPath p with
    | .error e => .error e
    | .ok true => .ok false
    | .ok false => isNew rest p

/-- Lines 159-166: the cost of every link of the path goes up by one; `atoi`
reads the whole part of the attribute and the sum is an `int`. -/
def bumpCosts : cGraph → List Int → Except Fault cGraph
  | work, a :: b :: rest =>
    match work.rEdgeAttr (work.find a b) with
    | .error e => .error e
    | .ok w =>
      match work.wEdgeAttr (work.find a b) (wrap32 (toInt w + 1)) with
      | .error e => .error e
      | .ok work1 => bumpCosts work1 (b :: rest)
  | work, _ => .ok work

/-- Lines 133-167: the loop `while (fnew)`, with the rounds left, the working
graph and the paths recorded so far; the result is the working graph and `ret`
when the loop is left. -/
def allPathsLoop (start end_ : Int) :
    Nat → cGraph → List (List Int) → Except Fault (cGraph × List (List Int))
  | 0, _, _ => .error .fuel
  | n + 1, work, ret =>
    match path work start end_ with
    | .error e => .error e
    | .ok (p, _) =>
      if p = [] then .ok (work, ret)
      else
        match isNew ret p with
        | .error e => .error e
        | .ok false => .ok (work, ret)
        | .ok true =>
          match bumpCosts work p with
          | .error e => .error e
          | .ok work1 => allPathsLoop start end_ n work1 (ret ++ [p])

/-- The function `allPaths(g, start, end)`, its loop bounded by `fuel`. -/
def allPaths (fuel : Nat) (g : cGraph) (start end_ : Int) :
    Except Fault (List (List Int)) :=
  match allPathsLoop start end_ fuel g [] with
  | .error e => .error e
  | .ok (_, ret) => .ok ret

/-! ## `flows` (GraphTheory.cpp 619-708) -/

/-- The text `std::to_string(cap)` of a `double`, read back by `atof`: six
digits are kept after the decimal point.  A whole number is left as it is; a
value with a fractional part is rounded here as an exact rational, in the code
as the `double` that holds it. -/
def toStringAtof (x : ℚ) : ℚ := (⌊x * 1000000 + 1 / 2⌋ : ℚ) / 1000000

/-- Lines 646-660: the least capacity along the path; `u` is the vertex before
`v` (`-1` before the first) and `maxflow` an `int`. -/
def pathMaxflow (work : cGraph) : List Int → Int → Int → Except Fault Int
  | [], _, maxflow => .ok maxflow
  | v :: rest, u, maxflow =>
    if u ≥ 0 then
      match work.rEdgeAttr (work.find u v) with
      | .error e => .error e
      | .ok cap =>
        if cap < (maxflow : ℚ) then pathMaxflow work rest v (toInt cap)
        else pathMaxflow work rest v maxflow
    else pathMaxflow work rest v maxflow

/-- Lines 662-682: `maxflow` is taken from every link of the path; a link left
with no capacity is removed.  The call `wEdgeAttr(u, v, ..)` writes the edge
that `find(u, v)` names. -/
def consume (maxflow : Int) : List Int → Int → cGraph → Except Fault cGraph
  | [], _, work => .ok work
  | v :: rest, u, work =>
    if u ≥ 0 then
      match work.rEdgeAttr (work.find u v) with
      | .error e => .error e
      | .ok c =>
        if c - (maxflow : ℚ) ≤ 0 then consume maxflow rest v (work.remove u v)
        else
          match work.wEdgeAttr (work.find u v) (toStringAtof (c - (maxflow : ℚ))) with
          | .error e => .error e
          | .ok work1 => consume maxflow rest v work1
    else consume maxflow rest v work

/-- Lines 635-685: the loop `while (1)`, with the rounds left, the working
graph and `totalFlow`. -/
def flowsLoop (start end_ : Int) : Nat → cGraph → Int → Except Fault (cGraph × Int)
  | 0, _, _ => .error .fuel
  | n + 1, work, totalFlow =>
    match path work start end_ with
    | .error e => .error e
    | .ok p =>
      if p.1 = [] then .ok (work, totalFlow)
      else
        match pathMaxflow work p.1 (-1) INT_MAX with
        | .error e => .error e
        | .ok maxflow =>
          match consume maxflow p.1 (-1) work with
          | .error e => .error e
          | .ok work1 => flowsLoop start end_ n work1 (wrap32 (totalFlow + maxflow))

/-- Lines 687-705: the entries of `vEdgeFlow`, one for each edge index of `g`. -/
def edgeFlow (g work : cGraph) : List Int → Except Fault (List Int)
  | [] => .ok []
  | ei :: rest =>
    match g.rEdgeAttr ei with
    | .error e => .error e
    | .ok oc =>
      if work.dest ei = -1 then
        match edgeFlow g work rest with
        | .error e => .error e
        | .ok fs => .ok (toInt oc :: fs)
      else
        match work.rEdgeAttr ei with
        | .error e => .error e
        | .ok wc =>
          match edgeFlow g work rest with
          | .error e => .error e
          | .ok fs => .ok (toInt (oc - wc) :: fs)

/-- The function `flows(g, start, end, vEdgeFlow)`, its loop bounded by `fuel`:
the total flow and the vector `vEdgeFlow`. -/
def flows (fuel : Nat) (g : cGraph) (start end_ : Int) : Except Fault (Int × List Int) :=
  if !g.isDirected then
    .error (.runtimeError "Flow calculation needs directed graph ( 2nd input line must be 'g')")
  else
    match flowsLoop start end_ fuel g 0 with
    | .error e => .error e
    | .ok (work, totalFlow) =>
      match edgeFlow g work (intRange g.edgeCount) with
      | .error e => .error e
      | .ok vEdgeFlow => .ok (totalFlow, vEdgeFlow)

/-! ## Vocabulary of the statements -/

/-- The links `(p[k-1], p[k])` of a vertex sequence. -/
def links : List Int → List (Int × Int)
  | a :: b :: t => (a, b) :: links (b :: t)
  | _ => []

namespace cGraph

/-- Every edge joins two vertices of the graph. -/
def wellFormed (g : cGraph) : Prop :=
  ∀ e ∈ g.vEdge, 0 ≤ e.src ∧ e.src < (g.vertexCount : Int) ∧
    0 ≤ e.dest ∧ e.dest < (g.vertexCount : Int)

instance (g : cGraph) : Decidable g.wellFormed :=
  inferInstanceAs (Decidable (∀ e ∈ g.vEdge, 0 ≤ e.src ∧ e.src < (g.vertexCount : Int) ∧
    0 ≤ e.dest ∧ e.dest < (g.vertexCount : Int)))

/-- The index `v` names a vertex of `g`. -/
def inRange (g : cGraph) (v : Int) : Prop := 0 ≤ v ∧ v < (g.vertexCount : Int)

instance (g : cGraph) (v : Int) : Decidable (g.inRange v) :=
  inferInstanceAs (Decidable (0 ≤ v ∧ v < (g.vertexCount : Int)))

/-- The first edge that `find(u,v)` matches, if there is one. -/
def firstEdge (g : cGraph) (u v : Int) : Option cEdge := g.vEdge.find? (g.joins u v)

/-- Some edge of `g` joins `u` to `v`. -/
def hasEdge (g : cGraph) (u v : Int) : Prop := ∃ e ∈ g.vEdge, g.joins u v e = true

instance (g : cGraph) (u v : Int) : Decidable (g.hasEdge u v) :=
  inferInstanceAs (Decidable (∃ e ∈ g.vEdge, g.joins u v e = true))

/-- The vertex `v` can be reached from `u` along edges of `g`. -/
def Reachable (g : cGraph) (u v : Int) : Prop :=
  Relation.ReflTransGen (fun a b => g.hasEdge a b) u v

/-- The sum of the slot 0 values of the links of a vertex sequence, each link
`(a,b)` being read the way the algorithms read it, through `find(a,b)`. -/
def linkCost (g : cGraph) : List Int → Except Fault ℚ
  | a :: b :: rest =>
    match g.rEdgeAttr (g.find a b) with
    | .error e => .error e
    | .ok w =>
      match linkCost g (b :: rest) with
      | .error e => .error e
      | .ok c => .ok (w + c)
  | _ => .ok 0

/-- A vertex sequence from `u` to `v` whose consecutive vertices are joined by
edges of `g`. -/
def isWalk (g : cGraph) (u v : Int) (p : List Int) : Prop :=
  p.head? = some u ∧ p.getLast? = some v ∧ ∀ ab ∈ links p, g.hasEdge ab.1 ab.2

instance (g : cGraph) (u v : Int) (p : List Int) : Decidable (g.isWalk u v p) :=
  inferInstanceAs (Decidable (p.head? = some u ∧ p.getLast? = some v ∧
    ∀ ab ∈ links p, g.hasEdge ab.1 ab.2))

end cGraph

/-- The number of links that lead from inside the vertex set `S` to outside. -/
def crossings (S : Int → Bool) (l : List (Int × Int)) : Nat :=
  l.countP fun ab => S ab.1 && !S ab.2

/-- The capacity of the cut `S`: the sum of the slot 0 values of the edges
that leave `S`. -/
def cGraph.cutCapacity (g : cGraph) (S : Int → Bool) : ℚ :=
  (g.vEdge.map fun e => if S e.src && !S e.dest then e.attr0 else 0).sum

/-- What `flows` keeps true of its working graph: it is directed and well
formed on `V` vertices, and its capacities are natural numbers. -/
structure FlowInv (V : Nat) (work : cGraph) : Prop where
  dir : work.fDirected = true
  wf : work.wellFormed
  nv : work.vertexCount = V
  cap : ∀ e ∈ work.vEdge, ∃ n : ℕ, e.attr0 = (n : ℚ)

/-- The graph `h` has the vertices and the edges of `g`, attribute values apart. -/
def cGraph.sameShape (g h : cGraph) : Prop :=
  h.fDirected = g.fDirected ∧ h.nVertex = g.nVertex ∧
    h.vEdge.map (fun e => (e.src, e.dest)) = g.vEdge.map (fun e => (e.src, e.dest))

/-- Every vertex sequence without repetition over the vertices of `g`. -/
def cGraph.simpleSequences (g : cGraph) : List (List Int) :=
  (intRange g.vertexCount).sublists.flatMap List.permutations

/-- A simple graph: no edge joins a vertex to itself and no two edges join
the same pair of vertices. -/
def cGraph.isSimple (g : cGraph) : Prop :=
  (∀ e ∈ g.vEdge, e.src ≠ e.dest) ∧
    g.vEdge.Pairwise fun e f => g.joins e.src e.dest f = false

instance (g : cGraph) : Decidable g.isSimple :=
  inferInstanceAs (Decidable ((∀ e ∈ g.vEdge, e.src ≠ e.dest) ∧
    g.vEdge.Pairwise fun e f => g.joins e.src e.dest f = false))

/-- The sum of the entries of `f` over the edges of `g` selected by `sel`,
entry `i` of `f` belonging to edge `i`. -/
def cGraph.edgeSum (g : cGraph) (f : List Int) (sel : cEdge → Bool) : Int :=
  ((g.vEdge.zip f).map fun ef => if sel ef.1 then ef.2 else 0).sum

/-- What the edges into `v` carry. -/
def cGraph.inflow (g : cGraph) (f : List Int) (v : Int) : Int :=
  g.edgeSum f fun e => e.dest == v

/-- What the edges out of `v` carry. -/
def cGraph.outflow (g : cGraph) (f : List Int) (v : Int) : Int :=
  g.edgeSum f fun e => e.src == v

/-- Flow conservation: at every vertex other than `start` and `end_` the
inbound entries add up to the outbound ones. -/
def cGraph.conserves (g : cGraph) (f : List Int) (start end_ : Int) : Prop :=
  ∀ v ∈ intRange g.vertexCount, v ≠ start → v ≠ end_ → g.inflow f v = g.outflow f v

instance (g : cGraph) (f : List Int) (start end_ : Int) :
    Decidable (g.conserves f start end_) :=
  inferInstanceAs (Decidable (∀ v ∈ intRange g.vertexCount, v ≠ start → v ≠ end_ →
    g.inflow f v = g.outflow f v))

/-- A flow from `start` to `end_`: one entry for each edge, between zero and
the capacity of the edge, and conserved at the inner vertices. -/
def cGraph.isFlow (g : cGraph) (f : List Int) (start end_ : Int) : Prop :=
  f.length = g.edgeCount ∧
    (∀ ef ∈ g.vEdge.zip f, 0 ≤ ef.2 ∧ (ef.2 : ℚ) ≤ ef.1.attr0) ∧
    g.conserves f start end_

instance (g : cGraph) (f : List Int) (start end_ : Int) :
    Decidable (g.isFlow f start end_) :=
  inferInstanceAs (Decidable (f.length = g.edgeCount ∧
    (∀ ef ∈ g.vEdge.zip f, 0 ≤ ef.2 ∧ (ef.2 : ℚ) ≤ ef.1.attr0) ∧
    g.conserves f start end_))

/-- The value of a flow: what leaves `start` less what enters it. -/
def cGraph.flowValue (g : cGraph) (f : List Int) (start : Int) : Int :=
  g.outflow f start - g.inflow f start

/-! ## Example graphs -/

/-- The undirected graph of the unit tests: edges a-b, b-c, a-d of weight 1,
with a = 0, b = 1, c = 2, d = 3. -/
def testGraph : cGraph :=
  ⟨false, 4, [⟨0, 1, 1⟩, ⟨1, 2, 1⟩, ⟨0, 3, 1⟩]⟩

/-- Two vertices joined by one edge of weight `INT_MAX`. -/
def heavyEdgeGraph : cGraph :=
  ⟨false, 2, [⟨0, 1, 2147483647⟩]⟩

/-- A triangle with fractional weights: the direct edge 0-1 costs 3/4, the
way round through vertex 2 costs 1/2 + 1/8. -/
def fractionGraph : cGraph :=
  ⟨false, 3, [⟨0, 1, 3 / 4⟩, ⟨0, 2, 1 / 2⟩, ⟨2, 1, 1 / 8⟩]⟩

/-- A directed graph in which vertex 1 cannot be reached from vertex 0. -/
def oneWayGraph : cGraph :=
  ⟨true, 2, [⟨1, 0, 1⟩]⟩

/-- A directed graph with maximum flow 2 from vertex 0 to vertex 3 whose cheapest
path 0-1-2-3 uses an edge of each of the two ways through. -/
def crossGraph : cGraph :=
  ⟨true, 4, [⟨0, 1, 1⟩, ⟨1, 2, 1⟩, ⟨2, 3, 1⟩, ⟨0, 2, 5⟩, ⟨1, 3, 5⟩]⟩

/-- The directed chain 0 -> 1 -> 2 with capacities 1 and 2. -/
def chainGraph : cGraph :=
  ⟨true, 3, [⟨0, 1, 1⟩, ⟨1, 2, 2⟩]⟩

/-- One undirected edge 0-1 of capacity 7. -/
def undirectedEdgeGraph : cGraph :=
  ⟨false, 2, [⟨0, 1, 7⟩]⟩

/-! ## The invariant of `dijsktra` -/

/-- Vertex `v` has been marked in `sptSet`. -/
def Processed (s : DijState) (v : Int) : Prop := vget s.sptSet v false = true

/-- The sequence `v, pred[v], pred[pred[v]], .., start`, without repetition. -/
inductive BackChain (pred : List Int) (start : Int) : Int → List Int → Prop
  | base : BackChain pred start start [start]
  | step {v : Int} {r : List Int} : v ≠ start → v ∉ r →
      BackChain pred start (vget pred v (-1)) r → BackChain pred start v (v :: r)

/-- What holds of the vectors of `dijsktra` between two rounds, `k` rounds
having been made.  `pending u v` marks the neighbours `v` of the vertex `u`
under treatment that the current round has still to look at.  `W` is a bound
on the edge weights, used by the last clause only. -/
structure DijInv (g : cGraph) (start : Int) (W : ℚ) (pending : Int → Int → Prop)
    (k : Nat) (s : DijState) : Prop where
  len_dist : s.dist.length = g.vertexCount
  len_pred : s.pred.length = g.vertexCount
  len_spt : s.sptSet.length = g.vertexCount
  cnt : s.sptSet.count true = k
  dist_le : ∀ v, g.inRange v → vget s.dist v 0 ≤ (INT_MAX : ℚ)
  pred_none : ∀ v, g.inRange v → (vget s.pred v (-1) = -1 ↔ vget s.dist v 0 = (INT_MAX : ℚ))
  spt_fin : ∀ v, g.inRange v → Processed s v → vget s.dist v 0 < (INT_MAX : ℚ)
  start_ok : vget s.pred start (-1) = 0 ∧ vget s.dist start 0 = 0
  fresh : Processed s start ∨
    ∀ v, g.inRange v → ¬ Processed s v ∧ (v ≠ start → vget s.dist v 0 = (INT_MAX : ℚ))
  tree : ∀ v, g.inRange v → v ≠ start → vget s.pred v (-1) ≠ -1 →
    ∃ r, BackChain s.pred start (vget s.pred v (-1)) r ∧
      (∀ x ∈ r, g.inRange x ∧ Processed s x) ∧ v ∉ r ∧
      g.hasEdge (vget s.pred v (-1)) v ∧
      ∃ w, g.rEdgeAttr (g.find (vget s.pred v (-1)) v) = .ok w ∧
        vget s.dist v 0 = vget s.dist (vget s.pred v (-1)) 0 + w
  closed : ∀ u, g.inRange u → Processed s u → ∀ v, g.hasEdge u v →
    pending u v ∨ Processed s v ∨
      ∃ w, g.rEdgeAttr (g.find u v) = .ok w ∧ vget s.dist v 0 ≤ vget s.dist u 0 + w
  bnd : 0 ≤ W → (∀ e ∈ g.vEdge, 0 ≤ e.attr0 ∧ e.attr0 ≤ W) → ∀ v, g.inRange v →
    vget s.dist v 0 < (INT_MAX : ℚ) → 0 ≤ vget s.dist v 0 ∧ vget s.dist v 0 ≤ k * W

/-! ## `dfs` (GraphTheory.cpp 267-308) -/

/-- Lines 299-306 of `dfs` (and 373-380 of `dfs_allpaths`): the neighbours that
are not marked in `visited` are pushed on the stack `wait`, whose top is the
head of the list. -/
def dfsPush (visited : List Bool) : List Int → List Int → Except Fault (List Int)
  | [], wait => .ok wait
  | w :: rest, wait =>
    if w < 0 then .error (.runtimeError "dfs bad index 2")
    else if (visited.length : Int) ≤ w then .error .outOfRange
    else if vget visited w false then dfsPush visited rest wait
    else dfsPush visited rest (w :: wait)

/-- What the loop of `dfs` works on: the vector `visited`, the stack `wait`
(top first) and the arguments of the calls made to the visitor so far. -/
structure DfsState where
  visited : List Bool
  wait : List Int
  calls : List Int
  deriving DecidableEq, Repr

/-- Lines 286-307: the loop `while (!wait.empty())` of `dfs`.  The visitor is a
function of the calls made before and of the vertex it is called with; the
result is the sequence of vertices the visitor was called with. -/
def dfsLoop (g : cGraph) (visitor : List Int → Int → Bool) :
    Nat → DfsState → Except Fault (List Int)
  | 0, _ => .error .fuel
  | n + 1, s =>
    match s.wait with
    | [] => .ok s.calls
    | v :: wait =>
      if v < 0 then .error (.runtimeError "dfs bad index 1")
      else if (s.visited.length : Int) ≤ v then .error .outOfRange
      else if vget s.visited v false then dfsLoop g visitor n { s with wait := wait }
      else if !visitor s.calls v then .ok (s.calls ++ [v])
      else
        match dfsPush (vset s.visited v true) (g.adjacentOut v) wait with
        | .error e => .error e
        | .ok wait1 =>
          dfsLoop g visitor n
            { visited := vset s.visited v true, wait := wait1, calls := s.calls ++ [v] }

/-- The function `dfs(g, startIndex, visitor)`, given `fuel` rounds of its loop:
the vertices the visitor was called with, in call order. -/
def dfs (fuel : Nat) (g : cGraph) (startIndex : Int) (visitor : List Int → Int → Bool) :
    Except Fault (List Int) :=
  dfsLoop g visitor fuel
    { visited := List.replicate g.vertexCount false, wait := [startIndex], calls := [] }

/-- The visitor that never stops the search. -/
def visitAll : List Int → Int → Bool := fun _ _ => true

/-- The textbook recursive depth first search that looks at the neighbours of a
vertex in the reverse of the order of `adjacentOut`: `seen` is the pre-order so
far, and the first argument bounds the depth of the recursion. -/
def dfsRec (g : cGraph) : Nat → List Int → Int → List Int
  | 0, seen, _ => seen
  | n + 1, seen, v =>
    if v ∈ seen then seen
    else (g.adjacentOut v).reverse.foldl (dfsRec g n) (seen ++ [v])

/-- The pre-order of the recursive search from `start`; the recursion is never
deeper than the number of vertices. -/
def dfsRecursive (g : cGraph) (start : Int) : List Int :=
  dfsRec g g.vertexCount [] start

/-! ## `dfs_allpaths` (GraphTheory.cpp 310-384) -/

/-- Lines 361-369: the loop `do .. while` that shortens `path` until its last
vertex has `top` among its neighbours.  `path.back()` of an empty vector is a
fault.  The first argument bounds the rounds; the length of `path` plus one is
enough. -/
def backtrack (g : cGraph) (top : Int) :
    Nat → List Int → List Bool → Except Fault (List Int × List Bool)
  | 0, _, _ => .error .fuel
  | n + 1, vpath, visited =>
    match vpath.getLast? with
    | none => .error .outOfRange
    | some b =>
      if b < 0 ∨ (visited.length : Int) ≤ b then .error .outOfRange
      else
        match vpath.dropLast.getLast? with
        | none => .error .outOfRange
        | some b1 =>
          if top ∈ g.adjacentOut b1 then .ok (vpath.dropLast, vset visited b false)
          else backtrack g top n vpath.dropLast (vset visited b false)

/-- What the loop of `dfs_allpaths` works on. -/
structure AllPathsState where
  visited : List Bool
  wait : List Int
  vpath : List Int
  apaths : List (List Int)
  deriving DecidableEq, Repr

/-- Lines 333-382: the loop `while (!wait.empty())` of `dfs_allpaths`. -/
def dfsAllLoop (g : cGraph) (destIndex : Int) :
    Nat → AllPathsState → Except Fault (List (List Int))
  | 0, _ => .error .fuel
  | n + 1, s =>
    match s.wait with
    | [] => .ok s.apaths
    | v :: wait =>
      if v < 0 then .error (.runtimeError "dfs bad index 1")
      else if (s.visited.length : Int) ≤ v then .error .outOfRange
      else if vget s.visited v false then dfsAllLoop g destIndex n { s with wait := wait }
      else if v = destIndex then
        match wait with
        | [] => .ok (s.apaths ++ [s.vpath ++ [v]])
        | top :: _ =>
          match backtrack g top ((s.vpath ++ [v]).length + 1) (s.vpath ++ [v])
              (vset s.visited v true) with
          | .error e => .error e
          | .ok (vpath1, visited1) =>
            dfsAllLoop g destIndex n
              { visited := visited1, wait := wait, vpath := vpath1,
                apaths := s.apaths ++ [s.vpath ++ [v]] }
      else
        match dfsPush (vset s.visited v true) (g.adjacentOut v) wait with
        | .error e => .error e
        | .ok wait1 =>
          dfsAllLoop g destIndex n
            { visited := vset s.visited v true, wait := wait1, vpath := s.vpath ++ [v],
              apaths := s.apaths }

/-- The function `dfs_allpaths(g, startIndex, destIndex)`, given `fuel` rounds
of its loop. -/
def dfs_allpaths (fuel : Nat) (g : cGraph) (startIndex destIndex : Int) :
    Except Fault (List (List Int)) :=
  dfsAllLoop g destIndex fuel
    { visited := List.replicate g.vertexCount false, wait := [startIndex], vpath := [],
      apaths := [] }

/-! ## `spanningTree` (GraphTheory.cpp 171-265) -/

/-- Modelled from the spec: `add(srcName, dstName)` of the missing `cGraph`,
the vertices being given by their indices: a new last edge, of default
weight 1. -/
def cGraph.addEdge (g : cGraph) (u v : Int) : cGraph :=
  { g with vEdge := g.vEdge ++ [⟨u, v, 1⟩] }

/-- Modelled from the spec: `clear()` of the missing `cGraph`: no vertex and
no edge is left. -/
def cGraph.clear (g : cGraph) : cGraph :=
  { g with nVertex := 0, vEdge := [] }

/-- The class `cSpanningTree` of `GraphTheory.h`: the tree built so far and the
`std::set` of the vertices it touches, a list without repetition. -/
structure cSpanningTree where
  mySpanningTree : cGraph
  myVertexSet : List Int
  deriving DecidableEq, Repr

/-- The method `cSpanningTree::add(g, v, w)` (lines 171-178). -/
def cSpanningTree.add (st : cSpanningTree) (v w : Int) : cSpanningTree :=
  { mySpanningTree := st.mySpanningTree.addEdge v w,
    myVertexSet := (st.myVertexSet.insert v).insert w }

/-- The method `cSpanningTree::vertexCount()`. -/
def cSpanningTree.vertexCount (st : cSpanningTree) : Nat := st.myVertexSet.length

/-- What the scan of `spanningTree` keeps: `min_cost` and `bestLink`. -/
structure BestLink where
  min_cost : ℚ
  first : Int
  second : Int
  deriving DecidableEq, Repr

/-- Lines 223-241: the loop over the neighbours `w` of the tree vertex `v`. -/
def scanAdjacent (g : cGraph) (visited : List Bool) (v : Int) :
    List Int → BestLink → Except Fault BestLink
  | [], acc => .ok acc
  | w :: rest, acc =>
    if w < 0 ∨ (visited.length : Int) ≤ w then .error .outOfRange
    else if vget visited w false then scanAdjacent g visited v rest acc
    else if g.find v w < 0 then scanAdjacent g visited v rest acc
    else
      match g.rEdgeAttr (g.find v w) with
      | .error e => .error e
      | .ok cost =>
        if cost < acc.min_cost then scanAdjacent g visited v rest ⟨cost, v, w⟩
        else scanAdjacent g visited v rest acc

/-- Lines 217-242: the loop over the vertices `v`, those outside the tree
being skipped. -/
def scanTree (g : cGraph) (visited : List Bool) : List Int → BestLink → Except Fault BestLink
  | [], acc => .ok acc
  | v :: rest, acc =>
    if !vget visited v false then scanTree g visited rest acc
    else
      match scanAdjacent g visited v (g.adjacentOut v) acc with
      | .error e => .error e
      | .ok acc1 => scanTree g visited rest acc1

/-- Lines 210-262: the loop `while (g.vertexCount() > ST.vertexCount())`, the
first argument being the number of rounds it is given. -/
def spanLoop (g : cGraph) : Nat → cSpanningTree → List Bool → Except Fault cGraph
  | 0, _, _ => .error .fuel
  | n + 1, st, visited =>
    if g.vertexCount > st.vertexCount then
      match scanTree g visited (intRange g.vertexCount) ⟨INT_MAX, -1, 0⟩ with
      | .error e => .error e
      | .ok best =>
        if best.first = -1 then .ok st.mySpanningTree.clear
        else
          spanLoop g n (st.add best.first best.second)
            (vset (vset visited best.first true) best.second true)
    else .ok st.mySpanningTree

/-- The function `spanningTree(g, startName)`, the start vertex being given by
its index `start = g.find(startName)`.  The tree has the vertices of `g`;
writing `visited` outside the vector is a fault.  The loop is given
`vertexCount + 1` rounds. -/
def spanningTree (g : cGraph) (start : Int) : Except Fault cGraph :=
  match g.adjacentOut start with
  | [] => .error (.runtimeError "spanning tree start vertex unconnected")
  | w :: _ =>
    if start < 0 ∨ (g.vertexCount : Int) ≤ start ∨ w < 0 ∨ (g.vertexCount : Int) ≤ w then
      .error .outOfRange
    else
      spanLoop g (g.vertexCount + 1)
        (cSpanningTree.add ⟨⟨false, g.vertexCount, []⟩, []⟩ start w)
        (vset (vset (List.replicate g.vertexCount false) start true) w true)

/-- Modelled from the spec: `find(name)` of the missing `cGraph`, the vertex
names being given in index order: the index of the name, `-1` when no vertex
has it. -/
def findName (names : List String) (name : String) : Int :=
  if names.indexOf name < names.length then (names.indexOf name : Int) else -1

/-- Modelled from the spec: the text of attribute slot 0 of an edge whose
number is `x`: the decimal digits of a whole number (a fraction, which no tree
edge has, is written as numerator and denominator). -/
def attrText (x : ℚ) : String :=
  if x.den = 1 then toString x.num else toString x.num ++ "/" ++ toString x.den

/-- Modelled from the spec: the dump `text()` of the missing `cGraph`: "one
line per edge, format `l <srcName> <destName> <weightSlot0>`, in edge-creation
order". -/
def cGraph.text (names : List String) (g : cGraph) : String :=
  String.join (g.vEdge.map fun e =>
    "l " ++ vget names e.src "" ++ " " ++ vget names e.dest "" ++ " " ++ attrText e.attr0 ++ "\n")

/-! ## `dfs_cycle_finder` (GraphTheory.cpp 386-533) -/

/-- What the loops of `dfs_cycle_finder` work on. -/
structure CycleState where
  wait : List Int
  ret : List (List Int)
  vfoundCycleSignature : List (List Int)
  deriving DecidableEq, Repr

/-- Lines 482-483: the signature of a cycle, its vertices in ascending order. -/
def signature (cycle : List Int) : List Int := cycle.insertionSort (· ≤ ·)

/-- Lines 487-504: whether `sig` is among the signatures found before. -/
def foundBefore (found : List (List Int)) (sig : List Int) : Bool :=
  found.any fun f => f.length == sig.length && f == sig

/-- Lines 444-518: the loop over the neighbours `w` of the vertex `v` taken
from the stack. -/
def cycleAdjacent (g : cGraph) (visited : List Bool) (v : Int) :
    List Int → CycleState → Except Fault CycleState
  | [], s => .ok s
  | w :: rest, s =>
    if w < 0 ∨ (visited.length : Int) ≤ w then .error .outOfRange
    else if !vget visited w false then
      cycleAdjacent g visited v rest { s with wait := w :: s.wait }
    else
      match (if !g.isDirected then path (g.remove w v) w v else path g w v) with
      | .error e => .error e
      | .ok (cycle, _) =>
        if cycle.length < 2 then cycleAdjacent g visited v rest s
        else if foundBefore s.vfoundCycleSignature (signature cycle) then
          cycleAdjacent g visited v rest s
        else
          cycleAdjacent g visited v rest
            { s with ret := s.ret ++ [cycle ++ [w]],
                     vfoundCycleSignature := s.vfoundCycleSignature ++ [signature cycle] }

/-- Lines 436-519: the loop `while (!wait.empty())` of `dfs_cycle_finder`. -/
def cycleDfs (g : cGraph) : Nat → List Bool → CycleState → Except Fault (List Bool × CycleState)
  | 0, _, _ => .error .fuel
  | n + 1, visited, s =>
    match s.wait with
    | [] => .ok (visited, s)
    | v :: wait =>
      if v < 0 ∨ (visited.length : Int) ≤ v then .error .outOfRange
      else
        match cycleAdjacent g (vset visited v true) v (g.adjacentOut v)
            { s with wait := wait } with
        | .error e => .error e
        | .ok s1 => cycleDfs g n (vset visited v true) s1

/-- Lines 407-531: the loop `while (true)` of `dfs_cycle_finder`; `fuel` rounds
are given to each inner loop, the first argument counts the rounds of this
one. -/
def cycleOuter (g : cGraph) (inputStartIndex : Int) (fuel : Nat) :
    Nat → List Bool → CycleState → Except Fault (List (List Int))
  | 0, _, _ => .error .fuel
  | n + 1, visited, s =>
    if inputStartIndex < 0 then
      if visited.indexOf false < visited.length then
        match cycleDfs g fuel visited { s with wait := [(visited.indexOf false : Int)] } with
        | .error e => .error e
        | .ok (visited1, s1) => cycleOuter g inputStartIndex fuel n visited1 s1
      else .ok s.ret
    else
      match cycleDfs g fuel visited { s with wait := [inputStartIndex] } with
      | .error e => .error e
      | .ok (_, s1) => .ok (s1.ret.filter fun c => inputStartIndex ∈ c)

/-- The function `dfs_cycle_finder(g, inputStartIndex)`, each of its loops
being given `fuel` rounds. -/
def dfs_cycle_finder (fuel : Nat) (g : cGraph) (inputStartIndex : Int) :
    Except Fault (List (List Int)) :=
  cycleOuter g inputStartIndex fuel fuel (List.replicate g.vertexCount false) ⟨[], [], []⟩

/-! ## The invariant of `dfs` -/

/-- A bound on the rounds the loop of `dfs` still makes: the height of the
stack, and for each vertex not yet visited one round and the pushes it will
make. -/
def dfsMeasure (g : cGraph) (visited : List Bool) (wait : List Int) : Nat :=
  wait.length + ∑ i in Finset.range g.vertexCount,
    if vget visited (i : Int) false then 0 else (g.adjacentOut (i : Int)).length + 1

/-- What holds of the state of `dfs` between two rounds, for the search from
`start` with the visitor that never stops; `T` is the pre-order of the
recursive search that the rounds still to come complete. -/
structure DfsInv (g : cGraph) (start : Int) (T : List Int) (s : DfsState) : Prop where
  len : s.visited.length = g.vertexCount
  vis : ∀ v, g.inRange v → (vget s.visited v false = true ↔ v ∈ s.calls)
  calls_range : ∀ v ∈ s.calls, g.inRange v
  wait_range : ∀ v ∈ s.wait, g.inRange v
  nodup : s.calls.Nodup
  reach : ∀ v, v ∈ s.calls ∨ v ∈ s.wait → g.Reachable start v
  closed : ∀ u ∈ s.calls, ∀ v, g.hasEdge u v → v ∈ s.calls ∨ v ∈ s.wait
  first : (s.calls ++ s.wait).head? = some start
  order : s.wait.foldl (dfsRec g g.vertexCount) s.calls = T

/-! ## The invariant of `spanningTree` -/

/-- The vertex `v` is an end of one of the edges `es`. -/
def touched (es : List cEdge) (v : Int) : Prop := ∃ e ∈ es, e.src = v ∨ e.dest = v

instance (es : List cEdge) (v : Int) : Decidable (touched es v) :=
  inferInstanceAs (Decidable (∃ e ∈ es, e.src = v ∨ e.dest = v))

/-- One of the edges `es` joins `a` and `b`, in one direction or the other. -/
def linked (es : List cEdge) (a b : Int) : Prop :=
  ∃ e ∈ es, (e.src = a ∧ e.dest = b) ∨ (e.src = b ∧ e.dest = a)

instance (es : List cEdge) (a b : Int) : Decidable (linked es a b) :=
  inferInstanceAs (Decidable (∃ e ∈ es, (e.src = a ∧ e.dest = b) ∨ (e.src = b ∧ e.dest = a)))

/-- The links of the edges `es`, as a set of unordered pairs of vertices. -/
def linkSet (es : List cEdge) : Finset (Sym2 Int) :=
  (es.map fun e => s(e.src, e.dest)).toFinset

/-- The edges `es` are a spanning tree of the undirected graph `g`: one edge
less than `g` has vertices, each joining two vertices that an edge of `g`
joins, and any two vertices of `g` are connected through them. -/
def cGraph.isSpanningTree (g : cGraph) (es : List cEdge) : Prop :=
  es.length + 1 = g.vertexCount ∧ (∀ e ∈ es, g.hasEdge e.src e.dest) ∧
    ∀ u v, g.inRange u → g.inRange v → Relation.ReflTransGen (linked es) u v

/-- The link `(v,w)` leads from a vertex touched by the edges `es` to a vertex
of `g` they do not touch, along an edge of `g`. -/
def cGraph.leaves (g : cGraph) (es : List cEdge) (v w : Int) : Prop :=
  touched es v ∧ g.inRange w ∧ ¬ touched es w ∧ g.hasEdge v w

/-- The edge `e` leaves the tree `es`, and its link costs, read through `find`,
no more than any other link of `g` that leaves `es`. -/
def cGraph.cheapestLeaving (g : cGraph) (es : List cEdge) (e : cEdge) : Prop :=
  g.leaves es e.src e.dest ∧
    ∃ c, g.rEdgeAttr (g.find e.src e.dest) = .ok c ∧ c < (INT_MAX : ℚ) ∧
      ∀ v w, g.leaves es v w → ∀ c1, g.rEdgeAttr (g.find v w) = .ok c1 → c ≤ c1

/-- Every edge of `es` but the first is a cheapest edge leaving the edges
before it. -/
def cGraph.greedy (g : cGraph) (es : List cEdge) : Prop :=
  ∀ pre e post, es = pre ++ e :: post → pre ≠ [] → g.cheapestLeaving pre e

/-- What the scan of `spanningTree` has found: nothing yet, or a link from a
visited vertex to one not visited, with its cost. -/
def BestLink.valid (g : cGraph) (visited : List Bool) (b : BestLink) : Prop :=
  (b.first = -1 ∧ b.min_cost = (INT_MAX : ℚ)) ∨
    (g.inRange b.first ∧ vget visited b.first false = true ∧ g.inRange b.second ∧
      vget visited b.second false = false ∧ g.hasEdge b.first b.second ∧
      g.rEdgeAttr (g.find b.first b.second) = .ok b.min_cost ∧ b.min_cost < (INT_MAX : ℚ))

/-- What holds of the tree and of `visited` between two rounds of the loop of
`spanningTree`, started at `start` with the seed edge to `w0`; `d` is 1 when
the seed edge is a loop and 0 otherwise. -/
structure SpanInv (g : cGraph) (start w0 : Int) (d : Nat) (st : cSpanningTree)
    (visited : List Bool) : Prop where
  len : visited.length = g.vertexCount
  shape : st.mySpanningTree.fDirected = false ∧ st.mySpanningTree.nVertex = g.vertexCount
  vis : ∀ v, g.inRange v → (vget visited v false = true ↔ v ∈ st.myVertexSet)
  set_range : ∀ v ∈ st.myVertexSet, g.inRange v
  set_nodup : st.myVertexSet.Nodup
  touch : ∀ v, v ∈ st.myVertexSet ↔ touched st.mySpanningTree.vEdge v
  edges : ∀ e ∈ st.mySpanningTree.vEdge, g.hasEdge e.src e.dest ∧ e.attr0 = 1
  cnt : st.myVertexSet.length + d = st.mySpanningTree.vEdge.length + 1
  reach : ∀ v ∈ st.myVertexSet, g.Reachable start v
  start_mem : start ∈ st.myVertexSet
  seed : st.mySpanningTree.vEdge.head? = some ⟨start, w0, 1⟩
  greedy : g.greedy st.mySpanningTree.vEdge
  conn : ∀ v ∈ st.myVertexSet, Relation.ReflTransGen (linked st.mySpanningTree.vEdge) start v

/-! ## Further example graphs -/

/-- The names of the vertices of `testGraph`, in index order. -/
def testNames : List String := ["a", "b", "c", "d"]

/-- A directed graph without dead end in which vertex 1 is entered from vertex
0 and from vertex 2. -/
def rejoinGraph : cGraph :=
  ⟨true, 4, [⟨0, 1, 1⟩, ⟨0, 2, 1⟩, ⟨1, 3, 1⟩, ⟨2, 1, 1⟩]⟩

/-- The undirected chain 0 - 1 - 2 whose second edge has weight `INT_MAX`. -/
def heavyTailGraph : cGraph :=
  ⟨false, 3, [⟨0, 1, 1⟩, ⟨1, 2, 2147483647⟩]⟩

/-- An undirected triangle whose edge 0-1, the first edge at vertex 0, has
weight 10, the two other edges having weight 1. -/
def seedTriangle : cGraph :=
  ⟨false, 3, [⟨0, 1, 10⟩, ⟨0, 2, 1⟩, ⟨1, 2, 1⟩]⟩

/-- The directed cycle a -> b -> c -> d -> a of the unit tests. -/
def ringGraph : cGraph :=
  ⟨true, 4, [⟨0, 1, 1⟩, ⟨1, 2, 1⟩, ⟨3, 0, 1⟩, ⟨2, 3, 1⟩]⟩

/-- The directed graph of the second cycle test: the cycle a -> b -> c -> d -> a
and, entered from b, the cycle e -> f -> g -> e. -/
def twoRingGraph : cGraph :=
  ⟨true, 7, [⟨0, 1, 1⟩, ⟨1, 2, 1⟩, ⟨3, 0, 1⟩, ⟨2, 3, 1⟩, ⟨1, 4, 1⟩, ⟨4, 5, 1⟩, ⟨5, 6, 1⟩,
    ⟨6, 4, 1⟩]⟩

/-- The weight in `g` of the link `(u,v)`: slot 0 of the first edge that joins
them, 0 when no edge does. -/
def cGraph.linkWeight (g : cGraph) (u v : Int) : ℚ :=
  match g.firstEdge u v with
  | some e => e.attr0
  | none => 0

/-- The sum of the weights in `g` of the links of the edges `es`. -/
def cGraph.weightOf (g : cGraph) (es : List cEdge) : ℚ :=
  (es.map fun e => g.linkWeight e.src e.dest).sum

/-- A graph with an isolated vertex: one undirected edge 0-1 and a third
vertex 2. -/
def strandedGraph : cGraph :=
  ⟨false, 3, [⟨0, 1, 1⟩]⟩

/-! ## The invariants of `dfs_cycle_finder` -/

/-- The signature of a cycle as it is returned, with the closing repeat of its
first vertex: the vertices before the repeat, in ascending order. -/
def cycleSignature (c : List Int) : List Int := signature c.dropLast

/-- The signatures stored are those of the cycles stored, and no two of them
are the same. -/
def SigInv (s : CycleState) : Prop :=
  s.vfoundCycleSignature = s.ret.map cycleSignature ∧ s.vfoundCycleSignature.Nodup

/-- A vertex marked in `visited` that waits on the stack has each of its
neighbours marked or waiting above it. -/
def Lifo (g : cGraph) (visited : List Bool) (wait : List Int) : Prop :=
  ∀ pre v post, wait = pre ++ v :: post → vget visited v false = true →
    ∀ w, g.hasEdge v w → vget visited w false = false → w ∈ pre

/-- No edge of the graph joins a vertex to itself. -/
def cGraph.noLoop (g : cGraph) : Prop := ∀ e ∈ g.vEdge, e.src ≠ e.dest

instance (g : cGraph) : Decidable g.noLoop :=
  inferInstanceAs (Decidable (∀ e ∈ g.vEdge, e.src ≠ e.dest))

/-- The directed graph `g` is the single cycle that runs through its vertices
in the order `c` and from the last of them back to the first: every vertex of
`g` is in `c` once, the only edge that leaves a vertex goes to the next one,
and every edge has weight 1. -/
def cGraph.isRing (g : cGraph) (c : List Int) : Prop :=
  g.fDirected = true ∧ g.wellFormed ∧ (∀ e ∈ g.vEdge, e.attr0 = 1) ∧ c.Nodup ∧
    c.length = g.vertexCount ∧ (∀ v ∈ c, g.inRange v) ∧
    ∀ i, i < c.length → g.adjacentOut (c.getD i 0) = [c.getD ((i + 1) % c.length) 0]

instance (g : cGraph) (c : List Int) : Decidable (g.isRing c) :=
  inferInstanceAs (Decidable (g.fDirected = true ∧ g.wellFormed ∧
    (∀ e ∈ g.vEdge, e.attr0 = 1) ∧ c.Nodup ∧
    c.length = g.vertexCount ∧ (∀ v ∈ c, g.inRange v) ∧
    ∀ i, i < c.length → g.adjacentOut (c.getD i 0) = [c.getD ((i + 1) % c.length) 0]))

/-! ## Further operations of the graph store -/

/-- Modelled from the spec: `adjacentIn(v)` of the missing `cGraph`, derived
like `adjacentOut(v)` from the edge list in edge-insertion order: the sources
of the edges that end at `v` and, when `directed` is false, the destinations of
those that start there. -/
def cGraph.adjacentIn (g : cGraph) (v : Int) : List Int :=
  g.vEdge.filterMap fun e =>
    if e.dest = v then some e.src
    else if !g.fDirected && e.src = v then some e.dest
    else none

/-- Modelled from the spec: `src(ei)` of the missing `cGraph`, with the
sentinel `-1` for an index that names no edge. -/
def cGraph.src (g : cGraph) (ei : Int) : Int :=
  if ei < 0 then -1
  else match g.vEdge.get? ei.toNat with
    | some e => e.src
    | none => -1

/-- Modelled from the spec: `add(name)` of the missing `cGraph` for a name no
vertex has: a new last vertex; its index is the former `vertexCount()`. -/
def cGraph.addVertex (g : cGraph) : cGraph :=
  { g with nVertex := g.nVertex + 1 }

/-- Modelled from the spec: `edgeList()` of the missing `cGraph`: the pair of
source and destination of every edge, in index order. -/
def cGraph.edgeList (g : cGraph) : List (Int × Int) :=
  g.vEdge.map fun e => (e.src, e.dest)

/-- The method `insert` of a `std::set<int>`, held as the ascending list of
its elements. -/
def setInsert (x : Int) : List Int → List Int
  | [] => [x]
  | y :: l => if x < y then x :: y :: l else if x = y then y :: l else y :: setInsert x l

/-! ## `euler` (GraphTheory.cpp 909-948) -/

/-- Lines 929-945: the loop `while (1)` of `euler`, with the rounds left, the
working graph, `curr_v` and the circuit so far. -/
def eulerLoop : Nat → cGraph → Int → List Int → Except Fault (List Int)
  | 0, _, _, _ => .error .fuel
  | n + 1, work, curr_v, circuit =>
    match work.adjacentOut curr_v with
    | [] => .ok (circuit ++ [curr_v])
    | next_v :: _ => eulerLoop n (work.remove curr_v next_v) next_v (circuit ++ [curr_v])

/-- The function `euler(g)`, its loop bounded by `fuel`. -/
def euler (fuel : Nat) (g : cGraph) : Except Fault (List Int) :=
  if !g.isDirected then
    .error (.runtimeError "euler:  needs directed graph ( 2nd input line must be 'g')")
  else if (intRange g.vertexCount).any fun vi =>
      (g.adjacentIn vi).length != (g.adjacentOut vi).length then
    .error (.runtimeError "euler: every vertex in-degree must equal out-degree")
  else eulerLoop fuel g 0 []

/-! ## `vertexCover` (GraphTheory.cpp 950-996) -/

/-- Lines 964-974: the neighbour of the leaf vertex `leaf`, if it is one, is put
into the cover set. -/
def coverLeaf (g : cGraph) (vset : List Int) (leaf : Int) : List Int :=
  match g.adjacentOut leaf with
  | [n] => setInsert n vset
  | _ => vset

/-- Lines 977-991: the link `l` is looked at: when none of its ends is in the
cover set, the end with the more neighbours is put into it. -/
def coverLink (work : cGraph) (vset : List Int) (l : Int × Int) : List Int :=
  if l.1 ∈ vset ∨ l.2 ∈ vset then vset
  else if (work.adjacentOut l.2).length > (work.adjacentOut l.1).length then setInsert l.2 vset
  else setInsert l.1 vset

/-- The function `vertexCover(g)`. -/
def vertexCover (g : cGraph) : Except Fault (List Int) :=
  if g.isDirected then
    .error (.runtimeError "vertexCover works only on undirected graphs")
  else
    .ok (g.edgeList.foldl (coverLink g) ((intRange g.vertexCount).foldl (coverLeaf g) []))

/-! ## `cliques` (GraphTheory.cpp 535-617) -/

/-- Modelled from the spec: `rVertexAttr(vi, 0)`, which `cAttribute.h` declares
and does not define.  `vattr` holds slot 0 of the vertices that have one stored,
in index order up to the first vertex that has none (`cAttribute::add` and
`resizeVertex` store none).  "Reading an attribute beyond the stored count, or
on an out-of-range vertex/edge index, fails with an IndexOutOfRange condition."
The scans of `cliques` read the vertices in index order, so no vertex behind
one without slot 0 is read. -/
def rVertexAttr (vattr : List String) (vi : Int) : Except Fault String :=
  if vi < 0 ∨ (vattr.length : Int) ≤ vi then .error .indexOutOfRange
  else .ok (vget vattr vi "")

/-- Modelled from the spec: `wVertexAttr(vi, {text})`, which `cAttribute.h`
declares and does not define: slot 0 of vertex `vi` becomes `text`; an index
without stored attributes is refused as a read of it is. -/
def wVertexAttr (vattr : List String) (vi : Int) (text : String) : Except Fault (List String) :=
  if vi < 0 ∨ (vattr.length : Int) ≤ vi then .error .indexOutOfRange
  else .ok (vset vattr vi text)

/-- Lines 556-563: the scan for the first vertex that is not marked "deleted";
`none` where every vertex is marked. -/
def firstLive (vattr : List String) : List Int → Except Fault (Option Int)
  | [] => .ok none
  | vi :: rest =>
    match rVertexAttr vattr vi with
    | .error e => .error e
    | .ok a => if a = "deleted" then firstLive vattr rest else .ok (some vi)

/-- Lines 572-595: the scan over the vertices `u` of the working graph; `vattr`
holds slot 0 of the vertex attributes.  The result is `finished` and the vertex
found, if one is. -/
def scanWork (work : cGraph) (vattr : List String) (clique : List Int) :
    List Int → Bool → Except Fault (Bool × Option Int)
  | [], finished => .ok (finished, none)
  | u :: rest, finished =>
    match rVertexAttr vattr u with
    | .error e => .error e
    | .ok a =>
      if a = "deleted" then scanWork work vattr clique rest finished
      else if clique.any fun v => decide (work.find u v ≥ 0) || decide (work.find v u ≥ 0) then
        .ok (false, some u)
      else scanWork work vattr clique rest false

/-- Lines 552-598: the inner loop `while (!finished)`, entered with `finished`
false; it is left by `break` only, and the result is the attributes, the clique
and `finished`. -/
def growClique (work : cGraph) :
    Nat → List String → List Int → Except Fault (List String × List Int × Bool)
  | 0, _, _ => .error .fuel
  | n + 1, vattr, clique =>
    if clique = [] then
      match firstLive vattr (intRange work.vertexCount) with
      | .error e => .error e
      | .ok none => growClique work n vattr []
      | .ok (some vi) =>
        match wVertexAttr vattr vi "deleted" with
        | .error e => .error e
        | .ok vattr1 => growClique work n vattr1 [vi]
    else
      match scanWork work vattr clique (intRange work.vertexCount) true with
      | .error e => .error e
      | .ok (finished, none) => .ok (vattr, clique, finished)
      | .ok (_, some u) =>
        match wVertexAttr vattr u "deleted" with
        | .error e => .error e
        | .ok vattr1 => growClique work n vattr1 (clique ++ [u])

/-- Lines 548-605: the outer loop `while (!finished)`, entered with `finished`
false; `fuel` rounds are given to each inner loop. -/
def cliquesLoop (work : cGraph) (fuel : Nat) :
    Nat → List String → List (List Int) → Except Fault (List (List Int))
  | 0, _, _ => .error .fuel
  | n + 1, vattr, vclique =>
    match growClique work fuel vattr [] with
    | .error e => .error e
    | .ok (vattr1, clique, finished) =>
      if clique = [] then .ok vclique
      else if finished then .ok (vclique ++ [clique])
      else cliquesLoop work fuel n vattr1 (vclique ++ [clique])

/-- The function `cliques(g, results)`, each of its loops being given `fuel`
rounds; `vattr` holds slot 0 of the attributes of the vertices of `g` that
have one stored.  The result is the collection `vclique`, which `results`
lists in this order. -/
def cliques (fuel : Nat) (g : cGraph) (vattr : List String) : Except Fault (List (List Int)) :=
  cliquesLoop g fuel fuel vattr []

/-- Lines 608-616: the text `results` for the collection `vclique`, the vertex
names being given in index order. -/
def cliquesText (names : List String) (vclique : List (List Int)) : String :=
  String.join (vclique.map fun c =>
    "clique: " ++ String.join (c.map fun n => vget names n "" ++ " ") ++ "\n")

/-! ## `alloc` (GraphTheory.cpp 863-907) -/

/-- Lines 884-885: slot 0 of the edges with the indices given is set to 1. -/
def unitCapacity : List Int → cGraph → Except Fault cGraph
  | [], g => .ok g
  | ei :: rest, g =>
    match g.wEdgeAttr ei 1 with
    | .error e => .error e
    | .ok g1 => unitCapacity rest g1

/-- Lines 866-871: the sets `setAgent` and `setTask`. -/
def allocSets (g : cGraph) : List Int × List Int :=
  (intRange g.edgeCount).foldl
    (fun s ei => (setInsert (g.src ei) s.1, setInsert (g.dest ei) s.2)) ([], [])

/-- Lines 873-885: the graph `g` as `alloc` changes it before the flow is
computed, with the indices `start` and `end`: a vertex `start_alloc` with an
edge to every agent, a vertex `end_alloc` with an edge from every task, and
slot 0 of every edge set to 1. -/
def allocGraph (g : cGraph) : Except Fault (cGraph × Int × Int) :=
  let start : Int := g.vertexCount
  let g1 := (allocSets g).1.foldl (fun h agent => h.addEdge start agent) g.addVertex
  let end_ : Int := g1.vertexCount
  let g2 := (allocSets g).2.foldl (fun h task => h.addEdge task end_) g1.addVertex
  match unitCapacity (intRange g2.edgeCount) g2 with
  | .error e => .error e
  | .ok g3 => .ok (g3, start, end_)

/-- Lines 892-905: the pairs of source and destination of the edges with a
positive entry in `vEdgeFlow` that neither leave `start` nor enter `end`. -/
def allocPairs (g : cGraph) (start end_ : Int) (vEdgeFlow : List Int) :
    List Int → List (Int × Int)
  | [] => []
  | ei :: rest =>
    if vget vEdgeFlow ei 0 ≤ 0 then allocPairs g start end_ vEdgeFlow rest
    else if g.src ei = start then allocPairs g start end_ vEdgeFlow rest
    else if g.dest ei = end_ then allocPairs g start end_ vEdgeFlow rest
    else (g.src ei, g.dest ei) :: allocPairs g start end_ vEdgeFlow rest

/-- The function `alloc(g)`, the loop of `flows` being given `fuel` rounds: the
graph `g` as the call leaves it, and the pairs whose names are returned, the
name of the source and the name of the destination of each pair in turn. -/
def alloc (fuel : Nat) (g : cGraph) : Except Fault (cGraph × List (Int × Int)) :=
  match allocGraph g with
  | .error e => .error e
  | .ok (g1, start, end_) =>
    match flows fuel g1 start end_ with
    | .error e => .error e
    | .ok (_, vEdgeFlow) =>
      .ok (g1, allocPairs g1 start end_ vEdgeFlow (intRange g1.edgeCount))

/-! ## `sourceToSink` (GraphTheory.cpp 728-764) -/

/-- Lines 742-762: the loop over the vertices `vi`; `vsink` holds the sinks. -/
def sourceLoop (g : cGraph) (vsink : List Int) : List Int → Except Fault (List (List Int))
  | [] => .ok []
  | vi :: rest =>
    if (g.adjacentIn vi).length ≠ 0 then sourceLoop g vsink rest
    else
      match dijsktra g vi with
      | .error e => .error e
      | .ok (_, pred) =>
        match sourceLoop g vsink rest with
        | .error e => .error e
        | .ok ret => .ok ((vi :: vsink.filter fun si => vget pred si (-1) ≥ 0) :: ret)

/-- The function `sourceToSink(g)`. -/
def sourceToSink (g : cGraph) : Except Fault (List (List Int)) :=
  sourceLoop g ((intRange g.vertexCount).filter fun vi => (g.adjacentOut vi).length = 0)
    (intRange g.vertexCount)

/-! ## Vocabulary of the further statements -/

/-- The directed graph `g` is the single cycle that runs through its vertices
in the order `c` and from the last of them back to the first: every vertex of
`g` is in `c` once, and the only edge that leaves a vertex goes to the next
one. -/
def cGraph.isCycleThrough (g : cGraph) (c : List Int) : Prop :=
  g.fDirected = true ∧ g.wellFormed ∧ c.Nodup ∧
    c.length = g.vertexCount ∧ (∀ v ∈ c, g.inRange v) ∧
    ∀ i, i < c.length → g.adjacentOut (c.getD i 0) = [c.getD ((i + 1) % c.length) 0]

instance (g : cGraph) (c : List Int) : Decidable (g.isCycleThrough c) :=
  inferInstanceAs (Decidable (g.fDirected = true ∧ g.wellFormed ∧ c.Nodup ∧
    c.length = g.vertexCount ∧ (∀ v ∈ c, g.inRange v) ∧
    ∀ i, i < c.length → g.adjacentOut (c.getD i 0) = [c.getD ((i + 1) % c.length) 0]))

/-- In-degree and out-degree agree at every vertex of `g`. -/
def cGraph.balanced (g : cGraph) : Prop :=
  ∀ v ∈ intRange g.vertexCount, (g.adjacentIn v).length = (g.adjacentOut v).length

instance (g : cGraph) : Decidable g.balanced :=
  inferInstanceAs (Decidable (∀ v ∈ intRange g.vertexCount,
    (g.adjacentIn v).length = (g.adjacentOut v).length))

/-- The pairs `m` are edges of `g`, no two of them with the same source and no
two with the same destination. -/
def cGraph.isMatching (g : cGraph) (m : List (Int × Int)) : Prop :=
  (∀ p ∈ m, p ∈ g.edgeList) ∧ (m.map Prod.fst).Nodup ∧ (m.map Prod.snd).Nodup

instance (g : cGraph) (m : List (Int × Int)) : Decidable (g.isMatching m) :=
  inferInstanceAs (Decidable ((∀ p ∈ m, p ∈ g.edgeList) ∧ (m.map Prod.fst).Nodup ∧
    (m.map Prod.snd).Nodup))

/-! ## Further example graphs -/

/-- Two directed cycles 0 -> 1 -> 0 and 1 -> 2 -> 1 that meet in vertex 1, the
edge back to vertex 0 coming first among the edges that leave vertex 1. -/
def twoLoopGraph : cGraph :=
  ⟨true, 3, [⟨0, 1, 1⟩, ⟨1, 0, 1⟩, ⟨1, 2, 1⟩, ⟨2, 1, 1⟩]⟩

/-- Two directed cycles 0 -> 1 -> 0 and 2 -> 3 -> 2 without a common vertex. -/
def twoCycleGraph : cGraph :=
  ⟨true, 4, [⟨0, 1, 1⟩, ⟨1, 0, 1⟩, ⟨2, 3, 1⟩, ⟨3, 2, 1⟩]⟩

/-- The agents 0 and 1 and the tasks 2 and 3: agent 0 can do both tasks, agent 1
can do task 2; the edges are in the order a1-t1, a1-t2, a2-t1. -/
def agentTaskGraph : cGraph :=
  ⟨true, 4, [⟨0, 2, 1⟩, ⟨0, 3, 1⟩, ⟨1, 2, 1⟩]⟩

/-- The agents, the tasks and the edges of `agentTaskGraph`, the edge of agent 1
coming first. -/
def sharedAgentGraph : cGraph :=
  ⟨true, 4, [⟨1, 2, 1⟩, ⟨0, 2, 1⟩, ⟨0, 3, 1⟩]⟩

/-- The agents 0 and 1, both able to do the one task 2. -/
def oneTaskGraph : cGraph :=
  ⟨true, 3, [⟨0, 2, 1⟩, ⟨1, 2, 1⟩]⟩

/-- The agents 2 and 3 and the tasks 0 and 1: agent 3 can do both tasks, agent 2
can do task 1, and the edge from agent 3 to task 1 comes first. -/
def greedyTaskGraph : cGraph :=
  ⟨true, 4, [⟨3, 1, 1⟩, ⟨3, 0, 1⟩, ⟨2, 1, 1⟩]⟩

/-- One agent 0 and one task 1, the slot 0 of their edge holding 5. -/
def oneAgentGraph : cGraph :=
  ⟨true, 2, [⟨0, 1, 5⟩]⟩

/-- Two vertices and one directed edge 0 -> 1 of weight `INT_MAX`. -/
def heavyArcGraph : cGraph :=
  ⟨true, 2, [⟨0, 1, 2147483647⟩]⟩

/-! ## Vocabulary of the last statements -/

/-- Some vertex of `g` can be reached from itself along one edge or more. -/
def cGraph.hasCycle (g : cGraph) : Prop :=
  ∃ v, Relation.TransGen (fun a b => g.hasEdge a b) v v

/-- The sequence `c` has a link, ends where it starts, and each of its links is
an edge of `g`. -/
def cGraph.isClosedWalk (g : cGraph) (c : List Int) : Prop :=
  2 ≤ c.length ∧ c.head? = c.getLast? ∧ ∀ ab ∈ links c, g.hasEdge ab.1 ab.2

instance (g : cGraph) (c : List Int) : Decidable (g.isClosedWalk c) :=
  inferInstanceAs (Decidable (2 ≤ c.length ∧ c.head? = c.getLast? ∧
    ∀ ab ∈ links c, g.hasEdge ab.1 ab.2))

/-- A chain of edges, each taken in one direction or the other, leads from `u`
to `v`. -/
def cGraph.weaklyJoined (g : cGraph) (u v : Int) : Prop :=
  Relation.ReflTransGen (fun a b => g.hasEdge a b ∨ g.hasEdge b a) u v

/-- An edge of `g` between two vertices that are marked in `visited`. -/
def visitedEdge (g : cGraph) (visited : List Bool) (a b : Int) : Prop :=
  g.hasEdge a b ∧ vget visited a false = true ∧ vget visited b false = true

/-! ## Last example graphs -/

/-- The directed graph with the edges 0 -> 1, 0 -> 2, 1 -> 3, 2 -> 3 of weight
1: the vertices 1 and 2 are at the same distance from vertex 0. -/
def diamondGraph : cGraph :=
  ⟨true, 4, [⟨0, 1, 1⟩, ⟨0, 2, 1⟩, ⟨1, 3, 1⟩, ⟨2, 3, 1⟩]⟩

/-- The vectors of `dijsktra` on `diamondGraph` from vertex 0 after the first
round. -/
def diamondState : DijState :=
  ⟨[0, 1, 1, 2147483647], [0, 0, 0, -1], [true, false, false, false]⟩

/-- The directed cycle 0 -> 1 -> 0 whose first edge has weight `INT_MAX`. -/
def heavyCycleGraph : cGraph :=
  ⟨true, 2, [⟨0, 1, 2147483647⟩, ⟨1, 0, 1⟩]⟩

/-! ## `flows` and `alloc` over a store that keeps the edge indices -/

/-- Modelled from the source: the `remove(u,v)` that lines 687-705 of `flows`
are written for.  The loop there reads edge `ei` of the input graph and edge
`ei` of the working graph side by side, and tests `work.dest(ei) == -1` for an
edge that was removed: the first matching edge leaves the graph (`find` and
`adjacentOut` meet it no more: its `src` and `dest` are -1 from then on) and
keeps its index, as does every other edge.  (`cGraph.remove` is the `remove`
of the spec, which moves the edges behind the removed one down by one index.) -/
def cGraph.removeKeep (g : cGraph) (u v : Int) : cGraph :=
  { g with vEdge := g.vEdge.set (g.vEdge.findIdx (g.joins u v)) ⟨-1, -1, 0⟩ }

/-- Lines 662-682, as `consume`, the store keeping the edge indices when an
edge is removed. -/
def consumeKeep (maxflow : Int) : List Int → Int → cGraph → Except Fault cGraph
  | [], _, work => .ok work
  | v :: rest, u, work =>
    if u ≥ 0 then
      match work.rEdgeAttr (work.find u v) with
      | .error e => .error e
      | .ok c =>
        if c - (maxflow : ℚ) ≤ 0 then consumeKeep maxflow rest v (work.removeKeep u v)
        else
          match work.wEdgeAttr (work.find u v) (toStringAtof (c - (maxflow : ℚ))) with
          | .error e => .error e
          | .ok work1 => consumeKeep maxflow rest v work1
    else consumeKeep maxflow rest v work

/-- Lines 635-685, as `flowsLoop`, the store keeping the edge indices when an
edge is removed. -/
def flowsLoopKeep (start end_ : Int) : Nat → cGraph → Int → Except Fault (cGraph × Int)
  | 0, _, _ => .error .fuel
  | n + 1, work, totalFlow =>
    match path work start end_ with
    | .error e => .error e
    | .ok p =>
      if p.1 = [] then .ok (work, totalFlow)
      else
        match pathMaxflow work p.1 (-1) INT_MAX with
        | .error e => .error e
        | .ok maxflow =>
          match consumeKeep maxflow p.1 (-1) work with
          | .error e => .error e
          | .ok work1 => flowsLoopKeep start end_ n work1 (wrap32 (totalFlow + maxflow))

/-- The function `flows(g, start, end, vEdgeFlow)`, as `flows`, the store
keeping the edge indices when an edge is removed. -/
def flowsKeep (fuel : Nat) (g : cGraph) (start end_ : Int) : Except Fault (Int × List Int) :=
  if !g.isDirected then
    .error (.runtimeError "Flow calculation needs directed graph ( 2nd input line must be 'g')")
  else
    match flowsLoopKeep start end_ fuel g 0 with
    | .error e => .error e
    | .ok (work, totalFlow) =>
      match edgeFlow g work (intRange g.edgeCount) with
      | .error e => .error e
      | .ok vEdgeFlow => .ok (totalFlow, vEdgeFlow)

/-- The function `alloc(g)`, as `alloc`, the store keeping the edge indices
when an edge is removed. -/
def allocKeep (fuel : Nat) (g : cGraph) : Except Fault (cGraph × List (Int × Int)) :=
  match allocGraph g with
  | .error e => .error e
  | .ok (g1, start, end_) =>
    match flowsKeep fuel g1 start end_ with
    | .error e => .error e
    | .ok (_, vEdgeFlow) =>
      .ok (g1, allocPairs g1 start end_ vEdgeFlow (intRange g1.edgeCount))

/-- The edges of a working graph that were not removed, in the order of their
indices. -/
def cGraph.live (g : cGraph) : cGraph :=
  { g with vEdge := g.vEdge.filter fun e => decide (0 ≤ e.src) }

/-- The part of an edge from `a` to `b` in the balance of vertex `v`: 1 for an
edge that leaves `v`, -1 for one that enters it, 0 for a loop and for an edge
elsewhere. -/
def balanceSign (v a b : Int) : ℚ := (if a = v then 1 else 0) - (if b = v then 1 else 0)

/-- The capacity of the edges that leave `v` less the capacity of the edges
that enter it. -/
def cGraph.netCapacity (g : cGraph) (v : Int) : ℚ :=
  (g.vEdge.map fun e => balanceSign v e.src e.dest * e.attr0).sum

/-- What `flowsKeep` keeps true of its working graph `work`, `g` being the
input graph: it is directed, has the vertices of `g`, and at each index either
the mark of a removed edge or the edge of `g` with a natural capacity that is
not above the one in `g`. -/
structure KeepInv (g work : cGraph) : Prop where
  dir : work.fDirected = true
  nv : work.nVertex = g.nVertex
  shape : List.Forall₂ (fun e k => k = ⟨-1, -1, 0⟩ ∨
    (k.src = e.src ∧ k.dest = e.dest ∧
      ∃ n m : ℕ, k.attr0 = (n : ℚ) ∧ e.attr0 = (m : ℚ) ∧ n ≤ m)) g.vEdge work.vEdge

/-- No vertex of `g` is both the source of an edge and the destination of one:
the sources (agents) and the destinations (tasks) are disjoint. -/
def cGraph.isBipartite (g : cGraph) : Prop :=
  ∀ e ∈ g.vEdge, ∀ f ∈ g.vEdge, e.src ≠ f.dest

instance (g : cGraph) : Decidable g.isBipartite :=
  inferInstanceAs (Decidable (∀ e ∈ g.vEdge, ∀ f ∈ g.vEdge, e.src ≠ f.dest))

/-! ## Vectors -/

theorem vget_vset_self {α : Type} (l : List α) (i : Int) (x d : α)
    (h0 : 0 ≤ i) (h1 : i < l.length) : vget (vset l i x) i d = x := by
  have hlt : i.toNat < l.length := by omega
  simp [vget, vset, not_lt.mpr h0, List.getD_eq_getElem?_getD, List.getElem?_set, hlt]

theorem vget_vset_ne {α : Type} (l : List α) (i j : Int) (x d : α)
    (h : i ≠ j) : vget (vset l i x) j d = vget l j d := by
  unfold vget vset
  by_cases hj : j < 0
  · simp [hj]
  · by_cases hi : i < 0
    · simp [hi]
    · have hne : i.toNat ≠ j.toNat := by omega
      simp [hi, hj, List.getD_eq_getElem?_getD, List.getElem?_set, hne]

theorem length_vset {α : Type} (l : List α) (i : Int) (x : α) :
    (vset l i x).length = l.length := by
  unfold vset; split <;> simp

theorem vget_replicate {α : Type} (n : Nat) (a d : α) (i : Int)
    (h0 : 0 ≤ i) (h1 : i < n) : vget (List.replicate n a) i d = a := by
  have hlt : i.toNat < n := by omega
  simp [vget, not_lt.mpr h0, List.getD_eq_getElem?_getD, hlt]

theorem mem_intRange (n : Nat) (i : Int) : i ∈ intRange n ↔ 0 ≤ i ∧ i < n := by
  simp only [intRange, List.mem_map, List.mem_range]
  constructor
  · rintro ⟨a, ha, rfl⟩
    exact ⟨Int.ofNat_nonneg a, Int.ofNat_lt.mpr ha⟩
  · rintro ⟨h0, h1⟩
    exact ⟨i.toNat, by omega, by simp [Int.toNat_of_nonneg h0]⟩

theorem count_set_true (l : List Bool) (n : Nat) (hlt : n < l.length)
    (hf : l.getD n false = false) : (l.set n true).count true = l.count true + 1 := by
  induction l generalizing n with
  | nil => simp at hlt
  | cons b t ih =>
    cases n with
    | zero =>
      simp at hf
      subst hf
      simp
    | succ m =>
      simp at hf hlt
      have := ih m hlt (by simpa using hf)
      simp [List.count_cons, this]
      omega

theorem count_vset_true (l : List Bool) (i : Int) (h0 : 0 ≤ i) (h1 : i < l.length)
    (hf : vget l i false = false) : (vset l i true).count true = l.count true + 1 := by
  have hi : ¬ i < 0 := not_lt.mpr h0
  simp only [vget, vset, hi, if_false] at hf ⊢
  exact count_set_true l i.toNat (by omega) hf

theorem getD_true_of_count (l : List Bool) (hc : l.count true = l.length) (n : Nat)
    (hn : n < l.length) : l.getD n false = true := by
  have h := List.count_eq_length.mp hc
  have hm : l[n] ∈ l := List.getElem_mem hn
  have := h _ hm
  simp [List.getD_eq_getElem?_getD, List.getElem?_eq_getElem hn, ← this]

theorem unset_unique_nat (l : List Bool) (hc : l.count true + 1 = l.length) (a b : Nat)
    (hil : a < l.length) (hjl : b < l.length)
    (hi : l.getD a false = false) (hj : l.getD b false = false) : a = b := by
  induction l generalizing a b with
  | nil => simp at hil
  | cons x t ih =>
    cases x with
    | true =>
      simp only [List.count_cons_self, List.length_cons] at hc
      cases a with
      | zero => simp at hi
      | succ a' =>
        cases b with
        | zero => simp at hj
        | succ b' =>
          simp only [List.length_cons, Nat.add_lt_add_iff_right] at hil hjl
          have := ih (by omega) a' b' hil hjl (by simpa using hi) (by simpa using hj)
          omega
    | false =>
      have hc' : t.count true = t.length := by
        simp [List.count_cons] at hc
        exact hc
      cases a with
      | zero =>
        cases b with
        | zero => rfl
        | succ b' =>
          simp only [List.length_cons, Nat.add_lt_add_iff_right] at hjl
          have := getD_true_of_count t hc' b' hjl
          simp at hj
          simp [List.getD_eq_getElem?_getD] at this
          rw [this] at hj
          simp at hj
      | succ a' =>
        simp only [List.length_cons, Nat.add_lt_add_iff_right] at hil
        have := getD_true_of_count t hc' a' hil
        simp at hi
        simp [List.getD_eq_getElem?_getD] at this
        rw [this] at hi
        simp at hi

/-- In a vector with all entries but one set, two unset positions coincide. -/
theorem unset_unique (l : List Bool) (hc : l.count true + 1 = l.length) (i j : Int)
    (hi0 : 0 ≤ i) (hi1 : i < l.length) (hj0 : 0 ≤ j) (hj1 : j < l.length)
    (hi : vget l i false = false) (hj : vget l j false = false) : i = j := by
  have hi' : ¬ i < 0 := not_lt.mpr hi0
  have hj' : ¬ j < 0 := not_lt.mpr hj0
  simp only [vget, hi', hj', if_false] at hi hj
  have := unset_unique_nat l hc i.toNat j.toNat (by omega) (by omega) hi hj
  omega

/-! ## Conversion to `int` -/

theorem toInt_intCast (n : Int) : toInt (n : ℚ) = n := by
  unfold toInt
  split <;> simp

theorem toInt_le {x : ℚ} {m : Int} (h : x ≤ m) : toInt x ≤ m := by
  unfold toInt
  split
  · exact Int.cast_le.mp (le_trans (Int.floor_le x) h)
  · exact Int.ceil_le.mpr h

theorem toInt_lt_of_lt {x : ℚ} {m : Int} (hm : 0 < m) (h : x < m) : toInt x < m := by
  unfold toInt
  split
  · exact Int.floor_lt.mpr h
  · rename_i hx
    have : ⌈x⌉ ≤ 0 := Int.ceil_le.mpr (by push_cast; linarith)
    omega

/-! ## The graph store -/

theorem get?_findIdx {α : Type} (l : List α) (p : α → Bool) :
    l.get? (l.findIdx p) = l.find? p := by
  induction l with
  | nil => simp
  | cons a t ih =>
    simp only [List.findIdx_cons, List.find?_cons]
    cases h : p a
    · simpa using ih
    · simp

theorem findIdx_lt_iff {α : Type} (l : List α) (p : α → Bool) :
    l.findIdx p < l.length ↔ ∃ x ∈ l, p x = true := by
  constructor
  · intro h
    exact ⟨l[l.findIdx p], List.getElem_mem h, List.findIdx_getElem⟩
  · rintro ⟨x, hx, hp⟩
    exact List.findIdx_lt_length_of_exists ⟨x, hx, hp⟩

namespace cGraph

theorem rEdgeAttr_find (g : cGraph) (u v : Int) :
    g.rEdgeAttr (g.find u v) =
      match g.firstEdge u v with
      | some e => .ok e.attr0
      | none => .error .indexOutOfRange := by
  unfold find firstEdge
  by_cases h : g.vEdge.findIdx (g.joins u v) < g.vEdge.length
  · have h2 : ¬ ((g.vEdge.findIdx (g.joins u v) : Int) < 0) := by omega
    simp only [h, if_true, rEdgeAttr, h2, if_false, Int.toNat_ofNat, get?_findIdx]
  · have hnone : g.vEdge.find? (g.joins u v) = none := by
      rw [List.find?_eq_none]
      intro x hx hp
      exact h ((findIdx_lt_iff _ _).mpr ⟨x, hx, hp⟩)
    simp [h, rEdgeAttr, hnone]

theorem firstEdge_of_hasEdge {g : cGraph} {u v : Int} (h : g.hasEdge u v) :
    ∃ e, g.firstEdge u v = some e ∧ e ∈ g.vEdge ∧ g.joins u v e = true := by
  obtain ⟨e, he, hj⟩ := h
  unfold firstEdge
  cases hf : g.vEdge.find? (g.joins u v) with
  | none =>
    rw [List.find?_eq_none] at hf
    exact absurd hj (hf e he)
  | some e' =>
    exact ⟨e', rfl, List.mem_of_find?_eq_some hf, List.find?_some hf⟩

theorem rEdgeAttr_of_hasEdge {g : cGraph} {u v : Int} (h : g.hasEdge u v) :
    ∃ e, e ∈ g.vEdge ∧ g.joins u v e = true ∧ g.rEdgeAttr (g.find u v) = .ok e.attr0 := by
  obtain ⟨e, hf, he, hj⟩ := firstEdge_of_hasEdge h
  exact ⟨e, he, hj, by rw [rEdgeAttr_find, hf]⟩

theorem mem_adjacentOut (g : cGraph) (u v : Int) :
    v ∈ g.adjacentOut u ↔ g.hasEdge u v := by
  unfold adjacentOut hasEdge joins
  simp only [List.mem_filterMap]
  constructor
  · rintro ⟨e, he, h⟩
    refine ⟨e, he, ?_⟩
    by_cases h1 : e.src = u
    · simp [h1] at h
      simp [h1, h]
    · simp only [h1, if_false] at h
      by_cases h2 : (!g.fDirected && decide (e.dest = u)) = true
      · simp only [h2, if_true, Option.some.injEq] at h
        simp only [Bool.and_eq_true, Bool.not_eq_true', decide_eq_true_eq] at h2
        simp [h2.1, h2.2, h]
      · simp [h2] at h
  · rintro ⟨e, he, h⟩
    refine ⟨e, he, ?_⟩
    simp only [Bool.or_eq_true, Bool.and_eq_true, beq_iff_eq, Bool.not_eq_true'] at h
    rcases h with ⟨h1, h2⟩ | ⟨⟨h0, h1⟩, h2⟩
    · simp [h1, h2]
    · by_cases h3 : e.src = u
      · simp [h3]
        rw [h2, ← h1, h3]
      · simp [h3, h0, h2, h1]
        exact fun h => h.symm

theorem hasEdge_inRange {g : cGraph} (hwf : g.wellFormed) {u v : Int} (h : g.hasEdge u v) :
    g.inRange u ∧ g.inRange v := by
  obtain ⟨e, he, hj⟩ := h
  have := hwf e he
  unfold joins at hj
  simp only [Bool.or_eq_true, Bool.and_eq_true, beq_iff_eq, Bool.not_eq_true'] at hj
  unfold inRange
  rcases hj with ⟨h1, h2⟩ | ⟨⟨_, h1⟩, h2⟩
  · subst h1 h2; omega
  · subst h1 h2; omega

end cGraph

theorem links_mem {l : List Int} {ab : Int × Int} (h : ab ∈ links l) :
    ab.1 ∈ l ∧ ab.2 ∈ l := by
  induction l with
  | nil => simp [links] at h
  | cons a t ih =>
    cases t with
    | nil => simp [links] at h
    | cons b t' =>
      simp only [links, List.mem_cons] at h
      rcases h with rfl | h
      · simp
      · have := ih h
        exact ⟨List.mem_cons_of_mem _ this.1, List.mem_cons_of_mem _ this.2⟩

theorem links_of_chain' {R : Int → Int → Prop} {l : List Int} (h : List.Chain' R l) :
    ∀ ab ∈ links l, R ab.1 ab.2 := by
  induction l with
  | nil => intro ab hab; simp [links] at hab
  | cons a t ih =>
    cases t with
    | nil => intro ab hab; simp [links] at hab
    | cons b t' =>
      intro ab hab
      simp only [links, List.mem_cons] at hab
      rw [List.chain'_cons] at h
      rcases hab with rfl | hab
      · exact h.1
      · exact ih h.2 ab hab

theorem chain'_of_links {R : Int → Int → Prop} {l : List Int}
    (h : ∀ ab ∈ links l, R ab.1 ab.2) : List.Chain' R l := by
  induction l with
  | nil => exact List.chain'_nil
  | cons a t ih =>
    cases t with
    | nil => exact List.chain'_singleton a
    | cons b t' =>
      rw [List.chain'_cons]
      exact ⟨h (a, b) (by simp [links]), ih (fun ab hab => h ab (by simp [links, hab]))⟩

theorem cGraph.isWalk_iff_chain' (g : cGraph) (u v : Int) (p : List Int) :
    g.isWalk u v p ↔ p.head? = some u ∧ p.getLast? = some v ∧
      List.Chain' (fun a b => g.hasEdge a b) p :=
  ⟨fun h => ⟨h.1, h.2.1, chain'_of_links h.2.2⟩,
    fun h => ⟨h.1, h.2.1, links_of_chain' h.2.2⟩⟩

/-! ## Chains of predecessors -/

theorem BackChain.head_mem {pred : List Int} {start v : Int} {r : List Int}
    (h : BackChain pred start v r) : v ∈ r := by
  cases h <;> simp

theorem BackChain.congr {pred pred1 : List Int} {start v : Int} {r : List Int}
    (h : BackChain pred start v r)
    (heq : ∀ x ∈ r, vget pred1 x (-1) = vget pred x (-1)) : BackChain pred1 start v r := by
  induction h with
  | base => exact BackChain.base
  | step hne hnot _ ih =>
    refine BackChain.step hne hnot ?_
    rw [heq _ (List.mem_cons_self _ _)]
    exact ih (fun x hx => heq x (List.mem_cons_of_mem _ hx))

theorem BackChain.nodup {pred : List Int} {start v : Int} {r : List Int}
    (h : BackChain pred start v r) : r.Nodup := by
  induction h with
  | base => simp
  | step _ hnot _ ih => exact List.nodup_cons.mpr ⟨hnot, ih⟩

theorem BackChain.getLast {pred : List Int} {start v : Int} {r : List Int}
    (h : BackChain pred start v r) : r.getLast? = some start := by
  induction h with
  | base => simp
  | step _ _ hb ih =>
    cases hb with
    | base => simp
    | step _ _ _ => simpa [List.getLast?_cons_cons] using ih

theorem INT_MAX_pos : (0 : ℚ) < (INT_MAX : ℚ) := by
  unfold INT_MAX; norm_num

theorem not_processed_iff (s : DijState) (v : Int) :
    ¬ Processed s v ↔ vget s.sptSet v false = false := by
  unfold Processed; simp

/-! ## The selection scan -/

/-- What the scan has in hand: nothing yet, or an unprocessed vertex and its
distance as an `int`. -/
theorem pickMin_spec (g : cGraph) (s : DijState) :
    ∀ (l : List Int) (acc : Int × Option Int), (∀ v ∈ l, g.inRange v) →
      (acc = (INT_MAX, none) ∨ ∃ u, acc.2 = some u ∧ g.inRange u ∧ ¬ Processed s u ∧
        acc.1 = toInt (vget s.dist u 0)) →
      acc.1 ≤ INT_MAX →
      ((pickMin s l acc) = (INT_MAX, none) ∨ ∃ u, (pickMin s l acc).2 = some u ∧
          g.inRange u ∧ ¬ Processed s u ∧ (pickMin s l acc).1 = toInt (vget s.dist u 0)) ∧
        (pickMin s l acc).1 ≤ INT_MAX ∧
        ((acc.1 < INT_MAX ∨ ∃ v ∈ l, ¬ Processed s v ∧ vget s.dist v 0 < (INT_MAX : ℚ)) →
          (pickMin s l acc).1 < INT_MAX) := by
  intro l
  induction l with
  | nil =>
    intro acc _ h1 h2
    refine ⟨by simpa [pickMin] using h1, by simpa [pickMin] using h2, ?_⟩
    rintro (h | ⟨v, hv, _⟩)
    · simpa [pickMin] using h
    · simp at hv
  | cons vidx rest ih =>
    intro acc hl h1 h2
    obtain ⟨min, uidx⟩ := acc
    have hin : g.inRange vidx := hl vidx (List.mem_cons_self _ _)
    have hrest : ∀ v ∈ rest, g.inRange v := fun v hv => hl v (List.mem_cons_of_mem _ hv)
    simp only at h1 h2
    by_cases hc : vget s.sptSet vidx false = false ∧ vget s.dist vidx 0 ≤ (min : ℚ)
    · have hle : toInt (vget s.dist vidx 0) ≤ INT_MAX :=
        le_trans (toInt_le hc.2) h2
      have := ih (toInt (vget s.dist vidx 0), some vidx) hrest
        (Or.inr ⟨vidx, rfl, hin, (not_processed_iff s vidx).mpr hc.1, rfl⟩) hle
      simp only [pickMin, hc, and_self, if_true]
      refine ⟨this.1, this.2.1, ?_⟩
      rintro (h | ⟨v, hv, hnp, hfin⟩)
      · exact this.2.2 (Or.inl (lt_of_le_of_lt (toInt_le hc.2) h))
      · rcases List.mem_cons.mp hv with rfl | hv'
        · exact this.2.2 (Or.inl (toInt_lt_of_lt (by unfold INT_MAX; norm_num) hfin))
        · exact this.2.2 (Or.inr ⟨v, hv', hnp, hfin⟩)
    · have hih := ih (min, uidx) hrest h1 h2
      simp only [pickMin, hc, if_false]
      refine ⟨hih.1, hih.2.1, ?_⟩
      rintro (h | ⟨v, hv, hnp, hfin⟩)
      · exact hih.2.2 (Or.inl h)
      · rcases List.mem_cons.mp hv with rfl | hv'
        · have hnp' := (not_processed_iff s v).mp hnp
          have hgt : (min : ℚ) < vget s.dist v 0 := by
            by_contra hcon
            exact hc ⟨hnp', not_lt.mp hcon⟩
          have : (min : ℚ) < (INT_MAX : ℚ) := lt_trans hgt hfin
          exact hih.2.2 (Or.inl (by exact_mod_cast this))
        · exact hih.2.2 (Or.inr ⟨v, hv', hnp, hfin⟩)

/-- The outcome of the scan over all vertices. -/
theorem pick_spec {g : cGraph} {start : Int} {W : ℚ} {pending : Int → Int → Prop} {k : Nat}
    {s : DijState} (inv : DijInv g start W pending k s) :
    ((pickMin s (intRange g.vertexCount) (INT_MAX, none)).1 = INT_MAX →
        ∀ v, g.inRange v → ¬ Processed s v → vget s.dist v 0 = (INT_MAX : ℚ)) ∧
      ((pickMin s (intRange g.vertexCount) (INT_MAX, none)).1 ≠ INT_MAX →
        ∃ u, (pickMin s (intRange g.vertexCount) (INT_MAX, none)).2 = some u ∧
          g.inRange u ∧ ¬ Processed s u ∧ vget s.dist u 0 < (INT_MAX : ℚ)) := by
  have hsp := pickMin_spec g s (intRange g.vertexCount) (INT_MAX, none)
    (fun v hv => (mem_intRange _ _).mp hv) (Or.inl rfl) (le_refl _)
  constructor
  · intro hmin v hv hnp
    by_contra hne
    have hlt : vget s.dist v 0 < (INT_MAX : ℚ) := lt_of_le_of_ne (inv.dist_le v hv) hne
    have := hsp.2.2 (Or.inr ⟨v, (mem_intRange _ _).mpr hv, hnp, hlt⟩)
    omega
  · intro hmin
    rcases hsp.1 with h | ⟨u, hu, hin, hnp, hval⟩
    · rw [h] at hmin
      exact absurd rfl hmin
    · refine ⟨u, hu, hin, hnp, lt_of_le_of_ne (inv.dist_le u hin) ?_⟩
      intro heq
      rw [heq, toInt_intCast] at hval
      exact hmin hval

/-! ## The invariant of `dijsktra`: preservation -/

theorem DijInv.weaken {g : cGraph} {start : Int} {W : ℚ} {pending pending1 : Int → Int → Prop}
    {k : Nat} {s : DijState} (inv : DijInv g start W pending k s)
    (h : ∀ u v, g.inRange u → Processed s u → g.hasEdge u v → pending u v →
      pending1 u v ∨ Processed s v ∨
        ∃ w, g.rEdgeAttr (g.find u v) = .ok w ∧ vget s.dist v 0 ≤ vget s.dist u 0 + w) :
    DijInv g start W pending1 k s where
  len_dist := inv.len_dist
  len_pred := inv.len_pred
  len_spt := inv.len_spt
  cnt := inv.cnt
  dist_le := inv.dist_le
  pred_none := inv.pred_none
  spt_fin := inv.spt_fin
  start_ok := inv.start_ok
  fresh := inv.fresh
  tree := inv.tree
  closed := by
    intro u hu hpu v hev
    rcases inv.closed u hu hpu v hev with hp | hp | hp
    · exact h u v hu hpu hev hp
    · exact Or.inr (Or.inl hp)
    · exact Or.inr (Or.inr hp)
  bnd := inv.bnd

/-- The vectors before the first round satisfy the invariant. -/
theorem dijInit_inv (g : cGraph) (start : Int) (W : ℚ) (hs : g.inRange start) :
    DijInv g start W (fun _ _ => False) 0 (dijInit g start) := by
  have hs0 : (0 : Int) ≤ start := hs.1
  have hs1 : start < (g.vertexCount : Int) := hs.2
  have hspt : ∀ v, g.inRange v → ¬ Processed (dijInit g start) v := by
    intro v hv
    unfold Processed dijInit
    simp [vget_replicate _ _ _ v hv.1 hv.2]
  have hdist : ∀ v, g.inRange v → v ≠ start →
      vget (dijInit g start).dist v 0 = (INT_MAX : ℚ) := by
    intro v hv hne
    unfold dijInit
    simp only
    rw [vget_vset_ne _ _ _ _ _ (Ne.symm hne), vget_replicate _ _ _ v hv.1 hv.2]
  have hpred : ∀ v, g.inRange v → v ≠ start → vget (dijInit g start).pred v (-1) = -1 := by
    intro v hv hne
    unfold dijInit
    simp only
    rw [vget_vset_ne _ _ _ _ _ (Ne.symm hne), vget_replicate _ _ _ v hv.1 hv.2]
  have hd0 : vget (dijInit g start).dist start 0 = 0 := by
    unfold dijInit
    simp only
    exact vget_vset_self _ _ _ _ hs0 (by simpa using hs1)
  have hp0 : vget (dijInit g start).pred start (-1) = 0 := by
    unfold dijInit
    simp only
    exact vget_vset_self _ _ _ _ hs0 (by simpa using hs1)
  refine
    { len_dist := by simp [dijInit, length_vset]
      len_pred := by simp [dijInit, length_vset]
      len_spt := by simp [dijInit]
      cnt := by simp [dijInit, List.count_replicate]
      dist_le := ?_
      pred_none := ?_
      spt_fin := fun v hv hp => absurd hp (hspt v hv)
      start_ok := ⟨hp0, hd0⟩
      fresh := Or.inr fun v hv => ⟨hspt v hv, hdist v hv⟩
      tree := ?_
      closed := fun u hu hp => absurd hp (hspt u hu)
      bnd := ?_ }
  · intro v hv
    by_cases hne : v = start
    · subst hne
      rw [hd0]
      exact le_of_lt INT_MAX_pos
    · rw [hdist v hv hne]
  · intro v hv
    by_cases hne : v = start
    · subst hne
      rw [hd0, hp0]
      constructor
      · intro h; omega
      · intro h
        exact absurd h.symm (ne_of_gt INT_MAX_pos)
    · rw [hdist v hv hne, hpred v hv hne]
      simp
  · intro v hv hne hp
    exact absurd (hpred v hv hne) hp
  · intro _ _ v hv hfin
    by_cases hne : v = start
    · subst hne
      rw [hd0]
      simp
    · rw [hdist v hv hne] at hfin
      exact absurd hfin (lt_irrefl _)

/-- Marking the picked vertex keeps the invariant, its neighbours pending. -/
theorem DijInv.mark {g : cGraph} {start : Int} {W : ℚ} {k : Nat} {s : DijState}
    (inv : DijInv g start W (fun _ _ => False) k s) {u : Int} (hu : g.inRange u)
    (hnp : ¬ Processed s u) (hfin : vget s.dist u 0 < (INT_MAX : ℚ)) :
    DijInv g start W (fun a _ => a = u) (k + 1) { s with sptSet := vset s.sptSet u true } ∧
      Processed { s with sptSet := vset s.sptSet u true } start ∧
      Processed { s with sptSet := vset s.sptSet u true } u := by
  have hlen : u < (s.sptSet.length : Int) := by rw [inv.len_spt]; exact hu.2
  have hmono : ∀ v, Processed s v → Processed { s with sptSet := vset s.sptSet u true } v := by
    intro v hv
    unfold Processed at hv ⊢
    simp only
    by_cases h : u = v
    · subst h; exact vget_vset_self _ _ _ _ hu.1 hlen
    · rw [vget_vset_ne _ _ _ _ _ h]; exact hv
  have hup : Processed { s with sptSet := vset s.sptSet u true } u := by
    unfold Processed
    exact vget_vset_self _ _ _ _ hu.1 hlen
  have hother : ∀ v, v ≠ u → Processed { s with sptSet := vset s.sptSet u true } v →
      Processed s v := by
    intro v hne hv
    unfold Processed at hv ⊢
    simp only at hv
    rwa [vget_vset_ne _ _ _ _ _ (Ne.symm hne)] at hv
  have hstart : Processed { s with sptSet := vset s.sptSet u true } start := by
    rcases inv.fresh with h | h
    · exact hmono _ h
    · by_cases hus : u = start
      · subst hus; exact hup
      · have := (h u hu).2 hus
        rw [this] at hfin
        exact absurd hfin (lt_irrefl _)
  refine ⟨?_, hstart, hup⟩
  refine
    { len_dist := inv.len_dist
      len_pred := inv.len_pred
      len_spt := by simp [length_vset, inv.len_spt]
      cnt := ?_
      dist_le := inv.dist_le
      pred_none := inv.pred_none
      spt_fin := ?_
      start_ok := inv.start_ok
      fresh := Or.inl hstart
      tree := ?_
      closed := ?_
      bnd := ?_ }
  · simp only
    rw [count_vset_true _ _ hu.1 hlen ((not_processed_iff s u).mp hnp), inv.cnt]
  · intro v hv hp
    by_cases h : v = u
    · subst h; exact hfin
    · exact inv.spt_fin v hv (hother v h hp)
  · intro v hv hne hp
    obtain ⟨r, hr, hall, hnot, he, hw⟩ := inv.tree v hv hne hp
    exact ⟨r, hr, fun x hx => ⟨(hall x hx).1, hmono x (hall x hx).2⟩, hnot, he, hw⟩
  · intro a ha hpa v hev
    by_cases h : a = u
    · exact Or.inl h
    · rcases inv.closed a ha (hother a h hpa) v hev with hp | hp | hp
      · exact absurd hp id
      · exact Or.inr (Or.inl (hmono v hp))
      · exact Or.inr (Or.inr hp)
  · intro hW hw v hv hf
    have := inv.bnd hW hw v hv hf
    refine ⟨this.1, le_trans this.2 ?_⟩
    push_cast
    nlinarith

/-- One successful test `dist[uidx] + cost < dist[vp]` keeps the invariant. -/
theorem DijInv.update {g : cGraph} {start : Int} {W : ℚ} {pending : Int → Int → Prop}
    {k : Nat} {s : DijState} (hwf : g.wellFormed) (inv : DijInv g start W pending k s)
    {u vp : Int} {cost : ℚ} (hu : g.inRange u) (hev : g.hasEdge u vp)
    (hps : Processed s start) (hpu : Processed s u) (hnp : ¬ Processed s vp)
    (hcost : g.rEdgeAttr (g.find u vp) = .ok cost) (hmem : ∃ e ∈ g.vEdge, cost = e.attr0)
    (hlt : vget s.dist u 0 + cost < vget s.dist vp 0)
    (hb : 0 ≤ W → (∀ e ∈ g.vEdge, 0 ≤ e.attr0 ∧ e.attr0 ≤ W) →
      vget s.dist u 0 + W ≤ k * W) :
    DijInv g start W pending k
      { s with dist := vset s.dist vp (vget s.dist u 0 + cost),
               pred := vset s.pred vp u } := by
  have hvp : g.inRange vp := (cGraph.hasEdge_inRange hwf hev).2
  have hld : vp < (s.dist.length : Int) := by rw [inv.len_dist]; exact hvp.2
  have hlp : vp < (s.pred.length : Int) := by rw [inv.len_pred]; exact hvp.2
  have hne_of : ∀ x, Processed s x → vp ≠ x := by
    intro x hx h
    subst h
    exact hnp hx
  have hd_self : vget (vset s.dist vp (vget s.dist u 0 + cost)) vp 0 = vget s.dist u 0 + cost :=
    vget_vset_self _ _ _ _ hvp.1 hld
  have hp_self : vget (vset s.pred vp u) vp (-1) = u := vget_vset_self _ _ _ _ hvp.1 hlp
  have hd_ne : ∀ x, vp ≠ x →
      vget (vset s.dist vp (vget s.dist u 0 + cost)) x 0 = vget s.dist x 0 :=
    fun x hx => vget_vset_ne _ _ _ _ _ hx
  have hp_ne : ∀ x, vp ≠ x → vget (vset s.pred vp u) x (-1) = vget s.pred x (-1) :=
    fun x hx => vget_vset_ne _ _ _ _ _ hx
  have hfin_new : vget s.dist u 0 + cost < (INT_MAX : ℚ) :=
    lt_of_lt_of_le hlt (inv.dist_le vp hvp)
  have hdle : ∀ x, vget (vset s.dist vp (vget s.dist u 0 + cost)) x 0 ≤ vget s.dist x 0 := by
    intro x
    by_cases h : vp = x
    · subst h; rw [hd_self]; exact le_of_lt hlt
    · rw [hd_ne x h]
  refine
    { len_dist := by simp [length_vset, inv.len_dist]
      len_pred := by simp [length_vset, inv.len_pred]
      len_spt := inv.len_spt
      cnt := inv.cnt
      dist_le := fun v hv => le_trans (hdle v) (inv.dist_le v hv)
      pred_none := ?_
      spt_fin := ?_
      start_ok := ?_
      fresh := Or.inl hps
      tree := ?_
      closed := ?_
      bnd := ?_ }
  · intro v hv
    simp only
    by_cases h : vp = v
    · subst h
      rw [hd_self, hp_self]
      constructor
      · intro h; have := hu.1; omega
      · intro h; exact absurd h (ne_of_lt hfin_new)
    · rw [hd_ne v h, hp_ne v h]
      exact inv.pred_none v hv
  · intro v hv hp
    simp only
    rw [hd_ne v (hne_of v hp)]
    exact inv.spt_fin v hv hp
  · simp only
    rw [hd_ne start (hne_of start hps), hp_ne start (hne_of start hps)]
    exact inv.start_ok
  · intro v hv hne hp
    simp only at hp ⊢
    by_cases h : vp = v
    · subst h
      rw [hp_self, hd_self, hd_ne u (hne_of u hpu)]
      by_cases hus : u = start
      · subst hus
        refine ⟨[u], BackChain.base, ?_, ?_, hev, cost, hcost, rfl⟩
        · intro x hx
          simp only [List.mem_singleton] at hx
          subst hx
          exact ⟨hu, hpu⟩
        · simpa using hne
      · have hpu' : vget s.pred u (-1) ≠ -1 := by
          intro hcon
          have := (inv.pred_none u hu).mp hcon
          exact absurd this (ne_of_lt (inv.spt_fin u hu hpu))
        obtain ⟨r, hr, hall, hnot, _, _⟩ := inv.tree u hu hus hpu'
        have hchain : BackChain s.pred start u (u :: r) := BackChain.step hus hnot hr
        have hall' : ∀ x ∈ u :: r, g.inRange x ∧ Processed s x := by
          intro x hx
          rcases List.mem_cons.mp hx with rfl | hx'
          · exact ⟨hu, hpu⟩
          · exact hall x hx'
        refine ⟨u :: r, ?_, hall', ?_, hev, cost, hcost, rfl⟩
        · exact hchain.congr (fun x hx => hp_ne x (hne_of x (hall' x hx).2))
        · intro hmem
          exact hnp (hall' _ hmem).2
    · rw [hp_ne v h] at hp ⊢
      obtain ⟨r, hr, hall, hnot, he, w, hw, hdw⟩ := inv.tree v hv hne hp
      refine ⟨r, ?_, hall, hnot, he, w, hw, ?_⟩
      · exact hr.congr (fun x hx => hp_ne x (hne_of x (hall x hx).2))
      · rw [hd_ne v h, hd_ne _ (hne_of _ (hall _ hr.head_mem).2)]
        exact hdw
  · intro a ha hpa v hev'
    simp only
    rcases inv.closed a ha hpa v hev' with hp | hp | ⟨w, hw, hle⟩
    · exact Or.inl hp
    · exact Or.inr (Or.inl hp)
    · refine Or.inr (Or.inr ⟨w, hw, ?_⟩)
      rw [hd_ne a (hne_of a hpa)]
      exact le_trans (hdle v) hle
  · intro hW hw v hv hf
    simp only at hf ⊢
    by_cases h : vp = v
    · subst h
      rw [hd_self]
      obtain ⟨e, he, hce⟩ := hmem
      have hwe := hw e he
      have hu0 := (inv.bnd hW hw u hu (inv.spt_fin u hu hpu)).1
      have := hb hW hw
      constructor
      · rw [hce]; linarith [hwe.1]
      · rw [hce]; linarith [hwe.2]
    · rw [hd_ne v h] at hf ⊢
      exact inv.bnd hW hw v hv hf

/-- The loop over the neighbours of the picked vertex ends normally and keeps
the invariant; afterwards no neighbour is pending. -/
theorem relax_inv {g : cGraph} {start : Int} {W : ℚ} {k : Nat} (hwf : g.wellFormed)
    {u : Int} (hu : g.inRange u) :
    ∀ (rest : List Int) (s : DijState), (∀ v ∈ rest, g.hasEdge u v) →
      DijInv g start W (fun a b => a = u ∧ b ∈ rest) k s →
      Processed s start → Processed s u →
      (0 ≤ W → (∀ e ∈ g.vEdge, 0 ≤ e.attr0 ∧ e.attr0 ≤ W) → vget s.dist u 0 + W ≤ k * W) →
      ∃ s1, relax g u rest s = .ok s1 ∧ DijInv g start W (fun _ _ => False) k s1 ∧
        ∀ v, Processed s v → Processed s1 v := by
  intro rest
  induction rest with
  | nil =>
    intro s _ inv _ _ _
    refine ⟨s, rfl, inv.weaken ?_, fun _ h => h⟩
    intro a b _ _ _ hp
    simp at hp
  | cons vp rest ih =>
    intro s hall inv hps hpu hb
    have hev : g.hasEdge u vp := hall vp (List.mem_cons_self _ _)
    have hrest : ∀ v ∈ rest, g.hasEdge u v := fun v hv => hall v (List.mem_cons_of_mem _ hv)
    unfold relax
    by_cases hp : vget s.sptSet vp false = true
    · simp only [hp, if_true]
      refine ih s hrest (inv.weaken ?_) hps hpu hb
      rintro a b _ _ _ ⟨ha, hb'⟩
      rcases List.mem_cons.mp hb' with rfl | hb''
      · exact Or.inr (Or.inl hp)
      · exact Or.inl ⟨ha, hb''⟩
    · simp only [hp, Bool.false_eq_true, if_false]
      obtain ⟨e, he, _, hcost⟩ := cGraph.rEdgeAttr_of_hasEdge hev
      rw [hcost]
      simp only
      by_cases hlt : vget s.dist u 0 + e.attr0 < vget s.dist vp 0
      · simp only [hlt, if_true]
        have hnp : ¬ Processed s vp := hp
        have hvp : g.inRange vp := (cGraph.hasEdge_inRange hwf hev).2
        have hne : vp ≠ u := fun h => hnp (h ▸ hpu)
        have inv1 := inv.update hwf hu hev hps hpu hnp hcost ⟨e, he, rfl⟩ hlt hb
        have hld : vp < (s.dist.length : Int) := by rw [inv.len_dist]; exact hvp.2
        have inv2 : DijInv g start W (fun a b => a = u ∧ b ∈ rest) k
            { s with dist := vset s.dist vp (vget s.dist u 0 + e.attr0),
                     pred := vset s.pred vp u } := by
          refine inv1.weaken ?_
          rintro a b _ _ _ ⟨ha, hb'⟩
          rcases List.mem_cons.mp hb' with rfl | hb''
          · subst ha
            refine Or.inr (Or.inr ⟨e.attr0, hcost, ?_⟩)
            simp only
            rw [vget_vset_self _ _ _ _ hvp.1 hld, vget_vset_ne _ _ _ _ _ hne]
          · exact Or.inl ⟨ha, hb''⟩
        obtain ⟨s1, h1, h2, h3⟩ := ih _ hrest inv2 hps hpu (by
          simp only
          rw [vget_vset_ne _ _ _ _ _ hne]
          exact hb)
        exact ⟨s1, h1, h2, fun v hv => h3 v hv⟩
      · simp only [hlt, if_false]
        refine ih s hrest (inv.weaken ?_) hps hpu hb
        rintro a b _ _ _ ⟨ha, hb'⟩
        rcases List.mem_cons.mp hb' with rfl | hb''
        · subst ha
          exact Or.inr (Or.inr ⟨e.attr0, hcost, not_lt.mp hlt⟩)
        · exact Or.inl ⟨ha, hb''⟩

/-- The rounds of `dijsktra` end normally and keep the invariant; at the end
no unprocessed vertex has a finite distance, or a single vertex is unprocessed. -/
theorem dijLoop_inv {g : cGraph} {start : Int} {W : ℚ} (hwf : g.wellFormed) :
    ∀ (n k : Nat) (s : DijState), DijInv g start W (fun _ _ => False) k s →
      k + n + 1 = g.vertexCount →
      ∃ s1 k1, dijLoop g n s = .ok s1 ∧ DijInv g start W (fun _ _ => False) k1 s1 ∧
        k1 + 1 ≤ g.vertexCount ∧
        ((∀ v, g.inRange v → ¬ Processed s1 v → vget s1.dist v 0 = (INT_MAX : ℚ)) ∨
          k1 + 1 = g.vertexCount) := by
  intro n
  induction n with
  | zero =>
    intro k s inv hk
    exact ⟨s, k, rfl, inv, by omega, Or.inr (by omega)⟩
  | succ n ih =>
    intro k s inv hk
    have hpick := pick_spec inv
    rcases hpk : pickMin s (intRange g.vertexCount) (INT_MAX, none) with ⟨min, uidx⟩
    rw [hpk] at hpick
    simp only at hpick
    simp only [dijLoop, hpk]
    by_cases hmin : min = INT_MAX
    · simp only [hmin, if_true]
      exact ⟨s, k, rfl, inv, by omega, Or.inl (hpick.1 hmin)⟩
    · simp only [hmin, if_false]
      obtain ⟨u, hu, hin, hnp, hfin⟩ := hpick.2 hmin
      subst hu
      simp only
      obtain ⟨inv1, hps, hpu⟩ := inv.mark hin hnp hfin
      have inv2 : DijInv g start W (fun a b => a = u ∧ b ∈ g.adjacentOut u) (k + 1)
          { s with sptSet := vset s.sptSet u true } := by
        refine inv1.weaken ?_
        intro a b _ _ hev ha
        subst ha
        exact Or.inl ⟨rfl, (cGraph.mem_adjacentOut g a b).mpr hev⟩
      obtain ⟨s1, h1, h2, _⟩ := relax_inv hwf hin (g.adjacentOut u) _
        (fun v hv => (cGraph.mem_adjacentOut g u v).mp hv) inv2 hps hpu (by
          intro hW hw
          have := (inv.bnd hW hw u hin hfin).2
          simp only
          push_cast
          linarith)
      rw [h1]
      simp only
      exact ih (k + 1) s1 h2 (by omega)

/-- The function `dijsktra` returns for every vertex of a well formed graph,
and its vectors satisfy the invariant. -/
theorem dijsktra_spec {g : cGraph} (hwf : g.wellFormed) (W : ℚ) {start : Int}
    (hs : g.inRange start) :
    ∃ s k, dijsktra g start = .ok (s.dist, s.pred) ∧
      DijInv g start W (fun _ _ => False) k s ∧ k + 1 ≤ g.vertexCount ∧
      ((∀ v, g.inRange v → ¬ Processed s v → vget s.dist v 0 = (INT_MAX : ℚ)) ∨
        k + 1 = g.vertexCount) := by
  have h0 : ¬ (start < 0 ∨ (g.vertexCount : Int) ≤ start) := by
    have := hs.1; have := hs.2; omega
  have hV : 0 + (g.vertexCount - 1) + 1 = g.vertexCount := by
    have := hs.1; have := hs.2; omega
  obtain ⟨s1, k1, h1, h2, h3, h4⟩ :=
    dijLoop_inv hwf (g.vertexCount - 1) 0 _ (dijInit_inv g start W hs) hV
  refine ⟨s1, k1, ?_, h2, h3, h4⟩
  simp only [dijsktra, h0, if_false, h1]

/-! ## The walk back along the predecessors -/

theorem nodup_length_le (r : List Int) (n : Nat) (hnd : r.Nodup)
    (hin : ∀ x ∈ r, 0 ≤ x ∧ x < (n : Int)) : r.length ≤ n := by
  have hsub : r ⊆ intRange n := fun x hx => (mem_intRange n x).mpr (hin x hx)
  have := (List.subperm_of_subset hnd hsub).length_le
  simpa [intRange] using this

theorem walkBack_chain {pred : List Int} {start : Int} :
    ∀ {v : Int} {r : List Int}, BackChain pred start v r → v ≠ start →
      (∀ x ∈ r, 0 ≤ x ∧ x < (pred.length : Int)) →
      ∀ (n : Nat) (acc : List Int), r.length ≤ n + 1 →
        walkBack pred start n v acc = .ok (acc ++ r.tail) := by
  intro v r h
  induction h with
  | base => intro h; exact absurd rfl h
  | @step v r hne hnot hb ih =>
    intro _ hin n acc hlen
    have hv := hin v (List.mem_cons_self _ _)
    have hv' : ¬ (v < 0 ∨ (pred.length : Int) ≤ v) := by omega
    cases n with
    | zero =>
      cases hb <;> simp at hlen
    | succ m =>
      simp only [walkBack, hv', if_false, List.tail_cons]
      by_cases hst : vget pred v (-1) = start
      · simp only [hst, if_true]
        rw [hst] at hb
        cases hb with
        | base => rfl
        | step h _ _ => exact absurd rfl h
      · simp only [hst, if_false]
        rw [ih hst (fun x hx => hin x (List.mem_cons_of_mem _ hx)) m _
          (by simp at hlen; omega)]
        have hhead : ∃ t, r = vget pred v (-1) :: t := by
          cases hb with
          | base => exact ⟨[], rfl⟩
          | step _ _ _ => exact ⟨_, rfl⟩
        obtain ⟨t, ht⟩ := hhead
        rw [ht]
        simp

/-! ## `path`: what it returns -/

theorem cGraph.linkCost_snoc (g : cGraph) :
    ∀ (l : List Int) (u v : Int) (c w : ℚ), l.getLast? = some u →
      g.linkCost l = .ok c → g.rEdgeAttr (g.find u v) = .ok w →
      g.linkCost (l ++ [v]) = .ok (c + w) := by
  intro l
  induction l with
  | nil => intro u v c w h; simp at h
  | cons a t ih =>
    intro u v c w hlast hc hw
    cases t with
    | nil =>
      simp at hlast
      subst hlast
      simp only [cGraph.linkCost, Except.ok.injEq] at hc
      subst hc
      simp [cGraph.linkCost, hw]
    | cons b t' =>
      rw [List.getLast?_cons_cons] at hlast
      simp only [cGraph.linkCost] at hc
      cases h1 : g.rEdgeAttr (g.find a b) with
      | error e => rw [h1] at hc; simp at hc
      | ok w1 =>
        rw [h1] at hc
        simp only at hc
        cases h2 : g.linkCost (b :: t') with
        | error e => rw [h2] at hc; simp at hc
        | ok c1 =>
          rw [h2] at hc
          simp only [Except.ok.injEq] at hc
          have := ih u v c1 w hlast h2 hw
          simp only [List.cons_append] at this ⊢
          simp only [cGraph.linkCost, h1, this, Except.ok.injEq]
          rw [← hc]; ring

/-- A chain of predecessors, read from `start`, is a walk of the graph whose
link costs add up to the distance of its last vertex. -/
theorem BackChain.walk {g : cGraph} {start : Int} {W : ℚ} {pending : Int → Int → Prop}
    {k : Nat} {s : DijState} (inv : DijInv g start W pending k s) :
    ∀ {v : Int} {r : List Int}, BackChain s.pred start v r → (∀ x ∈ r, g.inRange x) →
      g.isWalk start v r.reverse ∧ g.linkCost r.reverse = .ok (vget s.dist v 0) := by
  intro v r h
  induction h with
  | base =>
    intro _
    refine ⟨⟨by simp, by simp, by simp [links]⟩, ?_⟩
    simp [cGraph.linkCost, inv.start_ok.2]
  | @step v r hne hnot hb ih =>
    intro hin
    have hv : g.inRange v := hin v (List.mem_cons_self _ _)
    have hin' : ∀ x ∈ r, g.inRange x := fun x hx => hin x (List.mem_cons_of_mem _ hx)
    obtain ⟨hwk, hcost⟩ := ih hin'
    obtain ⟨hh, hl, hc⟩ := (g.isWalk_iff_chain' _ _ _).mp hwk
    have hp : vget s.pred v (-1) ≠ -1 := by
      have := (hin' _ hb.head_mem).1
      omega
    obtain ⟨_, _, _, _, he, w, hw, hd⟩ := inv.tree v hv hne hp
    have hne_r : r.reverse ≠ [] := by
      intro h
      rw [h] at hh
      simp at hh
    rw [List.reverse_cons]
    refine ⟨(g.isWalk_iff_chain' _ _ _).mpr ⟨?_, by simp, ?_⟩, ?_⟩
    · rw [List.head?_append_of_ne_nil _ hne_r]
      exact hh
    · refine List.Chain'.append hc (by simp) ?_
      intro x hx y hy
      rw [hl] at hx
      simp only [Option.mem_def, Option.some.injEq, List.head?_cons] at hx hy
      subst hx hy
      exact he
    · rw [hd]
      exact g.linkCost_snoc _ _ _ _ _ hl hcost hw

theorem cGraph.isWalk_reachable {g : cGraph} {u v : Int} {p : List Int}
    (h : g.isWalk u v p) : g.Reachable u v := by
  obtain ⟨hh, hl, hc⟩ := (g.isWalk_iff_chain' _ _ _).mp h
  cases p with
  | nil => simp at hh
  | cons a t =>
    simp only [List.head?_cons, Option.some.injEq] at hh
    subst hh
    refine List.relationReflTransGen_of_exists_chain t hc ?_
    rw [List.getLast?_eq_getLast _ (by simp)] at hl
    simpa using hl

/-- The two ways in which `path` ends between two different vertices of a well
formed graph. -/
theorem path_spec {g : cGraph} (hwf : g.wellFormed) (W : ℚ) {start end_ : Int}
    (hs : g.inRange start) (he : g.inRange end_) (hne : start ≠ end_) :
    ∃ s k, DijInv g start W (fun _ _ => False) k s ∧ k + 1 ≤ g.vertexCount ∧
      ((∀ v, g.inRange v → ¬ Processed s v → vget s.dist v 0 = (INT_MAX : ℚ)) ∨
        k + 1 = g.vertexCount) ∧
      ((vget s.pred end_ (-1) = -1 ∧ path g start end_ = .ok ([], -1)) ∨
        (vget s.pred end_ (-1) ≠ -1 ∧ ∃ r, BackChain s.pred start end_ r ∧
          (∀ x ∈ r, g.inRange x) ∧
          path g start end_ = .ok (r.reverse, vget s.dist end_ 0))) := by
  obtain ⟨s, k, hd, inv, hk, hfin⟩ := dijsktra_spec hwf W hs
  refine ⟨s, k, inv, hk, hfin, ?_⟩
  have hguard : ¬ (0 > start ∨ start > (g.vertexCount : Int) ∨ 0 > end_ ∨
      end_ > (g.vertexCount : Int)) := by
    have := hs.1; have := hs.2; have := he.1; have := he.2; omega
  have hlen : ¬ ((s.pred.length : Int) ≤ end_) := by
    rw [inv.len_pred]; have := he.2; omega
  by_cases hp : vget s.pred end_ (-1) = -1
  · left
    refine ⟨hp, ?_⟩
    simp only [path, hguard, if_false, hd, hlen, hp, if_true]
  · right
    refine ⟨hp, ?_⟩
    obtain ⟨r, hr, hall, hnot, _, _⟩ := inv.tree end_ he (Ne.symm hne) hp
    have hchain : BackChain s.pred start end_ (end_ :: r) :=
      BackChain.step (Ne.symm hne) hnot hr
    have hin : ∀ x ∈ end_ :: r, g.inRange x := by
      intro x hx
      rcases List.mem_cons.mp hx with rfl | hx'
      · exact he
      · exact (hall x hx').1
    refine ⟨end_ :: r, hchain, hin, ?_⟩
    have hrlen : r.length ≤ g.vertexCount :=
      nodup_length_le r g.vertexCount hr.nodup (fun x hx => (hall x hx).1)
    have hwalk := walkBack_chain hchain (Ne.symm hne)
      (fun x hx => by rw [inv.len_pred]; exact hin x hx) (g.vertexCount + 1) [end_]
      (by simp; omega)
    simp only [path, hguard, if_false, hd, hlen, hp, hwalk, List.tail_cons,
      List.singleton_append]

/-- With weights between `0` and `W` and `vertexCount * W` below `INT_MAX`,
every vertex that can be reached from `start` ends with a finite distance. -/
theorem reach_finite {g : cGraph} {start : Int} {W : ℚ} {k : Nat} {s : DijState}
    (hwf : g.wellFormed) (inv : DijInv g start W (fun _ _ => False) k s)
    (hk : k + 1 ≤ g.vertexCount)
    (hfin : (∀ v, g.inRange v → ¬ Processed s v → vget s.dist v 0 = (INT_MAX : ℚ)) ∨
      k + 1 = g.vertexCount)
    (hW : 0 ≤ W) (hw : ∀ e ∈ g.vEdge, 0 ≤ e.attr0 ∧ e.attr0 ≤ W)
    (hbound : (g.vertexCount : ℚ) * W < (INT_MAX : ℚ)) :
    ∀ v, g.Reachable start v → vget s.dist v 0 < (INT_MAX : ℚ) := by
  intro v hr
  induction hr with
  | refl =>
    rw [inv.start_ok.2]
    exact INT_MAX_pos
  | @tail x y _ hxy ih =>
    obtain ⟨hx, hy⟩ := cGraph.hasEdge_inRange hwf hxy
    by_cases hpx : Processed s x
    · rcases inv.closed x hx hpx y hxy with h | h | ⟨w, hw1, hle⟩
      · exact absurd h id
      · exact inv.spt_fin y hy h
      · obtain ⟨e, he, _, hw2⟩ := cGraph.rEdgeAttr_of_hasEdge hxy
        rw [hw1] at hw2
        simp only [Except.ok.injEq] at hw2
        have hwe := (hw e he).2
        have hdx := (inv.bnd hW hw x hx ih).2
        have hkV : (k : ℚ) + 1 ≤ (g.vertexCount : ℚ) := by exact_mod_cast hk
        have : (k : ℚ) * W + W ≤ (g.vertexCount : ℚ) * W := by nlinarith
        rw [hw2] at hle
        linarith
    · rcases hfin with h | h
      · have := h x hx hpx
        rw [this] at ih
        exact absurd ih (lt_irrefl _)
      · by_cases hpy : Processed s y
        · exact inv.spt_fin y hy hpy
        · have hxy' : x = y := by
            refine unset_unique s.sptSet ?_ x y hx.1 ?_ hy.1 ?_
              ((not_processed_iff s x).mp hpx) ((not_processed_iff s y).mp hpy)
            · rw [inv.cnt, inv.len_spt]; exact h
            · rw [inv.len_spt]; exact hx.2
            · rw [inv.len_spt]; exact hy.2
          rw [← hxy']
          exact ih

/-! ## Lists: the first element that matches -/

theorem find?_eraseIdx_findIdx {α : Type} (l : List α) (p q : α → Bool)
    (hpq : ∀ x ∈ l, p x = true → q x = false) :
    (l.eraseIdx (l.findIdx p)).find? q = l.find? q := by
  induction l with
  | nil => simp
  | cons a t ih =>
    have ht : ∀ x ∈ t, p x = true → q x = false :=
      fun x hx => hpq x (List.mem_cons_of_mem _ hx)
    rw [List.findIdx_cons]
    cases hp : p a
    · simp only [cond_false, List.eraseIdx_cons_succ, List.find?_cons, ih ht]
    · have hq := hpq a (List.mem_cons_self _ _) hp
      simp [List.find?_cons, hq]

theorem find?_set_findIdx {α : Type} (l : List α) (p q : α → Bool) (e1 : α)
    (hpq : ∀ x ∈ l, p x = true → q x = false) (hq1 : q e1 = false) :
    (l.set (l.findIdx p) e1).find? q = l.find? q := by
  induction l with
  | nil => simp
  | cons a t ih =>
    have ht : ∀ x ∈ t, p x = true → q x = false :=
      fun x hx => hpq x (List.mem_cons_of_mem _ hx)
    rw [List.findIdx_cons]
    cases hp : p a
    · simp only [cond_false, List.set_cons_succ, List.find?_cons, ih ht]
    · have hq := hpq a (List.mem_cons_self _ _) hp
      simp [List.find?_cons, hq, hq1]

theorem sum_eraseIdx_findIdx {α : Type} (l : List α) (p : α → Bool) (f : α → ℚ) (e : α)
    (he : l.find? p = some e) :
    ((l.eraseIdx (l.findIdx p)).map f).sum = (l.map f).sum - f e := by
  induction l with
  | nil => simp at he
  | cons a t ih =>
    rw [List.findIdx_cons]
    rw [List.find?_cons] at he
    cases hp : p a
    · rw [hp] at he
      simp only [cond_false, List.eraseIdx_cons_succ, List.map_cons, List.sum_cons, ih he]
      ring
    · rw [hp] at he
      simp only [Option.some.injEq] at he
      subst he
      simp

theorem sum_set_findIdx {α : Type} (l : List α) (p : α → Bool) (f : α → ℚ) (e e1 : α)
    (he : l.find? p = some e) :
    ((l.set (l.findIdx p) e1).map f).sum = (l.map f).sum - f e + f e1 := by
  induction l with
  | nil => simp at he
  | cons a t ih =>
    rw [List.findIdx_cons]
    rw [List.find?_cons] at he
    cases hp : p a
    · rw [hp] at he
      simp only [cond_false, List.set_cons_succ, List.map_cons, List.sum_cons, ih he]
      ring
    · rw [hp] at he
      simp only [Option.some.injEq] at he
      subst he
      simp
      ring

theorem findIdx_lt_of_find? {α : Type} (l : List α) (p : α → Bool) (e : α)
    (he : l.find? p = some e) : l.findIdx p < l.length :=
  (findIdx_lt_iff l p).mpr ⟨e, List.mem_of_find?_eq_some he, List.find?_some he⟩

theorem mem_set_findIdx {α : Type} (l : List α) (n : Nat) (e1 x : α)
    (hx : x ∈ l.set n e1) : x ∈ l ∨ x = e1 := by
  rcases List.mem_or_eq_of_mem_set hx with h | h
  · exact Or.inl h
  · exact Or.inr h

/-! ## `flows`: the links of a path -/

/-- A walk that starts inside `S` and ends outside has a link that leaves `S`. -/
theorem crossings_pos (S : Int → Bool) :
    ∀ (p : List Int) (a b : Int), p.head? = some a → p.getLast? = some b →
      S a = true → S b = false → 1 ≤ crossings S (links p) := by
  intro p
  induction p with
  | nil => intro a b h; simp at h
  | cons x t ih =>
    intro a b hh hl ha hb
    simp only [List.head?_cons, Option.some.injEq] at hh
    subst hh
    cases t with
    | nil =>
      simp at hl
      subst hl
      rw [ha] at hb
      exact absurd hb (by simp)
    | cons y t' =>
      rw [List.getLast?_cons_cons] at hl
      simp only [links, crossings, List.countP_cons]
      cases hy : S y
      · simp [ha]
      · have := ih y b rfl hl hy hb
        simp only [crossings] at this
        omega

namespace cGraph

theorem joins_directed {g : cGraph} (hd : g.fDirected = true) (u v : Int) (e : cEdge) :
    g.joins u v e = true ↔ e.src = u ∧ e.dest = v := by
  simp [joins, hd]

theorem firstEdge_spec {g : cGraph} (hd : g.fDirected = true) {u v : Int} {e : cEdge}
    (h : g.firstEdge u v = some e) : e ∈ g.vEdge ∧ e.src = u ∧ e.dest = v :=
  ⟨List.mem_of_find?_eq_some h, (joins_directed hd u v e).mp (List.find?_some h)⟩

theorem find_of_firstEdge {g : cGraph} {u v : Int} {e : cEdge}
    (h : g.firstEdge u v = some e) :
    g.find u v = (g.vEdge.findIdx (g.joins u v) : Int) ∧
      g.vEdge.get? (g.vEdge.findIdx (g.joins u v)) = some e := by
  have hlt := findIdx_lt_of_find? _ _ _ h
  refine ⟨by simp [find, hlt], ?_⟩
  rw [get?_findIdx]
  exact h

theorem wEdgeAttr_find {g : cGraph} {u v : Int} {e : cEdge} (x : ℚ)
    (h : g.firstEdge u v = some e) :
    g.wEdgeAttr (g.find u v) x =
      .ok (g.setEdge (g.vEdge.findIdx (g.joins u v)) { e with attr0 := x }) := by
  obtain ⟨h1, h2⟩ := find_of_firstEdge h
  have h3 : ¬ ((g.vEdge.findIdx (g.joins u v) : Int) < 0) := by omega
  simp only [wEdgeAttr, h1, h3, if_false, Int.toNat_ofNat, h2]

theorem firstEdge_remove {g : cGraph} (hd : g.fDirected = true) (u v a b : Int)
    (hne : a ≠ u) : (g.remove u v).firstEdge a b = g.firstEdge a b := by
  unfold firstEdge remove
  have hj : (joins { g with vEdge := g.vEdge.eraseIdx (g.vEdge.findIdx (g.joins u v)) } a b)
      = g.joins a b := rfl
  simp only [hj]
  apply find?_eraseIdx_findIdx
  intro x _ hx
  rw [joins_directed hd] at hx
  cases hq : g.joins a b x
  · rfl
  · rw [joins_directed hd] at hq
    exact absurd (hq.1.symm.trans hx.1) hne

theorem firstEdge_set {g : cGraph} (hd : g.fDirected = true) (u v a b : Int) (e1 : cEdge)
    (hne : a ≠ u) (hsrc : e1.src = u) :
    (g.setEdge (g.vEdge.findIdx (g.joins u v)) e1).firstEdge a b = g.firstEdge a b := by
  unfold firstEdge setEdge
  change (g.vEdge.set (g.vEdge.findIdx (g.joins u v)) e1).find? (g.joins a b) =
    g.vEdge.find? (g.joins a b)
  apply find?_set_findIdx
  · intro x _ hx
    rw [joins_directed hd] at hx
    cases hq : g.joins a b x
    · rfl
    · rw [joins_directed hd] at hq
      exact absurd (hq.1.symm.trans hx.1) hne
  · cases hq : g.joins a b e1
    · rfl
    · rw [joins_directed hd] at hq
      exact absurd (hq.1.symm.trans hsrc) hne

end cGraph

/-- The least capacity along the path, as `pathMaxflow` computes it. -/
theorem pathMaxflow_spec (work : cGraph) :
    ∀ (rest : List Int) (u m : Int), 0 ≤ u → (∀ x ∈ rest, 0 ≤ x) →
      (∀ ab ∈ links (u :: rest), ∃ e, work.firstEdge ab.1 ab.2 = some e ∧
        ∃ n : ℕ, e.attr0 = (n : ℚ)) →
      ∃ mf, pathMaxflow work rest u m = .ok mf ∧ mf ≤ m ∧ (0 ≤ m → 0 ≤ mf) ∧
        (∀ ab ∈ links (u :: rest), ∃ e, work.firstEdge ab.1 ab.2 = some e ∧
          (mf : ℚ) ≤ e.attr0) ∧
        (mf = m ∨ ∃ ab ∈ links (u :: rest), ∃ e, work.firstEdge ab.1 ab.2 = some e ∧
          e.attr0 = (mf : ℚ)) := by
  intro rest
  induction rest with
  | nil =>
    intro u m _ _ _
    refine ⟨m, rfl, le_refl _, fun h => h, ?_, Or.inl rfl⟩
    intro ab hab
    simp [links] at hab
  | cons v rest ih =>
    intro u m hu hpos hcap
    have hv : 0 ≤ v := hpos v (List.mem_cons_self _ _)
    have hpos' : ∀ x ∈ rest, 0 ≤ x := fun x hx => hpos x (List.mem_cons_of_mem _ hx)
    have hcap' : ∀ ab ∈ links (v :: rest), ∃ e, work.firstEdge ab.1 ab.2 = some e ∧
        ∃ n : ℕ, e.attr0 = (n : ℚ) := by
      intro ab hab
      exact hcap ab (by simp [links, hab])
    obtain ⟨e, he, n, hn⟩ := hcap (u, v) (by simp [links])
    have hread : work.rEdgeAttr (work.find u v) = .ok e.attr0 := by
      rw [cGraph.rEdgeAttr_find]
      simp only at he
      rw [he]
    have hu' : u ≥ 0 := hu
    simp only [pathMaxflow, hu', if_true, hread]
    by_cases hlt : e.attr0 < (m : ℚ)
    · simp only [hlt, if_true]
      have hti : toInt e.attr0 = (n : Int) := by
        rw [hn]
        have : ((n : ℕ) : ℚ) = (((n : ℕ) : Int) : ℚ) := by push_cast; rfl
        rw [this, toInt_intCast]
      obtain ⟨mf, h1, h2, h3, h4, h5⟩ := ih v (toInt e.attr0) hv hpos' hcap'
      have hnm : (n : Int) < m := by
        rw [hn] at hlt
        exact_mod_cast hlt
      refine ⟨mf, h1, by omega, fun _ => h3 (by omega), ?_, ?_⟩
      · intro ab hab
        simp only [links, List.mem_cons] at hab
        rcases hab with rfl | hab
        · refine ⟨e, he, ?_⟩
          rw [hn]
          have : (mf : ℚ) ≤ ((n : Int) : ℚ) := by exact_mod_cast (hti ▸ h2)
          simpa using this
        · exact h4 ab hab
      · right
        rcases h5 with h5 | ⟨ab, hab, h5⟩
        · refine ⟨(u, v), by simp [links], e, he, ?_⟩
          rw [h5, hti, hn]
          simp
        · exact ⟨ab, by simp [links, hab], h5⟩
    · simp only [hlt, if_false]
      obtain ⟨mf, h1, h2, h3, h4, h5⟩ := ih v m hv hpos' hcap'
      refine ⟨mf, h1, h2, h3, ?_, ?_⟩
      · intro ab hab
        simp only [links, List.mem_cons] at hab
        rcases hab with rfl | hab
        · refine ⟨e, he, ?_⟩
          have : (mf : ℚ) ≤ (m : ℚ) := by exact_mod_cast h2
          exact le_trans this (not_lt.mp hlt)
        · exact h4 ab hab
      · rcases h5 with h5 | ⟨ab, hab, h5⟩
        · exact Or.inl h5
        · exact Or.inr ⟨ab, by simp [links, hab], h5⟩

theorem toStringAtof_intCast (z : Int) : toStringAtof (z : ℚ) = (z : ℚ) := by
  unfold toStringAtof
  have h1 : (z : ℚ) * 1000000 + 1 / 2 = ((z * 1000000 : Int) : ℚ) + 1 / 2 := by
    push_cast; ring
  have h2 : ⌊(1 / 2 : ℚ)⌋ = 0 := by
    rw [Int.floor_eq_iff]; norm_num
  rw [h1, Int.floor_int_add, h2]
  push_cast
  ring

namespace cGraph

theorem cutCapacity_remove {g : cGraph} (S : Int → Bool) {u v : Int} {e : cEdge}
    (h : g.firstEdge u v = some e) :
    (g.remove u v).cutCapacity S =
      g.cutCapacity S - (if S e.src && !S e.dest then e.attr0 else 0) := by
  unfold cutCapacity remove
  exact sum_eraseIdx_findIdx _ _ _ _ h

theorem cutCapacity_set {g : cGraph} (S : Int → Bool) {u v : Int} {e : cEdge} (e1 : cEdge)
    (h : g.firstEdge u v = some e) :
    (g.setEdge (g.vEdge.findIdx (g.joins u v)) e1).cutCapacity S =
      g.cutCapacity S - (if S e.src && !S e.dest then e.attr0 else 0)
        + (if S e1.src && !S e1.dest then e1.attr0 else 0) := by
  unfold cutCapacity setEdge
  exact sum_set_findIdx _ _ _ _ _ h

theorem edgeCount_remove {g : cGraph} {u v : Int} {e : cEdge}
    (h : g.firstEdge u v = some e) : (g.remove u v).edgeCount + 1 = g.edgeCount := by
  unfold edgeCount remove
  have hlt := findIdx_lt_of_find? _ _ _ h
  simp only
  rw [List.length_eraseIdx_of_lt hlt]
  omega

end cGraph

theorem FlowInv.remove {V : Nat} {work : cGraph} (inv : FlowInv V work) (u v : Int) :
    FlowInv V (work.remove u v) where
  dir := inv.dir
  wf := fun e he => inv.wf e ((List.eraseIdx_sublist _ _).subset he)
  nv := inv.nv
  cap := fun e he => inv.cap e ((List.eraseIdx_sublist _ _).subset he)

theorem FlowInv.set {V : Nat} {work : cGraph} (inv : FlowInv V work) (n : Nat) (e : cEdge)
    (he : e ∈ work.vEdge) (z : ℕ) :
    FlowInv V (work.setEdge n { e with attr0 := (z : ℚ) }) where
  dir := inv.dir
  wf := by
    intro x hx
    rcases List.mem_or_eq_of_mem_set hx with h | h
    · exact inv.wf x h
    · subst h; exact inv.wf e he
  nv := inv.nv
  cap := by
    intro x hx
    rcases List.mem_or_eq_of_mem_set hx with h | h
    · exact inv.cap x h
    · subst h; exact ⟨z, rfl⟩

/-- What `consume` does to the working graph: the capacity of every cut goes
down by `maxflow` for each link of the path that crosses it, and an edge is
removed as soon as one link has capacity `maxflow`. -/
theorem consume_spec {V : Nat} (S : Int → Bool) (mf : Int) :
    ∀ (rest : List Int) (u : Int) (work : cGraph), 0 ≤ u → (u :: rest).Nodup →
      (∀ x ∈ rest, 0 ≤ x) → FlowInv V work →
      (∀ ab ∈ links (u :: rest), ∃ e, work.firstEdge ab.1 ab.2 = some e ∧
        (mf : ℚ) ≤ e.attr0) →
      ∃ work1, consume mf rest u work = .ok work1 ∧ FlowInv V work1 ∧
        work1.cutCapacity S + (mf : ℚ) * (crossings S (links (u :: rest)) : ℚ) =
          work.cutCapacity S ∧
        work1.edgeCount ≤ work.edgeCount ∧
        ((∃ ab ∈ links (u :: rest), ∃ e, work.firstEdge ab.1 ab.2 = some e ∧
            e.attr0 = (mf : ℚ)) → work1.edgeCount < work.edgeCount) := by
  intro rest
  induction rest with
  | nil =>
    intro u work _ _ _ inv _
    refine ⟨work, rfl, inv, by simp [links, crossings], le_refl _, ?_⟩
    rintro ⟨ab, hab, _⟩
    simp [links] at hab
  | cons v rest ih =>
    intro u work hu hnd hpos inv hcap
    have hv : 0 ≤ v := hpos v (List.mem_cons_self _ _)
    have hpos' : ∀ x ∈ rest, 0 ≤ x := fun x hx => hpos x (List.mem_cons_of_mem _ hx)
    have hnd' : (v :: rest).Nodup := (List.nodup_cons.mp hnd).2
    have hunot : u ∉ v :: rest := (List.nodup_cons.mp hnd).1
    obtain ⟨e, he, hle⟩ := hcap (u, v) (by simp [links])
    simp only at he hle
    obtain ⟨hemem, hsrc, hdest⟩ := cGraph.firstEdge_spec inv.dir he
    obtain ⟨n, hn⟩ := inv.cap e hemem
    have hread : work.rEdgeAttr (work.find u v) = .ok e.attr0 := by
      rw [cGraph.rEdgeAttr_find, he]
    have hu' : u ≥ 0 := hu
    have hne_of : ∀ ab ∈ links (v :: rest), ab.1 ≠ u := by
      intro ab hab h
      exact hunot (h ▸ (links_mem hab).1)
    have hcross : crossings S (links (u :: v :: rest)) =
        (if S u && !S v then 1 else 0) + crossings S (links (v :: rest)) := by
      simp only [links, crossings, List.countP_cons]
      omega
    simp only [consume, hu', if_true, hread]
    by_cases hz : e.attr0 - (mf : ℚ) ≤ 0
    · simp only [hz, if_true]
      have heq : e.attr0 = (mf : ℚ) := le_antisymm (by linarith) hle
      obtain ⟨work1, h1, h2, h3, h4, _⟩ := ih v (work.remove u v) hv hnd' hpos'
        (inv.remove u v) (by
          intro ab hab
          rw [cGraph.firstEdge_remove inv.dir u v ab.1 ab.2 (hne_of ab hab)]
          exact hcap ab (by simp [links, hab]))
      have hcnt := cGraph.edgeCount_remove he
      refine ⟨work1, h1, h2, ?_, by omega, fun _ => by omega⟩
      rw [hcross]
      have hc := cGraph.cutCapacity_remove S he
      rw [hsrc, hdest, heq] at hc
      rw [hc] at h3
      push_cast
      split_ifs at h3 ⊢ <;> linarith
    · simp only [hz, if_false]
      have hzn : (mf : ℚ) < e.attr0 := by linarith
      have hmn : mf < (n : Int) := by
        rw [hn] at hzn
        exact_mod_cast hzn
      have hnat : ((((n : Int) - mf).toNat : ℕ) : ℚ) = e.attr0 - (mf : ℚ) := by
        have h2 : (((n : Int) - mf).toNat : Int) = (n : Int) - mf :=
          Int.toNat_of_nonneg (by omega)
        have h3 : ((((n : Int) - mf).toNat : ℕ) : ℚ) = ((((n : Int) - mf).toNat : Int) : ℚ) := by
          push_cast; rfl
        rw [h3, h2, hn]; push_cast; ring
      have hval : toStringAtof (e.attr0 - (mf : ℚ)) = (((n : Int) - mf).toNat : ℚ) := by
        have h1 : e.attr0 - (mf : ℚ) = (((n : Int) - mf : Int) : ℚ) := by
          rw [hn]; push_cast; ring
        rw [h1, toStringAtof_intCast, ← h1, hnat]
      rw [cGraph.wEdgeAttr_find _ he, hval]
      simp only
      generalize hz1 : ((n : Int) - mf).toNat = z at hnat
      obtain ⟨e1, he1⟩ : ∃ e1 : cEdge, e1 = { e with attr0 := ((z : ℕ) : ℚ) } := ⟨_, rfl⟩
      rw [← he1]
      have hsrc1 : e1.src = u := by rw [he1]; exact hsrc
      have hdest1 : e1.dest = v := by rw [he1]; exact hdest
      have hattr1 : e1.attr0 = e.attr0 - (mf : ℚ) := by rw [he1]; exact hnat
      have inv1 : FlowInv V (work.setEdge (work.vEdge.findIdx (work.joins u v)) e1) := by
        rw [he1]; exact inv.set _ e hemem z
      obtain ⟨work1, h1, h2, h3, h4, h5⟩ := ih v _ hv hnd' hpos' inv1 (by
          intro ab hab
          rw [cGraph.firstEdge_set inv.dir u v ab.1 ab.2 _ (hne_of ab hab) hsrc1]
          exact hcap ab (by simp [links, hab]))
      have hcnt : (work.setEdge (work.vEdge.findIdx (work.joins u v)) e1).edgeCount
          = work.edgeCount := by
        simp [cGraph.edgeCount, cGraph.setEdge]
      rw [hcnt] at h4 h5
      refine ⟨work1, h1, h2, ?_, h4, ?_⟩
      · have hc := cGraph.cutCapacity_set S e1 he
        simp only [hsrc, hdest, hsrc1, hdest1, hattr1] at hc
        rw [hc] at h3
        rw [hcross]
        push_cast
        split_ifs at h3 ⊢ <;> linarith
      · rintro ⟨ab, hab, e2, he2, heq2⟩
        simp only [links, List.mem_cons] at hab
        rcases hab with rfl | hab
        · simp only at he2
          rw [he] at he2
          simp only [Option.some.injEq] at he2
          subst he2
          rw [heq2] at hzn
          exact absurd hzn (lt_irrefl _)
        · refine h5 ⟨ab, hab, e2, ?_, heq2⟩
          rw [cGraph.firstEdge_set inv.dir u v ab.1 ab.2 _ (hne_of ab hab) hsrc1]
          exact he2

theorem wrap32_le (x : Int) (h : -2147483648 ≤ x) : wrap32 x ≤ x := by
  unfold wrap32; omega

theorem wrap32_ge (x : Int) : -2147483648 ≤ wrap32 x := by
  unfold wrap32; omega

/-- Every link of a sequence whose cost can be read costs no more than the
whole, the weights being non-negative. -/
theorem cGraph.linkCost_link_le (g : cGraph) (hw : ∀ e ∈ g.vEdge, 0 ≤ e.attr0) :
    ∀ (p : List Int) (c : ℚ), g.linkCost p = .ok c →
      0 ≤ c ∧ ∀ ab ∈ links p, ∃ e, g.firstEdge ab.1 ab.2 = some e ∧ e.attr0 ≤ c := by
  intro p
  induction p with
  | nil =>
    intro c hc
    simp only [cGraph.linkCost, Except.ok.injEq] at hc
    subst hc
    exact ⟨le_refl _, fun ab hab => by simp [links] at hab⟩
  | cons a t ih =>
    intro c hc
    cases t with
    | nil =>
      simp only [cGraph.linkCost, Except.ok.injEq] at hc
      subst hc
      exact ⟨le_refl _, fun ab hab => by simp [links] at hab⟩
    | cons b t' =>
      simp only [cGraph.linkCost] at hc
      rw [cGraph.rEdgeAttr_find] at hc
      cases hf : g.firstEdge a b with
      | none => rw [hf] at hc; simp at hc
      | some e =>
        rw [hf] at hc
        simp only at hc
        cases h2 : g.linkCost (b :: t') with
        | error x => rw [h2] at hc; simp at hc
        | ok c1 =>
          rw [h2] at hc
          simp only [Except.ok.injEq] at hc
          obtain ⟨hc1, hall⟩ := ih c1 h2
          have he0 := hw e (List.mem_of_find?_eq_some hf)
          refine ⟨by linarith, ?_⟩
          intro ab hab
          simp only [links, List.mem_cons] at hab
          rcases hab with rfl | hab
          · exact ⟨e, hf, by linarith⟩
          · obtain ⟨e2, h3, h4⟩ := hall ab hab
            exact ⟨e2, h3, by linarith⟩

theorem FlowInv.nonneg {V : Nat} {work : cGraph} (inv : FlowInv V work) :
    ∀ e ∈ work.vEdge, 0 ≤ e.attr0 := by
  intro e he
  obtain ⟨n, hn⟩ := inv.cap e he
  rw [hn]
  exact Nat.cast_nonneg n

theorem FlowInv.cutCapacity_nonneg {V : Nat} {work : cGraph} (inv : FlowInv V work)
    (S : Int → Bool) : 0 ≤ work.cutCapacity S := by
  unfold cGraph.cutCapacity
  apply List.sum_nonneg
  intro x hx
  simp only [List.mem_map] at hx
  obtain ⟨e, he, rfl⟩ := hx
  split
  · exact inv.nonneg e he
  · exact le_refl _

/-- The loop of `flows` ends within as many rounds as the working graph has
edges, plus one, and what it adds to `totalFlow` it takes from every cut that
separates `start` from `end`. -/
theorem flowsLoop_spec {V : Nat} (S : Int → Bool) {start end_ : Int}
    (hs : 0 ≤ start ∧ start < (V : Int)) (he : 0 ≤ end_ ∧ end_ < (V : Int))
    (hne : start ≠ end_) (hS : S start = true) (hE : S end_ = false) :
    ∀ (n : Nat) (work : cGraph) (total : Int), FlowInv V work → work.edgeCount < n →
      -2147483648 ≤ total →
      ∃ work1 total1, flowsLoop start end_ n work total = .ok (work1, total1) ∧
        FlowInv V work1 ∧
        (total1 : ℚ) + work1.cutCapacity S ≤ (total : ℚ) + work.cutCapacity S := by
  intro n
  induction n with
  | zero => intro work total _ h; omega
  | succ n ih =>
    intro work total inv hcount htot
    have hs' : work.inRange start := by unfold cGraph.inRange; rw [inv.nv]; exact hs
    have he' : work.inRange end_ := by unfold cGraph.inRange; rw [inv.nv]; exact he
    have hnn := inv.nonneg
    have hWle : ∀ e ∈ work.vEdge, 0 ≤ e.attr0 ∧ e.attr0 ≤ (work.vEdge.map cEdge.attr0).sum := by
      intro e hemem
      refine ⟨hnn e hemem, ?_⟩
      apply List.single_le_sum
      · intro x hx
        simp only [List.mem_map] at hx
        obtain ⟨e2, he2, rfl⟩ := hx
        exact hnn e2 he2
      · exact List.mem_map_of_mem _ hemem
    have hW0 : 0 ≤ (work.vEdge.map cEdge.attr0).sum := by
      apply List.sum_nonneg
      intro x hx
      simp only [List.mem_map] at hx
      obtain ⟨e2, he2, rfl⟩ := hx
      exact hnn e2 he2
    obtain ⟨s, k, dinv, _, _, hcase⟩ :=
      path_spec inv.wf (work.vEdge.map cEdge.attr0).sum hs' he' hne
    rcases hcase with ⟨_, hp⟩ | ⟨hpred, r, hr, hin, hp⟩
    · refine ⟨work, total, ?_, inv, le_refl _⟩
      simp only [flowsLoop, hp, if_true]
    · obtain ⟨hwalk, hcost⟩ := hr.walk dinv hin
      have hfin : vget s.dist end_ 0 < (INT_MAX : ℚ) := by
        refine lt_of_le_of_ne (dinv.dist_le end_ he') ?_
        intro h
        exact hpred ((dinv.pred_none end_ he').mpr h)
      obtain ⟨hh, hl, hch⟩ := hwalk
      -- the path has its first vertex and at least one more
      obtain ⟨a, rest, hrev⟩ : ∃ a rest, r.reverse = a :: rest := by
        cases hrr : r.reverse with
        | nil => rw [hrr] at hh; simp at hh
        | cons a rest => exact ⟨a, rest, rfl⟩
      rw [hrev] at hh hl hch hcost
      simp only [List.head?_cons, Option.some.injEq] at hh
      subst hh
      have hmem : ∀ x ∈ a :: rest, work.inRange x := by
        intro x hx
        rw [← hrev] at hx
        exact hin x (List.mem_reverse.mp hx)
      have hnd : (a :: rest).Nodup := by
        rw [← hrev]; exact List.nodup_reverse.mpr hr.nodup
      obtain ⟨_, hlinkle⟩ := cGraph.linkCost_link_le work hnn _ _ hcost
      have hcapn : ∀ ab ∈ links (a :: rest), ∃ e, work.firstEdge ab.1 ab.2 = some e ∧
          ∃ m : ℕ, e.attr0 = (m : ℚ) := by
        intro ab hab
        obtain ⟨e, h1, _⟩ := hlinkle ab hab
        exact ⟨e, h1, inv.cap e (List.mem_of_find?_eq_some h1)⟩
      have hpos : ∀ x ∈ rest, 0 ≤ x := fun x hx => (hmem x (List.mem_cons_of_mem _ hx)).1
      have ha0 : 0 ≤ a := hs.1
      obtain ⟨mf, hm1, hm2, hm3, hm4, hm5⟩ :=
        pathMaxflow_spec work rest a INT_MAX ha0 hpos hcapn
      have hmf0 : 0 ≤ mf := hm3 (by unfold INT_MAX; omega)
      -- there is a link, and its capacity is below INT_MAX
      obtain ⟨b, rest', hrest⟩ : ∃ b rest', rest = b :: rest' := by
        cases rest with
        | nil =>
          simp at hl
          exact absurd hl hne
        | cons b rest' => exact ⟨b, rest', rfl⟩
      have hlink : (a, b) ∈ links (a :: rest) := by rw [hrest]; simp [links]
      have hmflt : mf < INT_MAX := by
        obtain ⟨e1, h1, h2⟩ := hlinkle _ hlink
        obtain ⟨e2, h3, h4⟩ := hm4 _ hlink
        rw [h1] at h3
        simp only [Option.some.injEq] at h3
        subst h3
        have : (mf : ℚ) < (INT_MAX : ℚ) := by linarith
        exact_mod_cast this
      have hex : ∃ ab ∈ links (a :: rest), ∃ e, work.firstEdge ab.1 ab.2 = some e ∧
          e.attr0 = (mf : ℚ) := by
        rcases hm5 with h | h
        · omega
        · exact h
      obtain ⟨work1, hc1, hc2, hc3, _, hc5⟩ :=
        consume_spec S mf rest a work ha0 hnd hpos inv hm4
      have hlt := hc5 hex
      have hcr : 1 ≤ crossings S (links (a :: rest)) :=
        crossings_pos S (a :: rest) a end_ rfl hl hS hE
      obtain ⟨work2, total2, hf1, hf2, hf3⟩ := ih work1 (wrap32 (total + mf)) hc2 (by omega)
        (wrap32_ge _)
      refine ⟨work2, total2, ?_, hf2, ?_⟩
      · have hne_nil : ¬ (a :: rest = []) := by simp
        have hneg : ¬ ((-1 : Int) ≥ 0) := by omega
        have hpm : pathMaxflow work (a :: rest) (-1) INT_MAX = .ok mf := by
          simp only [pathMaxflow, hneg, if_false]; exact hm1
        have hcs : consume mf (a :: rest) (-1) work = .ok work1 := by
          simp only [consume, hneg, if_false]; exact hc1
        simp only [flowsLoop, hp, hrev, hne_nil, if_false, hpm, hcs]
        exact hf1
      · have hw := wrap32_le (total + mf) (by omega)
        have hw' : ((wrap32 (total + mf) : Int) : ℚ) ≤ (total : ℚ) + (mf : ℚ) := by
          exact_mod_cast hw
        have hcrq : (1 : ℚ) ≤ (crossings S (links (a :: rest)) : ℚ) := by exact_mod_cast hcr
        have hmfq : (0 : ℚ) ≤ (mf : ℚ) := by exact_mod_cast hmf0
        nlinarith

theorem cGraph.rEdgeAttr_ok (g : cGraph) (ei : Int) (h0 : 0 ≤ ei) (h1 : ei < (g.edgeCount : Int)) :
    ∃ w, g.rEdgeAttr ei = .ok w := by
  have hlt : ei.toNat < g.vEdge.length := by unfold cGraph.edgeCount at h1; omega
  have hn : ¬ ei < 0 := by omega
  simp only [cGraph.rEdgeAttr, hn, if_false, List.get?_eq_getElem?, List.getElem?_eq_getElem hlt]
  exact ⟨_, rfl⟩

theorem cGraph.rEdgeAttr_of_dest (work : cGraph) (ei : Int) (h : work.dest ei ≠ -1) :
    ∃ w, work.rEdgeAttr ei = .ok w := by
  unfold cGraph.dest at h
  unfold cGraph.rEdgeAttr
  by_cases hn : ei < 0
  · simp [hn] at h
  · simp only [hn, if_false] at h ⊢
    cases hg : work.vEdge.get? ei.toNat with
    | none => rw [hg] at h; simp at h
    | some e => exact ⟨_, rfl⟩

/-- The vector `vEdgeFlow` is built without a fault. -/
theorem edgeFlow_ok (g work : cGraph) :
    ∀ l : List Int, (∀ ei ∈ l, 0 ≤ ei ∧ ei < (g.edgeCount : Int)) →
      ∃ fs, edgeFlow g work l = .ok fs := by
  intro l
  induction l with
  | nil => intro _; exact ⟨[], rfl⟩
  | cons ei rest ih =>
    intro h
    obtain ⟨h0, h1⟩ := h ei (List.mem_cons_self _ _)
    obtain ⟨fs, hfs⟩ := ih (fun x hx => h x (List.mem_cons_of_mem _ hx))
    obtain ⟨oc, hoc⟩ := g.rEdgeAttr_ok ei h0 h1
    by_cases hd : work.dest ei = -1
    · exact ⟨toInt oc :: fs, by simp only [edgeFlow, hoc, hd, if_true, hfs]⟩
    · obtain ⟨wc, hwc⟩ := work.rEdgeAttr_of_dest ei hd
      exact ⟨toInt (oc - wc) :: fs, by simp only [edgeFlow, hoc, hd, if_false, hwc, hfs]⟩

/-! ## `allPaths` -/

theorem map_set_same {α β : Type} (f : α → β) :
    ∀ (l : List α) (n : Nat) (e e1 : α), l.get? n = some e → f e1 = f e →
      (l.set n e1).map f = l.map f := by
  intro l
  induction l with
  | nil => intro n e e1 h; simp at h
  | cons a t ih =>
    intro n e e1 h hf
    cases n with
    | zero =>
      simp at h
      subst h
      simp [hf]
    | succ m =>
      simp only [List.get?_cons_succ] at h
      simp only [List.set_cons_succ, List.map_cons, ih m e e1 h hf]

namespace cGraph

theorem sameShape_refl (g : cGraph) : g.sameShape g := ⟨rfl, rfl, rfl⟩

theorem hasEdge_iff_map (g : cGraph) (u v : Int) :
    g.hasEdge u v ↔ ∃ sd ∈ g.vEdge.map (fun e => (e.src, e.dest)),
      (sd.1 = u ∧ sd.2 = v) ∨ (g.fDirected = false ∧ sd.1 = v ∧ sd.2 = u) := by
  unfold hasEdge joins
  simp only [List.mem_map, Bool.or_eq_true, Bool.and_eq_true, beq_iff_eq, Bool.not_eq_true']
  constructor
  · rintro ⟨e, he, h⟩
    refine ⟨(e.src, e.dest), ⟨e, he, rfl⟩, ?_⟩
    rcases h with h | ⟨⟨h0, h1⟩, h2⟩
    · exact Or.inl h
    · exact Or.inr ⟨h0, h1, h2⟩
  · rintro ⟨sd, ⟨e, he, rfl⟩, h⟩
    refine ⟨e, he, ?_⟩
    rcases h with h | ⟨h0, h1, h2⟩
    · exact Or.inl h
    · exact Or.inr ⟨⟨h0, h1⟩, h2⟩

theorem sameShape.hasEdge {g h : cGraph} (hs : g.sameShape h) (u v : Int) :
    h.hasEdge u v ↔ g.hasEdge u v := by
  rw [hasEdge_iff_map, hasEdge_iff_map, hs.1, hs.2.2]

theorem wellFormed_iff_map (g : cGraph) :
    g.wellFormed ↔ ∀ sd ∈ g.vEdge.map (fun e => (e.src, e.dest)),
      0 ≤ sd.1 ∧ sd.1 < (g.nVertex : Int) ∧ 0 ≤ sd.2 ∧ sd.2 < (g.nVertex : Int) := by
  unfold wellFormed vertexCount
  simp only [List.mem_map]
  constructor
  · rintro h sd ⟨e, he, rfl⟩
    exact h e he
  · intro h e he
    exact h (e.src, e.dest) ⟨e, he, rfl⟩

theorem sameShape.wellFormed {g h : cGraph} (hs : g.sameShape h) (hwf : g.wellFormed) :
    h.wellFormed := by
  rw [wellFormed_iff_map] at hwf ⊢
  rw [hs.2.1, hs.2.2]
  exact hwf

theorem sameShape.inRange {g h : cGraph} (hs : g.sameShape h) (v : Int) :
    h.inRange v ↔ g.inRange v := by
  unfold cGraph.inRange vertexCount
  rw [hs.2.1]

theorem sameShape.setEdge {g h : cGraph} (hs : g.sameShape h) (n : Nat) (e : cEdge) (x : ℚ)
    (he : h.vEdge.get? n = some e) : g.sameShape (h.setEdge n { e with attr0 := x }) := by
  refine ⟨hs.1, hs.2.1, ?_⟩
  unfold cGraph.setEdge
  simp only
  exact (map_set_same (fun e : cEdge => (e.src, e.dest)) h.vEdge n e
    { src := e.src, dest := e.dest, attr0 := x } he rfl).trans hs.2.2

end cGraph

/-- The loop that raises the link costs ends normally and changes attribute
values only. -/
theorem bumpCosts_spec (g : cGraph) :
    ∀ (p : List Int) (work : cGraph), g.sameShape work →
      (∀ ab ∈ links p, g.hasEdge ab.1 ab.2) →
      ∃ work1, bumpCosts work p = .ok work1 ∧ g.sameShape work1 := by
  intro p
  induction p with
  | nil => intro work hs _; exact ⟨work, by simp [bumpCosts], hs⟩
  | cons a t ih =>
    intro work hs hl
    cases t with
    | nil => exact ⟨work, by simp [bumpCosts], hs⟩
    | cons b t' =>
      have hab : work.hasEdge a b := (hs.hasEdge a b).mpr (hl (a, b) (by simp [links]))
      obtain ⟨e, hf, _, _⟩ := cGraph.firstEdge_of_hasEdge hab
      have hread : work.rEdgeAttr (work.find a b) = .ok e.attr0 := by
        rw [cGraph.rEdgeAttr_find, hf]
      obtain ⟨_, hget⟩ := cGraph.find_of_firstEdge hf
      have hs1 := hs.setEdge (work.vEdge.findIdx (work.joins a b)) e
        (wrap32 (toInt e.attr0 + 1)) hget
      obtain ⟨work1, h1, h2⟩ := ih _ hs1 (fun ab hab => hl ab (by simp [links, hab]))
      refine ⟨work1, ?_, h2⟩
      simp only [bumpCosts, hread, cGraph.wEdgeAttr_find _ hf]
      exact h1

/-- Two sequences without repetition that end at the same vertex are told apart
by `std::equal` without reading past the end of the second. -/
theorem stdEqual_spec :
    ∀ (prev p : List Int) (e : Int), prev.Nodup → p.Nodup → prev.getLast? = some e →
      p.getLast? = some e → stdEqual prev p = .ok (decide (prev = p)) := by
  intro prev
  induction prev with
  | nil => intro p e _ _ h; simp at h
  | cons a as ih =>
    intro p e hnd1 hnd2 hl1 hl2
    cases p with
    | nil => simp at hl2
    | cons b bs =>
      by_cases hab : a = b
      · subst hab
        simp only [stdEqual, if_true]
        cases as with
        | nil =>
          simp only [List.getLast?_singleton, Option.some.injEq] at hl1
          subst hl1
          cases bs with
          | nil => simp [stdEqual]
          | cons c cs =>
            rw [List.getLast?_cons_cons] at hl2
            have hmem : a ∈ c :: cs := List.mem_of_getLast?_eq_some hl2
            exact absurd hmem (List.nodup_cons.mp hnd2).1
        | cons a2 as' =>
          rw [List.getLast?_cons_cons] at hl1
          cases bs with
          | nil =>
            simp only [List.getLast?_singleton, Option.some.injEq] at hl2
            subst hl2
            have hmem : a ∈ a2 :: as' := List.mem_of_getLast?_eq_some hl1
            exact absurd hmem (List.nodup_cons.mp hnd1).1
          | cons c cs =>
            rw [List.getLast?_cons_cons] at hl2
            rw [ih (c :: cs) e (List.nodup_cons.mp hnd1).2 (List.nodup_cons.mp hnd2).2 hl1 hl2]
            simp
      · simp [stdEqual, hab]

theorem isNew_spec (e : Int) :
    ∀ (ret : List (List Int)) (p : List Int),
      (∀ prev ∈ ret, prev.Nodup ∧ prev.getLast? = some e) → p.Nodup →
      p.getLast? = some e → isNew ret p = .ok (decide (p ∉ ret)) := by
  intro ret
  induction ret with
  | nil => intro p _ _ _; simp [isNew]
  | cons prev rest ih =>
    intro p hall hnd hl
    obtain ⟨h1, h2⟩ := hall prev (List.mem_cons_self _ _)
    have hrest := ih p (fun q hq => hall q (List.mem_cons_of_mem _ hq)) hnd hl
    simp only [isNew, stdEqual_spec prev p e h1 hnd h2 hl]
    by_cases heq : prev = p
    · subst heq
      simp
    · simp only [heq, decide_False, hrest]
      have hne : ¬ p = prev := fun h => heq h.symm
      simp [hne]

/-- Every sequence without repetition over the vertices is a simple sequence. -/
theorem cGraph.mem_simpleSequences (g : cGraph) (p : List Int) (hnd : p.Nodup)
    (hin : ∀ x ∈ p, g.inRange x) : p ∈ g.simpleSequences := by
  unfold cGraph.simpleSequences
  rw [List.mem_flatMap]
  refine ⟨(intRange g.vertexCount).filter (fun x => decide (x ∈ p)), ?_, ?_⟩
  · rw [List.mem_sublists]
    exact List.filter_sublist _
  · rw [List.mem_permutations]
    have hr : (intRange g.vertexCount).Nodup := by
      unfold intRange
      exact (List.nodup_range _).map (fun a b h => by simpa using h)
    rw [List.perm_ext_iff_of_nodup hnd (hr.filter _)]
    intro a
    simp only [List.mem_filter, decide_eq_true_eq]
    constructor
    · intro ha
      exact ⟨(mem_intRange _ _).mpr (hin a ha), ha⟩
    · intro ha
      exact ha.2

theorem cGraph.sameShape.isWalk {g h : cGraph} (hs : g.sameShape h) {u v : Int} {p : List Int}
    (hw : h.isWalk u v p) : g.isWalk u v p :=
  ⟨hw.1, hw.2.1, fun ab hab => (hs.hasEdge ab.1 ab.2).mp (hw.2.2 ab hab)⟩

/-- The loop of `allPaths` ends once every simple sequence could have been
recorded; it then holds different simple paths of the input graph, and the
last call of `path` gave nothing or a path recorded before. -/
theorem allPathsLoop_spec (g : cGraph) (hwf : g.wellFormed) {start end_ : Int}
    (hs : g.inRange start) (he : g.inRange end_) (hne : start ≠ end_) :
    ∀ (n : Nat) (work : cGraph) (ret : List (List Int)), g.sameShape work →
      (∀ p ∈ ret, p.Nodup ∧ g.isWalk start end_ p ∧ ∀ x ∈ p, g.inRange x) → ret.Nodup →
      g.simpleSequences.length + 1 ≤ ret.length + n →
      ∃ work1 ps, allPathsLoop start end_ n work ret = .ok (work1, ps) ∧
        g.sameShape work1 ∧ ps.Nodup ∧
        (∀ p ∈ ps, p.Nodup ∧ g.isWalk start end_ p ∧ ∀ x ∈ p, g.inRange x) ∧
        ∃ p c, path work1 start end_ = .ok (p, c) ∧ (p = [] ∨ p ∈ ps) := by
  intro n
  induction n with
  | zero =>
    intro work ret _ hall hnd hlen
    have hsub : ret ⊆ g.simpleSequences :=
      fun p hp => g.mem_simpleSequences p (hall p hp).1 (hall p hp).2.2
    have := (List.subperm_of_subset hnd hsub).length_le
    omega
  | succ n ih =>
    intro work ret hshape hall hnd hlen
    have hwf' := hshape.wellFormed hwf
    have hs' := (hshape.inRange start).mpr hs
    have he' := (hshape.inRange end_).mpr he
    obtain ⟨s, k, dinv, _, _, hcase⟩ := path_spec hwf' 0 hs' he' hne
    rcases hcase with ⟨_, hp⟩ | ⟨_, r, hr, hin, hp⟩
    · refine ⟨work, ret, ?_, hshape, hnd, hall, [], -1, hp, Or.inl rfl⟩
      simp only [allPathsLoop, hp, if_true]
    · obtain ⟨hwalk, _⟩ := hr.walk dinv hin
      have hwalkg : g.isWalk start end_ r.reverse := hshape.isWalk hwalk
      have hndp : r.reverse.Nodup := List.nodup_reverse.mpr hr.nodup
      have hinp : ∀ x ∈ r.reverse, g.inRange x :=
        fun x hx => (hshape.inRange x).mp (hin x (List.mem_reverse.mp hx))
      have hne_nil : ¬ (r.reverse = []) := by
        intro h
        have := hwalk.1
        rw [h] at this
        simp at this
      have hnew := isNew_spec end_ ret r.reverse
        (fun q hq => ⟨(hall q hq).1, (hall q hq).2.1.2.1⟩) hndp hwalk.2.1
      by_cases hmem : r.reverse ∈ ret
      · refine ⟨work, ret, ?_, hshape, hnd, hall, r.reverse, _, hp, Or.inr hmem⟩
        have hd : decide (r.reverse ∉ ret) = false := by simp [hmem]
        rw [hd] at hnew
        simp only [allPathsLoop, hp, hne_nil, if_false, hnew]
      · have hd : decide (r.reverse ∉ ret) = true := by simp [hmem]
        rw [hd] at hnew
        obtain ⟨work1, hb1, hb2⟩ := bumpCosts_spec g r.reverse work hshape
          hwalkg.2.2
        obtain ⟨work2, ps, h1, h2, h3, h4, h5⟩ := ih work1 (ret ++ [r.reverse]) hb2
          (by
            intro q hq
            rcases List.mem_append.mp hq with hq | hq
            · exact hall q hq
            · simp only [List.mem_singleton] at hq
              subst hq
              exact ⟨hndp, hwalkg, hinp⟩)
          (by
            rw [List.nodup_append]
            refine ⟨hnd, by simp, ?_⟩
            intro q hq1 hq2
            simp only [List.mem_singleton] at hq2
            subst hq2
            exact hmem hq1)
          (by simp; omega)
        refine ⟨work2, ps, ?_, h2, h3, h4, h5⟩
        simp only [allPathsLoop, hp, hne_nil, if_false, hnew, hb1]
        exact h1

/-! ## The claims -/

/-- Rational numbers with denominator 1 and non-negative numerator are natural
numbers. -/
theorem natWeights_of_den (g : cGraph)
    (h : ∀ e ∈ g.vEdge, 0 ≤ e.attr0.num ∧ e.attr0.den = 1) :
    ∀ e ∈ g.vEdge, ∃ n : ℕ, e.attr0 = (n : ℚ) := by
  intro e he
  obtain ⟨h0, h1⟩ := h e he
  refine ⟨e.attr0.num.toNat, ?_⟩
  have h2 : ((e.attr0.num.toNat : ℕ) : ℚ) = ((e.attr0.num.toNat : Int) : ℚ) := by
    push_cast; rfl
  rw [h2, Int.toNat_of_nonneg h0]
  exact (Rat.coe_int_num_of_den_eq_one h1).symm

/-- C1, counterexample: a simple graph of two vertices joined by one edge of
weight `INT_MAX`; vertex 1 is reachable from vertex 0, and `path` returns the
empty sequence with cost -1, which is no walk from 0 to 1. -/
theorem path_heavy_edge_empty :
    heavyEdgeGraph.isSimple ∧ heavyEdgeGraph.wellFormed ∧
      (∀ e ∈ heavyEdgeGraph.vEdge, 0 ≤ e.attr0) ∧
      heavyEdgeGraph.inRange 0 ∧ heavyEdgeGraph.inRange 1 ∧
      heavyEdgeGraph.Reachable 0 1 ∧
      path heavyEdgeGraph 0 1 = .ok ([], -1) ∧
      ¬ ∃ p c, path heavyEdgeGraph 0 1 = .ok (p, c) ∧ heavyEdgeGraph.isWalk 0 1 p := by
  have hp : path heavyEdgeGraph 0 1 = .ok ([], -1) := by decide!
  refine ⟨by decide, by decide, by decide!, by decide, by decide,
    Relation.ReflTransGen.single (show heavyEdgeGraph.hasEdge 0 1 by decide), hp, ?_⟩
  rintro ⟨p, c, h1, h2⟩
  rw [hp] at h1
  simp only [Except.ok.injEq, Prod.mk.injEq] at h1
  rw [← h1.1] at h2
  exact absurd h2 (by decide)

/-- C2, the code at the failing input: in the triangle with weights 3/4 (edge
0-1), 1/2 (edge 0-2) and 1/8 (edge 2-1), a simple graph with non-negative
weights, `path` from 0 to 1 returns the direct edge with cost 3/4, although the
simple path 0, 2, 1 costs 5/8. -/
theorem path_fraction_not_shortest :
    fractionGraph.isSimple ∧ (∀ e ∈ fractionGraph.vEdge, 0 ≤ e.attr0) ∧
      path fractionGraph 0 1 = .ok ([0, 1], 3 / 4) ∧
      fractionGraph.isWalk 0 1 [0, 2, 1] ∧ [(0 : Int), 2, 1].Nodup ∧
      fractionGraph.linkCost [0, 2, 1] = .ok (5 / 8) :=
  ⟨by decide!, by decide!, by decide!, by decide!, by decide, by decide!⟩

/-- C3: in a well formed graph with non-negative weights, for vertices
`start`, `end_` with `end_` not reachable from `start`, `path` returns the empty
sequence with cost -1. -/
theorem path_unreachable (g : cGraph) (start end_ : Int) (hwf : g.wellFormed)
    (_hw : ∀ e ∈ g.vEdge, 0 ≤ e.attr0) (hs : g.inRange start) (he : g.inRange end_)
    (hn : ¬ g.Reachable start end_) : path g start end_ = .ok ([], -1) := by
  have hne : start ≠ end_ := by
    intro h
    subst h
    exact hn Relation.ReflTransGen.refl
  obtain ⟨s, k, inv, _, _, hcase⟩ := path_spec hwf 0 hs he hne
  rcases hcase with ⟨_, hp⟩ | ⟨_, r, hr, hin, _⟩
  · exact hp
  · exact absurd (cGraph.isWalk_reachable (hr.walk inv hin).1) hn

/-- C3, witness: the directed graph with the single edge 1 -> 0, from 0 to 1. -/
theorem path_unreachable_witness :
    ¬ oneWayGraph.Reachable 0 1 ∧ path oneWayGraph 0 1 = .ok ([], -1) := by
  have hn : ¬ oneWayGraph.Reachable 0 1 := by
    intro h
    rcases Relation.ReflTransGen.cases_head h with h | ⟨c, hc, _⟩
    · exact absurd h (by decide)
    · simp [cGraph.hasEdge, cGraph.joins, oneWayGraph] at hc
  exact ⟨hn, path_unreachable oneWayGraph 0 1 (by decide) (by decide!) (by decide)
    (by decide) hn⟩

/-- C4, the code at the failing input: on the unit test graph of 4 vertices,
`path` with start index 4 = vertexCount passes the range test and writes
`dist[4]` outside the vector; with end index 4 it reads `pred[4]` outside the
vector.  Indices below 0 or above vertexCount do return the empty sequence
with cost -1. -/
theorem path_index_vertexCount :
    path testGraph 4 0 = .error .outOfRange ∧ path testGraph 0 4 = .error .outOfRange ∧
      path testGraph 5 0 = .ok ([], -1) ∧ path testGraph (-1) 0 = .ok ([], -1) :=
  ⟨by decide!, by decide!, by decide!, by decide!⟩

/-- C5, the code at the failing input: on the directed graph 0->1 (1), 1->2 (1),
2->3 (1), 0->2 (5), 1->3 (5) the total returned by `flows` from 0 to 3 is 1,
although the flow that sends one unit along 0, 1, 3 and one along 0, 2, 3 has
value 2, which is also the capacity of the cut around the vertices 0 and 2. -/
theorem flows_cross_not_maximum :
    flows 6 crossGraph 0 3 = .ok (1, [-4, -4, 1, 5, 5]) ∧
      crossGraph.isFlow [1, 0, 1, 1, 1] 0 3 ∧
      crossGraph.flowValue [1, 0, 1, 1, 1] 0 = 2 ∧
      crossGraph.cutCapacity (fun v => v == 0 || v == 2) = 2 :=
  ⟨by decide!, by decide!, by decide!, by decide!⟩

/-- C6: for a directed, well formed graph with natural capacities, distinct
vertices `start`, `end_` and any vertex set `S` that holds `start` and not
`end_`, `flows` returns (its loop needs at most `edgeCount + 1` rounds) and the
total it returns is at most the capacity of the cut `S`. -/
theorem flows_le_cut (g : cGraph) (start end_ : Int) (S : Int → Bool) (fuel : Nat)
    (hdir : g.isDirected = true) (hwf : g.wellFormed)
    (hcap : ∀ e ∈ g.vEdge, ∃ n : ℕ, e.attr0 = (n : ℚ))
    (hs : g.inRange start) (he : g.inRange end_) (hne : start ≠ end_)
    (hS : S start = true) (hE : S end_ = false) (hfuel : g.edgeCount < fuel) :
    ∃ total vEdgeFlow, flows fuel g start end_ = .ok (total, vEdgeFlow) ∧
      (total : ℚ) ≤ g.cutCapacity S := by
  have inv : FlowInv g.vertexCount g := ⟨hdir, hwf, rfl, hcap⟩
  obtain ⟨work1, total1, h1, h2, h3⟩ :=
    flowsLoop_spec S hs he hne hS hE fuel g 0 inv hfuel (by omega)
  obtain ⟨fs, hfs⟩ := edgeFlow_ok g work1 (intRange g.edgeCount)
    (fun ei hei => (mem_intRange _ _).mp hei)
  refine ⟨total1, fs, ?_, ?_⟩
  · have hd : (!g.isDirected) = false := by rw [hdir]; rfl
    simp only [flows, hd, Bool.false_eq_true, if_false, h1, hfs]
  · have := h2.cutCapacity_nonneg S
    push_cast at h3
    linarith

/-- C6, witness: the graph `crossGraph` from 0 to 3 and the cut around the
vertices 0 and 1, of capacity 1 + 5 + 5. -/
theorem flows_le_cut_witness :
    ∃ total vEdgeFlow, flows 6 crossGraph 0 3 = .ok (total, vEdgeFlow) ∧
      (total : ℚ) ≤ crossGraph.cutCapacity (fun v => v == 0 || v == 1) :=
  flows_le_cut crossGraph 0 3 (fun v => v == 0 || v == 1) 6 (by decide) (by decide)
    (natWeights_of_den crossGraph (by decide!)) (by decide) (by decide) (by decide)
    (by decide) (by decide) (by decide)

/-- C8: `flows` on a graph that is not directed throws its runtime error,
whatever the edges, the capacities, the two vertices and the fuel. -/
theorem flows_undirected (g : cGraph) (start end_ : Int) (fuel : Nat)
    (h : g.isDirected = false) :
    flows fuel g start end_ =
      .error (.runtimeError
        "Flow calculation needs directed graph ( 2nd input line must be 'g')") := by
  simp [flows, h]

/-- C8, witness: the unit test graph of `TEST(flows)`, one undirected edge of
capacity 7. -/
theorem flows_undirected_witness :
    undirectedEdgeGraph.isDirected = false ∧
      flows 2 undirectedEdgeGraph 0 1 =
        .error (.runtimeError
          "Flow calculation needs directed graph ( 2nd input line must be 'g')") :=
  ⟨by decide, flows_undirected undirectedEdgeGraph 0 1 2 (by decide)⟩

/-- C9: for a well formed graph with natural weights and distinct vertices
`start`, `end_`, `allPaths` returns (given one round more than there are vertex
sequences without repetition) sequences that are pairwise different, each
without a repeated vertex and each a walk from `start` to `end_` along edges of
the input graph. -/
theorem allPaths_distinct_simple (g : cGraph) (start end_ : Int) (fuel : Nat)
    (hwf : g.wellFormed) (_hw : ∀ e ∈ g.vEdge, ∃ n : ℕ, e.attr0 = (n : ℚ))
    (hs : g.inRange start) (he : g.inRange end_) (hne : start ≠ end_)
    (hfuel : g.simpleSequences.length < fuel) :
    ∃ ps, allPaths fuel g start end_ = .ok ps ∧ ps.Pairwise (fun p q => p ≠ q) ∧
      ∀ p ∈ ps, p.Nodup ∧ g.isWalk start end_ p := by
  obtain ⟨work1, ps, h1, _, h3, h4, _⟩ :=
    allPathsLoop_spec g hwf hs he hne fuel g [] g.sameShape_refl
      (fun p hp => by simp at hp) List.nodup_nil (by simp; omega)
  refine ⟨ps, ?_, h3, fun p hp => ⟨(h4 p hp).1, (h4 p hp).2.1⟩⟩
  simp only [allPaths, h1]

/-- C9, witness: the unit test graph from a = 0 to c = 2, with 66 rounds. -/
theorem allPaths_distinct_simple_witness :
    ∃ ps, allPaths 66 testGraph 0 2 = .ok ps ∧ ps.Pairwise (fun p q => p ≠ q) ∧
      ∀ p ∈ ps, p.Nodup ∧ testGraph.isWalk 0 2 p :=
  allPaths_distinct_simple testGraph 0 2 66 (by decide)
    (natWeights_of_den testGraph (by decide!)) (by decide) (by decide) (by decide)
    (by decide!)

/-- C10: for a well formed graph with natural weights and distinct vertices
`start`, `end_`, the loop of `allPaths` terminates: there is a number of rounds
from which on it ends normally, and it ends with a working graph on which `path`
returns the empty sequence or a sequence recorded before. -/
theorem allPaths_terminates (g : cGraph) (start end_ : Int)
    (hwf : g.wellFormed) (_hw : ∀ e ∈ g.vEdge, ∃ n : ℕ, e.attr0 = (n : ℚ))
    (hs : g.inRange start) (he : g.inRange end_) (hne : start ≠ end_) :
    ∃ N, ∀ fuel, N ≤ fuel →
      ∃ work ps, allPathsLoop start end_ fuel g [] = .ok (work, ps) ∧
        allPaths fuel g start end_ = .ok ps ∧
        ∃ p c, path work start end_ = .ok (p, c) ∧ (p = [] ∨ p ∈ ps) := by
  refine ⟨g.simpleSequences.length + 1, ?_⟩
  intro fuel hfuel
  obtain ⟨work1, ps, h1, _, _, _, h5⟩ :=
    allPathsLoop_spec g hwf hs he hne fuel g [] g.sameShape_refl
      (fun p hp => by simp at hp) List.nodup_nil (by simp; omega)
  exact ⟨work1, ps, h1, by simp only [allPaths, h1], h5⟩

/-- C10, witness: the graph `crossGraph` from 0 to 3. -/
theorem allPaths_terminates_witness :
    ∃ N, ∀ fuel, N ≤ fuel →
      ∃ work ps, allPathsLoop 0 3 fuel crossGraph [] = .ok (work, ps) ∧
        allPaths fuel crossGraph 0 3 = .ok ps ∧
        ∃ p c, path work 0 3 = .ok (p, c) ∧ (p = [] ∨ p ∈ ps) :=
  allPaths_terminates crossGraph 0 3 (by decide)
    (natWeights_of_den crossGraph (by decide!)) (by decide) (by decide) (by decide)

/-! ## Depth first search -/

theorem dfsPush_spec (visited : List Bool) (l wait : List Int)
    (h : ∀ w ∈ l, 0 ≤ w ∧ w < (visited.length : Int)) :
    dfsPush visited l wait =
      .ok ((l.filter fun w => !vget visited w false).reverse ++ wait) := by
  induction l generalizing wait with
  | nil => rfl
  | cons w rest ih =>
    have hw := h w (List.mem_cons_self _ _)
    have ih1 := fun wait => ih wait (fun x hx => h x (List.mem_cons_of_mem _ hx))
    unfold dfsPush
    have h1 : ¬ w < 0 := by omega
    have h2 : ¬ (visited.length : Int) ≤ w := by omega
    simp only [h1, h2, if_false]
    by_cases hv : vget visited w false = true
    · simp [hv, ih1, List.filter_cons]
    · simp [hv, ih1, List.filter_cons]

theorem dfsRec_mem (g : cGraph) (n : Nat) (seen : List Int) (v : Int) (h : v ∈ seen) :
    dfsRec g n seen v = seen := by
  cases n <;> simp [dfsRec, h]

theorem foldl_extends (f : List Int → Int → List Int) (hf : ∀ seen v, seen <+: f seen v) :
    ∀ (l : List Int) (seen : List Int), seen <+: l.foldl f seen := by
  intro l
  induction l with
  | nil => intro seen; exact List.prefix_refl _
  | cons w rest ih => intro seen; exact (hf seen w).trans (ih _)

theorem dfsRec_extends (g : cGraph) : ∀ (n : Nat) (seen : List Int) (v : Int),
    seen <+: dfsRec g n seen v := by
  intro n
  induction n with
  | zero => intro seen v; exact List.prefix_refl _
  | succ n ih =>
    intro seen v
    unfold dfsRec
    by_cases h : v ∈ seen
    · simp only [h, if_true]; exact List.prefix_refl _
    · simp only [h, if_false]
      exact (List.prefix_append seen [v]).trans (foldl_extends _ ih _ _)

/-- The recursive search keeps its sequence free of repetition and inside the
graph. -/
theorem dfsRec_good {g : cGraph} (hwf : g.wellFormed) : ∀ (n : Nat) (seen : List Int) (v : Int),
    seen.Nodup → (∀ x ∈ seen, g.inRange x) → g.inRange v →
    (dfsRec g n seen v).Nodup ∧ ∀ x ∈ dfsRec g n seen v, g.inRange x := by
  intro n
  induction n with
  | zero => intro seen v h1 h2 _; exact ⟨h1, h2⟩
  | succ n ih =>
    intro seen v h1 h2 hv
    unfold dfsRec
    by_cases h : v ∈ seen
    · simp only [h, if_true]; exact ⟨h1, h2⟩
    · simp only [h, if_false]
      have key : ∀ (l : List Int) (s : List Int), (∀ w ∈ l, g.inRange w) → s.Nodup →
          (∀ x ∈ s, g.inRange x) →
          (l.foldl (dfsRec g n) s).Nodup ∧ ∀ x ∈ l.foldl (dfsRec g n) s, g.inRange x := by
        intro l
        induction l with
        | nil => intro s _ a b; exact ⟨a, b⟩
        | cons w rest ihl =>
          intro s hl a b
          have := ih s w a b (hl w (List.mem_cons_self _ _))
          exact ihl _ (fun x hx => hl x (List.mem_cons_of_mem _ hx)) this.1 this.2
      refine key _ _ ?_ ?_ ?_
      · intro w hw
        rw [List.mem_reverse, cGraph.mem_adjacentOut] at hw
        exact (cGraph.hasEdge_inRange hwf hw).2
      · exact List.nodup_append.mpr ⟨h1, List.nodup_singleton v, by
          intro a ha hb; rw [List.mem_singleton] at hb; subst hb; exact h ha⟩
      · intro x hx
        rw [List.mem_append, List.mem_singleton] at hx
        rcases hx with hx | hx
        · exact h2 x hx
        · subst hx; exact hv

theorem full_mem {g : cGraph} {seen : List Int} {v : Int} (h1 : seen.Nodup)
    (h2 : ∀ x ∈ seen, g.inRange x) (hv : g.inRange v) (hlen : g.vertexCount ≤ seen.length) :
    v ∈ seen := by
  by_contra h
  have hnd : (v :: seen).Nodup := List.nodup_cons.mpr ⟨h, h1⟩
  have := nodup_length_le (v :: seen) g.vertexCount hnd (by
    intro x hx
    rcases List.mem_cons.mp hx with hx | hx
    · subst hx; exact hv
    · exact h2 x hx)
  simp at this
  omega

theorem dfsRec_fuel {g : cGraph} (hwf : g.wellFormed) : ∀ (n m : Nat) (seen : List Int) (v : Int),
    seen.Nodup → (∀ x ∈ seen, g.inRange x) → g.inRange v →
    g.vertexCount ≤ n + seen.length → g.vertexCount ≤ m + seen.length →
    dfsRec g n seen v = dfsRec g m seen v := by
  intro n
  induction n with
  | zero =>
    intro m seen v h1 h2 hv hn _
    have hmem : v ∈ seen := full_mem h1 h2 hv (by omega)
    rw [dfsRec_mem g 0 seen v hmem, dfsRec_mem g m seen v hmem]
  | succ n ih =>
    intro m seen v h1 h2 hv hn hm
    by_cases h : v ∈ seen
    · rw [dfsRec_mem g _ seen v h, dfsRec_mem g m seen v h]
    · have hlt : seen.length < g.vertexCount := by
        by_contra hc
        exact h (full_mem h1 h2 hv (by omega))
      obtain ⟨m, rfl⟩ : ∃ k, m = k + 1 := ⟨m - 1, by omega⟩
      unfold dfsRec
      simp only [h, if_false]
      have key : ∀ (l : List Int) (s : List Int), (∀ w ∈ l, g.inRange w) → s.Nodup →
          (∀ x ∈ s, g.inRange x) → g.vertexCount ≤ n + s.length →
          g.vertexCount ≤ m + s.length →
          l.foldl (dfsRec g n) s = l.foldl (dfsRec g m) s := by
        intro l
        induction l with
        | nil => intro s _ _ _ _ _; rfl
        | cons w rest ihl =>
          intro s hl a b c d
          have hw := hl w (List.mem_cons_self _ _)
          have e := ih m s w a b hw c d
          have gd := dfsRec_good hwf n s w a b hw
          have hp := (dfsRec_extends g n s w).length_le
          simp only [List.foldl_cons]
          rw [← e]
          exact ihl _ (fun x hx => hl x (List.mem_cons_of_mem _ hx)) gd.1 gd.2
            (by omega) (by omega)
      refine key _ _ ?_ ?_ ?_ ?_ ?_
      · intro w hw
        rw [List.mem_reverse, cGraph.mem_adjacentOut] at hw
        exact (cGraph.hasEdge_inRange hwf hw).2
      · exact List.nodup_append.mpr ⟨h1, List.nodup_singleton v, by
          intro a ha hb; rw [List.mem_singleton] at hb; subst hb; exact h ha⟩
      · intro x hx
        rw [List.mem_append, List.mem_singleton] at hx
        rcases hx with hx | hx
        · exact h2 x hx
        · subst hx; exact hv
      · simp; omega
      · simp; omega

theorem foldl_dfsRec_filter (g : cGraph) (n : Nat) (p : Int → Bool) :
    ∀ (l : List Int) (seen : List Int), (∀ w ∈ l, p w = false → w ∈ seen) →
    (l.filter p).foldl (dfsRec g n) seen = l.foldl (dfsRec g n) seen := by
  intro l
  induction l with
  | nil => intro seen _; rfl
  | cons w rest ih =>
    intro seen h
    by_cases hp : p w = true
    · rw [List.filter_cons_of_pos hp]
      simp only [List.foldl_cons]
      apply ih
      intro x hx hpx
      exact (dfsRec_extends g n seen w).subset (h x (List.mem_cons_of_mem _ hx) hpx)
    · rw [List.filter_cons_of_neg hp]
      simp only [List.foldl_cons]
      have hw : w ∈ seen := h w (List.mem_cons_self _ _) (by simpa using hp)
      rw [dfsRec_mem g n seen w hw]
      exact ih seen (fun x hx hpx => h x (List.mem_cons_of_mem _ hx) hpx)

theorem dfsMeasure_skip (g : cGraph) (visited : List Bool) (v : Int) (wait : List Int) :
    dfsMeasure g visited wait + 1 = dfsMeasure g visited (v :: wait) := by
  unfold dfsMeasure
  simp only [List.length_cons]
  omega

theorem dfsMeasure_visit (g : cGraph) (visited : List Bool) (v : Int) (wait new : List Int)
    (hlen : visited.length = g.vertexCount) (hv : g.inRange v)
    (hun : vget visited v false = false) (hnew : new.length ≤ (g.adjacentOut v).length) :
    dfsMeasure g (vset visited v true) (new ++ wait) + 1 ≤ dfsMeasure g visited (v :: wait) := by
  unfold dfsMeasure
  obtain ⟨i, rfl⟩ : ∃ i : Nat, v = (i : Int) := ⟨v.toNat, (Int.toNat_of_nonneg hv.1).symm⟩
  have hi : i ∈ Finset.range g.vertexCount := by
    rw [Finset.mem_range]; have := hv.2; omega
  rw [← Finset.add_sum_erase _ _ hi, ← Finset.add_sum_erase _ _ hi]
  have h1 : vget (vset visited (i : Int) true) (i : Int) false = true :=
    vget_vset_self _ _ _ _ hv.1 (by rw [hlen]; exact hv.2)
  have h2 : ∀ j ∈ (Finset.range g.vertexCount).erase i,
      (if vget (vset visited (i : Int) true) (j : Int) false = true then 0
        else (g.adjacentOut (j : Int)).length + 1) =
      (if vget visited (j : Int) false = true then 0
        else (g.adjacentOut (j : Int)).length + 1) := by
    intro j hj
    have hne : (i : Int) ≠ (j : Int) := by
      have := (Finset.mem_erase.mp hj).1
      omega
    rw [vget_vset_ne _ _ _ _ _ hne]
  rw [Finset.sum_congr rfl h2]
  simp only [h1, hun, if_true, List.length_append, List.length_cons]
  simp
  omega

theorem reachable_of_closed {g : cGraph} {start : Int} {S : Int → Prop} (hs : S start)
    (hc : ∀ u, S u → ∀ v, g.hasEdge u v → S v) : ∀ v, g.Reachable start v → S v := by
  intro v h
  induction h with
  | refl => exact hs
  | tail _ hbc ih => exact hc _ ih _ hbc

theorem dfsLoop_spec {g : cGraph} (hwf : g.wellFormed) (start : Int) (T : List Int) :
    ∀ (fuel : Nat) (s : DfsState), DfsInv g start T s →
      dfsMeasure g s.visited s.wait < fuel →
      ∃ vis, dfsLoop g visitAll fuel s = .ok T ∧ DfsInv g start T ⟨vis, [], T⟩ := by
  intro fuel
  induction fuel with
  | zero => intro s _ h; omega
  | succ n ih =>
    intro s inv hfuel
    obtain ⟨visited, wait0, calls⟩ := s
    cases wait0 with
    | nil =>
      have hT : calls = T := inv.order
      subst hT
      exact ⟨visited, by simp [dfsLoop], inv⟩
    | cons v wait =>
      have hv : g.inRange v := inv.wait_range v (List.mem_cons_self _ _)
      have h1 : ¬ v < 0 := by have := hv.1; omega
      have h2 : ¬ ((visited.length : Int) ≤ v) := by
        have := hv.2; have := inv.len; simp only at this; omega
      unfold dfsLoop
      simp only [h1, h2, if_false]
      by_cases hvis : vget visited v false = true
      · simp only [hvis, if_true]
        have hmem : v ∈ calls := (inv.vis v hv).mp hvis
        apply ih
        · refine ⟨inv.len, inv.vis, inv.calls_range,
            fun x hx => inv.wait_range x (List.mem_cons_of_mem _ hx), inv.nodup, ?_, ?_, ?_, ?_⟩
          · intro x hx
            rcases hx with hx | hx
            · exact inv.reach x (Or.inl hx)
            · exact inv.reach x (Or.inr (List.mem_cons_of_mem _ hx))
          · intro u hu x hx
            rcases inv.closed u hu x hx with h | h
            · exact Or.inl h
            · rcases List.mem_cons.mp h with h | h
              · subst h; exact Or.inl hmem
              · exact Or.inr h
          · have := inv.first
            cases calls with
            | nil => simp at hmem
            | cons c cs => simpa using this
          · have := inv.order
            simp only [List.foldl_cons] at this
            rw [dfsRec_mem g _ calls v hmem] at this
            exact this
        · have := dfsMeasure_skip g visited v wait
          simp only at hfuel ⊢
          omega
      · have hun : vget visited v false = false := by simpa using hvis
        have hnot : v ∉ calls := fun h => hvis ((inv.vis v hv).mpr h)
        have hadj : ∀ w ∈ g.adjacentOut v, g.inRange w := by
          intro w hw
          rw [cGraph.mem_adjacentOut] at hw
          exact (cGraph.hasEdge_inRange hwf hw).2
        have hpush := dfsPush_spec (vset visited v true) (g.adjacentOut v) wait (by
          intro w hw
          rw [length_vset]
          have := hadj w hw
          have := inv.len
          simp only at this
          rw [this]
          exact hadj w hw)
        simp only [hun, visitAll, hpush]
        simp only [Bool.not_true, Bool.false_eq_true, if_false]
        have hvis1 : ∀ x, g.inRange x →
            (vget (vset visited v true) x false = true ↔ x ∈ calls ++ [v]) := by
          intro x hx
          rw [List.mem_append, List.mem_singleton]
          by_cases hxv : v = x
          · subst hxv
            rw [vget_vset_self _ _ _ _ hv.1 (by have := inv.len; simp only at this; rw [this]; exact hv.2)]
            simp
          · rw [vget_vset_ne _ _ _ _ _ hxv, inv.vis x hx]
            constructor
            · exact Or.inl
            · rintro (h | h)
              · exact h
              · exact absurd h.symm hxv
        have hfilt : ∀ x, x ∈ (g.adjacentOut v).filter (fun w => !vget (vset visited v true) w false)
            ↔ g.hasEdge v x ∧ x ∉ calls ++ [v] := by
          intro x
          rw [List.mem_filter, cGraph.mem_adjacentOut]
          constructor
          · rintro ⟨hx, hp⟩
            refine ⟨hx, fun hc => ?_⟩
            rw [((hvis1 x (cGraph.hasEdge_inRange hwf hx).2).mpr hc)] at hp
            simp at hp
          · rintro ⟨hx, hp⟩
            refine ⟨hx, ?_⟩
            have := (hvis1 x (cGraph.hasEdge_inRange hwf hx).2).not.mpr hp
            simpa using this
        apply ih
        · refine ⟨by simp only [length_vset]; exact inv.len, hvis1, ?_, ?_, ?_, ?_, ?_, ?_, ?_⟩
          · intro x hx
            rw [List.mem_append, List.mem_singleton] at hx
            rcases hx with hx | hx
            · exact inv.calls_range x hx
            · subst hx; exact hv
          · intro x hx
            simp only [List.mem_append, List.mem_reverse] at hx
            rcases hx with hx | hx
            · exact (cGraph.hasEdge_inRange hwf ((hfilt x).mp hx).1).2
            · exact inv.wait_range x (List.mem_cons_of_mem _ hx)
          · exact List.nodup_append.mpr ⟨inv.nodup, List.nodup_singleton v, by
              intro a ha hb; rw [List.mem_singleton] at hb; subst hb; exact hnot ha⟩
          · intro x hx
            have hrv : g.Reachable start v := inv.reach v (Or.inr (List.mem_cons_self _ _))
            simp only [List.mem_append, List.mem_reverse, List.mem_singleton] at hx
            rcases hx with (hx | hx) | hx | hx
            · exact inv.reach x (Or.inl hx)
            · subst hx; exact hrv
            · exact Relation.ReflTransGen.tail hrv ((hfilt x).mp hx).1
            · exact inv.reach x (Or.inr (List.mem_cons_of_mem _ hx))
          · intro u hu x hx
            simp only [List.mem_append, List.mem_reverse, List.mem_singleton] at hu ⊢
            rcases hu with hu | hu
            · rcases inv.closed u hu x hx with h | h
              · exact Or.inl (Or.inl h)
              · rcases List.mem_cons.mp h with h | h
                · exact Or.inl (Or.inr h)
                · exact Or.inr (Or.inr h)
            · subst hu
              by_cases hc : x ∈ calls ++ [u]
              · rw [List.mem_append, List.mem_singleton] at hc
                exact Or.inl hc
              · exact Or.inr (Or.inl ((hfilt x).mpr ⟨hx, hc⟩))
          · have := inv.first
            cases calls with
            | nil => simpa using this
            | cons c cs => simpa using this
          · have := inv.order
            simp only [List.foldl_cons] at this
            rw [← this]
            simp only [List.foldl_append]
            congr 1
            obtain ⟨k, hk⟩ : ∃ k, g.vertexCount = k + 1 := ⟨g.vertexCount - 1, by
              have := hv.1; have := hv.2; omega⟩
            have hrec : dfsRec g g.vertexCount calls v =
                (g.adjacentOut v).reverse.foldl (dfsRec g k) (calls ++ [v]) := by
              rw [hk]
              simp only [dfsRec, hnot, if_false]
            rw [hrec, ← List.filter_reverse,
              foldl_dfsRec_filter g _ _ _ _ (by
                intro w hw hp
                rw [List.mem_reverse] at hw
                have hin := hadj w hw
                apply (hvis1 w hin).mp
                simpa using hp)]
            have hlen : calls.length < g.vertexCount := by
              by_contra hc
              exact hnot (full_mem inv.nodup inv.calls_range hv (by omega))
            have key : ∀ (l : List Int) (s : List Int), (∀ w ∈ l, g.inRange w) → s.Nodup →
                (∀ x ∈ s, g.inRange x) → g.vertexCount ≤ k + s.length →
                l.foldl (dfsRec g g.vertexCount) s = l.foldl (dfsRec g k) s := by
              intro l
              induction l with
              | nil => intro s _ _ _ _; rfl
              | cons w rest ihl =>
                intro s hl a b c
                have hw := hl w (List.mem_cons_self _ _)
                have e := dfsRec_fuel hwf g.vertexCount k s w a b hw (by omega) c
                have gd := dfsRec_good hwf g.vertexCount s w a b hw
                have hp := (dfsRec_extends g g.vertexCount s w).length_le
                simp only [List.foldl_cons]
                rw [← e]
                exact ihl _ (fun x hx => hl x (List.mem_cons_of_mem _ hx)) gd.1 gd.2 (by omega)
            apply key
            · intro w hw; rw [List.mem_reverse] at hw; exact hadj w hw
            · exact List.nodup_append.mpr ⟨inv.nodup, List.nodup_singleton v, by
                intro a ha hb; rw [List.mem_singleton] at hb; subst hb; exact hnot ha⟩
            · intro x hx
              rw [List.mem_append, List.mem_singleton] at hx
              rcases hx with hx | hx
              · exact inv.calls_range x hx
              · subst hx; exact hv
            · simp; omega
        · have := dfsMeasure_visit g visited v wait
            ((g.adjacentOut v).filter fun w => !vget (vset visited v true) w false).reverse
            inv.len hv hun (by rw [List.length_reverse]; exact List.length_filter_le _ _)
          simp only at hfuel ⊢
          omega

theorem dfs_spec {g : cGraph} (hwf : g.wellFormed) {start : Int} (hs : g.inRange start)
    (fuel : Nat)
    (hfuel : dfsMeasure g (List.replicate g.vertexCount false) [start] < fuel) :
    ∃ vis, dfs fuel g start visitAll = .ok (dfsRecursive g start) ∧
      DfsInv g start (dfsRecursive g start) ⟨vis, [], dfsRecursive g start⟩ := by
  unfold dfs
  apply dfsLoop_spec hwf start (dfsRecursive g start) fuel _ _ hfuel
  refine ⟨by simp, ?_, ?_, ?_, List.nodup_nil, ?_, ?_, by simp, by simp [dfsRecursive]⟩
  · intro v hv
    simp only [List.not_mem_nil, iff_false]
    rw [vget_replicate _ _ _ _ hv.1 hv.2]
    simp
  · intro v hv; simp at hv
  · intro v hv
    simp only [List.mem_singleton] at hv
    subst hv; exact hs
  · intro v hv
    simp only [List.not_mem_nil, false_or, List.mem_singleton] at hv
    subst hv
    exact Relation.ReflTransGen.refl
  · intro u hu; simp at hu

/-! ## Spanning tree -/

theorem scanAdjacent_spec {g : cGraph} (hwf : g.wellFormed) {visited : List Bool}
    (hlen : visited.length = g.vertexCount) {v : Int} :
    ∀ (l : List Int) (acc : BestLink), (∀ w ∈ l, g.hasEdge v w) →
      vget visited v false = true → acc.valid g visited →
      ∃ acc1, scanAdjacent g visited v l acc = .ok acc1 ∧ acc1.valid g visited ∧
        acc1.min_cost ≤ acc.min_cost ∧
        ∀ w ∈ l, vget visited w false = false →
          ∀ c, g.rEdgeAttr (g.find v w) = .ok c → acc1.min_cost ≤ c := by
  intro l
  induction l with
  | nil =>
    intro acc _ _ hacc
    exact ⟨acc, rfl, hacc, le_refl _, fun w hw => by simp at hw⟩
  | cons w rest ih =>
    intro acc hl hv hacc
    have hw := hl w (List.mem_cons_self _ _)
    have hrest : ∀ x ∈ rest, g.hasEdge v x := fun x hx => hl x (List.mem_cons_of_mem _ hx)
    have hr := cGraph.hasEdge_inRange hwf hw
    have h1 : ¬ (w < 0 ∨ (visited.length : Int) ≤ w) := by
      rw [hlen]; have := hr.2.1; have := hr.2.2; omega
    unfold scanAdjacent
    simp only [h1, if_false]
    by_cases hvis : vget visited w false = true
    · simp only [hvis, if_true]
      obtain ⟨acc1, e1, e2, e3, e4⟩ := ih acc hrest hv hacc
      refine ⟨acc1, e1, e2, e3, ?_⟩
      intro x hx hux c hc
      rcases List.mem_cons.mp hx with hx | hx
      · subst hx; rw [hvis] at hux; cases hux
      · exact e4 x hx hux c hc
    · have hun : vget visited w false = false := by simpa using hvis
      obtain ⟨e, he, hj, hattr⟩ := cGraph.rEdgeAttr_of_hasEdge hw
      have hfind : ¬ g.find v w < 0 := by
        intro hneg
        unfold cGraph.rEdgeAttr at hattr
        simp [hneg] at hattr
      simp only [hun, hfind, hattr, if_false, Bool.false_eq_true]
      by_cases hc : e.attr0 < acc.min_cost
      · simp only [hc, if_true]
        have hmax : acc.min_cost ≤ (INT_MAX : ℚ) := by
          rcases hacc with h | h
          · exact le_of_eq h.2
          · exact le_of_lt h.2.2.2.2.2.2
        obtain ⟨acc1, e1, e2, e3, e4⟩ := ih ⟨e.attr0, v, w⟩ hrest hv
          (Or.inr ⟨hr.1, hv, hr.2, hun, hw, hattr, lt_of_lt_of_le hc hmax⟩)
        refine ⟨acc1, e1, e2, le_trans e3 (le_of_lt hc), ?_⟩
        intro x hx hux c hcx
        rcases List.mem_cons.mp hx with hx | hx
        · subst hx
          rw [hattr] at hcx
          cases hcx
          exact e3
        · exact e4 x hx hux c hcx
      · simp only [hc, if_false]
        obtain ⟨acc1, e1, e2, e3, e4⟩ := ih acc hrest hv hacc
        refine ⟨acc1, e1, e2, e3, ?_⟩
        intro x hx hux c hcx
        rcases List.mem_cons.mp hx with hx | hx
        · subst hx
          rw [hattr] at hcx
          cases hcx
          exact le_trans e3 (not_lt.mp hc)
        · exact e4 x hx hux c hcx

theorem scanTree_spec {g : cGraph} (hwf : g.wellFormed) {visited : List Bool}
    (hlen : visited.length = g.vertexCount) :
    ∀ (vs : List Int) (acc : BestLink), acc.valid g visited →
      ∃ acc1, scanTree g visited vs acc = .ok acc1 ∧ acc1.valid g visited ∧
        acc1.min_cost ≤ acc.min_cost ∧
        ∀ v ∈ vs, vget visited v false = true → ∀ w, g.hasEdge v w →
          vget visited w false = false →
          ∀ c, g.rEdgeAttr (g.find v w) = .ok c → acc1.min_cost ≤ c := by
  intro vs
  induction vs with
  | nil =>
    intro acc hacc
    exact ⟨acc, rfl, hacc, le_refl _, fun v hv => by simp at hv⟩
  | cons v rest ih =>
    intro acc hacc
    unfold scanTree
    by_cases hvis : vget visited v false = true
    · simp only [hvis, Bool.not_true, Bool.false_eq_true, if_false]
      obtain ⟨acc1, a1, a2, a3, a4⟩ := scanAdjacent_spec hwf hlen (g.adjacentOut v) acc
        (fun w hw => (cGraph.mem_adjacentOut g v w).mp hw) hvis hacc
      simp only [a1]
      obtain ⟨acc2, b1, b2, b3, b4⟩ := ih acc1 a2
      refine ⟨acc2, b1, b2, le_trans b3 a3, ?_⟩
      intro x hx hxv w hw hwu c hc
      rcases List.mem_cons.mp hx with hx | hx
      · subst hx
        exact le_trans b3 (a4 w ((cGraph.mem_adjacentOut g x w).mpr hw) hwu c hc)
      · exact b4 x hx hxv w hw hwu c hc
    · have hun : vget visited v false = false := by simpa using hvis
      simp only [hun, Bool.not_false, if_true]
      obtain ⟨acc2, b1, b2, b3, b4⟩ := ih acc hacc
      refine ⟨acc2, b1, b2, b3, ?_⟩
      intro x hx hxv w hw hwu c hc
      rcases List.mem_cons.mp hx with hx | hx
      · subst hx; rw [hun] at hxv; cases hxv
      · exact b4 x hx hxv w hw hwu c hc

theorem touched_append (es : List cEdge) (e : cEdge) (x : Int) :
    touched (es ++ [e]) x ↔ touched es x ∨ e.src = x ∨ e.dest = x := by
  unfold touched
  constructor
  · rintro ⟨a, ha, h⟩
    rw [List.mem_append, List.mem_singleton] at ha
    rcases ha with ha | ha
    · exact Or.inl ⟨a, ha, h⟩
    · subst ha; exact Or.inr h
  · rintro (⟨a, ha, h⟩ | h)
    · exact ⟨a, List.mem_append_left _ ha, h⟩
    · exact ⟨e, List.mem_append_right _ (List.mem_singleton_self e), h⟩

theorem greedy_append {g : cGraph} {es : List cEdge} {e : cEdge} (hg : g.greedy es)
    (he : g.cheapestLeaving es e) : g.greedy (es ++ [e]) := by
  intro pre e1 post hsplit hpre
  rcases List.eq_nil_or_concat post with hp | ⟨post1, x, hp⟩
  · subst hp
    have := List.append_inj' hsplit (by simp)
    obtain ⟨h1, h2⟩ := this
    simp only [List.cons.injEq, and_true] at h2
    subst h1; subst h2
    exact he
  · subst hp
    have h : es ++ [e] = (pre ++ e1 :: post1) ++ [x] := by
      rw [hsplit]; simp
    have := List.append_inj' h (by simp)
    exact hg pre e1 post1 this.1 hpre

theorem linked_append {es : List cEdge} {a b : Int} (e : cEdge) (h : linked es a b) :
    linked (es ++ [e]) a b := by
  obtain ⟨x, hx, h⟩ := h
  exact ⟨x, List.mem_append_left _ hx, h⟩

theorem spanLoop_spec {g : cGraph} (hwf : g.wellFormed) (start w0 : Int) (d : Nat) :
    ∀ (fuel : Nat) (st : cSpanningTree) (visited : List Bool),
      SpanInv g start w0 d st visited → g.vertexCount < fuel + st.myVertexSet.length →
      ∃ t st1 vis1, spanLoop g fuel st visited = .ok t ∧ SpanInv g start w0 d st1 vis1 ∧
        ((st1.myVertexSet.length < g.vertexCount ∧ t = st1.mySpanningTree.clear ∧
            ∀ v w, g.leaves st1.mySpanningTree.vEdge v w →
              ∀ c, g.rEdgeAttr (g.find v w) = .ok c → (INT_MAX : ℚ) ≤ c) ∨
          (g.vertexCount ≤ st1.myVertexSet.length ∧ t = st1.mySpanningTree)) := by
  intro fuel
  induction fuel with
  | zero =>
    intro st visited inv hfuel
    have := nodup_length_le st.myVertexSet g.vertexCount inv.set_nodup inv.set_range
    omega
  | succ n ih =>
    intro st visited inv hfuel
    unfold spanLoop
    by_cases hgt : g.vertexCount > st.vertexCount
    · simp only [hgt, if_true]
      obtain ⟨best, b1, b2, _, b4⟩ := scanTree_spec hwf inv.len (intRange g.vertexCount)
        ⟨INT_MAX, -1, 0⟩ (Or.inl ⟨rfl, rfl⟩)
      simp only [b1]
      have hcross : ∀ v w, g.leaves st.mySpanningTree.vEdge v w →
          ∀ c, g.rEdgeAttr (g.find v w) = .ok c → best.min_cost ≤ c := by
        intro v w hvw c hc
        obtain ⟨h1, h2, h3, h4⟩ := hvw
        have hvs : v ∈ st.myVertexSet := (inv.touch v).mpr h1
        have hvr := inv.set_range v hvs
        refine b4 v ((mem_intRange _ _).mpr hvr) ((inv.vis v hvr).mpr hvs) w h4 ?_ c hc
        have : ¬ vget visited w false = true := fun h =>
          h3 ((inv.touch w).mp ((inv.vis w h2).mp h))
        simpa using this
      rcases b2 with ⟨hf, hm⟩ | ⟨hv1, hv2, hw1, hw2, he, hattr, hlt⟩
      · simp only [hf, if_true]
        refine ⟨_, st, visited, rfl, inv, Or.inl ⟨hgt, rfl, ?_⟩⟩
        intro v w hvw c hc
        rw [← hm]
        exact hcross v w hvw c hc
      · have hne : ¬ best.first = -1 := by have := hv1.1; omega
        simp only [hne, if_false]
        have hvs : best.first ∈ st.myVertexSet := (inv.vis _ hv1).mp hv2
        have hws : best.second ∉ st.myVertexSet := by
          intro h
          rw [(inv.vis _ hw1).mpr h] at hw2
          cases hw2
        have hset : (st.add best.first best.second).myVertexSet =
            best.second :: st.myVertexSet := by
          unfold cSpanningTree.add
          simp only
          rw [List.insert_of_mem hvs, List.insert_of_not_mem hws]
        have hes : st.mySpanningTree.vEdge ≠ [] := by
          intro h
          have := inv.seed
          rw [h] at this
          simp at this
        have hedges : (st.add best.first best.second).mySpanningTree.vEdge =
            st.mySpanningTree.vEdge ++ [⟨best.first, best.second, 1⟩] := rfl
        have inv1 : SpanInv g start w0 d (st.add best.first best.second)
            (vset (vset visited best.first true) best.second true) := by
          refine ⟨by simp only [length_vset]; exact inv.len, inv.shape, ?_, ?_, ?_, ?_, ?_, ?_,
            ?_, ?_, ?_, ?_, ?_⟩
          · intro x hx
            rw [hset, List.mem_cons]
            by_cases hxw : best.second = x
            · subst hxw
              rw [vget_vset_self _ _ _ _ hw1.1 (by
                rw [length_vset, inv.len]; exact hw1.2)]
              simp
            · rw [vget_vset_ne _ _ _ _ _ hxw]
              by_cases hxv : best.first = x
              · subst hxv
                rw [vget_vset_self _ _ _ _ hv1.1 (by rw [inv.len]; exact hv1.2)]
                simp [hvs]
              · rw [vget_vset_ne _ _ _ _ _ hxv, inv.vis x hx]
                constructor
                · exact Or.inr
                · rintro (h | h)
                  · exact absurd h.symm hxw
                  · exact h
          · intro x hx
            rw [hset, List.mem_cons] at hx
            rcases hx with hx | hx
            · subst hx; exact hw1
            · exact inv.set_range x hx
          · rw [hset]
            exact List.nodup_cons.mpr ⟨hws, inv.set_nodup⟩
          · intro x
            rw [hset, hedges, touched_append, List.mem_cons, inv.touch x]
            simp only
            constructor
            · rintro (h | h)
              · exact Or.inr (Or.inr h.symm)
              · exact Or.inl h
            · rintro (h | h | h)
              · exact Or.inr h
              · subst h; exact Or.inr ((inv.touch _).mp hvs)
              · exact Or.inl h.symm
          · intro e hmem
            rw [hedges, List.mem_append, List.mem_singleton] at hmem
            rcases hmem with h | h
            · exact inv.edges e h
            · subst h; exact ⟨he, rfl⟩
          · rw [hset, hedges]
            have := inv.cnt
            simp only [List.length_cons, List.length_append, List.length_nil]
            omega
          · intro x hx
            rw [hset, List.mem_cons] at hx
            rcases hx with hx | hx
            · subst hx
              exact Relation.ReflTransGen.tail (inv.reach _ hvs) he
            · exact inv.reach x hx
          · rw [hset]; exact List.mem_cons_of_mem _ inv.start_mem
          · rw [hedges]
            have := inv.seed
            cases hl : st.mySpanningTree.vEdge with
            | nil => exact absurd hl hes
            | cons a l => rw [hl] at this; simpa using this
          · rw [hedges]
            refine greedy_append inv.greedy ⟨⟨(inv.touch _).mp hvs, hw1, ?_, he⟩,
              best.min_cost, hattr, hlt, hcross⟩
            exact fun h => hws ((inv.touch _).mpr h)
          · intro x hx
            rw [hset, List.mem_cons] at hx
            rw [hedges]
            have hmono : ∀ y, Relation.ReflTransGen (linked st.mySpanningTree.vEdge) start y →
                Relation.ReflTransGen
                  (linked (st.mySpanningTree.vEdge ++ [⟨best.first, best.second, 1⟩])) start y :=
              fun y hy => Relation.ReflTransGen.mono (fun a b hab => linked_append _ hab) hy
            rcases hx with hx | hx
            · subst hx
              refine Relation.ReflTransGen.tail (hmono _ (inv.conn _ hvs)) ?_
              exact ⟨⟨best.first, best.second, 1⟩,
                List.mem_append_right _ (List.mem_singleton_self _), Or.inl ⟨rfl, rfl⟩⟩
            · exact hmono x (inv.conn x hx)
        have := ih (st.add best.first best.second)
          (vset (vset visited best.first true) best.second true) inv1 (by
            rw [hset]; simp only [List.length_cons]; omega)
        exact this
    · simp only [hgt, if_false]
      exact ⟨_, st, visited, rfl, inv, Or.inr ⟨by
        unfold cSpanningTree.vertexCount at hgt; omega, rfl⟩⟩

theorem spanningTree_spec {g : cGraph} (hwf : g.wellFormed) {start w0 : Int}
    {rest : List Int} (hs : g.inRange start) (hadj : g.adjacentOut start = w0 :: rest) :
    ∃ t st1 vis1 d, spanningTree g start = .ok t ∧ SpanInv g start w0 d st1 vis1 ∧
      (start ≠ w0 → d = 0) ∧
      ((st1.myVertexSet.length < g.vertexCount ∧ t = ⟨false, 0, []⟩ ∧
          ∀ v w, g.leaves st1.mySpanningTree.vEdge v w →
            ∀ c, g.rEdgeAttr (g.find v w) = .ok c → (INT_MAX : ℚ) ≤ c) ∨
        (g.vertexCount ≤ st1.myVertexSet.length ∧ t = st1.mySpanningTree)) := by
  have hedge : g.hasEdge start w0 := by
    rw [← cGraph.mem_adjacentOut, hadj]; exact List.mem_cons_self _ _
  have hw := (cGraph.hasEdge_inRange hwf hedge).2
  have hguard : ¬ (start < 0 ∨ (g.vertexCount : Int) ≤ start ∨ w0 < 0 ∨
      (g.vertexCount : Int) ≤ w0) := by
    have := hs.1; have := hs.2; have := hw.1; have := hw.2; omega
  unfold spanningTree
  simp only [hadj, hguard, if_false]
  have hset : (cSpanningTree.add ⟨⟨false, g.vertexCount, []⟩, []⟩ start w0).myVertexSet =
      if start = w0 then [start] else [w0, start] := by
    unfold cSpanningTree.add
    by_cases h : start = w0
    · subst h; simp
    · simp [h, List.insert, Ne.symm h]
  have inv0 : SpanInv g start w0 (if start = w0 then 1 else 0)
      (cSpanningTree.add ⟨⟨false, g.vertexCount, []⟩, []⟩ start w0)
      (vset (vset (List.replicate g.vertexCount false) start true) w0 true) := by
    refine ⟨by simp [length_vset], ⟨rfl, rfl⟩, ?_, ?_, ?_, ?_, ?_, ?_, ?_, ?_, rfl, ?_, ?_⟩
    · intro x hx
      rw [hset]
      by_cases hxw : w0 = x
      · subst hxw
        rw [vget_vset_self _ _ _ _ hw.1 (by simp [length_vset]; exact hw.2)]
        by_cases h : start = w0 <;> simp [h]
      · rw [vget_vset_ne _ _ _ _ _ hxw]
        by_cases hxs : start = x
        · subst hxs
          rw [vget_vset_self _ _ _ _ hs.1 (by simp; exact hs.2)]
          by_cases h : start = w0 <;> simp [h]
        · rw [vget_vset_ne _ _ _ _ _ hxs, vget_replicate _ _ _ _ hx.1 hx.2]
          by_cases h : start = w0 <;> simp [h, Ne.symm hxs, Ne.symm hxw]
    · intro x hx
      rw [hset] at hx
      by_cases h : start = w0
      · simp only [h, if_true, List.mem_singleton] at hx; subst hx; exact hw
      · simp only [h, if_false, List.mem_cons, List.mem_singleton, List.not_mem_nil,
          or_false] at hx
        rcases hx with hx | hx
        · subst hx; exact hw
        · subst hx; exact hs
    · rw [hset]
      by_cases h : start = w0
      · simp [h]
      · simp [h, Ne.symm h]
    · intro x
      rw [hset]
      unfold touched cSpanningTree.add cGraph.addEdge
      by_cases h : start = w0
      · simp [h, eq_comm]
      · simp [h, eq_comm, or_comm]
    · intro e he
      unfold cSpanningTree.add cGraph.addEdge at he
      simp only [List.nil_append, List.mem_singleton] at he
      subst he
      exact ⟨hedge, rfl⟩
    · rw [hset]
      unfold cSpanningTree.add cGraph.addEdge
      by_cases h : start = w0 <;> simp [h]
    · intro x hx
      rw [hset] at hx
      by_cases h : start = w0
      · simp only [h, if_true, List.mem_singleton] at hx
        subst hx; rw [h]; exact Relation.ReflTransGen.refl
      · simp only [h, if_false, List.mem_cons, List.mem_singleton, List.not_mem_nil,
          or_false] at hx
        rcases hx with hx | hx
        · subst hx; exact Relation.ReflTransGen.single hedge
        · subst hx; exact Relation.ReflTransGen.refl
    · rw [hset]
      by_cases h : start = w0 <;> simp [h]
    · intro pre e post hsplit hpre
      unfold cSpanningTree.add cGraph.addEdge at hsplit
      simp only [List.nil_append] at hsplit
      have := congrArg List.length hsplit
      simp only [List.length_cons, List.length_nil, List.length_append] at this
      have : pre.length = 0 := by omega
      exact absurd (List.length_eq_zero.mp this) hpre
    · intro x hx
      rw [hset] at hx
      have hlink : linked (cSpanningTree.add ⟨⟨false, g.vertexCount, []⟩, []⟩ start
          w0).mySpanningTree.vEdge start w0 :=
        ⟨⟨start, w0, 1⟩, by simp [cSpanningTree.add, cGraph.addEdge], Or.inl ⟨rfl, rfl⟩⟩
      by_cases h : start = w0
      · simp only [h, if_true, List.mem_singleton] at hx
        subst hx; rw [h]
      · simp only [h, if_false, List.mem_cons, List.mem_singleton, List.not_mem_nil,
          or_false] at hx
        rcases hx with hx | hx
        · subst hx; exact Relation.ReflTransGen.single hlink
        · subst hx; exact Relation.ReflTransGen.refl
  obtain ⟨t, st1, vis1, h1, h2, h3⟩ := spanLoop_spec hwf start w0 _ (g.vertexCount + 1) _ _ inv0
    (by
      rw [hset]
      by_cases h : start = w0 <;> simp [h] <;> omega)
  refine ⟨t, st1, vis1, _, h1, h2, fun hne => by simp [hne], ?_⟩
  rcases h3 with ⟨a, b, c⟩ | h3
  · refine Or.inl ⟨a, ?_, c⟩
    rw [b]
    unfold cGraph.clear
    rw [h2.shape.1]
  · exact Or.inr h3

theorem exists_leaving {g : cGraph} {S : Int → Prop} {start u : Int} (hs : S start)
    (hu : ¬ S u) (h : g.Reachable start u) : ∃ a b, S a ∧ ¬ S b ∧ g.hasEdge a b := by
  induction h with
  | refl => exact absurd hs hu
  | tail hab hbc ih =>
    rename_i b c
    by_cases hb : S b
    · exact ⟨b, c, hb, hu, hbc⟩
    · exact ih hb

theorem length_of_all_mem {g : cGraph} {l : List Int}
    (h : ∀ v, g.inRange v → v ∈ l) : g.vertexCount ≤ l.length := by
  have hnd : (intRange g.vertexCount).Nodup := by
    unfold intRange
    exact (List.nodup_range _).map (fun a b hab => by
      have : ((a : Nat) : Int) = (b : Int) := hab
      omega)
  have hsub : intRange g.vertexCount ⊆ l := fun x hx => h x ((mem_intRange _ _).mp hx)
  have := (List.subperm_of_subset hnd hsub).length_le
  simpa [intRange] using this

theorem spanningTree_connected {g : cGraph} (hwf : g.wellFormed) {start : Int}
    (hs : g.inRange start) (hV : 2 ≤ g.vertexCount)
    (hconn : ∀ v, g.inRange v → g.Reachable start v)
    (hw : ∀ e ∈ g.vEdge, e.attr0 < (INT_MAX : ℚ)) :
    ∃ t st1 vis1 d w0, (g.adjacentOut start).head? = some w0 ∧
      spanningTree g start = .ok t ∧ SpanInv g start w0 d st1 vis1 ∧
      (start ≠ w0 → d = 0) ∧ g.vertexCount ≤ st1.myVertexSet.length ∧
      t = st1.mySpanningTree := by
  obtain ⟨u, hu, hne⟩ : ∃ u, g.inRange u ∧ u ≠ start := by
    by_cases h0 : start = 0
    · exact ⟨1, ⟨by omega, by omega⟩, by omega⟩
    · exact ⟨0, ⟨by omega, by omega⟩, fun h => h0 h.symm⟩
  obtain ⟨b, hb⟩ : ∃ b, g.hasEdge start b := by
    rcases Relation.ReflTransGen.cases_head (hconn u hu) with h | ⟨b, hb, _⟩
    · exact absurd h.symm hne
    · exact ⟨b, hb⟩
  cases hadj : g.adjacentOut start with
  | nil =>
    rw [← cGraph.mem_adjacentOut, hadj] at hb
    simp at hb
  | cons w0 rest =>
    obtain ⟨t, st1, vis1, d, h1, inv, hd, h2⟩ := spanningTree_spec hwf hs hadj
    refine ⟨t, st1, vis1, d, w0, rfl, h1, inv, hd, ?_⟩
    rcases h2 with ⟨hlt, _, hno⟩ | h2
    · exfalso
      obtain ⟨x, hx, hxs⟩ : ∃ x, g.inRange x ∧ x ∉ st1.myVertexSet := by
        by_contra hc
        push_neg at hc
        have := length_of_all_mem hc
        omega
      obtain ⟨a, b, ha, hb, hab⟩ := exists_leaving (S := fun v => v ∈ st1.myVertexSet)
        inv.start_mem hxs (hconn x hx)
      obtain ⟨e, he, _, hattr⟩ := cGraph.rEdgeAttr_of_hasEdge hab
      have := hno a b ⟨(inv.touch a).mp ha, (cGraph.hasEdge_inRange hwf hab).2,
        fun h => hb ((inv.touch b).mpr h), hab⟩ _ hattr
      exact absurd (hw e he) (not_lt.mpr this)
    · exact h2

theorem no_loop_of_simple {g : cGraph} (hsimple : g.isSimple) {u v : Int}
    (h : g.hasEdge u v) : u ≠ v := by
  obtain ⟨e, he, hj⟩ := h
  have hne := hsimple.1 e he
  unfold cGraph.joins at hj
  simp only [Bool.or_eq_true, Bool.and_eq_true, beq_iff_eq, Bool.not_eq_true'] at hj
  rintro rfl
  rcases hj with ⟨h1, h2⟩ | ⟨⟨_, h1⟩, h2⟩
  · exact hne (h1.trans h2.symm)
  · exact hne (h1.trans h2.symm)

/-! ## Cycle finder: the signatures -/

theorem foundBefore_iff (found : List (List Int)) (sig : List Int) :
    foundBefore found sig = true ↔ sig ∈ found := by
  unfold foundBefore
  simp only [List.any_eq_true, Bool.and_eq_true, beq_iff_eq]
  constructor
  · rintro ⟨f, hf, _, rfl⟩; exact hf
  · intro h; exact ⟨sig, h, rfl, rfl⟩

theorem cycleAdjacent_sig (g : cGraph) (visited : List Bool) (v : Int) :
    ∀ (l : List Int) (s s1 : CycleState), cycleAdjacent g visited v l s = .ok s1 →
      SigInv s → SigInv s1 := by
  intro l
  induction l with
  | nil =>
    intro s s1 h hs
    simp only [cycleAdjacent, Except.ok.injEq] at h
    subst h; exact hs
  | cons w rest ih =>
    intro s s1 h hs
    unfold cycleAdjacent at h
    by_cases h1 : w < 0 ∨ (visited.length : Int) ≤ w
    · simp only [h1, if_true] at h; cases h
    · simp only [h1, if_false] at h
      by_cases h2 : vget visited w false = true
      · simp only [h2, Bool.not_true, Bool.false_eq_true, if_false] at h
        cases hp : (if (!g.isDirected) = true then path (g.remove w v) w v else path g w v) with
        | error e => rw [hp] at h; cases h
        | ok pc =>
          obtain ⟨cycle, c⟩ := pc
          rw [hp] at h
          simp only at h
          by_cases h3 : cycle.length < 2
          · simp only [h3, if_true] at h
            exact ih s s1 h hs
          · simp only [h3, if_false] at h
            by_cases h4 : foundBefore s.vfoundCycleSignature (signature cycle) = true
            · simp only [h4, if_true] at h
              exact ih s s1 h hs
            · simp only [h4, if_false] at h
              refine ih _ s1 h ?_
              have hnot : signature cycle ∉ s.vfoundCycleSignature := fun hc =>
                h4 ((foundBefore_iff _ _).mpr hc)
              refine ⟨?_, ?_⟩
              · simp only [List.map_append, List.map_cons, List.map_nil]
                rw [hs.1]
                simp [cycleSignature]
              · simp only
                exact List.nodup_append.mpr ⟨hs.2, List.nodup_singleton _, by
                  intro a ha hb
                  rw [List.mem_singleton] at hb
                  subst hb; exact hnot ha⟩
      · have h2' : vget visited w false = false := by simpa using h2
        simp only [h2', Bool.not_false, if_true] at h
        exact ih _ s1 h hs

theorem cycleDfs_sig (g : cGraph) : ∀ (fuel : Nat) (visited : List Bool) (s : CycleState)
    (r : List Bool × CycleState), cycleDfs g fuel visited s = .ok r → SigInv s → SigInv r.2 := by
  intro fuel
  induction fuel with
  | zero => intro visited s r h; simp [cycleDfs] at h
  | succ n ih =>
    intro visited s r h hs
    obtain ⟨wait0, ret, sigs⟩ := s
    unfold cycleDfs at h
    cases wait0 with
    | nil =>
      simp only [Except.ok.injEq] at h
      subst h; exact hs
    | cons v wait =>
      simp only at h
      by_cases h1 : v < 0 ∨ (visited.length : Int) ≤ v
      · simp only [h1, if_true] at h; cases h
      · simp only [h1, if_false] at h
        cases hp : cycleAdjacent g (vset visited v true) v (g.adjacentOut v)
            ⟨wait, ret, sigs⟩ with
        | error e => rw [hp] at h; cases h
        | ok s1 =>
          rw [hp] at h
          exact ih _ s1 r h (cycleAdjacent_sig g _ v _ _ s1 hp hs)

theorem cycleOuter_sig (g : cGraph) (inputStartIndex : Int) (fuel : Nat) :
    ∀ (n : Nat) (visited : List Bool) (s : CycleState) (ret : List (List Int)),
      cycleOuter g inputStartIndex fuel n visited s = .ok ret → SigInv s →
      (ret.map cycleSignature).Nodup := by
  intro n
  induction n with
  | zero => intro visited s ret h; simp [cycleOuter] at h
  | succ n ih =>
    intro visited s ret h hs
    unfold cycleOuter at h
    by_cases h1 : inputStartIndex < 0
    · simp only [h1, if_true] at h
      by_cases h2 : visited.indexOf false < visited.length
      · simp only [h2, if_true] at h
        cases hp : cycleDfs g fuel visited
            { s with wait := [(visited.indexOf false : Int)] } with
        | error e => rw [hp] at h; cases h
        | ok r =>
          obtain ⟨visited1, s1⟩ := r
          rw [hp] at h
          exact ih visited1 s1 ret h (cycleDfs_sig g fuel visited _ _ hp hs)
      · simp only [h2, if_false, Except.ok.injEq] at h
        subst h
        rw [← hs.1]; exact hs.2
    · simp only [h1, if_false] at h
      cases hp : cycleDfs g fuel visited { s with wait := [inputStartIndex] } with
      | error e => rw [hp] at h; cases h
      | ok r =>
        obtain ⟨visited1, s1⟩ := r
        rw [hp] at h
        simp only [Except.ok.injEq] at h
        subst h
        have hinv := cycleDfs_sig g fuel visited _ _ hp hs
        have hsub : List.Sublist
            ((s1.ret.filter fun c => decide (inputStartIndex ∈ c)).map cycleSignature)
            (s1.ret.map cycleSignature) := List.Sublist.map _ (List.filter_sublist _)
        refine List.Nodup.sublist hsub ?_
        rw [← hinv.1]; exact hinv.2

theorem dfs_cycle_finder_sig (g : cGraph) (inputStartIndex : Int) (fuel : Nat)
    (ret : List (List Int)) (h : dfs_cycle_finder fuel g inputStartIndex = .ok ret) :
    (ret.map cycleSignature).Nodup :=
  cycleOuter_sig g inputStartIndex fuel fuel _ _ ret h ⟨rfl, List.nodup_nil⟩

/-! ## Cycle finder: termination -/

theorem ne_of_noLoop {g : cGraph} (hnl : g.noLoop) {u v : Int} (h : g.hasEdge u v) :
    u ≠ v := by
  obtain ⟨e, he, hj⟩ := h
  have hne := hnl e he
  unfold cGraph.joins at hj
  simp only [Bool.or_eq_true, Bool.and_eq_true, beq_iff_eq, Bool.not_eq_true'] at hj
  rintro rfl
  rcases hj with ⟨h1, h2⟩ | ⟨⟨_, h1⟩, h2⟩
  · exact hne (h1.trans h2.symm)
  · exact hne (h1.trans h2.symm)

theorem wellFormed_remove {g : cGraph} (hwf : g.wellFormed) (u v : Int) :
    (g.remove u v).wellFormed := by
  intro e he
  exact hwf e (List.eraseIdx_subset _ _ he)

theorem path_ok {g : cGraph} (hwf : g.wellFormed) {a b : Int} (ha : g.inRange a)
    (hb : g.inRange b) (hne : a ≠ b) : ∃ pc, path g a b = .ok pc := by
  obtain ⟨s, k, _, _, _, h⟩ := path_spec hwf 0 ha hb hne
  rcases h with ⟨_, h⟩ | ⟨_, r, _, _, h⟩
  · exact ⟨_, h⟩
  · exact ⟨_, h⟩

theorem cycleAdjacent_total {g : cGraph} (hwf : g.wellFormed) (hnl : g.noLoop)
    {visited : List Bool} (hlen : visited.length = g.vertexCount) {v : Int}
    (hv : g.inRange v) :
    ∀ (l : List Int) (s : CycleState), (∀ w ∈ l, g.hasEdge v w) →
      ∃ s1, cycleAdjacent g visited v l s = .ok s1 ∧
        s1.wait = (l.filter fun w => !vget visited w false).reverse ++ s.wait := by
  intro l
  induction l with
  | nil => intro s _; exact ⟨s, rfl, by simp⟩
  | cons w rest ih =>
    intro s hl
    have hw := hl w (List.mem_cons_self _ _)
    have hrest : ∀ x ∈ rest, g.hasEdge v x := fun x hx => hl x (List.mem_cons_of_mem _ hx)
    have hwr := (cGraph.hasEdge_inRange hwf hw).2
    have h1 : ¬ (w < 0 ∨ (visited.length : Int) ≤ w) := by
      rw [hlen]; have := hwr.1; have := hwr.2; omega
    unfold cycleAdjacent
    simp only [h1, if_false]
    by_cases h2 : vget visited w false = true
    · simp only [h2, Bool.not_true, Bool.false_eq_true, if_false]
      have hne : w ≠ v := (ne_of_noLoop hnl hw).symm
      have hp : ∃ pc, (if (!g.isDirected) = true then path (g.remove w v) w v
          else path g w v) = .ok pc := by
        by_cases hd : (!g.isDirected) = true
        · simp only [hd, if_true]
          exact path_ok (wellFormed_remove hwf w v) hwr hv hne
        · simp only [hd, if_false]
          exact path_ok hwf hwr hv hne
      obtain ⟨⟨cycle, c⟩, hp⟩ := hp
      rw [hp]
      simp only
      have hfilt : (List.filter (fun w => !vget visited w false) (w :: rest)) =
          List.filter (fun w => !vget visited w false) rest := by
        rw [List.filter_cons_of_neg]; simp [h2]
      rw [hfilt]
      by_cases h3 : cycle.length < 2
      · simp only [h3, if_true]
        exact ih s hrest
      · simp only [h3, if_false]
        by_cases h4 : foundBefore s.vfoundCycleSignature (signature cycle) = true
        · simp only [h4, if_true]
          exact ih s hrest
        · simp only [h4, if_false]
          obtain ⟨s1, e1, e2⟩ := ih ⟨s.wait, s.ret ++ [cycle ++ [w]],
            s.vfoundCycleSignature ++ [signature cycle]⟩ hrest
          exact ⟨s1, e1, e2⟩
    · have h2' : vget visited w false = false := by simpa using h2
      simp only [h2', Bool.not_false, if_true]
      obtain ⟨s1, e1, e2⟩ := ih ⟨w :: s.wait, s.ret, s.vfoundCycleSignature⟩ hrest
      refine ⟨s1, e1, ?_⟩
      rw [e2, List.filter_cons_of_pos (by simp [h2'])]
      simp

theorem vset_same (l : List Bool) (i : Int) (h0 : 0 ≤ i) (h1 : i < l.length)
    (h : vget l i false = true) : vset l i true = l := by
  unfold vget at h
  unfold vset
  have hi : ¬ i < 0 := by omega
  simp only [hi, if_false] at h ⊢
  have hlt : i.toNat < l.length := by omega
  rw [List.getD_eq_getElem _ _ hlt] at h
  apply List.ext_getElem (by simp)
  intro n h1 h2
  by_cases hn : i.toNat = n
  · subst hn; simp [h]
  · simp [List.getElem_set_ne hn]

theorem split_of_not_mem {α : Type} {l1 l2 pre post : List α} {x : α}
    (h : l1 ++ l2 = pre ++ x :: post) (hx : x ∉ l1) :
    ∃ pre1, pre = l1 ++ pre1 ∧ l2 = pre1 ++ x :: post := by
  rcases List.append_eq_append_iff.mp h with ⟨a, ha, hb⟩ | ⟨c, hc, hd⟩
  · exact ⟨a, ha, hb⟩
  · cases c with
    | nil =>
      simp only [List.append_nil, List.nil_append] at hc hd
      exact ⟨[], by simp [hc], hd.symm⟩
    | cons y c =>
      simp only [List.cons_append, List.cons.injEq] at hd
      exfalso
      apply hx
      rw [hc, hd.1]
      simp

theorem cycleDfs_total {g : cGraph} (hwf : g.wellFormed) (hnl : g.noLoop) :
    ∀ (fuel : Nat) (visited : List Bool) (s : CycleState),
      visited.length = g.vertexCount → (∀ x ∈ s.wait, g.inRange x) →
      Lifo g visited s.wait → dfsMeasure g visited s.wait < fuel →
      ∃ vis1 s1, cycleDfs g fuel visited s = .ok (vis1, s1) ∧
        vis1.length = g.vertexCount ∧
        (∀ x, vget visited x false = true → vget vis1 x false = true) ∧
        ∀ x ∈ s.wait, vget vis1 x false = true := by
  intro fuel
  induction fuel with
  | zero => intro visited s _ _ _ h; omega
  | succ n ih =>
    intro visited s hlen hrange hlifo hfuel
    obtain ⟨wait0, ret, sigs⟩ := s
    cases wait0 with
    | nil =>
      exact ⟨visited, ⟨[], ret, sigs⟩, by simp [cycleDfs], hlen, fun x hx => hx, by simp⟩
    | cons v wait =>
      have hv : g.inRange v := hrange v (List.mem_cons_self _ _)
      have h1 : ¬ (v < 0 ∨ (visited.length : Int) ≤ v) := by
        rw [hlen]; have := hv.1; have := hv.2; omega
      unfold cycleDfs
      simp only [h1, if_false]
      have hlen1 : (vset visited v true).length = g.vertexCount := by
        rw [length_vset]; exact hlen
      obtain ⟨s1, e1, e2⟩ := cycleAdjacent_total hwf hnl hlen1 hv (g.adjacentOut v)
        ⟨wait, ret, sigs⟩ (fun w hw => (cGraph.mem_adjacentOut g v w).mp hw)
      simp only [e1]
      simp only at e2
      have hvv : vget (vset visited v true) v false = true :=
        vget_vset_self _ _ _ _ hv.1 (by rw [hlen]; exact hv.2)
      have hmono : ∀ x, vget visited x false = true →
          vget (vset visited v true) x false = true := by
        intro x hx
        by_cases hxv : v = x
        · subst hxv; exact hvv
        · rw [vget_vset_ne _ _ _ _ _ hxv]; exact hx
      have hfilt : ∀ x, x ∈ (g.adjacentOut v).filter
          (fun w => !vget (vset visited v true) w false) ↔
          g.hasEdge v x ∧ vget (vset visited v true) x false = false := by
        intro x
        rw [List.mem_filter, cGraph.mem_adjacentOut]
        simp
      have hl1 : Lifo g (vset visited v true) s1.wait := by
        intro pre x post hsplit hx w hw hwu
        rw [e2] at hsplit
        have hxn : x ∉ ((g.adjacentOut v).filter
            (fun w => !vget (vset visited v true) w false)).reverse := by
          intro hc
          rw [List.mem_reverse, hfilt] at hc
          rw [hc.2] at hx
          cases hx
        obtain ⟨pre1, hp1, hp2⟩ := split_of_not_mem hsplit hxn
        rw [hp1, List.mem_append, List.mem_reverse]
        by_cases hxv : x = v
        · subst hxv
          exact Or.inl ((hfilt w).mpr ⟨hw, hwu⟩)
        · right
          have hxold : vget visited x false = true := by
            rw [vget_vset_ne _ _ _ _ _ (Ne.symm hxv)] at hx; exact hx
          have hwold : vget visited w false = false := by
            by_contra hc
            have : vget visited w false = true := by simpa using hc
            rw [hmono w this] at hwu
            cases hwu
          have := hlifo (v :: pre1) x post (by simp only at hp2 ⊢; rw [hp2]; simp) hxold w hw
            hwold
          rcases List.mem_cons.mp this with h | h
          · subst h
            rw [hvv] at hwu; cases hwu
          · exact h
      have hr1 : ∀ x ∈ s1.wait, g.inRange x := by
        intro x hx
        rw [e2, List.mem_append, List.mem_reverse] at hx
        rcases hx with hx | hx
        · exact (cGraph.hasEdge_inRange hwf ((hfilt x).mp hx).1).2
        · exact hrange x (List.mem_cons_of_mem _ hx)
      have hm : dfsMeasure g (vset visited v true) s1.wait < n := by
        rw [e2]
        by_cases hvis : vget visited v false = true
        · have hsame := vset_same visited v hv.1 (by rw [hlen]; exact hv.2) hvis
          have hnil : (g.adjacentOut v).filter
              (fun w => !vget (vset visited v true) w false) = [] := by
            rw [List.eq_nil_iff_forall_not_mem]
            intro x hx
            have hx2 := (hfilt x).mp hx
            rw [hsame] at hx2
            have := hlifo [] v wait rfl hvis x hx2.1 hx2.2
            simp at this
          rw [hnil, hsame]
          have := dfsMeasure_skip g visited v wait
          simp only [List.reverse_nil, List.nil_append]
          simp only at hfuel
          omega
        · have hun : vget visited v false = false := by simpa using hvis
          have := dfsMeasure_visit g visited v wait
            ((g.adjacentOut v).filter fun w => !vget (vset visited v true) w false).reverse
            hlen hv hun (by rw [List.length_reverse]; exact List.length_filter_le _ _)
          simp only at hfuel
          omega
      obtain ⟨vis1, s2, f1, f2, f3, f4⟩ := ih (vset visited v true) s1 hlen1 hr1 hl1 hm
      refine ⟨vis1, s2, f1, f2, fun x hx => f3 x (hmono x hx), ?_⟩
      intro x hx
      rcases List.mem_cons.mp hx with hx | hx
      · subst hx; exact f3 x hvv
      · apply f4
        rw [e2]
        exact List.mem_append_right _ hx

theorem dfsMeasure_le (g : cGraph) (visited : List Bool) (x : Int) :
    dfsMeasure g visited [x] ≤ dfsMeasure g [] [0] := by
  unfold dfsMeasure
  simp only [List.length_singleton]
  apply Nat.add_le_add_left
  apply Finset.sum_le_sum
  intro i _
  have h : vget ([] : List Bool) (i : Int) false = false := by
    unfold vget; simp
  rw [h]
  split <;> simp

theorem lifo_singleton (g : cGraph) (visited : List Bool) (x : Int)
    (h : vget visited x false = false) : Lifo g visited [x] := by
  intro pre v post hsplit hv
  have hlen := congrArg List.length hsplit
  simp only [List.length_cons, List.length_nil, List.length_append] at hlen
  have hpre : pre = [] := List.length_eq_zero.mp (by omega)
  subst hpre
  simp only [List.nil_append, List.cons.injEq] at hsplit
  rw [← hsplit.1, h] at hv
  cases hv

theorem cycleOuter_total {g : cGraph} (hwf : g.wellFormed) (hnl : g.noLoop)
    {inputStartIndex : Int} (hneg : inputStartIndex < 0) {fuel : Nat}
    (hfuel : dfsMeasure g [] [0] < fuel) :
    ∀ (n : Nat) (visited : List Bool) (s : CycleState), visited.length = g.vertexCount →
      ((Finset.range g.vertexCount).filter
        fun i : Nat => vget visited (i : Int) false = false).card < n →
      ∃ ret, cycleOuter g inputStartIndex fuel n visited s = .ok ret := by
  intro n
  induction n with
  | zero => intro visited s _ h; omega
  | succ n ih =>
    intro visited s hlen hcard
    unfold cycleOuter
    simp only [hneg, if_true]
    by_cases h2 : visited.indexOf false < visited.length
    · simp only [h2, if_true]
      have hget := List.getElem_indexOf h2
      have hun : vget visited (visited.indexOf false : Int) false = false := by
        unfold vget
        have : ¬ ((visited.indexOf false : Int) < 0) := by omega
        simp only [this, if_false, Int.toNat_ofNat]
        rw [List.getD_eq_getElem _ _ h2]
        exact hget
      have hr : g.inRange (visited.indexOf false : Int) := by
        refine ⟨by omega, ?_⟩
        rw [← hlen]
        exact_mod_cast h2
      obtain ⟨vis1, s1, e1, e2, e3, e4⟩ := cycleDfs_total hwf hnl fuel visited
        ⟨[(visited.indexOf false : Int)], s.ret, s.vfoundCycleSignature⟩ hlen
        (by intro x hx; simp only [List.mem_singleton] at hx; subst hx; exact hr)
        (lifo_singleton g visited _ hun)
        (lt_of_le_of_lt (dfsMeasure_le g visited _) hfuel)
      simp only [e1]
      apply ih vis1 s1 e2
      refine lt_of_lt_of_le (Finset.card_lt_card ?_) (Nat.le_of_lt_succ hcard)
      rw [Finset.ssubset_iff_of_subset]
      · refine ⟨visited.indexOf false, ?_, ?_⟩
        · rw [Finset.mem_filter, Finset.mem_range]
          exact ⟨by rw [← hlen]; exact h2, hun⟩
        · rw [Finset.mem_filter]
          intro hc
          have := e4 (visited.indexOf false : Int) (by simp)
          rw [this] at hc
          cases hc.2
      · intro i hi
        rw [Finset.mem_filter] at hi ⊢
        refine ⟨hi.1, ?_⟩
        by_contra hc
        have : vget visited (i : Int) false = true := by simpa using hc
        rw [e3 _ this] at hi
        cases hi.2
    · simp only [h2, if_false]
      exact ⟨_, rfl⟩

theorem dfs_cycle_finder_total {g : cGraph} (hwf : g.wellFormed) (hnl : g.noLoop)
    {inputStartIndex : Int} (hstart : inputStartIndex < 0 ∨ g.inRange inputStartIndex) :
    ∃ N, ∀ fuel, N ≤ fuel → ∃ ret, dfs_cycle_finder fuel g inputStartIndex = .ok ret := by
  refine ⟨dfsMeasure g [] [0] + g.vertexCount + 2, ?_⟩
  intro fuel hfuel
  unfold dfs_cycle_finder
  rcases hstart with hneg | hin
  · apply cycleOuter_total hwf hnl hneg (by omega) fuel _ _ (by simp)
    refine lt_of_le_of_lt (Finset.card_filter_le _ _) ?_
    rw [Finset.card_range]
    omega
  · obtain ⟨n, hn⟩ : ∃ n, fuel = n + 1 := ⟨fuel - 1, by omega⟩
    subst hn
    unfold cycleOuter
    have h1 : ¬ inputStartIndex < 0 := by have := hin.1; omega
    simp only [h1, if_false]
    have hun : vget (List.replicate g.vertexCount false) inputStartIndex false = false :=
      vget_replicate _ _ _ _ hin.1 hin.2
    obtain ⟨vis1, s1, e1, _⟩ := cycleDfs_total hwf hnl (n + 1)
      (List.replicate g.vertexCount false) ⟨[inputStartIndex], [], []⟩ (by simp)
      (by intro x hx; simp only [List.mem_singleton] at hx; subst hx; exact hin)
      (lifo_singleton g _ _ hun)
      (lt_of_le_of_lt (dfsMeasure_le g _ _) (by omega))
    simp only [e1]
    exact ⟨_, rfl⟩

/-! ## Cycle finder on a ring -/

theorem ring_edge {g : cGraph} {c : List Int} (hring : g.isRing c) {i : Nat}
    (hi : i < c.length) (b : Int) :
    g.hasEdge (c.getD i 0) b ↔ b = c.getD ((i + 1) % c.length) 0 := by
  rw [← cGraph.mem_adjacentOut, hring.2.2.2.2.2.2 i hi, List.mem_singleton]

theorem ring_initial {g : cGraph} {c : List Int} (hring : g.isRing c) :
    ∀ p : List Int, List.Chain' (fun a b => g.hasEdge a b) p → p ≠ [] →
      p.head? = c.head? → p.length ≤ c.length → p = c.take p.length := by
  intro p
  induction p using List.reverseRecOn with
  | nil => intro _ h; exact absurd rfl h
  | append_singleton q b ih =>
    intro hchain _ hhead hlen
    simp only [List.length_append, List.length_singleton] at hlen ⊢
    by_cases hq : q = []
    · subst hq
      simp only [List.nil_append, List.head?_cons, List.length_nil, Nat.zero_add] at hhead ⊢
      cases c with
      | nil => simp at hhead
      | cons a c =>
        simp only [List.head?_cons, Option.some.injEq] at hhead
        subst hhead
        simp
    · rw [List.chain'_append] at hchain
      obtain ⟨hc1, _, hc3⟩ := hchain
      have hhead1 : q.head? = c.head? := by
        rw [← hhead]
        cases q with
        | nil => exact absurd rfl hq
        | cons a q => simp
      have hq1 := ih hc1 hq hhead1 (by omega)
      have hqpos : 0 < q.length := List.length_pos.mpr hq
      have hlast : q.getLast? = some (c.getD (q.length - 1) 0) := by
        have h0 : q.getLast? = (c.take q.length).getLast? := congrArg List.getLast? hq1
        have h2 : q.length - 1 < c.length := by omega
        have h3 : ¬ q.length = 0 := by omega
        rw [h0, List.getLast?_take, List.getD_eq_getElem _ _ h2, List.getElem?_eq_getElem h2]
        simp [h3]
      have hb := hc3 _ hlast b (by simp)
      rw [ring_edge hring (by omega)] at hb
      have hmod : (q.length - 1 + 1) % c.length = q.length := by
        rw [Nat.sub_add_cancel hqpos]
        exact Nat.mod_eq_of_lt (by omega)
      rw [hmod] at hb
      have hlt : q.length < c.length := by omega
      rw [List.getD_eq_getElem _ _ hlt] at hb
      rw [List.take_succ, List.getElem?_eq_getElem hlt, ← hq1, hb]
      simp

theorem ring_reachable {g : cGraph} {c : List Int} (hring : g.isRing c) :
    ∀ i, i < c.length → g.Reachable (c.getD 0 0) (c.getD i 0) := by
  intro i
  induction i with
  | zero => intro _; exact Relation.ReflTransGen.refl
  | succ i ih =>
    intro hi
    refine Relation.ReflTransGen.tail (ih (by omega)) ?_
    rw [ring_edge hring (by omega), Nat.mod_eq_of_lt hi]

theorem ring_walk_unique {g : cGraph} {c : List Int} (hring : g.isRing c) {p : List Int}
    (hwalk : g.isWalk (c.getD 0 0) (c.getD (c.length - 1) 0) p) (hnd : p.Nodup)
    (hin : ∀ x ∈ p, g.inRange x) (hpos : 0 < c.length) : p = c := by
  obtain ⟨hhead, hlast, hlinks⟩ := hwalk
  have hne : p ≠ [] := by
    intro h; rw [h] at hhead; simp at hhead
  have hlen : p.length ≤ c.length := by
    rw [hring.2.2.2.2.1]
    exact nodup_length_le p g.vertexCount hnd hin
  have hchead : p.head? = c.head? := by
    rw [hhead]
    cases c with
    | nil => simp at hpos
    | cons a c => simp
  have hp := ring_initial hring p (chain'_of_links hlinks) hne hchead hlen
  have hppos : 0 < p.length := List.length_pos.mpr hne
  have h0 : p.getLast? = (c.take p.length).getLast? := congrArg List.getLast? hp
  have h2 : p.length - 1 < c.length := by omega
  have h3 : ¬ p.length = 0 := by omega
  have h4 : c.length - 1 < c.length := by omega
  rw [hlast, List.getLast?_take, List.getD_eq_getElem _ _ h4,
    List.getElem?_eq_getElem h2] at h0
  simp only [h3, if_false, Option.or_some, Option.some.injEq] at h0
  have := (List.Nodup.getElem_inj_iff hring.2.2.2.1).mp h0
  have hfull : p.length = c.length := by omega
  rw [hp, hfull, List.take_length]

theorem ring_path {g : cGraph} {c : List Int} (hring : g.isRing c) (hn : 2 ≤ c.length)
    (hint : (g.vertexCount : Int) < INT_MAX) :
    ∃ d, path g (c.getD 0 0) (c.getD (c.length - 1) 0) = .ok (c, d) := by
  have hring0 := hring
  obtain ⟨hdir, hwf, hunit, hnd, hlen, hrange, _⟩ := hring0
  have h0 : 0 < c.length := by omega
  have h1 : c.length - 1 < c.length := by omega
  have hs : g.inRange (c.getD 0 0) := by
    rw [List.getD_eq_getElem _ _ h0]; exact hrange _ (List.getElem_mem _)
  have he : g.inRange (c.getD (c.length - 1) 0) := by
    rw [List.getD_eq_getElem _ _ h1]; exact hrange _ (List.getElem_mem _)
  have hne : c.getD 0 0 ≠ c.getD (c.length - 1) 0 := by
    rw [List.getD_eq_getElem _ _ h0, List.getD_eq_getElem _ _ h1]
    intro h
    have := (List.Nodup.getElem_inj_iff hnd).mp h
    omega
  obtain ⟨s, k, inv, hk, hfin, hres⟩ := path_spec hwf 1 hs he hne
  have hreach := ring_reachable hring (c.length - 1) h1
  have hlt := reach_finite hwf inv hk hfin (by norm_num)
    (fun e he => by rw [hunit e he]; norm_num)
    (by
      rw [mul_one]
      have : ((g.vertexCount : Int) : ℚ) < ((INT_MAX : Int) : ℚ) := by exact_mod_cast hint
      simpa using this) _ hreach
  rcases hres with ⟨hp, _⟩ | ⟨_, r, hr, hall, hpath⟩
  · exact absurd ((inv.pred_none _ he).mp hp) (ne_of_lt hlt)
  · refine ⟨vget s.dist (c.getD (c.length - 1) 0) 0, ?_⟩
    rw [hpath]
    have hw := (BackChain.walk inv hr hall).1
    have := ring_walk_unique hring hw (List.nodup_reverse.mpr hr.nodup)
      (fun x hx => hall x (List.mem_reverse.mp hx)) h0
    rw [this]

theorem ring_getD_mem {g : cGraph} {c : List Int} (hring : g.isRing c) {j : Nat}
    (hj : j < c.length) : g.inRange (c.getD j 0) := by
  rw [List.getD_eq_getElem _ _ hj]
  exact hring.2.2.2.2.2.1 _ (List.getElem_mem _)

theorem ring_getD_inj {g : cGraph} {c : List Int} (hring : g.isRing c) {i j : Nat}
    (hi : i < c.length) (hj : j < c.length) (h : c.getD i 0 = c.getD j 0) : i = j := by
  rw [List.getD_eq_getElem _ _ hi, List.getD_eq_getElem _ _ hj] at h
  exact (List.Nodup.getElem_inj_iff hring.2.2.2.1).mp h

theorem ring_dfs {g : cGraph} {c : List Int} (hring : g.isRing c) (hn : 2 ≤ c.length)
    (hint : (g.vertexCount : Int) < INT_MAX) :
    ∀ (k i : Nat), i + k + 1 = c.length → ∀ (fuel : Nat) (visited : List Bool),
      k + 2 ≤ fuel → visited.length = g.vertexCount →
      (∀ j, j < c.length → (vget visited (c.getD j 0) false = true ↔ j < i)) →
      ∃ vis1, cycleDfs g fuel visited ⟨[c.getD i 0], [], []⟩ =
          .ok (vis1, ⟨[], [c ++ [c.getD 0 0]], [signature c]⟩) ∧
        vis1.length = g.vertexCount ∧ ∀ j, j < c.length → vget vis1 (c.getD j 0) false = true := by
  intro k
  induction k with
  | zero =>
    intro i hi fuel visited hfuel hlen hvis
    obtain ⟨m, rfl⟩ : ∃ m, fuel = m + 2 := ⟨fuel - 2, by omega⟩
    have hi1 : i < c.length := by omega
    have hvi := ring_getD_mem hring hi1
    have h1 : ¬ (c.getD i 0 < 0 ∨ (visited.length : Int) ≤ c.getD i 0) := by
      rw [hlen]; have := hvi.1; have := hvi.2; omega
    have hadj := hring.2.2.2.2.2.2 i hi1
    have hmod : (i + 1) % c.length = 0 := by
      have : i + 1 = c.length := by omega
      rw [this]; exact Nat.mod_self _
    rw [hmod] at hadj
    have h0i : c.getD i 0 ≠ c.getD 0 0 := by
      intro h
      have := ring_getD_inj hring hi1 (by omega) h
      omega
    have hv0 : vget (vset visited (c.getD i 0) true) (c.getD 0 0) false = true := by
      rw [vget_vset_ne _ _ _ _ _ h0i]
      exact (hvis 0 (by omega)).mpr (by omega)
    have h00 := ring_getD_mem hring (show 0 < c.length by omega)
    have h2 : ¬ (c.getD 0 0 < 0 ∨ ((vset visited (c.getD i 0) true).length : Int) ≤
        c.getD 0 0) := by
      rw [length_vset, hlen]; have := h00.1; have := h00.2; omega
    obtain ⟨d, hpath⟩ := ring_path hring hn hint
    have hi2 : c.length - 1 = i := by omega
    rw [hi2] at hpath
    have hdir : g.isDirected = true := hring.1
    have hlen2 : ¬ c.length < 2 := by omega
    refine ⟨vset visited (c.getD i 0) true, ?_, by rw [length_vset]; exact hlen, ?_⟩
    · unfold cycleDfs
      simp only [h1, if_false, hadj]
      unfold cycleAdjacent
      simp only [h2, if_false, hv0, hdir, hpath, Bool.not_true, Bool.false_eq_true, hlen2,
        foundBefore, List.any_nil, List.nil_append]
      simp [cycleAdjacent, cycleDfs]
    · intro j hj
      by_cases hji : j = i
      · subst hji
        exact vget_vset_self _ _ _ _ hvi.1 (by rw [hlen]; exact hvi.2)
      · rw [vget_vset_ne _ _ _ _ _ (fun h => hji (ring_getD_inj hring hj hi1 h.symm))]
        exact (hvis j hj).mpr (by omega)
  | succ k ih =>
    intro i hi fuel visited hfuel hlen hvis
    obtain ⟨m, rfl⟩ : ∃ m, fuel = m + 1 := ⟨fuel - 1, by omega⟩
    have hi1 : i < c.length := by omega
    have hi2 : i + 1 < c.length := by omega
    have hvi := ring_getD_mem hring hi1
    have hvn := ring_getD_mem hring hi2
    have h1 : ¬ (c.getD i 0 < 0 ∨ (visited.length : Int) ≤ c.getD i 0) := by
      rw [hlen]; have := hvi.1; have := hvi.2; omega
    have hadj := hring.2.2.2.2.2.2 i hi1
    rw [Nat.mod_eq_of_lt hi2] at hadj
    have hne : c.getD i 0 ≠ c.getD (i + 1) 0 := by
      intro h
      have := ring_getD_inj hring hi1 hi2 h
      omega
    have hvn0 : vget (vset visited (c.getD i 0) true) (c.getD (i + 1) 0) false = false := by
      rw [vget_vset_ne _ _ _ _ _ hne]
      have := (hvis (i + 1) hi2).not.mpr (by omega)
      simpa using this
    have h2 : ¬ (c.getD (i + 1) 0 < 0 ∨ ((vset visited (c.getD i 0) true).length : Int) ≤
        c.getD (i + 1) 0) := by
      rw [length_vset, hlen]; have := hvn.1; have := hvn.2; omega
    obtain ⟨vis1, e1, e2, e3⟩ := ih (i + 1) (by omega) m (vset visited (c.getD i 0) true)
      (by omega) (by rw [length_vset]; exact hlen) (by
        intro j hj
        by_cases hji : j = i
        · subst hji
          rw [vget_vset_self _ _ _ _ hvi.1 (by rw [hlen]; exact hvi.2)]
          simp
        · rw [vget_vset_ne _ _ _ _ _ (fun h => hji (ring_getD_inj hring hj hi1 h.symm)),
            hvis j hj]
          omega)
    refine ⟨vis1, ?_, e2, e3⟩
    unfold cycleDfs
    simp only [h1, if_false, hadj]
    unfold cycleAdjacent
    simp only [h2, if_false, hvn0, Bool.not_false, if_true]
    simp only [cycleAdjacent]
    exact e1

theorem ring_finder_zero {g : cGraph} {c : List Int} (hring : g.isRing c)
    (hn : 2 ≤ c.length) (hint : (g.vertexCount : Int) < INT_MAX) (h0 : c.getD 0 0 = 0) :
    ∀ fuel, c.length + 2 ≤ fuel → dfs_cycle_finder fuel g (-1) = .ok [c ++ [0]] := by
  intro fuel hfuel
  obtain ⟨m, rfl⟩ : ∃ m, fuel = m + 2 := ⟨fuel - 2, by omega⟩
  have hlen : c.length = g.vertexCount := hring.2.2.2.2.1
  obtain ⟨V, hV⟩ : ∃ V, g.vertexCount = V + 1 := ⟨g.vertexCount - 1, by omega⟩
  have hidx : List.indexOf false (List.replicate g.vertexCount false) = 0 := by
    rw [hV, List.replicate_succ]
    exact List.indexOf_cons_eq _ rfl
  obtain ⟨vis1, e1, e2, e3⟩ := ring_dfs hring hn hint (c.length - 1) 0 (by omega) (m + 2)
    (List.replicate g.vertexCount false) (by omega) (by simp) (by
      intro j hj
      have := ring_getD_mem hring hj
      rw [vget_replicate _ _ _ _ this.1 this.2]
      simp)
  rw [h0] at e1
  have hall : ¬ List.indexOf false vis1 < vis1.length := by
    rw [List.indexOf_lt_length]
    intro hmem
    obtain ⟨i, hi, hget⟩ := List.getElem_of_mem hmem
    have hin : g.inRange (i : Int) := ⟨by omega, by rw [← e2]; exact_mod_cast hi⟩
    have hmemc : (i : Int) ∈ c := full_mem hring.2.2.2.1 hring.2.2.2.2.2.1 hin (by omega)
    obtain ⟨j, hj, hcj⟩ := List.getElem_of_mem hmemc
    have := e3 j hj
    rw [List.getD_eq_getElem _ _ hj, hcj] at this
    unfold vget at this
    simp only [Int.toNat_ofNat] at this
    rw [if_neg (by omega), List.getD_eq_getElem _ _ hi, hget] at this
    cases this
  unfold dfs_cycle_finder
  unfold cycleOuter
  have hneg : ((-1 : Int) < 0) := by omega
  simp only [hneg, if_true, hidx, List.length_replicate]
  have hpos : 0 < g.vertexCount := by omega
  simp only [hpos, if_true, Nat.cast_zero, e1]
  unfold cycleOuter
  simp only [hneg, if_true, hall, if_false]

theorem ring_rotate {g : cGraph} {c : List Int} (hring : g.isRing c) (k : Nat) :
    g.isRing (c.rotate k) := by
  obtain ⟨h1, h2, h3, h4, h5, h6, h7⟩ := hring
  refine ⟨h1, h2, h3, List.nodup_rotate.mpr h4, by rw [List.length_rotate]; exact h5,
    fun v hv => h6 v (List.mem_rotate.mp hv), ?_⟩
  intro i hi
  rw [List.length_rotate] at hi ⊢
  have hpos : 0 < c.length := by omega
  have hget : ∀ j, j < c.length → (c.rotate k).getD j 0 = c.getD ((j + k) % c.length) 0 := by
    intro j hj
    rw [List.getD_eq_getElem _ _ (by rw [List.length_rotate]; exact hj),
      List.getD_eq_getElem _ _ (Nat.mod_lt _ hpos), List.getElem_rotate]
  rw [hget i hi, hget _ (Nat.mod_lt _ hpos), h7 _ (Nat.mod_lt _ hpos)]
  congr 2
  rw [Nat.mod_add_mod, Nat.mod_add_mod]
  congr 1
  omega

theorem ring_finder {g : cGraph} {c : List Int} (hring : g.isRing c)
    (hn : 2 ≤ c.length) (hint : (g.vertexCount : Int) < INT_MAX) :
    ∃ k, (c.rotate k).head? = some 0 ∧
      ∀ fuel, c.length + 2 ≤ fuel → dfs_cycle_finder fuel g (-1) = .ok [c.rotate k ++ [0]] := by
  have hlen : c.length = g.vertexCount := hring.2.2.2.2.1
  have hin : g.inRange 0 := ⟨le_refl _, by omega⟩
  have hmem : (0 : Int) ∈ c := full_mem hring.2.2.2.1 hring.2.2.2.2.2.1 hin (by omega)
  obtain ⟨k, hk, hck⟩ := List.getElem_of_mem hmem
  have hr := ring_rotate hring k
  have hlr : (c.rotate k).length = c.length := List.length_rotate _ _
  have h0 : (c.rotate k).getD 0 0 = 0 := by
    rw [List.getD_eq_getElem _ _ (by rw [hlr]; omega), List.getElem_rotate]
    simp only [Nat.zero_add, Nat.mod_eq_of_lt hk]
    exact hck
  refine ⟨k, ?_, ?_⟩
  · rw [List.head?_eq_getElem?, List.getElem?_eq_getElem (by rw [hlr]; omega)]
    rw [List.getD_eq_getElem _ _ (by rw [hlr]; omega)] at h0
    rw [h0]
  · intro fuel hfuel
    exact ring_finder_zero hr (by rw [hlr]; exact hn) hint h0 fuel (by rw [hlr]; exact hfuel)

/-! ## Exchange of a link in a connected set of links -/

theorem exists_simple_chain {r : Int → Int → Prop} {a b : Int}
    (h : Relation.ReflTransGen r a b) :
    ∃ p : List Int, p.Nodup ∧ List.Chain' r p ∧ p.head? = some a ∧ p.getLast? = some b := by
  induction h using Relation.ReflTransGen.head_induction_on with
  | refl => exact ⟨[b], List.nodup_singleton b, List.chain'_singleton b, rfl, rfl⟩
  | @head a c hac _ ih =>
    obtain ⟨q, hnd, hch, hhead, hlast⟩ := ih
    by_cases hmem : a ∈ q
    · obtain ⟨s, t, rfl⟩ := List.append_of_mem hmem
      refine ⟨a :: t, (List.nodup_append.mp hnd).2.1, hch.right_of_append, rfl, ?_⟩
      rw [← hlast, List.getLast?_append_of_ne_nil _ (List.cons_ne_nil a t)]
    · refine ⟨a :: q, List.nodup_cons.mpr ⟨hmem, hnd⟩, ?_, rfl, ?_⟩
      · apply List.Chain'.cons' hch
        intro y hy
        rw [hhead] at hy
        cases hy
        exact hac
      · rw [← hlast]
        cases q with
        | nil => simp at hhead
        | cons x q => simp [List.getLast?_cons_cons]

theorem first_crossing (S : Int → Prop) : ∀ (p : List Int) (a b : Int),
    p.head? = some a → S a → p.getLast? = some b → ¬ S b →
    ∃ pre x y post, p = pre ++ x :: y :: post ∧ (∀ v ∈ pre, S v) ∧ S x ∧ ¬ S y := by
  intro p
  induction p with
  | nil => intro a b h; simp at h
  | cons a1 rest ih =>
    intro a b hhead ha hlast hb
    simp only [List.head?_cons, Option.some.injEq] at hhead
    subst hhead
    cases rest with
    | nil =>
      simp only [List.getLast?_singleton, Option.some.injEq] at hlast
      subst hlast
      exact absurd ha hb
    | cons c rest =>
      by_cases hc : S c
      · obtain ⟨pre, x, y, post, hp, h1, h2, h3⟩ := ih c b rfl hc (by
          rw [← hlast, List.getLast?_cons_cons]) hb
        refine ⟨a1 :: pre, x, y, post, by rw [hp]; rfl, ?_, h2, h3⟩
        intro v hv
        rcases List.mem_cons.mp hv with hv | hv
        · subst hv; exact ha
        · exact h1 v hv
      · exact ⟨[], a1, c, rest, rfl, fun v hv => by simp at hv, ha, hc⟩

theorem chain_reflTransGen {r : Int → Int → Prop} : ∀ (p : List Int) (a b : Int),
    List.Chain' r p → p.head? = some a → p.getLast? = some b →
    Relation.ReflTransGen r a b := by
  intro p
  induction p with
  | nil => intro a b _ h; simp at h
  | cons a1 rest ih =>
    intro a b hch hhead hlast
    simp only [List.head?_cons, Option.some.injEq] at hhead
    subst hhead
    cases rest with
    | nil =>
      simp only [List.getLast?_singleton, Option.some.injEq] at hlast
      subst hlast
      exact Relation.ReflTransGen.refl
    | cons c rest =>
      rw [List.chain'_cons] at hch
      exact Relation.ReflTransGen.head hch.1
        (ih c b hch.2 rfl (by rw [← hlast, List.getLast?_cons_cons]))

theorem chain_imp_of_mem {r r1 : Int → Int → Prop} {p : List Int} (hch : List.Chain' r p)
    (h : ∀ u v, u ∈ p → v ∈ p → r u v → r1 u v) : List.Chain' r1 p := by
  rw [List.Chain'.iff_mem] at hch
  exact hch.imp fun u v huv => h u v huv.1 huv.2.1 huv.2.2

theorem exchange (A : Finset (Sym2 Int)) (W : Sym2 Int → ℚ) (S : Int → Prop) {a b : Int}
    (ha : S a) (hb : ¬ S b)
    (hconn : Relation.ReflTransGen (fun u v => s(u, v) ∈ A) a b)
    (hmin : ∀ x y, s(x, y) ∈ A → S x → ¬ S y → W s(a, b) ≤ W s(x, y)) :
    ∃ A1 : Finset (Sym2 Int), A1.card ≤ A.card ∧ ∑ t ∈ A1, W t ≤ ∑ t ∈ A, W t ∧
      s(a, b) ∈ A1 ∧ A1 ⊆ insert s(a, b) A ∧
      (∀ x y, s(x, y) ∈ A → (S x ↔ S y) → s(x, y) ∈ A1) ∧
      ∀ u v, Relation.ReflTransGen (fun u v => s(u, v) ∈ A) u v →
        Relation.ReflTransGen (fun u v => s(u, v) ∈ A1) u v := by
  by_cases hmem : s(a, b) ∈ A
  · exact ⟨A, le_refl _, le_refl _, hmem, Finset.subset_insert _ _, fun x y h _ => h,
      fun u v h => h⟩
  · obtain ⟨p, hnd, hch, hhead, hlast⟩ := exists_simple_chain hconn
    obtain ⟨pre, x, y, post, hp, hpre, hx, hy⟩ := first_crossing S p a b hhead ha hlast hb
    subst hp
    have hsplit : pre ++ x :: y :: post = (pre ++ [x]) ++ (y :: post) := by simp
    have hf : s(x, y) ∈ A := (List.chain'_cons.mp hch.right_of_append).1
    have hkeep : ∀ u v, s(u, v) ∈ A → s(u, v) ≠ s(x, y) →
        s(u, v) ∈ insert s(a, b) (A.erase s(x, y)) :=
      fun u v h hne => Finset.mem_insert_of_mem (Finset.mem_erase.mpr ⟨hne, h⟩)
    have hsym : Symmetric (fun u v => s(u, v) ∈ insert s(a, b) (A.erase s(x, y))) :=
      fun u v h => by
        have hswap : s(v, u) = s(u, v) := Sym2.eq_swap
        show s(v, u) ∈ insert s(a, b) (A.erase s(x, y))
        rw [hswap]; exact h
    have h1 : Relation.ReflTransGen (fun u v => s(u, v) ∈ insert s(a, b) (A.erase s(x, y)))
        a x := by
      apply chain_reflTransGen (pre ++ [x]) a x
      · have hc1 : List.Chain' (fun u v => s(u, v) ∈ A) (pre ++ [x]) := by
          rw [hsplit] at hch
          exact hch.left_of_append
        apply chain_imp_of_mem hc1
        intro u v hu hv huv
        apply hkeep u v huv
        intro heq
        have hS : ∀ z, z ∈ pre ++ [x] → S z := by
          intro z hz
          rw [List.mem_append, List.mem_singleton] at hz
          rcases hz with hz | hz
          · exact hpre z hz
          · subst hz; exact hx
        rcases Sym2.eq_iff.mp heq with ⟨_, h⟩ | ⟨h, _⟩
        · exact hy (h ▸ hS v hv)
        · exact hy (h ▸ hS u hu)
      · cases pre with
        | nil => simpa using hhead
        | cons c pre => simpa using hhead
      · simp
    have h2 : Relation.ReflTransGen (fun u v => s(u, v) ∈ insert s(a, b) (A.erase s(x, y)))
        y b := by
      apply chain_reflTransGen (y :: post) y b
      · have hc2 : List.Chain' (fun u v => s(u, v) ∈ A) (y :: post) := by
          rw [hsplit] at hch
          exact hch.right_of_append
        apply chain_imp_of_mem hc2
        intro u v hu hv huv
        apply hkeep u v huv
        intro heq
        have hxn : x ∉ y :: post := by
          rw [hsplit] at hnd
          have := (List.nodup_append.mp hnd).2.2
          intro hc
          exact this (List.mem_append_right _ (List.mem_singleton_self x)) hc
        rcases Sym2.eq_iff.mp heq with ⟨h, _⟩ | ⟨_, h⟩
        · exact hxn (h ▸ hu)
        · exact hxn (h ▸ hv)
      · rfl
      · rw [← hlast, hsplit, List.getLast?_append_of_ne_nil _ (List.cons_ne_nil y post)]
    have hab : Relation.ReflTransGen (fun u v => s(u, v) ∈ insert s(a, b) (A.erase s(x, y)))
        a b := Relation.ReflTransGen.single (Finset.mem_insert_self _ _)
    have hRs := Relation.ReflTransGen.symmetric hsym
    have hxy : Relation.ReflTransGen (fun u v => s(u, v) ∈ insert s(a, b) (A.erase s(x, y)))
        x y := ((hRs h1).trans hab).trans (hRs h2)
    refine ⟨insert s(a, b) (A.erase s(x, y)), ?_, ?_, Finset.mem_insert_self _ _,
      Finset.insert_subset_insert _ (Finset.erase_subset _ _), ?_, ?_⟩
    · have h1 := Finset.card_insert_le s(a, b) (A.erase s(x, y))
      have h2 := Finset.card_erase_of_mem hf
      have h3 : 0 < A.card := Finset.card_pos.mpr ⟨_, hf⟩
      omega
    · have hne : s(a, b) ∉ A.erase s(x, y) := fun h => hmem (Finset.mem_of_mem_erase h)
      rw [Finset.sum_insert hne, ← Finset.add_sum_erase A W hf]
      have := hmin x y hf hx hy
      linarith
    · intro u v huv hiff
      apply hkeep u v huv
      intro heq
      rcases Sym2.eq_iff.mp heq with ⟨e1, e2⟩ | ⟨e1, e2⟩
      · rw [e1, e2] at hiff; exact hy (hiff.mp hx)
      · rw [e1, e2] at hiff; exact hy (hiff.mpr hx)
    · intro u v huv
      induction huv with
      | refl => exact Relation.ReflTransGen.refl
      | @tail c d _ hbc ih =>
        refine ih.trans ?_
        by_cases heq : s(c, d) = s(x, y)
        · rcases Sym2.eq_iff.mp heq with ⟨e1, e2⟩ | ⟨e1, e2⟩
          · rw [e1, e2]; exact hxy
          · rw [e1, e2]; exact hRs hxy
        · exact Relation.ReflTransGen.single (hkeep c d hbc heq)

/-! ## The tree of `spanningTree` against the trees through the seed edge -/

theorem joins_symm {g : cGraph} (hd : g.fDirected = false) (u v : Int) :
    g.joins u v = g.joins v u := by
  funext e
  unfold cGraph.joins
  simp only [hd, Bool.not_false, Bool.true_and]
  exact Bool.or_comm _ _

theorem hasEdge_symm {g : cGraph} (hd : g.fDirected = false) {u v : Int}
    (h : g.hasEdge u v) : g.hasEdge v u := by
  unfold cGraph.hasEdge at h ⊢
  rw [joins_symm hd v u]
  exact h

theorem linkWeight_symm {g : cGraph} (hd : g.fDirected = false) (u v : Int) :
    g.linkWeight u v = g.linkWeight v u := by
  unfold cGraph.linkWeight cGraph.firstEdge
  rw [joins_symm hd u v]

theorem linkWeight_of_hasEdge {g : cGraph} {u v : Int} (h : g.hasEdge u v) :
    g.rEdgeAttr (g.find u v) = .ok (g.linkWeight u v) := by
  obtain ⟨e, hf, _, _⟩ := cGraph.firstEdge_of_hasEdge h
  rw [cGraph.rEdgeAttr_find, hf]
  unfold cGraph.linkWeight
  rw [hf]

theorem linked_iff (es : List cEdge) (a b : Int) : linked es a b ↔ s(a, b) ∈ linkSet es := by
  unfold linked linkSet
  simp only [List.mem_toFinset, List.mem_map]
  constructor
  · rintro ⟨e, he, h⟩
    refine ⟨e, he, ?_⟩
    rw [Sym2.eq_iff]
    rcases h with ⟨h1, h2⟩ | ⟨h1, h2⟩
    · exact Or.inl ⟨h1, h2⟩
    · exact Or.inr ⟨h1, h2⟩
  · rintro ⟨e, he, h⟩
    refine ⟨e, he, ?_⟩
    rw [Sym2.eq_iff] at h
    rcases h with ⟨h1, h2⟩ | ⟨h1, h2⟩
    · exact Or.inl ⟨h1, h2⟩
    · exact Or.inr ⟨h1, h2⟩

theorem linkSet_concat (es : List cEdge) (e : cEdge) :
    linkSet (es ++ [e]) = insert s(e.src, e.dest) (linkSet es) := by
  unfold linkSet
  ext t
  simp only [List.map_append, List.map_cons, List.map_nil, List.toFinset_append,
    List.toFinset_cons, List.toFinset_nil, Finset.mem_union, Finset.mem_insert,
    List.mem_toFinset, Finset.not_mem_empty, or_false]
  tauto

theorem touched_of_linkSet {es : List cEdge} {x y : Int} (h : s(x, y) ∈ linkSet es) :
    touched es x ∧ touched es y := by
  rw [← linked_iff] at h
  obtain ⟨e, he, h⟩ := h
  rcases h with ⟨h1, h2⟩ | ⟨h1, h2⟩
  · exact ⟨⟨e, he, Or.inl h1⟩, ⟨e, he, Or.inr h2⟩⟩
  · exact ⟨⟨e, he, Or.inr h2⟩, ⟨e, he, Or.inl h1⟩⟩

theorem sum_toFinset_le (W : Sym2 Int → ℚ) : ∀ l : List (Sym2 Int), (∀ t ∈ l, 0 ≤ W t) →
    ∑ t ∈ l.toFinset, W t ≤ (l.map W).sum := by
  intro l
  induction l with
  | nil => intro _; simp
  | cons a l ih =>
    intro h
    have h1 := ih (fun t ht => h t (List.mem_cons_of_mem _ ht))
    have h0 := h a (List.mem_cons_self _ _)
    rw [List.toFinset_cons, List.map_cons, List.sum_cons]
    by_cases ha : a ∈ l.toFinset
    · rw [Finset.insert_eq_of_mem ha]
      linarith
    · rw [Finset.sum_insert ha]
      linarith

theorem prim_invariant {g : cGraph} (hwf : g.wellFormed) (hd : g.fDirected = false)
    {T F : List cEdge} {start w0 : Int} (W : Sym2 Int → ℚ)
    (hW : ∀ u v, W s(u, v) = g.linkWeight u v) (hgreedy : g.greedy T)
    (hseed : T.head? = some ⟨start, w0, 1⟩) (hF : g.isSpanningTree F)
    (hFseed : linked F start w0) :
    ∀ k, 1 ≤ k → k ≤ T.length →
      ∃ A : Finset (Sym2 Int), A.card ≤ (linkSet F).card ∧
        ∑ t ∈ A, W t ≤ ∑ t ∈ linkSet F, W t ∧ linkSet (T.take k) ⊆ A ∧
        (∀ x y, s(x, y) ∈ A → g.hasEdge x y) ∧
        (∀ u v, g.inRange u → g.inRange v →
          Relation.ReflTransGen (fun u v => s(u, v) ∈ A) u v) ∧
        ((T.take k).map fun e => s(e.src, e.dest)).Nodup := by
  intro k
  induction k with
  | zero => intro h; omega
  | succ k ih =>
    intro _ hlen
    by_cases hk0 : k = 0
    · subst hk0
      refine ⟨linkSet F, le_refl _, le_refl _, ?_, ?_, ?_, ?_⟩
      · cases T with
        | nil => simp at hseed
        | cons e0 rest =>
          simp only [List.head?_cons, Option.some.injEq] at hseed
          subst hseed
          intro t ht
          simp only [Nat.zero_add, List.take_succ_cons, List.take_zero, linkSet, List.map_cons,
            List.map_nil, List.toFinset_cons, List.toFinset_nil, Finset.mem_insert,
            Finset.not_mem_empty, or_false] at ht
          rw [ht]
          exact (linked_iff F start w0).mp hFseed
      · intro x y hxy
        obtain ⟨e, he, h⟩ := (linked_iff F x y).mpr hxy
        have hedge := hF.2.1 e he
        rcases h with ⟨h1, h2⟩ | ⟨h1, h2⟩
        · rw [h1, h2] at hedge; exact hedge
        · rw [h1, h2] at hedge; exact hasEdge_symm hd hedge
      · intro u v hu hv
        exact Relation.ReflTransGen.mono (fun a b hab => (linked_iff F a b).mp hab)
          (hF.2.2 u v hu hv)
      · cases T with
        | nil => simp
        | cons e0 rest => simp
    · have hk : k < T.length := by omega
      obtain ⟨A, hcard, hsum, hsub, hedges, hconn, hnd⟩ := ih (by omega) (by omega)
      have hsplit : T = T.take k ++ T[k] :: T.drop (k + 1) := by
        rw [← List.drop_eq_getElem_cons hk, List.take_append_drop]
      have hpre : T.take k ≠ [] := by
        intro h
        have := congrArg List.length h
        rw [List.length_take] at this
        simp only [List.length_nil] at this
        omega
      obtain ⟨⟨hS, _, hnS, hedge⟩, c, hc, _, hmin⟩ := hgreedy _ _ _ hsplit hpre
      have hcw : c = g.linkWeight T[k].src T[k].dest := by
        have := linkWeight_of_hasEdge hedge
        rw [hc] at this
        exact Except.ok.inj this
      have hr := cGraph.hasEdge_inRange hwf hedge
      obtain ⟨A1, e1, e2, e3, e4, e5, e6⟩ := exchange A W (touched (T.take k)) hS hnS
        (hconn _ _ hr.1 hr.2) (by
          intro x y hxy hSx hnSy
          rw [hW, hW, ← hcw]
          have hxe := hedges x y hxy
          exact hmin x y ⟨hSx, (cGraph.hasEdge_inRange hwf hxe).2, hnSy, hxe⟩ _
            (linkWeight_of_hasEdge hxe))
      have htake : T.take (k + 1) = T.take k ++ [T[k]] := by
        rw [List.take_succ, List.getElem?_eq_getElem hk]
        rfl
      have hnew : s(T[k].src, T[k].dest) ∉ linkSet (T.take k) :=
        fun h => hnS (touched_of_linkSet h).2
      refine ⟨A1, le_trans e1 hcard, le_trans e2 hsum, ?_, ?_, ?_, ?_⟩
      · rw [htake, linkSet_concat]
        intro t ht
        rcases Finset.mem_insert.mp ht with ht | ht
        · rw [ht]; exact e3
        · induction t using Sym2.ind with
          | _ x y =>
            have htouch := touched_of_linkSet ht
            exact e5 x y (hsub ht) ⟨fun _ => htouch.2, fun _ => htouch.1⟩
      · intro x y hxy
        rcases Finset.mem_insert.mp (e4 hxy) with h | h
        · rcases Sym2.eq_iff.mp h with ⟨h1, h2⟩ | ⟨h1, h2⟩
          · rw [h1, h2]; exact hedge
          · rw [h1, h2]; exact hasEdge_symm hd hedge
        · exact hedges x y h
      · intro u v hu hv
        exact e6 u v (hconn u v hu hv)
      · rw [htake, List.map_append]
        refine List.nodup_append.mpr ⟨hnd, List.nodup_singleton _, ?_⟩
        intro t ht1 ht2
        simp only [List.map_cons, List.map_nil, List.mem_singleton] at ht2
        subst ht2
        apply hnew
        unfold linkSet
        exact List.mem_toFinset.mpr ht1

theorem linkWeight_nonneg {g : cGraph} (hw : ∀ e ∈ g.vEdge, 0 ≤ e.attr0) (u v : Int) :
    0 ≤ g.linkWeight u v := by
  unfold cGraph.linkWeight cGraph.firstEdge
  cases h : g.vEdge.find? (g.joins u v) with
  | none => exact le_refl _
  | some e => exact hw e (List.mem_of_find?_eq_some h)

theorem weightOf_eq (g : cGraph) (W : Sym2 Int → ℚ)
    (hW : ∀ u v, W s(u, v) = g.linkWeight u v) (es : List cEdge) :
    g.weightOf es = ((es.map fun e => s(e.src, e.dest)).map W).sum := by
  unfold cGraph.weightOf
  rw [List.map_map]
  congr 1
  apply List.map_congr_left
  intro e _
  simp only [Function.comp_apply, hW]

theorem linked_symm (es : List cEdge) : Symmetric (linked es) := by
  intro a b h
  obtain ⟨e, he, h⟩ := h
  exact ⟨e, he, h.symm⟩

theorem spanningTree_optimal {g : cGraph} (hwf : g.wellFormed) (hd : g.fDirected = false)
    (hnl : g.noLoop) {start : Int} (hs : g.inRange start) (hV : 2 ≤ g.vertexCount)
    (hconn : ∀ v, g.inRange v → g.Reachable start v)
    (hw : ∀ e ∈ g.vEdge, 0 ≤ e.attr0 ∧ e.attr0 < (INT_MAX : ℚ)) :
    ∃ t w0, (g.adjacentOut start).head? = some w0 ∧ spanningTree g start = .ok t ∧
      g.isSpanningTree t.vEdge ∧ t.vEdge.head? = some ⟨start, w0, 1⟩ ∧ g.greedy t.vEdge ∧
      ∀ F, g.isSpanningTree F → linked F start w0 → g.weightOf t.vEdge ≤ g.weightOf F := by
  obtain ⟨t, st1, vis1, d, w0, hhead, h1, inv, hd0, hlen, ht⟩ :=
    spanningTree_connected hwf hs hV hconn (fun e he => (hw e he).2)
  have hedge : g.hasEdge start w0 := by
    rw [← cGraph.mem_adjacentOut]
    exact List.mem_of_mem_head? hhead
  have hdz : d = 0 := hd0 (ne_of_noLoop hnl hedge)
  have hle := nodup_length_le st1.myVertexSet g.vertexCount inv.set_nodup inv.set_range
  have hcnt := inv.cnt
  subst ht
  have hTlen : st1.mySpanningTree.vEdge.length + 1 = g.vertexCount := by omega
  have hfull : ∀ v, g.inRange v → v ∈ st1.myVertexSet := fun v hv =>
    full_mem inv.set_nodup inv.set_range hv hlen
  have hRs := Relation.ReflTransGen.symmetric (linked_symm st1.mySpanningTree.vEdge)
  have hspan : g.isSpanningTree st1.mySpanningTree.vEdge :=
    ⟨hTlen, fun e he => (inv.edges e he).1, fun u v hu hv =>
      (hRs (inv.conn u (hfull u hu))).trans (inv.conn v (hfull v hv))⟩
  refine ⟨_, w0, hhead, h1, hspan, inv.seed, inv.greedy, ?_⟩
  intro F hF hFseed
  obtain ⟨W, hW⟩ : ∃ W : Sym2 Int → ℚ, ∀ u v, W s(u, v) = g.linkWeight u v :=
    ⟨Sym2.lift ⟨g.linkWeight, linkWeight_symm hd⟩, fun u v => Sym2.lift_mk _ _ _⟩
  obtain ⟨A, hcard, hsum, hsub, _, _, hnd⟩ := prim_invariant hwf hd W hW inv.greedy inv.seed
    hF hFseed st1.mySpanningTree.vEdge.length (by omega) (le_refl _)
  rw [List.take_length] at hsub hnd
  have hcT : (linkSet st1.mySpanningTree.vEdge).card = st1.mySpanningTree.vEdge.length := by
    unfold linkSet
    rw [List.toFinset_card_of_nodup hnd, List.length_map]
  have hcF : (linkSet F).card ≤ F.length := by
    unfold linkSet
    exact le_trans (List.toFinset_card_le _) (by rw [List.length_map])
  have hFlen := hF.1
  have hA : linkSet st1.mySpanningTree.vEdge = A :=
    Finset.eq_of_subset_of_card_le hsub (by omega)
  have h1 : g.weightOf st1.mySpanningTree.vEdge =
      ∑ t ∈ linkSet st1.mySpanningTree.vEdge, W t := by
    rw [weightOf_eq g W hW]
    unfold linkSet
    rw [List.sum_toFinset W hnd]
  have h2 : ∑ t ∈ linkSet F, W t ≤ g.weightOf F := by
    rw [weightOf_eq g W hW]
    unfold linkSet
    apply sum_toFinset_le
    intro t ht
    obtain ⟨e, _, rfl⟩ := List.mem_map.mp ht
    rw [hW]
    exact linkWeight_nonneg (fun e he => (hw e he).1) _ _
  rw [h1, hA]
  exact le_trans hsum h2

/-! ## Claims on `dfs_allpaths` -/

/-- C11: on the graph a-b, b-c, a-d of the unit tests, searched from a to c,
`dfs_allpaths` returns, for every number of rounds from 8 on, the single
sequence a, d, b, c, which is no path: the dead end d stays in it, and no edge
joins d to b. -/
theorem dfs_allpaths_dead_end :
    (∀ k, dfs_allpaths (k + 8) testGraph 0 2 = .ok [[0, 3, 1, 2]]) ∧
      ¬ testGraph.hasEdge 3 1 ∧ ¬ testGraph.isWalk 0 2 [0, 3, 1, 2] :=
  ⟨fun _ => rfl, by decide, by decide⟩

/-- C12: on `rejoinGraph`, searched from 0 to 3, `dfs_allpaths` returns, for
every number of rounds from 9 on, the path 0, 2, 1, 3 twice, and the simple
path 0, 1, 3 is not in the list. -/
theorem dfs_allpaths_misses_path :
    (∀ k, dfs_allpaths (k + 9) rejoinGraph 0 3 = .ok [[0, 2, 1, 3], [0, 2, 1, 3]]) ∧
      rejoinGraph.isWalk 0 3 [0, 1, 3] ∧ [0, 1, 3].Nodup ∧
      [0, 1, 3] ∉ [[0, 2, 1, 3], [0, 2, 1, 3]] :=
  ⟨fun _ => rfl, by decide, by decide, by decide⟩

/-! ## Claims on `spanningTree` -/

theorem testGraph_connected : ∀ v, testGraph.inRange v → testGraph.Reachable 0 v := by
  intro v hv
  have h : v = 0 ∨ v = 1 ∨ v = 2 ∨ v = 3 := by
    have h0 := hv.1
    have h1 := hv.2
    simp only [cGraph.vertexCount, testGraph] at h1
    omega
  rcases h with h | h | h | h <;> subst h
  · exact Relation.ReflTransGen.refl
  · exact cGraph.isWalk_reachable (p := [0, 1]) (by decide)
  · exact cGraph.isWalk_reachable (p := [0, 1, 2]) (by decide)
  · exact cGraph.isWalk_reachable (p := [0, 3]) (by decide)

/-- C13, counterexample: the undirected chain 0 - 1 - 2 is simple and
connected, yet `spanningTree` from 0 returns the cleared graph, without an
edge, because the edge 1 - 2 of weight `INT_MAX` is never taken. -/
theorem spanningTree_heavy_edge_empty :
    spanningTree heavyTailGraph 0 = .ok ⟨false, 0, []⟩ ∧ heavyTailGraph.isSimple ∧
      heavyTailGraph.isDirected = false ∧ heavyTailGraph.isWalk 0 1 [0, 1] ∧
      heavyTailGraph.isWalk 0 2 [0, 1, 2] :=
  ⟨by decide!, by decide, by decide, by decide, by decide⟩

/-- C13, amended: for a well formed simple graph with at least two vertices,
all of them reachable from `start`, and with every edge weight below `INT_MAX`,
`spanningTree` returns a graph with one edge less than `g` has vertices, each
of them joining two vertices that an edge of `g` joins, and every vertex of
`g` is an end of one of them. -/
theorem spanningTree_spans (g : cGraph) (start : Int) (hwf : g.wellFormed)
    (hsimple : g.isSimple) (hV : 2 ≤ g.vertexCount) (hs : g.inRange start)
    (hconn : ∀ v, g.inRange v → g.Reachable start v)
    (hw : ∀ e ∈ g.vEdge, e.attr0 < (INT_MAX : ℚ)) :
    ∃ t, spanningTree g start = .ok t ∧ t.vEdge.length + 1 = g.vertexCount ∧
      (∀ e ∈ t.vEdge, g.hasEdge e.src e.dest) ∧ ∀ v, g.inRange v → touched t.vEdge v := by
  obtain ⟨t, st1, vis1, d, w0, hhead, h1, inv, hd, hlen, ht⟩ :=
    spanningTree_connected hwf hs hV hconn hw
  have hedge : g.hasEdge start w0 := by
    rw [← cGraph.mem_adjacentOut]
    exact List.mem_of_mem_head? hhead
  have hd0 : d = 0 := hd (no_loop_of_simple hsimple hedge)
  have hle := nodup_length_le st1.myVertexSet g.vertexCount inv.set_nodup inv.set_range
  subst ht
  refine ⟨_, h1, ?_, fun e he => (inv.edges e he).1, ?_⟩
  · have := inv.cnt
    omega
  · intro v hv
    exact (inv.touch v).mp (full_mem inv.set_nodup inv.set_range hv hlen)

/-- C13, witness: the graph of the unit tests, from vertex a. -/
theorem spanningTree_spans_witness :
    ∃ t, spanningTree testGraph 0 = .ok t ∧ t.vEdge.length + 1 = testGraph.vertexCount ∧
      (∀ e ∈ t.vEdge, testGraph.hasEdge e.src e.dest) ∧
      ∀ v, testGraph.inRange v → touched t.vEdge v :=
  spanningTree_spans testGraph 0 (by decide) (by decide) (by decide) (by decide)
    testGraph_connected (by decide!)

/-- C14: for a well formed graph in which `start` has an outgoing edge and
some vertex cannot be reached from `start`, `spanningTree` returns normally,
and what it returns is the cleared graph, without an edge. -/
theorem spanningTree_unreachable_empty (g : cGraph) (start : Int) (hwf : g.wellFormed)
    (hs : g.inRange start) (hout : g.adjacentOut start ≠ [])
    (hun : ∃ u, g.inRange u ∧ ¬ g.Reachable start u) :
    ∃ t, spanningTree g start = .ok t ∧ t.vEdge = [] ∧ t = ⟨false, 0, []⟩ := by
  cases hadj : g.adjacentOut start with
  | nil => exact absurd hadj hout
  | cons w0 rest =>
    obtain ⟨t, st1, vis1, d, h1, inv, _, h2⟩ := spanningTree_spec hwf hs hadj
    obtain ⟨u, hu, hnr⟩ := hun
    rcases h2 with ⟨_, ht, _⟩ | ⟨hlen, _⟩
    · exact ⟨t, h1, by rw [ht], ht⟩
    · exact absurd (inv.reach u (full_mem inv.set_nodup inv.set_range hu hlen)) hnr

/-- C14, witness: in `strandedGraph` vertex 0 has an edge and vertex 2 cannot
be reached from it. -/
theorem spanningTree_unreachable_empty_witness :
    ∃ t, spanningTree strandedGraph 0 = .ok t ∧ t.vEdge = [] ∧ t = ⟨false, 0, []⟩ :=
  spanningTree_unreachable_empty strandedGraph 0 (by decide) (by decide) (by decide)
    ⟨2, by decide, fun h =>
      reachable_of_closed (g := strandedGraph) (S := fun v => v ≠ 2) (by decide)
        (fun u _ v huv hv => by
          obtain ⟨e, he, hj⟩ := huv
          simp only [strandedGraph, List.mem_singleton] at he
          subst he
          simp only [cGraph.joins, strandedGraph, Bool.or_eq_true, Bool.and_eq_true,
            beq_iff_eq] at hj
          omega) 2 h rfl⟩

/-- C15, counterexample: on the triangle `seedTriangle` the tree returned from
vertex 0 has the edges 0-1 and 0-2, of weight 11 in the graph, while the edges
0-2 and 1-2 are a spanning tree of weight 2. -/
theorem spanningTree_seed_not_minimum :
    spanningTree seedTriangle 0 = .ok ⟨false, 3, [⟨0, 1, 1⟩, ⟨0, 2, 1⟩]⟩ ∧
      seedTriangle.weightOf [⟨0, 1, 1⟩, ⟨0, 2, 1⟩] = 11 ∧
      seedTriangle.weightOf [⟨0, 2, 1⟩, ⟨1, 2, 1⟩] = 2 ∧
      seedTriangle.isSpanningTree [⟨0, 2, 1⟩, ⟨1, 2, 1⟩] ∧
      seedTriangle.isSimple ∧ seedTriangle.isDirected = false := by
  refine ⟨by decide!, by decide!, by decide!, ⟨by decide, by decide, ?_⟩, by decide,
    by decide⟩
  have hto : ∀ v, seedTriangle.inRange v →
      Relation.ReflTransGen (linked [⟨0, 2, 1⟩, ⟨1, 2, 1⟩]) v 2 := by
    intro v hv
    have h : v = 0 ∨ v = 1 ∨ v = 2 := by
      have h0 := hv.1
      have h1 := hv.2
      simp only [cGraph.vertexCount, seedTriangle] at h1
      omega
    rcases h with h | h | h <;> subst h
    · exact Relation.ReflTransGen.single (by decide)
    · exact Relation.ReflTransGen.single (by decide)
    · exact Relation.ReflTransGen.refl
  intro u v hu hv
  exact (hto u hu).trans (Relation.ReflTransGen.symmetric (linked_symm _) (hto v hv))

/-- C15, amended: for a well formed, simple, undirected graph with at least two
vertices, all of them reachable from `start`, and with every edge weight
non-negative and below `INT_MAX`, the tree returned by `spanningTree` is a
spanning tree of `g` whose first edge is the seed edge, from `start` to the
first neighbour of `start`, and its weight in `g` is no larger than that of any
spanning tree of `g` that has the seed edge among its links. -/
theorem spanningTree_least_through_seed (g : cGraph) (start : Int) (hwf : g.wellFormed)
    (hund : g.isDirected = false) (hsimple : g.isSimple) (hV : 2 ≤ g.vertexCount)
    (hs : g.inRange start) (hconn : ∀ v, g.inRange v → g.Reachable start v)
    (hw : ∀ e ∈ g.vEdge, 0 ≤ e.attr0 ∧ e.attr0 < (INT_MAX : ℚ)) :
    ∃ t w0, (g.adjacentOut start).head? = some w0 ∧ spanningTree g start = .ok t ∧
      g.isSpanningTree t.vEdge ∧ t.vEdge.head? = some ⟨start, w0, 1⟩ ∧
      ∀ F, g.isSpanningTree F → linked F start w0 → g.weightOf t.vEdge ≤ g.weightOf F := by
  obtain ⟨t, w0, h1, h2, h3, h4, _, h6⟩ :=
    spanningTree_optimal hwf hund hsimple.1 hs hV hconn hw
  exact ⟨t, w0, h1, h2, h3, h4, h6⟩

/-- C15, witness: the graph of the unit tests, from vertex a. -/
theorem spanningTree_least_through_seed_witness :
    ∃ t w0, (testGraph.adjacentOut 0).head? = some w0 ∧ spanningTree testGraph 0 = .ok t ∧
      testGraph.isSpanningTree t.vEdge ∧ t.vEdge.head? = some ⟨0, w0, 1⟩ ∧
      ∀ F, testGraph.isSpanningTree F → linked F 0 w0 →
        testGraph.weightOf t.vEdge ≤ testGraph.weightOf F :=
  spanningTree_least_through_seed testGraph 0 (by decide) (by decide) (by decide) (by decide)
    (by decide) testGraph_connected (by decide!)

/-- C16: on the graph a-b, b-c, a-d of the unit tests the tree returned by
`spanningTree` from a has the edges a-b, a-d, b-c in this order, and its dump
is not the text that the unit test expects. -/
theorem spanningTree_text_order :
    spanningTree testGraph (findName testNames "a") =
        .ok ⟨false, 4, [⟨0, 1, 1⟩, ⟨0, 3, 1⟩, ⟨1, 2, 1⟩]⟩ ∧
      (spanningTree testGraph (findName testNames "a")).map (cGraph.text testNames) =
        .ok "l a b 1\nl a d 1\nl b c 1\n" ∧
      (spanningTree testGraph (findName testNames "a")).map (cGraph.text testNames) ≠
        .ok "l b a 1\nl b c 1\nl a d 1\n" :=
  ⟨by decide!, by decide!, by decide!⟩

/-! ## Claims on the depth first searches -/

/-- C17: for a well formed graph and a vertex `start` of it, `dfs` with the
visitor that never stops ends normally once it is given enough rounds; the
visitor is called with no vertex twice, first with `start`, and with exactly
the vertices that can be reached from `start`. -/
theorem dfs_visits_reachable (g : cGraph) (start : Int) (hwf : g.wellFormed)
    (hs : g.inRange start) :
    ∃ N, ∀ fuel, N ≤ fuel → ∃ order, dfs fuel g start visitAll = .ok order ∧
      order.Nodup ∧ order.head? = some start ∧ ∀ v, v ∈ order ↔ g.Reachable start v := by
  refine ⟨dfsMeasure g (List.replicate g.vertexCount false) [start] + 1, ?_⟩
  intro fuel hfuel
  obtain ⟨vis, h, inv⟩ := dfs_spec hwf hs fuel (by omega)
  refine ⟨_, h, inv.nodup, ?_, ?_⟩
  · simpa using inv.first
  · intro v
    constructor
    · intro hv; exact inv.reach v (Or.inl hv)
    · have hstart : start ∈ dfsRecursive g start := by
        have := inv.first
        simp only [List.append_nil] at this
        exact List.mem_of_mem_head? this
      apply reachable_of_closed hstart
      intro u hu x hx
      rcases inv.closed u hu x hx with h | h
      · exact h
      · simp at h

/-- C17, witness: the graph of the unit tests, searched from vertex a. -/
theorem dfs_visits_reachable_witness :
    ∃ N, ∀ fuel, N ≤ fuel → ∃ order, dfs fuel testGraph 0 visitAll = .ok order ∧
      order.Nodup ∧ order.head? = some 0 ∧ ∀ v, v ∈ order ↔ testGraph.Reachable 0 v :=
  dfs_visits_reachable testGraph 0 (by decide) (by decide)

/-- C18: for a well formed graph and a vertex `start` of it, the sequence of
visitor calls of `dfs`, once it is given enough rounds, is the pre-order of the
recursive depth first search that takes the neighbours of each vertex in the
reverse of the order of `adjacentOut`; on the graph a-b, b-c, a-d searched from
a this pre-order is a, d, b, c. -/
theorem dfs_eq_recursive (g : cGraph) (start : Int) (hwf : g.wellFormed)
    (hs : g.inRange start) :
    (∃ N, ∀ fuel, N ≤ fuel → dfs fuel g start visitAll = .ok (dfsRecursive g start)) ∧
      dfsRecursive testGraph 0 = [0, 3, 1, 2] := by
  refine ⟨⟨dfsMeasure g (List.replicate g.vertexCount false) [start] + 1, ?_⟩, by decide⟩
  intro fuel hfuel
  obtain ⟨_, h, _⟩ := dfs_spec hwf hs fuel (by omega)
  exact h

/-- C18, witness: the graph of the unit tests, searched from vertex a. -/
theorem dfs_eq_recursive_witness :
    (∃ N, ∀ fuel, N ≤ fuel → dfs fuel testGraph 0 visitAll = .ok (dfsRecursive testGraph 0)) ∧
      dfsRecursive testGraph 0 = [0, 3, 1, 2] :=
  dfs_eq_recursive testGraph 0 (by decide) (by decide)

/-! ## Claims on `dfs_cycle_finder` -/

/-- C19: whatever the graph and the start argument, no two cycles returned by
`dfs_cycle_finder` have the same signature; and for a well formed graph
without loops, with a start argument that is negative or a vertex of the graph,
`dfs_cycle_finder` does return once it is given enough rounds. -/
theorem cycle_signatures_distinct (g : cGraph) (inputStartIndex : Int) :
    (∀ fuel ret, dfs_cycle_finder fuel g inputStartIndex = .ok ret →
        (ret.map cycleSignature).Nodup) ∧
      (g.wellFormed → g.noLoop → inputStartIndex < 0 ∨ g.inRange inputStartIndex →
        ∃ N, ∀ fuel, N ≤ fuel → ∃ ret, dfs_cycle_finder fuel g inputStartIndex = .ok ret ∧
          (ret.map cycleSignature).Nodup) := by
  refine ⟨fun fuel ret h => dfs_cycle_finder_sig g inputStartIndex fuel ret h, ?_⟩
  intro hwf hnl hstart
  obtain ⟨N, hN⟩ := dfs_cycle_finder_total hwf hnl hstart
  refine ⟨N, fun fuel hfuel => ?_⟩
  obtain ⟨ret, h⟩ := hN fuel hfuel
  exact ⟨ret, h, dfs_cycle_finder_sig g inputStartIndex fuel ret h⟩

/-- C19, witness: the graph of the second cycle test, searched over all its
components. -/
theorem cycle_signatures_distinct_witness :
    ∃ N, ∀ fuel, N ≤ fuel → ∃ ret, dfs_cycle_finder fuel twoRingGraph (-1) = .ok ret ∧
      (ret.map cycleSignature).Nodup :=
  (cycle_signatures_distinct twoRingGraph (-1)).2 (by decide) (by decide) (by decide)

/-- C20: for a directed graph that is a single cycle through its `n` vertices,
with `2 ≤ n` and `n` below `INT_MAX`, `dfs_cycle_finder` over all components,
once it is given enough rounds, returns exactly one cycle, of `n + 1` vertices:
the vertices of the graph in the order of the cycle, each once, followed by the
first of them again. -/
theorem cycle_finder_ring (g : cGraph) (c : List Int) (n : Nat) (hn : 2 ≤ n)
    (hlen : g.vertexCount = n) (hring : g.isRing c) (hint : (n : Int) < INT_MAX) :
    ∃ N, ∀ fuel, N ≤ fuel → ∃ cyc, dfs_cycle_finder fuel g (-1) = .ok [cyc] ∧
      cyc.length = n + 1 ∧ cyc.dropLast.Nodup ∧ (∀ v, g.inRange v → v ∈ cyc.dropLast) ∧
      cyc.getLast? = cyc.head? ∧ ∃ k, cyc.dropLast = c.rotate k := by
  have hcl : c.length = g.vertexCount := hring.2.2.2.2.1
  obtain ⟨k, hhead, hk⟩ := ring_finder hring (by omega) (by rw [hlen]; exact hint)
  refine ⟨c.length + 2, fun fuel hfuel => ⟨c.rotate k ++ [0], hk fuel hfuel, ?_, ?_, ?_, ?_, ?_⟩⟩
  · simp only [List.length_append, List.length_rotate, List.length_singleton]
    omega
  · rw [List.dropLast_concat]
    exact List.nodup_rotate.mpr hring.2.2.2.1
  · intro v hv
    rw [List.dropLast_concat, List.mem_rotate]
    exact full_mem hring.2.2.2.1 hring.2.2.2.2.2.1 hv (by omega)
  · rw [List.getLast?_concat, List.head?_append, hhead]
    rfl
  · exact ⟨k, List.dropLast_concat⟩

/-- C20, witness: the cycle a -> b -> c -> d -> a of the first cycle test. -/
theorem cycle_finder_ring_witness :
    ∃ N, ∀ fuel, N ≤ fuel → ∃ cyc, dfs_cycle_finder fuel ringGraph (-1) = .ok [cyc] ∧
      cyc.length = 4 + 1 ∧ cyc.dropLast.Nodup ∧ (∀ v, ringGraph.inRange v → v ∈ cyc.dropLast) ∧
      cyc.getLast? = cyc.head? ∧ ∃ k, cyc.dropLast = [0, 1, 2, 3].rotate k :=
  cycle_finder_ring ringGraph [0, 1, 2, 3] 4 (by decide) rfl (by decide!) (by decide)

/-! ## `euler` -/

theorem joins_of_directed {g : cGraph} (hd : g.fDirected = true) (u v : Int) :
    g.joins u v = fun e => (e.src == u && e.dest == v) := by
  funext e
  simp [cGraph.joins, hd]

theorem filterMap_erase_first (u v : Int) : ∀ (l : List cEdge) (tl : List Int),
    l.filterMap (fun e => if e.src = u then some e.dest else none) = v :: tl →
    (l.eraseIdx (l.findIdx fun e => (e.src == u && e.dest == v))).filterMap
      (fun e => if e.src = u then some e.dest else none) = tl := by
  intro l
  induction l with
  | nil => intro tl h; simp at h
  | cons e t ih =>
    intro tl h
    by_cases hs : e.src = u
    · simp only [List.filterMap_cons, hs, if_true, List.cons.injEq] at h
      have hj : (e.src == u && e.dest == v) = true := by simp [hs, h.1]
      simp only [List.findIdx_cons, hj, cond_true, List.eraseIdx_cons_zero]
      exact h.2
    · simp only [List.filterMap_cons, hs, if_false] at h
      have hj : (e.src == u && e.dest == v) = false := by simp [hs]
      simp only [List.findIdx_cons, hj, cond_false, List.eraseIdx_cons_succ,
        List.filterMap_cons, hs, if_false]
      exact ih tl h

theorem filterMap_erase_other (u v x : Int) (hne : x ≠ u) : ∀ (l : List cEdge),
    (l.eraseIdx (l.findIdx fun e => (e.src == u && e.dest == v))).filterMap
        (fun e => if e.src = x then some e.dest else none) =
      l.filterMap (fun e => if e.src = x then some e.dest else none) := by
  intro l
  induction l with
  | nil => simp
  | cons e t ih =>
    by_cases hj : (e.src == u && e.dest == v) = true
    · have hs : e.src ≠ x := by
        simp at hj
        intro h; exact hne (h.symm.trans hj.1)
      simp only [List.findIdx_cons, hj, cond_true, List.eraseIdx_cons_zero,
        List.filterMap_cons, hs, if_false]
    · have hj0 : (e.src == u && e.dest == v) = false := by simpa using hj
      simp only [List.findIdx_cons, hj0, cond_false, List.eraseIdx_cons_succ,
        List.filterMap_cons, ih]

theorem map_erase_first (u v : Int) : ∀ (l : List cEdge),
    (∃ e ∈ l, (e.src == u && e.dest == v) = true) →
    ((u, v) :: (l.eraseIdx (l.findIdx fun e => (e.src == u && e.dest == v))).map
        (fun e => (e.src, e.dest))).Perm (l.map fun e => (e.src, e.dest)) := by
  intro l
  induction l with
  | nil => rintro ⟨e, he, _⟩; simp at he
  | cons e t ih =>
    rintro ⟨e0, he0, hj0⟩
    by_cases hj : (e.src == u && e.dest == v) = true
    · simp only [List.findIdx_cons, hj, cond_true, List.eraseIdx_cons_zero, List.map_cons]
      simp at hj
      rw [hj.1, hj.2]
    · have hj1 : (e.src == u && e.dest == v) = false := by simpa using hj
      simp only [List.findIdx_cons, hj1, cond_false, List.eraseIdx_cons_succ, List.map_cons]
      have hmem : e0 ∈ t := by
        rcases List.mem_cons.mp he0 with h | h
        · subst h; exact absurd hj0 hj
        · exact h
      exact (List.Perm.swap _ _ _).trans (List.Perm.cons _ (ih ⟨e0, hmem, hj0⟩))

theorem adjacentOut_directed {g : cGraph} (hd : g.fDirected = true) (x : Int) :
    g.adjacentOut x = g.vEdge.filterMap (fun e => if e.src = x then some e.dest else none) := by
  simp [cGraph.adjacentOut, hd]

theorem adjacentOut_remove_self {g : cGraph} (hd : g.fDirected = true) {u v : Int}
    {tl : List Int} (h : g.adjacentOut u = v :: tl) : (g.remove u v).adjacentOut u = tl := by
  have hd2 : (g.remove u v).fDirected = true := hd
  rw [adjacentOut_directed hd] at h
  rw [adjacentOut_directed hd2]
  show List.filterMap _ (g.vEdge.eraseIdx (g.vEdge.findIdx (g.joins u v))) = tl
  rw [joins_of_directed hd]
  exact filterMap_erase_first u v _ tl h

theorem adjacentOut_remove_ne {g : cGraph} (hd : g.fDirected = true) (u v x : Int)
    (hne : x ≠ u) : (g.remove u v).adjacentOut x = g.adjacentOut x := by
  have hd2 : (g.remove u v).fDirected = true := hd
  rw [adjacentOut_directed hd, adjacentOut_directed hd2]
  show List.filterMap _ (g.vEdge.eraseIdx (g.vEdge.findIdx (g.joins u v))) = _
  rw [joins_of_directed hd]
  exact filterMap_erase_other u v x hne _

theorem edgeList_remove {g : cGraph} (hd : g.fDirected = true) {u v : Int}
    (h : g.hasEdge u v) : ((u, v) :: (g.remove u v).edgeList).Perm g.edgeList := by
  unfold cGraph.hasEdge at h
  rw [joins_of_directed hd] at h
  show ((u, v) :: List.map _ (g.vEdge.eraseIdx (g.vEdge.findIdx (g.joins u v)))).Perm _
  rw [joins_of_directed hd]
  exact map_erase_first u v _ h

theorem edgeCount_remove_edge {g : cGraph} (hd : g.fDirected = true) {u v : Int}
    (h : g.hasEdge u v) : (g.remove u v).edgeCount + 1 = g.edgeCount := by
  have := (edgeList_remove hd h).length_eq
  simpa [cGraph.edgeList, cGraph.edgeCount] using this

/-- The loop of `euler` ends within as many rounds as the working graph has
edges, plus one. -/
theorem eulerLoop_ok : ∀ (n : Nat) (work : cGraph) (curr : Int) (circuit : List Int),
    work.fDirected = true → work.edgeCount < n →
      ∃ out, eulerLoop n work curr circuit = .ok out := by
  intro n
  induction n with
  | zero => intro _ _ _ _ h; omega
  | succ n ih =>
    intro work curr circuit hd hlt
    unfold eulerLoop
    cases hadj : work.adjacentOut curr with
    | nil => exact ⟨_, rfl⟩
    | cons next tl =>
      simp only
      have hedge : work.hasEdge curr next := by
        rw [← cGraph.mem_adjacentOut, hadj]; exact List.mem_cons_self _ _
      have := edgeCount_remove_edge hd hedge
      exact ih _ _ _ hd (by omega)

theorem euler_undirected (fuel : Nat) (g : cGraph) (h : g.isDirected = false) :
    euler fuel g =
      .error (.runtimeError "euler:  needs directed graph ( 2nd input line must be 'g')") := by
  simp [euler, h]

theorem euler_unbalanced (fuel : Nat) (g : cGraph) (hd : g.isDirected = true)
    (h : ¬ g.balanced) :
    euler fuel g =
      .error (.runtimeError "euler: every vertex in-degree must equal out-degree") := by
  have hany : ((intRange g.vertexCount).any fun vi =>
      (g.adjacentIn vi).length != (g.adjacentOut vi).length) = true := by
    rw [List.any_eq_true]
    unfold cGraph.balanced at h
    push_neg at h
    obtain ⟨v, hv, hne⟩ := h
    exact ⟨v, hv, by simpa using hne⟩
  simp [euler, hd, hany]

theorem euler_balanced (fuel : Nat) (g : cGraph) (hd : g.isDirected = true)
    (h : g.balanced) : euler fuel g = eulerLoop fuel g 0 [] := by
  have hany : ((intRange g.vertexCount).any fun vi =>
      (g.adjacentIn vi).length != (g.adjacentOut vi).length) = false := by
    rw [List.any_eq_false]
    intro v hv
    have := h v hv
    simpa using this
  simp [euler, hd, hany]

theorem drop_append_head {c : List Int} {i : Nat} (hi : i < c.length) :
    ∃ rest, c.drop (i + 1) ++ [c.getD 0 0] = c.getD ((i + 1) % c.length) 0 :: rest := by
  by_cases h : i + 1 < c.length
  · refine ⟨c.drop (i + 2) ++ [c.getD 0 0], ?_⟩
    rw [Nat.mod_eq_of_lt h, List.getD_eq_getElem _ _ h, List.drop_eq_getElem_cons h]
    rfl
  · have : i + 1 = c.length := by omega
    refine ⟨[], ?_⟩
    rw [this, Nat.mod_self, List.drop_length]
    rfl

theorem euler_cycle_trace {c : List Int} (hnd : c.Nodup) (hpos : 0 < c.length) :
    ∀ (k i : Nat), i + k = c.length → ∀ (fuel : Nat) (work : cGraph) (circuit : List Int),
      k + 1 ≤ fuel → work.fDirected = true →
      (∀ j, j < c.length → work.adjacentOut (c.getD j 0) =
        if j < i then [] else [c.getD ((j + 1) % c.length) 0]) →
      ∃ work1 : cGraph, eulerLoop fuel work (c.getD (i % c.length) 0) circuit =
          .ok (circuit ++ (c.drop i ++ [c.getD 0 0])) ∧
        (links (c.drop i ++ [c.getD 0 0]) ++ work1.edgeList).Perm work.edgeList ∧
        work1.fDirected = true ∧ ∀ j, j < c.length → work1.adjacentOut (c.getD j 0) = [] := by
  intro k
  induction k with
  | zero =>
    intro i hi fuel work circuit hfuel hd hadj
    obtain ⟨m, rfl⟩ : ∃ m, fuel = m + 1 := ⟨fuel - 1, by omega⟩
    have hi' : i = c.length := by omega
    subst hi'
    have h0 := hadj 0 hpos
    simp only [hpos, if_true] at h0
    refine ⟨work, ?_, ?_, hd, ?_⟩
    · rw [Nat.mod_self, List.drop_length]
      unfold eulerLoop
      rw [h0]
      rfl
    · rw [List.drop_length]
      simp [links]
    · intro j hj
      have := hadj j hj
      simpa [hj] using this
  | succ k ih =>
    intro i hi fuel work circuit hfuel hd hadj
    obtain ⟨m, rfl⟩ : ∃ m, fuel = m + 1 := ⟨fuel - 1, by omega⟩
    have hilt : i < c.length := by omega
    have hcur := hadj i hilt
    simp only [lt_irrefl, if_false] at hcur
    have hd2 : (work.remove (c.getD i 0) (c.getD ((i + 1) % c.length) 0)).fDirected = true := hd
    obtain ⟨work1, h1, h2, h3, h4⟩ := ih (i + 1) (by omega) m
      (work.remove (c.getD i 0) (c.getD ((i + 1) % c.length) 0))
      (circuit ++ [c.getD i 0]) (by omega) hd2 (by
        intro j hj
        by_cases hji : j = i
        · subst hji
          rw [adjacentOut_remove_self hd hcur]
          simp
        · have hne : c.getD j 0 ≠ c.getD i 0 := by
            intro h
            rw [List.getD_eq_getElem _ _ hj, List.getD_eq_getElem _ _ hilt] at h
            exact hji ((List.Nodup.getElem_inj_iff hnd).mp h)
          rw [adjacentOut_remove_ne hd _ _ _ hne, hadj j hj]
          by_cases hlt : j < i
          · simp [hlt, Nat.lt_succ_of_lt hlt]
          · have : ¬ j < i + 1 := by omega
            simp [hlt, this])
    refine ⟨work1, ?_, ?_, h3, h4⟩
    · rw [Nat.mod_eq_of_lt hilt]
      unfold eulerLoop
      rw [hcur]
      simp only
      rw [h1, List.drop_eq_getElem_cons hilt, List.getD_eq_getElem _ _ hilt]
      simp only [List.append_assoc, List.singleton_append, List.cons_append, List.nil_append]
    · obtain ⟨rest, hrest⟩ := drop_append_head hilt
      have hedge : work.hasEdge (c.getD i 0) (c.getD ((i + 1) % c.length) 0) := by
        rw [← cGraph.mem_adjacentOut, hcur]; exact List.mem_singleton_self _
      have hp := edgeList_remove hd hedge
      have hl : links (c.drop i ++ [c.getD 0 0]) =
          (c.getD i 0, c.getD ((i + 1) % c.length) 0) ::
            links (c.drop (i + 1) ++ [c.getD 0 0]) := by
        rw [List.drop_eq_getElem_cons hilt, List.cons_append, hrest,
          List.getD_eq_getElem _ _ hilt]
        rfl
      rw [hl, List.cons_append]
      exact (List.Perm.cons _ h2).trans hp

/-- The working graph of `euler` on a cycle graph: the trace from the first
vertex of `c`. -/
theorem euler_cycle_loop {g : cGraph} {c : List Int} (h : g.isCycleThrough c)
    (hpos : 0 < c.length) (fuel : Nat) (hfuel : c.length + 1 ≤ fuel) :
    eulerLoop fuel g (c.getD 0 0) [] = .ok (c ++ [c.getD 0 0]) ∧
      (links (c ++ [c.getD 0 0])).Perm g.edgeList := by
  obtain ⟨hd, hwf, hnd, hlen, hrange, hadj⟩ := h
  obtain ⟨work1, h1, h2, h3, h4⟩ := euler_cycle_trace hnd hpos c.length 0 (by omega) fuel g []
    hfuel hd (by
      intro j hj
      rw [hadj j hj]
      simp)
  rw [Nat.zero_mod, List.drop_zero, List.nil_append] at h1
  rw [List.drop_zero] at h2
  refine ⟨h1, ?_⟩
  have hempty : work1.edgeList = [] := by
    rw [List.eq_nil_iff_forall_not_mem]
    intro ab hab
    have hin : ab ∈ g.edgeList := h2.subset (List.mem_append_right _ hab)
    simp only [cGraph.edgeList, List.mem_map] at hin hab
    obtain ⟨e, he, rfl⟩ := hin
    obtain ⟨e1, he1, heq⟩ := hab
    have hs := hwf e he
    have hmem : e.src ∈ c := full_mem hnd hrange ⟨hs.1, hs.2.1⟩ (by omega)
    obtain ⟨j, hj, hcj⟩ := List.getElem_of_mem hmem
    have hout := h4 j hj
    rw [List.getD_eq_getElem _ _ hj, hcj] at hout
    have : e1.dest ∈ work1.adjacentOut e.src := by
      rw [cGraph.mem_adjacentOut]
      refine ⟨e1, he1, ?_⟩
      simp only [Prod.mk.injEq] at heq
      simp [cGraph.joins, heq.1]
    rw [hout] at this
    simp at this
  rw [hempty, List.append_nil] at h2
  exact h2

theorem links_map_snd : ∀ p : List Int, (links p).map Prod.snd = p.tail
  | [] => rfl
  | [_] => rfl
  | a :: b :: t => by
    have := links_map_snd (b :: t)
    simp only [links, List.map_cons, List.tail_cons] at this ⊢
    rw [this]

theorem adjacentIn_length {g : cGraph} (hd : g.fDirected = true) (v : Int) :
    (g.adjacentIn v).length = (g.edgeList.map Prod.snd).count v := by
  unfold cGraph.adjacentIn cGraph.edgeList
  simp only [hd, Bool.not_true, Bool.false_and, Bool.false_eq_true, if_false]
  induction g.vEdge with
  | nil => rfl
  | cons e t ih =>
    by_cases h : e.dest = v
    · simp [List.filterMap_cons, h, ih]
    · simp only [List.filterMap_cons, h, if_false, List.map_cons, ih]
      rw [List.count_cons_of_ne (fun hh => h hh.symm)]

theorem cycle_balanced {g : cGraph} {c : List Int} (h : g.isCycleThrough c) : g.balanced := by
  intro v hv0
  have hv := (mem_intRange _ _).mp hv0
  have h0 := h
  obtain ⟨hd, hwf, hnd, hlen, hrange, hadj⟩ := h0
  have hmem : v ∈ c := full_mem hnd hrange hv (by omega)
  have hpos : 0 < c.length := List.length_pos_of_mem hmem
  obtain ⟨j, hj, hcj⟩ := List.getElem_of_mem hmem
  have hout := hadj j hj
  rw [List.getD_eq_getElem _ _ hj, hcj] at hout
  rw [hout, adjacentIn_length hd]
  have hp := (euler_cycle_loop h hpos (c.length + 1) (le_refl _)).2
  rw [← (hp.map Prod.snd).count_eq, links_map_snd]
  cases c with
  | nil => simp at hpos
  | cons a t =>
    have hperm : ((a :: t) ++ [(a :: t).getD 0 0]).tail.Perm (a :: t) := by
      simp only [List.cons_append, List.tail_cons, List.getD_cons_zero]
      exact List.perm_append_singleton a t
    rw [hperm.count_eq, List.length_singleton]
    exact List.count_eq_one_of_mem hnd hmem

theorem cycle_rotate {g : cGraph} {c : List Int} (h : g.isCycleThrough c) (k : Nat) :
    g.isCycleThrough (c.rotate k) := by
  obtain ⟨h1, h2, h4, h5, h6, h7⟩ := h
  refine ⟨h1, h2, List.nodup_rotate.mpr h4, by rw [List.length_rotate]; exact h5,
    fun v hv => h6 v (List.mem_rotate.mp hv), ?_⟩
  intro i hi
  rw [List.length_rotate] at hi ⊢
  have hpos : 0 < c.length := by omega
  have hget : ∀ j, j < c.length → (c.rotate k).getD j 0 = c.getD ((j + k) % c.length) 0 := by
    intro j hj
    rw [List.getD_eq_getElem _ _ (by rw [List.length_rotate]; exact hj),
      List.getD_eq_getElem _ _ (Nat.mod_lt _ hpos), List.getElem_rotate]
  rw [hget i hi, hget _ (Nat.mod_lt _ hpos), h7 _ (Nat.mod_lt _ hpos)]
  congr 2
  rw [Nat.mod_add_mod, Nat.mod_add_mod]
  congr 1
  omega

/-- On a cycle graph `euler` goes once round the cycle from vertex 0. -/
theorem euler_cycle_spec {g : cGraph} {c : List Int} (h : g.isCycleThrough c)
    (hV : 1 ≤ g.vertexCount) :
    ∃ k, (c.rotate k).head? = some 0 ∧
      (links (c.rotate k ++ [0])).Perm g.edgeList ∧
      ∀ fuel, g.edgeCount < fuel → euler fuel g = .ok (c.rotate k ++ [0]) := by
  have hlen : c.length = g.vertexCount := h.2.2.2.1
  have hin : g.inRange 0 := ⟨le_refl _, by omega⟩
  have hmem : (0 : Int) ∈ c := full_mem h.2.2.1 h.2.2.2.2.1 hin (by omega)
  obtain ⟨k, hk, hck⟩ := List.getElem_of_mem hmem
  have hr := cycle_rotate h k
  have hlr : (c.rotate k).length = c.length := List.length_rotate _ _
  have hpos : 0 < (c.rotate k).length := by omega
  have h0 : (c.rotate k).getD 0 0 = 0 := by
    rw [List.getD_eq_getElem _ _ hpos, List.getElem_rotate]
    simp only [Nat.zero_add, Nat.mod_eq_of_lt hk]
    exact hck
  have hhead : (c.rotate k).head? = some 0 := by
    rw [List.head?_eq_getElem?, List.getElem?_eq_getElem hpos, ← h0,
      List.getD_eq_getElem _ _ hpos]
  have hE : g.edgeCount = c.length := by
    have := (euler_cycle_loop hr hpos _ (le_refl _)).2.length_eq
    rw [h0] at this
    have hl : ∀ p : List Int, (links p).length = p.length - 1 := by
      intro p
      rw [← List.length_map (links p) Prod.snd, links_map_snd, List.length_tail]
    rw [hl] at this
    simp only [List.length_append, List.length_singleton, Nat.add_sub_cancel, hlr,
      cGraph.edgeList, List.length_map] at this
    exact this.symm
  refine ⟨k, hhead, ?_, ?_⟩
  · have := (euler_cycle_loop hr hpos _ (le_refl _)).2
    rwa [h0] at this
  · intro fuel hfuel
    rw [euler_balanced fuel g h.1 (cycle_balanced h)]
    have := (euler_cycle_loop hr hpos fuel (by omega)).1
    rwa [h0] at this

/-! ## `vertexCover` -/

theorem mem_setInsert (x y : Int) : ∀ l : List Int, y ∈ setInsert x l ↔ y = x ∨ y ∈ l := by
  intro l
  induction l with
  | nil => simp [setInsert]
  | cons a t ih =>
    unfold setInsert
    by_cases h1 : x < a
    · simp [h1]
    · by_cases h2 : x = a
      · subst h2
        simp only [lt_irrefl, if_false, if_true, List.mem_cons]
        tauto
      · simp only [h1, h2, if_false, List.mem_cons, ih]
        tauto

theorem coverLink_mono (work : cGraph) (vset : List Int) (l : Int × Int) {x : Int}
    (h : x ∈ vset) : x ∈ coverLink work vset l := by
  unfold coverLink
  split
  · exact h
  · split
    · exact (mem_setInsert _ _ _).mpr (Or.inr h)
    · exact (mem_setInsert _ _ _).mpr (Or.inr h)

theorem coverLink_covers (work : cGraph) (vset : List Int) (l : Int × Int) :
    l.1 ∈ coverLink work vset l ∨ l.2 ∈ coverLink work vset l := by
  unfold coverLink
  split
  · assumption
  · split
    · exact Or.inr ((mem_setInsert _ _ _).mpr (Or.inl rfl))
    · exact Or.inl ((mem_setInsert _ _ _).mpr (Or.inl rfl))

theorem foldl_coverLink_mono (work : cGraph) : ∀ (ls : List (Int × Int)) (vset : List Int)
    {x : Int}, x ∈ vset → x ∈ ls.foldl (coverLink work) vset := by
  intro ls
  induction ls with
  | nil => intro vset x h; exact h
  | cons l t ih =>
    intro vset x h
    exact ih _ (coverLink_mono work vset l h)

theorem foldl_coverLink_covers (work : cGraph) : ∀ (ls : List (Int × Int)) (vset : List Int),
    ∀ l ∈ ls, l.1 ∈ ls.foldl (coverLink work) vset ∨ l.2 ∈ ls.foldl (coverLink work) vset := by
  intro ls
  induction ls with
  | nil => intro _ l hl; simp at hl
  | cons a t ih =>
    intro vset l hl
    rcases List.mem_cons.mp hl with h | h
    · subst h
      rcases coverLink_covers work vset l with h1 | h1
      · exact Or.inl (foldl_coverLink_mono work t _ h1)
      · exact Or.inr (foldl_coverLink_mono work t _ h1)
    · exact ih _ l h

/-- On an undirected graph `vertexCover` returns, and every edge has an end in
the list returned. -/
theorem vertexCover_spec (g : cGraph) (h : g.isDirected = false) :
    ∃ cover, vertexCover g = .ok cover ∧ ∀ e ∈ g.vEdge, e.src ∈ cover ∨ e.dest ∈ cover := by
  refine ⟨g.edgeList.foldl (coverLink g) ((intRange g.vertexCount).foldl (coverLeaf g) []),
    by simp only [vertexCover, h, Bool.false_eq_true, if_false], ?_⟩
  intro e he
  exact foldl_coverLink_covers g g.edgeList _ (e.src, e.dest)
    (List.mem_map_of_mem (fun e => (e.src, e.dest)) he)

theorem vertexCover_directed (g : cGraph) (h : g.isDirected = true) :
    vertexCover g = .error (.runtimeError "vertexCover works only on undirected graphs") := by
  simp [vertexCover, h]

/-! ## `cliques` -/

theorem countP_flip {α : Type} (p q : α → Bool) (u : α) : ∀ l : List α, l.Nodup → u ∈ l →
    (∀ x, x ≠ u → q x = p x) → p u = true → q u = false →
    l.countP q + 1 = l.countP p := by
  intro l
  induction l with
  | nil => intro _ h; simp at h
  | cons a t ih =>
    intro hnd hmem hpq hp hq
    rw [List.nodup_cons] at hnd
    by_cases hau : a = u
    · subst hau
      have hrest : t.countP q = t.countP p := by
        apply List.countP_congr
        intro x hx
        have : x ≠ a := fun h => hnd.1 (h ▸ hx)
        rw [hpq x this]
      rw [List.countP_cons_of_neg _ _ (by simp [hq]), List.countP_cons_of_pos _ _ hp, hrest]
    · have hmem2 : u ∈ t := by
        rcases List.mem_cons.mp hmem with h | h
        · exact absurd h.symm hau
        · exact h
      have := ih hnd.2 hmem2 hpq hp hq
      simp only [List.countP_cons, hpq a hau]
      omega

theorem intRange_nodup (n : Nat) : (intRange n).Nodup := by
  unfold intRange
  exact (List.nodup_range _).map (fun a b hab => by
    have : ((a : Nat) : Int) = (b : Int) := hab
    omega)

theorem live_vset (V : Nat) (vattr : List String) (u : Int) (h0 : 0 ≤ u) (h1 : u < (V : Int))
    (hlen : vattr.length = V) (hlive : vget vattr u "" ≠ "deleted") :
    (intRange V).countP (fun v => decide (vget (vset vattr u "deleted") v "" ≠ "deleted")) + 1 =
      (intRange V).countP (fun v => decide (vget vattr v "" ≠ "deleted")) := by
  apply countP_flip _ _ u _ (intRange_nodup V) ((mem_intRange _ _).mpr ⟨h0, h1⟩)
  · intro x hx
    rw [vget_vset_ne _ _ _ _ _ (Ne.symm hx)]
  · simpa using hlive
  · rw [vget_vset_self _ _ _ _ h0 (by omega)]
    simp

theorem rVertexAttr_ok (vattr : List String) (u : Int) (h0 : 0 ≤ u)
    (h1 : u < (vattr.length : Int)) : rVertexAttr vattr u = .ok (vget vattr u "") := by
  unfold rVertexAttr
  rw [if_neg (by omega)]

theorem wVertexAttr_ok (vattr : List String) (u : Int) (text : String) (h0 : 0 ≤ u)
    (h1 : u < (vattr.length : Int)) : wVertexAttr vattr u text = .ok (vset vattr u text) := by
  unfold wVertexAttr
  rw [if_neg (by omega)]

theorem firstLive_eq (vattr : List String) : ∀ l : List Int,
    (∀ v ∈ l, 0 ≤ v ∧ v < (vattr.length : Int)) →
    firstLive vattr l = .ok (l.find? fun vi => vget vattr vi "" ≠ "deleted") := by
  intro l
  induction l with
  | nil => intro _; rfl
  | cons a t ih =>
    intro hl
    have ha := hl a (List.mem_cons_self _ _)
    unfold firstLive
    rw [rVertexAttr_ok vattr a ha.1 ha.2]
    simp only
    by_cases hd : vget vattr a "" = "deleted"
    · rw [if_pos hd, ih (fun v hv => hl v (List.mem_cons_of_mem _ hv))]
      simp [List.find?_cons, hd]
    · rw [if_neg hd]
      simp [List.find?_cons, hd]

theorem scanWork_ok (work : cGraph) (vattr : List String) (clique : List Int) :
    ∀ (us : List Int) (fin : Bool), (∀ v ∈ us, 0 ≤ v ∧ v < (vattr.length : Int)) →
      ∃ r, scanWork work vattr clique us fin = .ok r := by
  intro us
  induction us with
  | nil => intro fin _; exact ⟨_, rfl⟩
  | cons a t ih =>
    intro fin hl
    have ha := hl a (List.mem_cons_self _ _)
    have ht : ∀ v ∈ t, 0 ≤ v ∧ v < (vattr.length : Int) :=
      fun v hv => hl v (List.mem_cons_of_mem _ hv)
    unfold scanWork
    rw [rVertexAttr_ok vattr a ha.1 ha.2]
    simp only
    split
    · exact ih _ ht
    · split
      · exact ⟨_, rfl⟩
      · exact ih _ ht

theorem scanWork_some (work : cGraph) (vattr : List String) (clique : List Int) :
    ∀ (us : List Int) (fin f : Bool) (u : Int),
      (∀ v ∈ us, 0 ≤ v ∧ v < (vattr.length : Int)) →
      scanWork work vattr clique us fin = .ok (f, some u) →
        u ∈ us ∧ vget vattr u "" ≠ "deleted" ∧
          ∃ v ∈ clique, 0 ≤ work.find u v ∨ 0 ≤ work.find v u := by
  intro us
  induction us with
  | nil => intro fin f u _ h; simp [scanWork] at h
  | cons a t ih =>
    intro fin f u hl h
    have ha := hl a (List.mem_cons_self _ _)
    have ht : ∀ v ∈ t, 0 ≤ v ∧ v < (vattr.length : Int) :=
      fun v hv => hl v (List.mem_cons_of_mem _ hv)
    unfold scanWork at h
    rw [rVertexAttr_ok vattr a ha.1 ha.2] at h
    simp only at h
    by_cases hd : vget vattr a "" = "deleted"
    · rw [if_pos hd] at h
      obtain ⟨h1, h2, h3⟩ := ih _ _ _ ht h
      exact ⟨List.mem_cons_of_mem _ h1, h2, h3⟩
    · rw [if_neg hd] at h
      split at h
      · rename_i hany
        simp only [Except.ok.injEq, Prod.mk.injEq, Option.some.injEq] at h
        rw [← h.2]
        refine ⟨List.mem_cons_self _ _, hd, ?_⟩
        rw [List.any_eq_true] at hany
        obtain ⟨v, hv, hvv⟩ := hany
        refine ⟨v, hv, ?_⟩
        simpa using hvv
      · obtain ⟨h1, h2, h3⟩ := ih _ _ _ ht h
        exact ⟨List.mem_cons_of_mem _ h1, h2, h3⟩

theorem scanWork_none (work : cGraph) (vattr : List String) (clique : List Int) :
    ∀ (us : List Int) (fin f : Bool),
      (∀ v ∈ us, 0 ≤ v ∧ v < (vattr.length : Int)) →
      scanWork work vattr clique us fin = .ok (f, none) →
        (f = true ↔ fin = true ∧ ∀ u ∈ us, vget vattr u "" = "deleted") := by
  intro us
  induction us with
  | nil =>
    intro fin f _ h
    simp only [scanWork, Except.ok.injEq, Prod.mk.injEq, and_true] at h
    simp [h]
  | cons a t ih =>
    intro fin f hl h
    have ha := hl a (List.mem_cons_self _ _)
    have ht : ∀ v ∈ t, 0 ≤ v ∧ v < (vattr.length : Int) :=
      fun v hv => hl v (List.mem_cons_of_mem _ hv)
    unfold scanWork at h
    rw [rVertexAttr_ok vattr a ha.1 ha.2] at h
    simp only at h
    by_cases hd : vget vattr a "" = "deleted"
    · rw [if_pos hd] at h
      rw [ih _ _ ht h]
      simp [hd]
    · rw [if_neg hd] at h
      split at h
      · simp at h
      · rw [ih _ _ ht h]
        simp [hd]

theorem intRange_stored {V : Nat} {vattr : List String} (hlen : vattr.length = V) :
    ∀ v ∈ intRange V, 0 ≤ v ∧ v < (vattr.length : Int) := by
  intro v hv
  rw [hlen]
  exact (mem_intRange _ _).mp hv

/-- The inner loop of `cliques`, entered with a clique that has a member: it
ends, and moves into the clique the vertices `extra`. -/
theorem growClique_spec (work : cGraph) : ∀ (n : Nat) (vattr : List String) (clique : List Int),
    vattr.length = work.vertexCount → clique ≠ [] →
    (intRange work.vertexCount).countP (fun v => decide (vget vattr v "" ≠ "deleted")) < n →
    ∃ vattr1 extra fin, growClique work n vattr clique = .ok (vattr1, clique ++ extra, fin) ∧
      vattr1.length = work.vertexCount ∧
      (∀ v, work.inRange v →
        (vget vattr1 v "" = "deleted" ↔ vget vattr v "" = "deleted" ∨ v ∈ extra)) ∧
      (∀ v ∈ extra, work.inRange v ∧ vget vattr v "" ≠ "deleted") ∧ extra.Nodup ∧
      (fin = true ↔ ∀ v, work.inRange v → vget vattr1 v "" = "deleted") ∧
      (intRange work.vertexCount).countP (fun v => decide (vget vattr1 v "" ≠ "deleted")) +
        extra.length =
      (intRange work.vertexCount).countP (fun v => decide (vget vattr v "" ≠ "deleted")) := by
  intro n
  induction n with
  | zero => intro _ _ _ _ h; omega
  | succ n ih =>
    intro vattr clique hlen hne hlive
    unfold growClique
    rw [if_neg hne]
    obtain ⟨⟨f, o⟩, hscan⟩ := scanWork_ok work vattr clique (intRange work.vertexCount) true
      (intRange_stored hlen)
    rw [hscan]
    cases o with
      | none =>
        refine ⟨vattr, [], f, by simp, hlen, by simp, by simp, List.nodup_nil, ?_, by simp⟩
        rw [scanWork_none work vattr clique _ _ _ (intRange_stored hlen) hscan]
        simp only [true_and]
        constructor
        · intro h v hv
          exact h v ((mem_intRange _ _).mpr hv)
        · intro h v hv
          exact h v ((mem_intRange _ _).mp hv)
      | some u =>
        obtain ⟨hu, hulive, _⟩ :=
          scanWork_some work vattr clique _ _ _ _ (intRange_stored hlen) hscan
        have hur := (mem_intRange _ _).mp hu
        have hcount := live_vset work.vertexCount vattr u hur.1 hur.2 hlen hulive
        simp only
        rw [wVertexAttr_ok vattr u _ hur.1 (by omega)]
        obtain ⟨vattr1, extra, fin, h1, h2, h3, h4, h5, h6, h7⟩ :=
          ih (vset vattr u "deleted") (clique ++ [u]) (by rw [length_vset]; exact hlen)
            (by simp) (by omega)
        refine ⟨vattr1, u :: extra, fin, ?_, h2, ?_, ?_, ?_, h6,
          by rw [List.length_cons]; omega⟩
        · simp only
          rw [h1]
          simp
        · intro v hv
          rw [h3 v hv]
          by_cases hvu : v = u
          · subst hvu
            rw [vget_vset_self _ _ _ _ hur.1 (by omega)]
            simp
          · rw [vget_vset_ne _ _ _ _ _ (Ne.symm hvu)]
            simp [hvu]
        · intro v hv
          rcases List.mem_cons.mp hv with h | h
          · subst h; exact ⟨hur, hulive⟩
          · obtain ⟨hr, hl⟩ := h4 v h
            refine ⟨hr, ?_⟩
            by_cases hvu : v = u
            · subst hvu; exact hulive
            · rwa [vget_vset_ne _ _ _ _ _ (Ne.symm hvu)] at hl
        · rw [List.nodup_cons]
          refine ⟨?_, h5⟩
          intro hmem
          have := (h4 u hmem).2
          rw [vget_vset_self _ _ _ _ hur.1 (by omega)] at this
          exact this rfl

/-- One round of the outer loop of `cliques`, some vertex not yet being
deleted: a clique with a member is made of vertices that were not deleted. -/
theorem newClique_spec (work : cGraph) (n : Nat) (vattr : List String)
    (hlen : vattr.length = work.vertexCount)
    (hsome : ∃ v, work.inRange v ∧ vget vattr v "" ≠ "deleted")
    (hlive : (intRange work.vertexCount).countP
      (fun v => decide (vget vattr v "" ≠ "deleted")) ≤ n) :
    ∃ vattr1 clique fin, growClique work (n + 1) vattr [] = .ok (vattr1, clique, fin) ∧
      clique ≠ [] ∧ vattr1.length = work.vertexCount ∧
      (∀ v, work.inRange v →
        (vget vattr1 v "" = "deleted" ↔ vget vattr v "" = "deleted" ∨ v ∈ clique)) ∧
      (∀ v ∈ clique, work.inRange v ∧ vget vattr v "" ≠ "deleted") ∧ clique.Nodup ∧
      (fin = true ↔ ∀ v, work.inRange v → vget vattr1 v "" = "deleted") ∧
      (intRange work.vertexCount).countP (fun v => decide (vget vattr1 v "" ≠ "deleted")) +
        clique.length =
      (intRange work.vertexCount).countP (fun v => decide (vget vattr v "" ≠ "deleted")) := by
  unfold growClique
  rw [if_pos rfl, firstLive_eq vattr _ (intRange_stored hlen)]
  cases hfind : (intRange work.vertexCount).find? fun vi => vget vattr vi "" ≠ "deleted" with
  | none =>
    exfalso
    obtain ⟨v, hv, hvl⟩ := hsome
    rw [List.find?_eq_none] at hfind
    have := hfind v ((mem_intRange _ _).mpr hv)
    simp at this
    exact hvl this
  | some u =>
    have hu := List.mem_of_find?_eq_some hfind
    have hulive : vget vattr u "" ≠ "deleted" := by
      have := List.find?_some hfind
      simpa using this
    have hur := (mem_intRange _ _).mp hu
    have hcount := live_vset work.vertexCount vattr u hur.1 hur.2 hlen hulive
    simp only
    rw [wVertexAttr_ok vattr u _ hur.1 (by omega)]
    obtain ⟨vattr1, extra, fin, h1, h2, h3, h4, h5, h6, h7⟩ :=
      growClique_spec work n (vset vattr u "deleted") [u]
        (by rw [length_vset]; exact hlen) (by simp) (by omega)
    refine ⟨vattr1, u :: extra, fin, ?_, by simp, h2, ?_, ?_, ?_, h6,
      by rw [List.length_cons]; omega⟩
    · simp only
      rw [h1]
      simp
    · intro v hv
      rw [h3 v hv]
      by_cases hvu : v = u
      · subst hvu
        rw [vget_vset_self _ _ _ _ hur.1 (by omega)]
        simp
      · rw [vget_vset_ne _ _ _ _ _ (Ne.symm hvu)]
        simp [hvu]
    · intro v hv
      rcases List.mem_cons.mp hv with h | h
      · subst h; exact ⟨hur, hulive⟩
      · obtain ⟨hr, hl⟩ := h4 v h
        refine ⟨hr, ?_⟩
        by_cases hvu : v = u
        · subst hvu; exact hulive
        · rwa [vget_vset_ne _ _ _ _ _ (Ne.symm hvu)] at hl
    · rw [List.nodup_cons]
      refine ⟨?_, h5⟩
      intro hmem
      have := (h4 u hmem).2
      rw [vget_vset_self _ _ _ _ hur.1 (by omega)] at this
      exact this rfl

/-- The outer loop of `cliques`, some vertex not yet being deleted: it ends,
and the cliques it adds hold every vertex that was not deleted, once. -/
theorem cliquesLoop_spec (work : cGraph) (fuel : Nat) :
    ∀ (n : Nat) (vattr : List String) (vclique : List (List Int)),
    vattr.length = work.vertexCount →
    (∃ v, work.inRange v ∧ vget vattr v "" ≠ "deleted") →
    (intRange work.vertexCount).countP (fun v => decide (vget vattr v "" ≠ "deleted")) ≤ n →
    (intRange work.vertexCount).countP (fun v => decide (vget vattr v "" ≠ "deleted")) < fuel →
    (∀ v, work.inRange v → (vget vattr v "" = "deleted" ↔ v ∈ vclique.flatten)) →
    vclique.flatten.Nodup → (∀ v ∈ vclique.flatten, work.inRange v) →
    (∀ grp ∈ vclique, grp ≠ []) →
    ∃ groups, cliquesLoop work fuel n vattr vclique = .ok groups ∧ groups.flatten.Nodup ∧
      (∀ v, v ∈ groups.flatten ↔ work.inRange v) ∧ ∀ grp ∈ groups, grp ≠ [] := by
  intro n
  induction n with
  | zero =>
    intro vattr vclique _ hsome hn _ _ _ _ _
    exfalso
    obtain ⟨v, hv, hvl⟩ := hsome
    have : 0 < (intRange work.vertexCount).countP
        (fun v => decide (vget vattr v "" ≠ "deleted")) := by
      rw [List.countP_pos_iff]
      exact ⟨v, (mem_intRange _ _).mpr hv, by simpa using hvl⟩
    omega
  | succ n ih =>
    intro vattr vclique hlen hsome hn hfuel hdead hnd hrange hgrp
    obtain ⟨m, rfl⟩ : ∃ m, fuel = m + 1 := ⟨fuel - 1, by omega⟩
    obtain ⟨vattr1, clique, fin, h1, h2, h3, h4, h5, h6, h7, h8⟩ :=
      newClique_spec work m vattr hlen hsome (by omega)
    have hpos : 0 < clique.length := List.length_pos.mpr h2
    have hdead1 : ∀ v, work.inRange v →
        (vget vattr1 v "" = "deleted" ↔ v ∈ (vclique ++ [clique]).flatten) := by
      intro v hv
      rw [h4 v hv, hdead v hv]
      simp
    have hnd1 : (vclique ++ [clique]).flatten.Nodup := by
      simp only [List.flatten_append, List.flatten_cons, List.flatten_nil, List.append_nil]
      rw [List.nodup_append]
      refine ⟨hnd, h6, ?_⟩
      intro v hv1 hv2
      have hr := hrange v hv1
      exact (h5 v hv2).2 ((hdead v hr).mpr hv1)
    have hrange1 : ∀ v ∈ (vclique ++ [clique]).flatten, work.inRange v := by
      intro v hv
      simp only [List.flatten_append, List.flatten_cons, List.flatten_nil, List.append_nil,
        List.mem_append] at hv
      rcases hv with hv | hv
      · exact hrange v hv
      · exact (h5 v hv).1
    have hgrp1 : ∀ grp ∈ vclique ++ [clique], grp ≠ [] := by
      intro grp hg
      rcases List.mem_append.mp hg with hg | hg
      · exact hgrp grp hg
      · rw [List.mem_singleton.mp hg]; exact h2
    unfold cliquesLoop
    rw [h1]
    simp only [if_neg h2]
    by_cases hfin : fin = true
    · rw [if_pos hfin]
      refine ⟨_, rfl, hnd1, ?_, hgrp1⟩
      intro v
      constructor
      · exact hrange1 v
      · intro hv
        exact (hdead1 v hv).mp ((h7.mp hfin) v hv)
    · rw [if_neg hfin]
      have hsome1 : ∃ v, work.inRange v ∧ vget vattr1 v "" ≠ "deleted" := by
        by_contra hcon
        push_neg at hcon
        exact hfin (h7.mpr hcon)
      exact ih vattr1 (vclique ++ [clique]) h3 hsome1 (by omega) (by omega) hdead1 hnd1
        hrange1 hgrp1

/-- Where `vattr` marks no vertex of a graph with a vertex as deleted, `cliques`
returns (each loop needs at most `vertexCount + 1` rounds) groups that hold
every vertex once. -/
theorem cliques_spec (g : cGraph) (vattr : List String) (hV : 1 ≤ g.vertexCount)
    (hlen : vattr.length = g.vertexCount)
    (hlive : ∀ v, g.inRange v → vget vattr v "" ≠ "deleted")
    (fuel : Nat) (hfuel : g.vertexCount < fuel) :
    ∃ groups, cliques fuel g vattr = .ok groups ∧
      groups.flatten.Perm (intRange g.vertexCount) ∧ ∀ grp ∈ groups, grp ≠ [] := by
  have hle : (intRange g.vertexCount).countP
      (fun v => decide (vget vattr v "" ≠ "deleted")) ≤ g.vertexCount := by
    have := List.countP_le_length (fun v => decide (vget vattr v "" ≠ "deleted"))
      (l := intRange g.vertexCount)
    simpa [intRange] using this
  obtain ⟨groups, h1, h2, h3, h4⟩ := cliquesLoop_spec g fuel fuel vattr [] hlen
    ⟨0, ⟨le_refl _, by omega⟩, hlive 0 ⟨le_refl _, by omega⟩⟩ (by omega) (by omega)
    (by
      intro v hv
      simp only [List.flatten_nil, List.not_mem_nil, iff_false]
      exact hlive v hv)
    (by simp) (by simp) (by simp)
  refine ⟨groups, h1, ?_, h4⟩
  rw [List.perm_ext_iff_of_nodup h2 (intRange_nodup _)]
  intro v
  rw [h3 v, mem_intRange]
  rfl

/-! ## `alloc` -/

theorem setInsert_sorted (x : Int) : ∀ l : List Int, l.Pairwise (· < ·) →
    (setInsert x l).Pairwise (· < ·) := by
  intro l
  induction l with
  | nil => intro _; simp [setInsert]
  | cons a t ih =>
    intro h
    rw [List.pairwise_cons] at h
    unfold setInsert
    by_cases h1 : x < a
    · rw [if_pos h1]
      refine List.pairwise_cons.mpr ⟨?_, List.pairwise_cons.mpr h⟩
      intro y hy
      rcases List.mem_cons.mp hy with hy | hy
      · rw [hy]; exact h1
      · exact lt_trans h1 (h.1 y hy)
    · rw [if_neg h1]
      by_cases h2 : x = a
      · rw [if_pos h2]; exact List.pairwise_cons.mpr h
      · rw [if_neg h2]
        refine List.pairwise_cons.mpr ⟨?_, ih h.2⟩
        intro y hy
        rcases (mem_setInsert _ _ _).mp hy with hy | hy
        · rw [hy]; omega
        · exact h.1 y hy

theorem length_setInsert (x : Int) : ∀ l : List Int, (setInsert x l).length ≤ l.length + 1 := by
  intro l
  induction l with
  | nil => simp [setInsert]
  | cons a t ih =>
    unfold setInsert
    split
    · simp
    · split
      · simp
      · simp only [List.length_cons]; omega

/-- The set that a loop of `insert` calls builds from the values `f x`. -/
theorem foldl_setInsert {α : Type} (f : α → Int) : ∀ (l : List α) (init : List Int),
    init.Pairwise (· < ·) →
    (l.foldl (fun s x => setInsert (f x) s) init).Pairwise (· < ·) ∧
      (l.foldl (fun s x => setInsert (f x) s) init).length ≤ init.length + l.length ∧
      ∀ a, a ∈ l.foldl (fun s x => setInsert (f x) s) init ↔ a ∈ init ∨ ∃ x ∈ l, f x = a := by
  intro l
  induction l with
  | nil => intro init h; simp [h]
  | cons b t ih =>
    intro init h
    obtain ⟨h1, h2, h3⟩ := ih (setInsert (f b) init) (setInsert_sorted _ _ h)
    refine ⟨h1, ?_, ?_⟩
    · have := length_setInsert (f b) init
      simp only [List.foldl_cons, List.length_cons]
      omega
    · intro a
      simp only [List.foldl_cons]
      rw [h3 a, mem_setInsert]
      simp only [List.mem_cons, exists_eq_or_imp]
      constructor
      · rintro ((h | h) | h)
        · exact Or.inr (Or.inl h.symm)
        · exact Or.inl h
        · exact Or.inr (Or.inr h)
      · rintro (h | h | h)
        · exact Or.inl (Or.inr h)
        · exact Or.inl (Or.inl h.symm)
        · exact Or.inr h

theorem foldl_pair {α β γ : Type} (f : β → α → β) (h : γ → α → γ) :
    ∀ (l : List α) (b : β) (c : γ),
      l.foldl (fun s x => (f s.1 x, h s.2 x)) (b, c) = (l.foldl f b, l.foldl h c) := by
  intro l
  induction l with
  | nil => intro b c; rfl
  | cons a t ih => intro b c; simp only [List.foldl_cons, ih]

theorem allocSets_eq (g : cGraph) :
    allocSets g = ((intRange g.edgeCount).foldl (fun s ei => setInsert (g.src ei) s) [],
      (intRange g.edgeCount).foldl (fun s ei => setInsert (g.dest ei) s) []) := by
  unfold allocSets
  exact foldl_pair (fun s ei => setInsert (g.src ei) s) (fun s ei => setInsert (g.dest ei) s)
    _ [] []

theorem exists_index_iff (g : cGraph) (P : cEdge → Prop) :
    (∃ ei ∈ intRange g.edgeCount, ∃ e, g.vEdge.get? ei.toNat = some e ∧ P e) ↔
      ∃ e ∈ g.vEdge, P e := by
  constructor
  · rintro ⟨ei, _, e, he, hP⟩
    exact ⟨e, List.get?_mem he, hP⟩
  · rintro ⟨e, he, hP⟩
    obtain ⟨k, hk, hke⟩ := List.getElem_of_mem he
    refine ⟨(k : Int), (mem_intRange _ _).mpr ⟨by omega, by unfold cGraph.edgeCount; omega⟩,
      e, ?_, hP⟩
    simp only [Int.toNat_ofNat, List.get?_eq_getElem?, List.getElem?_eq_getElem hk, hke]

theorem src_eq_iff (g : cGraph) {ei : Int} (hei : ei ∈ intRange g.edgeCount) (a : Int) :
    g.src ei = a ↔ ∃ e, g.vEdge.get? ei.toNat = some e ∧ e.src = a := by
  obtain ⟨h0, h1⟩ := (mem_intRange _ _).mp hei
  have hlt : ei.toNat < g.vEdge.length := by unfold cGraph.edgeCount at h1; omega
  unfold cGraph.src
  rw [if_neg (by omega)]
  simp only [List.get?_eq_getElem?, List.getElem?_eq_getElem hlt, Option.some.injEq,
    exists_eq_left']

theorem dest_eq_iff (g : cGraph) {ei : Int} (hei : ei ∈ intRange g.edgeCount) (a : Int) :
    g.dest ei = a ↔ ∃ e, g.vEdge.get? ei.toNat = some e ∧ e.dest = a := by
  obtain ⟨h0, h1⟩ := (mem_intRange _ _).mp hei
  have hlt : ei.toNat < g.vEdge.length := by unfold cGraph.edgeCount at h1; omega
  unfold cGraph.dest
  rw [if_neg (by omega)]
  simp only [List.get?_eq_getElem?, List.getElem?_eq_getElem hlt, Option.some.injEq,
    exists_eq_left']

/-- The sets `setAgent` and `setTask` of `alloc`: the sources and the
destinations of the edges, each once, in ascending order. -/
theorem allocSets_spec (g : cGraph) :
    (allocSets g).1.Pairwise (· < ·) ∧ (allocSets g).2.Pairwise (· < ·) ∧
      (allocSets g).1.length ≤ g.edgeCount ∧ (allocSets g).2.length ≤ g.edgeCount ∧
      (∀ a, a ∈ (allocSets g).1 ↔ ∃ e ∈ g.vEdge, e.src = a) ∧
      (∀ a, a ∈ (allocSets g).2 ↔ ∃ e ∈ g.vEdge, e.dest = a) := by
  rw [allocSets_eq]
  obtain ⟨a1, a2, a3⟩ := foldl_setInsert (fun ei => g.src ei) (intRange g.edgeCount) []
    List.Pairwise.nil
  obtain ⟨b1, b2, b3⟩ := foldl_setInsert (fun ei => g.dest ei) (intRange g.edgeCount) []
    List.Pairwise.nil
  have hlen : (intRange g.edgeCount).length = g.edgeCount := by simp [intRange]
  refine ⟨a1, b1, by simpa [hlen] using a2, by simpa [hlen] using b2, ?_, ?_⟩
  · intro a
    rw [a3 a, ← exists_index_iff g (fun e => e.src = a)]
    simp only [List.not_mem_nil, false_or]
    constructor
    · rintro ⟨ei, hei, h⟩
      exact ⟨ei, hei, (src_eq_iff g hei a).mp h⟩
    · rintro ⟨ei, hei, h⟩
      exact ⟨ei, hei, (src_eq_iff g hei a).mpr h⟩
  · intro a
    rw [b3 a, ← exists_index_iff g (fun e => e.dest = a)]
    simp only [List.not_mem_nil, false_or]
    constructor
    · rintro ⟨ei, hei, h⟩
      exact ⟨ei, hei, (dest_eq_iff g hei a).mp h⟩
    · rintro ⟨ei, hei, h⟩
      exact ⟨ei, hei, (dest_eq_iff g hei a).mpr h⟩

theorem foldl_addEdge {α : Type} (f h : α → Int) : ∀ (l : List α) (g0 : cGraph),
    l.foldl (fun w a => w.addEdge (f a) (h a)) g0 =
      { g0 with vEdge := g0.vEdge ++ l.map fun a => ⟨f a, h a, 1⟩ } := by
  intro l
  induction l with
  | nil => intro g0; simp
  | cons a t ih =>
    intro g0
    rw [List.foldl_cons, ih]
    simp only [cGraph.addEdge, List.map_cons, List.append_assoc, List.singleton_append]

theorem unitCapacity_spec : ∀ (l : List Int) (work : cGraph),
    (∀ ei ∈ l, 0 ≤ ei ∧ ei < (work.edgeCount : Int)) →
    ∃ g1, unitCapacity l work = .ok g1 ∧ g1.fDirected = work.fDirected ∧
      g1.nVertex = work.nVertex ∧ g1.edgeList = work.edgeList ∧
      ∀ (k : Nat) (e1 : cEdge), g1.vEdge.get? k = some e1 →
        (((k : Int) ∈ l → e1.attr0 = 1) ∧
          ((k : Int) ∉ l → ∃ e, work.vEdge.get? k = some e ∧ e1.attr0 = e.attr0)) := by
  intro l
  induction l with
  | nil =>
    intro work _
    refine ⟨work, rfl, rfl, rfl, rfl, ?_⟩
    intro k e1 h
    exact ⟨fun hk => by simp at hk, fun _ => ⟨e1, h, rfl⟩⟩
  | cons ei rest ih =>
    intro work hr
    obtain ⟨h0, h1⟩ := hr ei (List.mem_cons_self _ _)
    have hlt : ei.toNat < work.vEdge.length := by unfold cGraph.edgeCount at h1; omega
    have hget : work.vEdge.get? ei.toNat = some (work.vEdge[ei.toNat]) := by
      rw [List.get?_eq_getElem?, List.getElem?_eq_getElem hlt]
    have hw : work.wEdgeAttr ei 1 =
        .ok (work.setEdge ei.toNat { work.vEdge[ei.toNat] with attr0 := 1 }) := by
      unfold cGraph.wEdgeAttr
      rw [if_neg (by omega), hget]
    obtain ⟨g1, a1, a2, a3, a4, a5⟩ :=
      ih (work.setEdge ei.toNat { work.vEdge[ei.toNat] with attr0 := 1 }) (by
        intro x hx
        have := hr x (List.mem_cons_of_mem _ hx)
        simpa [cGraph.setEdge, cGraph.edgeCount] using this)
    have hshape : (work.setEdge ei.toNat { work.vEdge[ei.toNat] with attr0 := 1 }).edgeList =
        work.edgeList := by
      have := (work.sameShape_refl.setEdge ei.toNat _ 1 hget).2.2
      exact this
    refine ⟨g1, ?_, a2, a3, a4.trans hshape, ?_⟩
    · unfold unitCapacity
      rw [hw]
      exact a1
    · intro k e1 hk
      obtain ⟨b1, b2⟩ := a5 k e1 hk
      by_cases hmem : (k : Int) ∈ rest
      · exact ⟨fun _ => b1 hmem, fun hn => absurd (List.mem_cons_of_mem _ hmem) hn⟩
      · obtain ⟨e, he, hee⟩ := b2 hmem
        simp only [cGraph.setEdge, List.get?_eq_getElem?] at he
        by_cases hkei : (k : Int) = ei
        · have hk2 : k = ei.toNat := by omega
          subst hk2
          rw [List.getElem?_set_self hlt] at he
          refine ⟨fun _ => ?_, fun hn => absurd (hkei ▸ List.mem_cons_self _ _) hn⟩
          rw [hee, ← Option.some.inj he]
        · have hk2 : ei.toNat ≠ k := by omega
          rw [List.getElem?_set_ne hk2] at he
          refine ⟨fun hin => ?_, fun _ => ⟨e, by rw [List.get?_eq_getElem?]; exact he, hee⟩⟩
          rcases List.mem_cons.mp hin with h | h
          · exact absurd h hkei
          · exact absurd h hmem

theorem foldl_addEdge_from (s : Int) (l : List Int) (g0 : cGraph) :
    l.foldl (fun w a => w.addEdge s a) g0 =
      ⟨g0.fDirected, g0.nVertex, g0.vEdge ++ l.map fun a => ⟨s, a, 1⟩⟩ :=
  foldl_addEdge (fun _ => s) (fun a => a) l g0

theorem foldl_addEdge_to (t : Int) (l : List Int) (g0 : cGraph) :
    l.foldl (fun w a => w.addEdge a t) g0 =
      ⟨g0.fDirected, g0.nVertex, g0.vEdge ++ l.map fun a => ⟨a, t, 1⟩⟩ :=
  foldl_addEdge (fun a => a) (fun _ => t) l g0

theorem unitCapacity_all (X : cGraph) :
    ∃ g3, unitCapacity (intRange X.edgeCount) X = .ok g3 ∧ g3.fDirected = X.fDirected ∧
      g3.nVertex = X.nVertex ∧ g3.edgeList = X.edgeList ∧ ∀ e ∈ g3.vEdge, e.attr0 = 1 := by
  obtain ⟨g3, a1, a2, a3, a4, a5⟩ := unitCapacity_spec (intRange X.edgeCount) X
    (fun ei hei => (mem_intRange _ _).mp hei)
  refine ⟨g3, a1, a2, a3, a4, ?_⟩
  intro e he
  obtain ⟨k, hk, hke⟩ := List.getElem_of_mem he
  have hget : g3.vEdge.get? k = some e := by
    rw [List.get?_eq_getElem?, List.getElem?_eq_getElem hk, hke]
  refine (a5 k e hget).1 ((mem_intRange _ _).mpr ⟨by omega, ?_⟩)
  have hl := congrArg List.length a4
  simp only [cGraph.edgeList, List.length_map] at hl
  unfold cGraph.edgeCount
  rw [← hl]
  exact_mod_cast hk

/-- The graph that `alloc` hands to `flows`. -/
theorem allocGraph_spec (g : cGraph) :
    ∃ g1, allocGraph g = .ok (g1, (g.nVertex : Int), (g.nVertex : Int) + 1) ∧
      g1.fDirected = g.fDirected ∧ g1.nVertex = g.nVertex + 2 ∧
      g1.edgeList = g.edgeList ++ (allocSets g).1.map (fun a => ((g.nVertex : Int), a)) ++
        (allocSets g).2.map (fun t => (t, (g.nVertex : Int) + 1)) ∧
      ∀ e ∈ g1.vEdge, e.attr0 = 1 := by
  unfold allocGraph
  simp only [foldl_addEdge_from, cGraph.addVertex, foldl_addEdge_to, cGraph.vertexCount]
  obtain ⟨g3, a1, a2, a3, a4, a5⟩ := unitCapacity_all
    ⟨g.fDirected, g.nVertex + 1 + 1,
      g.vEdge ++ List.map (fun a => ⟨(g.nVertex : Int), a, 1⟩) (allocSets g).1 ++
        List.map (fun a => ⟨a, ((g.nVertex + 1 : Nat) : Int), 1⟩) (allocSets g).2⟩
  refine ⟨g3, ?_, a2, a3, ?_, a5⟩
  · rw [a1]
    simp
  · rw [a4]
    simp [cGraph.edgeList, List.map_append]
    rfl

theorem flows_returns {g : cGraph} (start end_ : Int) (inv : FlowInv g.vertexCount g)
    (hs : g.inRange start) (he : g.inRange end_) (hne : start ≠ end_) (fuel : Nat)
    (hfuel : g.edgeCount < fuel) :
    ∃ total vEdgeFlow, flows fuel g start end_ = .ok (total, vEdgeFlow) := by
  obtain ⟨work1, total1, h1, _, _⟩ :=
    flowsLoop_spec (fun v => decide (v = start)) hs he hne (by simp)
      (by simpa using hne.symm) fuel g 0 inv hfuel (by omega)
  obtain ⟨fs, hfs⟩ := edgeFlow_ok g work1 (intRange g.edgeCount)
    (fun ei hei => (mem_intRange _ _).mp hei)
  refine ⟨total1, fs, ?_⟩
  have hd : (!g.isDirected) = false := by
    have := inv.dir
    unfold cGraph.isDirected
    rw [this]; rfl
  simp only [flows, hd, Bool.false_eq_true, if_false, h1, hfs]

/-- What `alloc` leaves of the graph it is given: on a directed, well formed
graph it returns, the loop of `flows` being given a round for every edge of the
graph it works on, and the graph has become the one that `allocGraph` builds. -/
theorem alloc_spec (g : cGraph) (hd : g.isDirected = true) (hwf : g.wellFormed)
    (fuel : Nat) (hfuel : 3 * g.edgeCount < fuel) :
    ∃ g1 pairs, alloc fuel g = .ok (g1, pairs) ∧
      g1.fDirected = true ∧ g1.nVertex = g.nVertex + 2 ∧
      g1.edgeList = g.edgeList ++ (allocSets g).1.map (fun a => ((g.nVertex : Int), a)) ++
        (allocSets g).2.map (fun t => (t, (g.nVertex : Int) + 1)) ∧
      ∀ e ∈ g1.vEdge, e.attr0 = 1 := by
  obtain ⟨g1, a1, a2, a3, a4, a5⟩ := allocGraph_spec g
  obtain ⟨s1, s2, s3, s4, s5, s6⟩ := allocSets_spec g
  have hd1 : g1.fDirected = true := a2.trans hd
  have hwf1 : g1.wellFormed := by
    rw [cGraph.wellFormed_iff_map]
    intro sd hsd
    have hsd2 : sd ∈ g1.edgeList := hsd
    rw [a4, a3] at *
    simp only [List.mem_append, List.mem_map] at hsd2
    rcases hsd2 with (hsd2 | ⟨a, ha, rfl⟩) | ⟨t, ht, rfl⟩
    · simp only [cGraph.edgeList, List.mem_map] at hsd2
      obtain ⟨e, he, rfl⟩ := hsd2
      have := hwf e he
      unfold cGraph.vertexCount at this
      push_cast
      omega
    · obtain ⟨e, he, rfl⟩ := (s5 a).mp ha
      have := hwf e he
      unfold cGraph.vertexCount at this
      push_cast
      omega
    · obtain ⟨e, he, rfl⟩ := (s6 t).mp ht
      have := hwf e he
      unfold cGraph.vertexCount at this
      push_cast
      omega
  have inv : FlowInv g1.vertexCount g1 :=
    ⟨hd1, hwf1, rfl, fun e he => ⟨1, by rw [a5 e he]; norm_num⟩⟩
  have hcount : g1.edgeCount < fuel := by
    have hl := congrArg List.length a4
    simp only [cGraph.edgeList, List.length_map, List.length_append] at hl
    unfold cGraph.edgeCount at *
    omega
  obtain ⟨total, vEdgeFlow, hf⟩ := flows_returns (g.nVertex : Int) ((g.nVertex : Int) + 1) inv
    (by unfold cGraph.inRange cGraph.vertexCount; rw [a3]; push_cast; omega)
    (by unfold cGraph.inRange cGraph.vertexCount; rw [a3]; push_cast; omega)
    (by omega) fuel hcount
  refine ⟨g1, allocPairs g1 (g.nVertex : Int) ((g.nVertex : Int) + 1) vEdgeFlow
    (intRange g1.edgeCount), ?_, hd1, a3, a4, a5⟩
  unfold alloc
  rw [a1]
  simp only [hf]

/-! ## `sourceToSink` -/

/-- After `dijsktra` from `s`, the vertices with an entry of `pred` that is
not negative are those that can be reached from `s`, no distance reaching
`INT_MAX`. -/
theorem pred_nonneg_iff {g : cGraph} (hwf : g.wellFormed) {W : ℚ} (hW : 0 ≤ W)
    (hw : ∀ e ∈ g.vEdge, 0 ≤ e.attr0 ∧ e.attr0 ≤ W)
    (hbound : (g.vertexCount : ℚ) * W < (INT_MAX : ℚ)) {s : Int} (hs : g.inRange s) :
    ∃ dist pred, dijsktra g s = .ok (dist, pred) ∧
      ∀ t, g.inRange t → (0 ≤ vget pred t (-1) ↔ g.Reachable s t) := by
  obtain ⟨st, k, h1, inv, hk, hfin⟩ := dijsktra_spec hwf W hs
  refine ⟨st.dist, st.pred, h1, ?_⟩
  intro t ht
  by_cases hts : t = s
  · subst hts
    rw [inv.start_ok.1]
    exact ⟨fun _ => Relation.ReflTransGen.refl, fun _ => le_refl _⟩
  · constructor
    · intro hp
      have hne : vget st.pred t (-1) ≠ -1 := by omega
      obtain ⟨r, hchain, hr, _, hedge, _⟩ := inv.tree t ht hts hne
      have hwalk := (BackChain.walk inv hchain (fun x hx => (hr x hx).1)).1
      exact Relation.ReflTransGen.tail (cGraph.isWalk_reachable hwalk) hedge
    · intro hreach
      have hlt := reach_finite hwf inv hk hfin hW hw hbound t hreach
      have hne : vget st.pred t (-1) ≠ -1 := by
        intro h
        have := (inv.pred_none t ht).mp h
        rw [this] at hlt
        exact lt_irrefl _ hlt
      obtain ⟨r, hchain, hr, _, _, _⟩ := inv.tree t ht hts hne
      exact (hr _ hchain.head_mem).1.1

theorem sourceLoop_spec {g : cGraph} (hwf : g.wellFormed) {W : ℚ} (hW : 0 ≤ W)
    (hw : ∀ e ∈ g.vEdge, 0 ≤ e.attr0 ∧ e.attr0 ≤ W)
    (hbound : (g.vertexCount : ℚ) * W < (INT_MAX : ℚ)) (vsink : List Int)
    (hsink : ∀ t ∈ vsink, g.inRange t) :
    ∀ vs : List Int, (∀ v ∈ vs, g.inRange v) →
      ∃ ret, sourceLoop g vsink vs = .ok ret ∧
        List.Forall₂ (fun s entry => ∃ rest, entry = s :: rest ∧ rest.Sublist vsink ∧
            ∀ t, t ∈ rest ↔ (t ∈ vsink ∧ g.Reachable s t))
          (vs.filter fun v => decide ((g.adjacentIn v).length = 0)) ret := by
  intro vs
  induction vs with
  | nil => intro _; exact ⟨[], rfl, List.Forall₂.nil⟩
  | cons v rest ih =>
    intro hvs
    obtain ⟨ret, hret, hall⟩ := ih (fun x hx => hvs x (List.mem_cons_of_mem _ hx))
    unfold sourceLoop
    by_cases hin : (g.adjacentIn v).length = 0
    · rw [if_neg (by simp [hin])]
      obtain ⟨dist, pred, hd, hp⟩ :=
        pred_nonneg_iff hwf hW hw hbound (hvs v (List.mem_cons_self _ _))
      rw [hd]
      simp only [hret]
      refine ⟨_, rfl, ?_⟩
      rw [List.filter_cons_of_pos (by simp [hin])]
      refine List.Forall₂.cons ⟨_, rfl, List.filter_sublist _, ?_⟩ hall
      intro t
      rw [List.mem_filter]
      constructor
      · rintro ⟨h1, h2⟩
        exact ⟨h1, (hp t (hsink t h1)).mp (by simpa using h2)⟩
      · rintro ⟨h1, h2⟩
        exact ⟨h1, by simpa using (hp t (hsink t h1)).mpr h2⟩
    · rw [if_pos hin, List.filter_cons_of_neg (by simp [hin])]
      exact ⟨ret, hret, hall⟩

/-- Where no distance can reach `INT_MAX`, `sourceToSink` returns one entry for
every vertex without an edge that enters it, in ascending order of the index:
the vertex, followed in ascending order by the vertices without an edge that
leaves them that can be reached from it. -/
theorem sourceToSink_spec {g : cGraph} (hwf : g.wellFormed) {W : ℚ} (hW : 0 ≤ W)
    (hw : ∀ e ∈ g.vEdge, 0 ≤ e.attr0 ∧ e.attr0 ≤ W)
    (hbound : (g.vertexCount : ℚ) * W < (INT_MAX : ℚ)) :
    ∃ ret, sourceToSink g = .ok ret ∧
      List.Forall₂ (fun s entry => ∃ rest, entry = s :: rest ∧
          rest.Sublist (intRange g.vertexCount) ∧
          ∀ t, t ∈ rest ↔ (g.inRange t ∧ (g.adjacentOut t).length = 0 ∧ g.Reachable s t))
        ((intRange g.vertexCount).filter fun v => decide ((g.adjacentIn v).length = 0)) ret := by
  obtain ⟨ret, h1, h2⟩ := sourceLoop_spec hwf hW hw hbound
    ((intRange g.vertexCount).filter fun vi => (g.adjacentOut vi).length = 0)
    (fun t ht => (mem_intRange _ _).mp (List.mem_filter.mp ht).1)
    (intRange g.vertexCount) (fun v hv => (mem_intRange _ _).mp hv)
  refine ⟨ret, h1, ?_⟩
  refine List.Forall₂.imp ?_ h2
  rintro s entry ⟨rest, e1, e2, e3⟩
  refine ⟨rest, e1, e2.trans (List.filter_sublist _), ?_⟩
  intro t
  rw [e3 t, List.mem_filter, mem_intRange]
  simp only [decide_eq_true_eq]
  unfold cGraph.inRange
  tauto

/-! ## The claims about `euler`, `vertexCover`, `cliques`, `alloc` and `sourceToSink` -/

/-- C21: on a graph with a vertex, `euler` throws one of its two runtime errors
where the graph is not directed or in-degree and out-degree differ at some
vertex, whatever the fuel; in every other case it returns a vertex sequence,
its loop needing at most `edgeCount + 1` rounds. -/
theorem euler_fails_iff (g : cGraph) (_ : 1 ≤ g.vertexCount) :
    ((g.isDirected = false ∨ ¬ g.balanced) →
        ∀ fuel, ∃ what, euler fuel g = .error (.runtimeError what)) ∧
      (¬ (g.isDirected = false ∨ ¬ g.balanced) →
        ∀ fuel, g.edgeCount < fuel → ∃ circuit, euler fuel g = .ok circuit) := by
  constructor
  · intro h fuel
    by_cases hd : g.isDirected = false
    · exact ⟨_, euler_undirected fuel g hd⟩
    · have hd1 : g.isDirected = true := by simpa using hd
      rcases h with h | h
      · exact absurd h hd
      · exact ⟨_, euler_unbalanced fuel g hd1 h⟩
  · intro h fuel hfuel
    push_neg at h
    have hd1 : g.isDirected = true := by simpa using h.1
    rw [euler_balanced fuel g hd1 h.2]
    exact eulerLoop_ok fuel g 0 [] hd1 hfuel

/-- C21, witness: the ring 0 -> 1 -> 2 -> 3 -> 0 is directed and balanced, and
`euler` returns on it; the unit test graph is not directed, and `euler` fails. -/
theorem euler_fails_iff_witness :
    (1 ≤ ringGraph.vertexCount ∧ ¬ (ringGraph.isDirected = false ∨ ¬ ringGraph.balanced) ∧
      ∃ circuit, euler 5 ringGraph = .ok circuit) ∧
    (1 ≤ testGraph.vertexCount ∧ testGraph.isDirected = false ∧
      ∃ what, euler 5 testGraph = .error (.runtimeError what)) :=
  ⟨⟨by decide, by decide, (euler_fails_iff ringGraph (by decide)).2 (by decide) 5 (by decide)⟩,
    ⟨by decide, by decide,
      (euler_fails_iff testGraph (by decide)).1 (Or.inl (by decide)) 5⟩⟩

/-- C22: on a directed graph that is one cycle through all its vertices, named
by `c` in the order of the cycle, `euler` returns (its loop needs at most
`edgeCount + 1` rounds) the cycle turned so that it starts at vertex 0, followed
by vertex 0; the links of this sequence are the edges of the graph, each once. -/
theorem euler_cycle (g : cGraph) (c : List Int) (h : g.isCycleThrough c)
    (hV : 1 ≤ g.vertexCount) :
    ∃ k, (c.rotate k).head? = some 0 ∧ (c.rotate k ++ [0]).getLast? = some 0 ∧
      (links (c.rotate k ++ [0])).Perm g.edgeList ∧
      ∀ fuel, g.edgeCount < fuel → euler fuel g = .ok (c.rotate k ++ [0]) := by
  obtain ⟨k, h1, h2, h3⟩ := euler_cycle_spec h hV
  exact ⟨k, h1, by simp, h2, h3⟩

/-- C22, witness: the ring 0 -> 1 -> 2 -> 3 -> 0, its edges not in the order of
the cycle. -/
theorem euler_cycle_witness :
    ringGraph.isCycleThrough [0, 1, 2, 3] ∧ 1 ≤ ringGraph.vertexCount ∧
      ∃ k, (([0, 1, 2, 3] : List Int).rotate k).head? = some 0 ∧
        (([0, 1, 2, 3] : List Int).rotate k ++ [0]).getLast? = some 0 ∧
        (links (([0, 1, 2, 3] : List Int).rotate k ++ [0])).Perm ringGraph.edgeList ∧
        ∀ fuel, ringGraph.edgeCount < fuel →
          euler fuel ringGraph = .ok (([0, 1, 2, 3] : List Int).rotate k ++ [0]) :=
  ⟨by decide, by decide, euler_cycle ringGraph [0, 1, 2, 3] (by decide) (by decide)⟩

/-- C23, the code at the failing input: the directed graph with the edges
0 -> 1, 1 -> 0, 1 -> 2, 2 -> 1 is balanced and 0, 1, 2, 1, 0 runs through each
of its edges once, yet `euler` returns 0, 1, 0, which leaves out the edges
1 -> 2 and 2 -> 1.  On the two cycles 0 -> 1 -> 0 and 2 -> 3 -> 2, which no
vertex sequence runs through, `euler` returns 0, 1, 0 as well and does not
throw. -/
theorem euler_leaves_edges :
    twoLoopGraph.isDirected = true ∧ twoLoopGraph.balanced ∧
      (∀ k, euler (k + 3) twoLoopGraph = .ok [0, 1, 0]) ∧
      (1, 2) ∈ twoLoopGraph.edgeList ∧ (1, 2) ∉ links [0, 1, 0] ∧
      (links [0, 1, 2, 1, 0]).Perm twoLoopGraph.edgeList ∧
      twoCycleGraph.isDirected = true ∧ twoCycleGraph.balanced ∧
      (∀ k, euler (k + 3) twoCycleGraph = .ok [0, 1, 0]) ∧
      ∀ p, ¬ (links p).Perm twoCycleGraph.edgeList := by
  refine ⟨by decide, by decide, fun k => rfl, by decide, by decide, by decide, by decide,
    by decide, fun k => rfl, ?_⟩
  intro p hp
  have hlen := hp.length_eq
  have h01 : ((0 : Int), (1 : Int)) ∈ links p := hp.symm.subset (by decide)
  have h23 : ((2 : Int), (3 : Int)) ∈ links p := hp.symm.subset (by decide)
  have hall : ∀ ab ∈ links p, ab ∈ twoCycleGraph.edgeList := fun ab hab => hp.subset hab
  match p, hlen, h01, h23, hall with
  | [a, b, c, d, e], _, h01, h23, hall =>
    have m1 := hall (a, b) (by simp [links])
    have m2 := hall (b, c) (by simp [links])
    have m3 := hall (c, d) (by simp [links])
    have m4 := hall (d, e) (by simp [links])
    simp only [links, List.mem_cons, Prod.mk.injEq, List.mem_singleton, List.not_mem_nil,
      or_false] at h01 h23
    simp only [twoCycleGraph, cGraph.edgeList, List.map_cons, List.map_nil, List.mem_cons,
      Prod.mk.injEq, List.mem_singleton, List.not_mem_nil, or_false] at m1 m2 m3 m4
    omega
  | [], h, _, _, _ => simp [links, twoCycleGraph, cGraph.edgeList] at h
  | [_], h, _, _, _ => simp [links, twoCycleGraph, cGraph.edgeList] at h
  | [_, _], h, _, _, _ => simp [links, twoCycleGraph, cGraph.edgeList] at h
  | [_, _, _], h, _, _, _ => simp [links, twoCycleGraph, cGraph.edgeList] at h
  | [_, _, _, _], h, _, _, _ => simp [links, twoCycleGraph, cGraph.edgeList] at h
  | _ :: _ :: _ :: _ :: _ :: _ :: _, h, _, _, _ =>
    simp [links, twoCycleGraph, cGraph.edgeList] at h

/-- C24: on a graph that is not directed `vertexCover` returns a list of
vertices that holds an end of every edge; on a directed graph it throws its
runtime error. -/
theorem vertexCover_covers (g : cGraph) :
    (g.isDirected = false →
      ∃ cover, vertexCover g = .ok cover ∧ ∀ e ∈ g.vEdge, e.src ∈ cover ∨ e.dest ∈ cover) ∧
    (g.isDirected = true →
      vertexCover g = .error (.runtimeError "vertexCover works only on undirected graphs")) :=
  ⟨vertexCover_spec g, vertexCover_directed g⟩

/-- C24, witness: the unit test graph, with the cover 0, 1, and the directed
ring, on which `vertexCover` throws. -/
theorem vertexCover_covers_witness :
    (testGraph.isDirected = false ∧ vertexCover testGraph = .ok [0, 1] ∧
      ∃ cover, vertexCover testGraph = .ok cover ∧
        ∀ e ∈ testGraph.vEdge, e.src ∈ cover ∨ e.dest ∈ cover) ∧
    (ringGraph.isDirected = true ∧
      vertexCover ringGraph =
        .error (.runtimeError "vertexCover works only on undirected graphs")) :=
  ⟨⟨by decide, by decide, (vertexCover_covers testGraph).1 (by decide)⟩,
    ⟨by decide, (vertexCover_covers ringGraph).2 (by decide)⟩⟩

/-- C25, counterexample: the unit test graph with no vertex attribute stored,
so that no vertex holds "deleted" in slot 0: the first read of slot 0 is
refused, and `cliques` fails with IndexOutOfRange, however many rounds its
loops are given. -/
theorem cliques_no_attribute_stored :
    1 ≤ testGraph.vertexCount ∧ (∀ s ∈ ([] : List String), s ≠ "deleted") ∧
      rVertexAttr [] 0 = .error .indexOutOfRange ∧
      ∀ fuel : Nat, cliques (fuel + 1) testGraph [] = .error .indexOutOfRange :=
  ⟨by decide, by simp, rfl, fun _ => rfl⟩

/-- C25, amended: on a graph with a vertex, every vertex of which has slot 0 of
its attributes stored, with a text other than "deleted", `cliques` returns
(each of its loops needs at most `vertexCount + 1` rounds) groups none of which
is empty and which together hold every vertex once. -/
theorem cliques_partition (g : cGraph) (vattr : List String) (fuel : Nat)
    (hV : 1 ≤ g.vertexCount) (hlen : vattr.length = g.vertexCount)
    (hlive : ∀ s ∈ vattr, s ≠ "deleted") (hfuel : g.vertexCount < fuel) :
    ∃ groups, cliques fuel g vattr = .ok groups ∧
      groups.flatten.Perm (intRange g.vertexCount) ∧ ∀ grp ∈ groups, grp ≠ [] := by
  refine cliques_spec g vattr hV hlen ?_ fuel hfuel
  intro v hv
  have hlt : v.toNat < vattr.length := by have := hv.1; have := hv.2; omega
  have : vget vattr v "" = vattr[v.toNat] := by
    unfold vget
    rw [if_neg (by have := hv.1; omega), List.getD_eq_getElem _ _ hlt]
  rw [this]
  exact hlive _ (List.getElem_mem _)

/-- C25, witness: the graph with the edge 0-1 and the further vertex 2, slot 0
of each vertex holding the empty text; the groups are 0, 1 and 2. -/
theorem cliques_partition_witness :
    1 ≤ strandedGraph.vertexCount ∧ cliques 4 strandedGraph ["", "", ""] = .ok [[0, 1], [2]] ∧
      ∃ groups, cliques 4 strandedGraph ["", "", ""] = .ok groups ∧
        groups.flatten.Perm (intRange strandedGraph.vertexCount) ∧ ∀ grp ∈ groups, grp ≠ [] :=
  ⟨by decide, by decide!,
    cliques_partition strandedGraph ["", "", ""] 4 (by decide) (by decide) (by decide!)
      (by decide)⟩

/-- C26, the code at the failing input: on the unit test graph with the edges
0-1, 1-2, 0-3, slot 0 of each vertex holding the empty text, `cliques` returns the one group 0, 1, 2, 3, a vertex being taken
into the group as soon as an edge joins it to one member; no edge joins the
members 0 and 2, nor 1 and 3, nor 2 and 3. -/
theorem cliques_group_not_clique :
    cliques 5 testGraph ["", "", "", ""] = .ok [[0, 1, 2, 3]] ∧
      cliquesText testNames [[0, 1, 2, 3]] = "clique: a b c d \n" ∧
      ¬ testGraph.hasEdge 0 2 ∧ ¬ testGraph.hasEdge 2 0 ∧ ¬ testGraph.hasEdge 1 3 ∧
      ¬ testGraph.hasEdge 2 3 :=
  ⟨by decide!, by decide!, by decide, by decide, by decide, by decide⟩

/-- C28, the code at the failing inputs.  The agents 0 and 1 and the one task 2,
with the edges 0 -> 2 and 1 -> 2: the pair (0, 2) alone is a matching and
`flows` sends one unit, yet `alloc` returns no pair at all, the flow of the
edges being read from the two edges that are left in the working graph.  The
agents 2 and 3 and the tasks 0 and 1, with the edges 3 -> 1, 3 -> 0, 2 -> 1:
the pairs (3, 0) and (2, 1) are a matching, `flows` sends one unit only, along
start, 3, 1, end, and `alloc` returns no pair. -/
theorem alloc_no_pair :
    oneTaskGraph.isDirected = true ∧ oneTaskGraph.wellFormed ∧
      (∀ e ∈ oneTaskGraph.vEdge, (e.src = 0 ∨ e.src = 1) ∧ e.dest = 2) ∧
      (alloc 6 oneTaskGraph).map Prod.snd = .ok [] ∧
      oneTaskGraph.isMatching [(0, 2)] ∧
      (allocGraph oneTaskGraph).bind (fun gse => flows 6 gse.1 gse.2.1 gse.2.2) =
        .ok (1, [0, 0, 1, 1, 1]) ∧
      greedyTaskGraph.isDirected = true ∧ greedyTaskGraph.wellFormed ∧
      (∀ e ∈ greedyTaskGraph.vEdge, (e.src = 2 ∨ e.src = 3) ∧ (e.dest = 0 ∨ e.dest = 1)) ∧
      (alloc 8 greedyTaskGraph).map Prod.snd = .ok [] ∧
      greedyTaskGraph.isMatching [(3, 0), (2, 1)] ∧
      (allocGraph greedyTaskGraph).bind (fun gse => flowsLoop gse.2.1 gse.2.2 8 gse.1 0) =
        .ok (⟨true, 6, [⟨3, 0, 1⟩, ⟨2, 1, 1⟩, ⟨4, 2, 1⟩, ⟨0, 5, 1⟩]⟩, 1) :=
  ⟨by decide, by decide, by decide, by decide!, by decide, by decide!,
    by decide, by decide, by decide, by decide!, by decide, by decide!⟩

/-- C29, counterexample: the graph with the vertices 0 and 1 and the edge
0 -> 1, slot 0 holding 5.  After `alloc` it has four vertices and three edges,
and slot 0 of the edge 0 -> 1 holds 1. -/
theorem alloc_changes_graph :
    alloc 4 oneAgentGraph =
        .ok (⟨true, 4, [⟨0, 1, 1⟩, ⟨2, 0, 1⟩, ⟨1, 3, 1⟩]⟩, [(0, 1)]) ∧
      (⟨true, 4, [⟨0, 1, 1⟩, ⟨2, 0, 1⟩, ⟨1, 3, 1⟩]⟩ : cGraph) ≠ oneAgentGraph :=
  ⟨by decide!, by decide!⟩

/-- C29, amended: on a directed, well formed graph `alloc` returns (the loop of
`flows` being given more than `3 * edgeCount` rounds) and leaves the graph
directed, with two vertices more, `start` and `end`; its former edges are
followed by an edge from `start` to every source of an edge, in ascending
order, and by an edge from every destination of an edge, in ascending order,
to `end`; slot 0 of every edge holds 1. -/
theorem alloc_extends_graph (g : cGraph) (fuel : Nat) (hd : g.isDirected = true)
    (hwf : g.wellFormed) (hfuel : 3 * g.edgeCount < fuel) :
    ∃ (g1 : cGraph) (pairs : List (Int × Int)) (agents tasks : List Int), alloc fuel g = .ok (g1, pairs) ∧
      g1.isDirected = true ∧ g1.vertexCount = g.vertexCount + 2 ∧
      g1.edgeList = g.edgeList ++ agents.map (fun a => ((g.vertexCount : Int), a)) ++
        tasks.map (fun t => (t, (g.vertexCount : Int) + 1)) ∧
      (∀ e ∈ g1.vEdge, e.attr0 = 1) ∧
      agents.Pairwise (· < ·) ∧ tasks.Pairwise (· < ·) ∧
      (∀ a, a ∈ agents ↔ ∃ e ∈ g.vEdge, e.src = a) ∧
      (∀ t, t ∈ tasks ↔ ∃ e ∈ g.vEdge, e.dest = t) := by
  obtain ⟨g1, pairs, h1, h2, h3, h4, h5⟩ := alloc_spec g hd hwf fuel hfuel
  obtain ⟨s1, s2, _, _, s5, s6⟩ := allocSets_spec g
  exact ⟨g1, pairs, (allocSets g).1, (allocSets g).2, h1, h2, h3, h4, h5, s1, s2, s5, s6⟩

/-- C29, witness: the agents 0 and 1 and the tasks 2 and 3 with the edges
0 -> 2, 0 -> 3, 1 -> 2. -/
theorem alloc_extends_graph_witness :
    agentTaskGraph.isDirected = true ∧ agentTaskGraph.wellFormed ∧
      alloc 10 agentTaskGraph =
        .ok (⟨true, 6, [⟨0, 2, 1⟩, ⟨0, 3, 1⟩, ⟨1, 2, 1⟩, ⟨4, 0, 1⟩, ⟨4, 1, 1⟩, ⟨2, 5, 1⟩,
          ⟨3, 5, 1⟩]⟩, [(0, 3), (1, 2)]) ∧
      ∃ (g1 : cGraph) (pairs : List (Int × Int)) (agents tasks : List Int), alloc 10 agentTaskGraph = .ok (g1, pairs) ∧
        g1.isDirected = true ∧ g1.vertexCount = agentTaskGraph.vertexCount + 2 ∧
        g1.edgeList = agentTaskGraph.edgeList ++
          agents.map (fun a => ((agentTaskGraph.vertexCount : Int), a)) ++
          tasks.map (fun t => (t, (agentTaskGraph.vertexCount : Int) + 1)) ∧
        (∀ e ∈ g1.vEdge, e.attr0 = 1) ∧
        agents.Pairwise (· < ·) ∧ tasks.Pairwise (· < ·) ∧
        (∀ a, a ∈ agents ↔ ∃ e ∈ agentTaskGraph.vEdge, e.src = a) ∧
        (∀ t, t ∈ tasks ↔ ∃ e ∈ agentTaskGraph.vEdge, e.dest = t) :=
  ⟨by decide, by decide, by decide!,
    alloc_extends_graph agentTaskGraph 10 (by decide) (by decide) (by decide)⟩

/-- C30, counterexample: the directed graph of two vertices with the edge
0 -> 1 of weight `INT_MAX`.  Vertex 0 has no edge that enters it, vertex 1 has
none that leaves it and can be reached from vertex 0, and `sourceToSink`
returns the one entry 0, without vertex 1. -/
theorem sourceToSink_heavy_arc :
    heavyArcGraph.isDirected = true ∧ heavyArcGraph.wellFormed ∧
      (∀ e ∈ heavyArcGraph.vEdge, e.attr0 = (INT_MAX : ℚ)) ∧
      heavyArcGraph.adjacentIn 0 = [] ∧ heavyArcGraph.adjacentOut 1 = [] ∧
      heavyArcGraph.Reachable 0 1 ∧
      sourceToSink heavyArcGraph = .ok [[0]] :=
  ⟨by decide, by decide, by decide!, by decide, by decide,
    Relation.ReflTransGen.single (show heavyArcGraph.hasEdge 0 1 by decide), by decide!⟩

/-- C30, amended: on a well formed graph whose weights lie between 0 and `W`,
where `vertexCount * W` is less than `INT_MAX`, `sourceToSink` returns one
entry for every vertex without an edge that enters it, in ascending order of
the index: the vertex, followed in ascending order by exactly those vertices
without an edge that leaves them that can be reached from it. -/
theorem sourceToSink_reachable_sinks (g : cGraph) (W : ℚ) (hwf : g.wellFormed) (hW : 0 ≤ W)
    (hw : ∀ e ∈ g.vEdge, 0 ≤ e.attr0 ∧ e.attr0 ≤ W)
    (hbound : (g.vertexCount : ℚ) * W < (INT_MAX : ℚ)) :
    ∃ ret, sourceToSink g = .ok ret ∧
      List.Forall₂ (fun s entry => ∃ rest, entry = s :: rest ∧
          rest.Sublist (intRange g.vertexCount) ∧
          ∀ t, t ∈ rest ↔ (g.inRange t ∧ (g.adjacentOut t).length = 0 ∧ g.Reachable s t))
        ((intRange g.vertexCount).filter fun v => decide ((g.adjacentIn v).length = 0)) ret :=
  sourceToSink_spec hwf hW hw hbound

/-- C30, witness: the directed graph `crossGraph`, whose weights are at most 5;
its one source is vertex 0 and its one sink vertex 3. -/
theorem sourceToSink_reachable_sinks_witness :
    crossGraph.wellFormed ∧ sourceToSink crossGraph = .ok [[0, 3]] ∧
      ∃ ret, sourceToSink crossGraph = .ok ret ∧
        List.Forall₂ (fun s entry => ∃ rest, entry = s :: rest ∧
            rest.Sublist (intRange crossGraph.vertexCount) ∧
            ∀ t, t ∈ rest ↔ (crossGraph.inRange t ∧ (crossGraph.adjacentOut t).length = 0 ∧
              crossGraph.Reachable s t))
          ((intRange crossGraph.vertexCount).filter
            fun v => decide ((crossGraph.adjacentIn v).length = 0)) ret :=
  ⟨by decide, by decide!,
    sourceToSink_reachable_sinks crossGraph 5 (by decide) (by norm_num) (by decide!)
      (by decide!)⟩

/-! ## `dijsktra`: what the two vectors hold -/

/-- The vectors that `dijsktra` returns on a well formed graph: the entries of
`start`; a vertex with a predecessor has an edge from it, and its distance is
that of the predecessor plus the weight of the edge; a vertex without one has
the distance `INT_MAX`; a vertex that cannot be reached has no predecessor. -/
theorem dijsktra_vectors {g : cGraph} (hwf : g.wellFormed) {start : Int}
    (hs : g.inRange start) :
    ∃ dist pred, dijsktra g start = .ok (dist, pred) ∧
      vget pred start (-1) = 0 ∧ vget dist start 0 = 0 ∧
      (∀ v, g.inRange v → (vget pred v (-1) = -1 ↔ vget dist v 0 = (INT_MAX : ℚ))) ∧
      (∀ v, g.inRange v → ¬ g.Reachable start v → vget pred v (-1) = -1) ∧
      (∀ v, g.inRange v → v ≠ start → vget pred v (-1) ≠ -1 →
        g.inRange (vget pred v (-1)) ∧ g.hasEdge (vget pred v (-1)) v ∧
        ∃ w, g.rEdgeAttr (g.find (vget pred v (-1)) v) = .ok w ∧
          vget dist v 0 = vget dist (vget pred v (-1)) 0 + w) := by
  obtain ⟨st, k, h1, inv, _, _⟩ := dijsktra_spec hwf 0 hs
  refine ⟨st.dist, st.pred, h1, inv.start_ok.1, inv.start_ok.2, inv.pred_none, ?_, ?_⟩
  · intro v hv hnr
    by_contra hne
    have hvs : v ≠ start := by
      intro h; subst h; exact hnr Relation.ReflTransGen.refl
    obtain ⟨r, hchain, hr, _, hedge, _⟩ := inv.tree v hv hvs hne
    have hwalk := (BackChain.walk inv hchain (fun x hx => (hr x hx).1)).1
    exact hnr (Relation.ReflTransGen.tail (cGraph.isWalk_reachable hwalk) hedge)
  · intro v hv hvs hne
    obtain ⟨r, hchain, hr, _, hedge, hw⟩ := inv.tree v hv hvs hne
    exact ⟨(hr _ hchain.head_mem).1, hedge, hw⟩

/-- Where no distance can reach `INT_MAX`, a vertex that can be reached from
`start` has a predecessor. -/
theorem dijsktra_reached {g : cGraph} (hwf : g.wellFormed) {W : ℚ} (hW : 0 ≤ W)
    (hw : ∀ e ∈ g.vEdge, 0 ≤ e.attr0 ∧ e.attr0 ≤ W)
    (hbound : (g.vertexCount : ℚ) * W < (INT_MAX : ℚ)) {start : Int} (hs : g.inRange start)
    {dist : List ℚ} {pred : List Int} (h : dijsktra g start = .ok (dist, pred)) :
    ∀ v, g.inRange v → g.Reachable start v → vget pred v (-1) ≠ -1 := by
  obtain ⟨st, k, h1, inv, hk, hfin⟩ := dijsktra_spec hwf W hs
  rw [h] at h1
  simp only [Except.ok.injEq, Prod.mk.injEq] at h1
  obtain ⟨hd, hp⟩ := h1
  intro v hv hreach hneg
  have hlt := reach_finite hwf inv hk hfin hW hw hbound v hreach
  rw [hp] at hneg
  rw [(inv.pred_none v hv).mp hneg] at hlt
  exact lt_irrefl _ hlt

/-! ## `path` from a vertex to itself -/

theorem dijsktra_length {g : cGraph} (hwf : g.wellFormed) {start : Int}
    (hs : g.inRange start) {dist : List ℚ} {pred : List Int}
    (h : dijsktra g start = .ok (dist, pred)) : pred.length = g.vertexCount := by
  obtain ⟨st, k, h1, inv, _, _⟩ := dijsktra_spec hwf 0 hs
  rw [h] at h1
  simp only [Except.ok.injEq, Prod.mk.injEq] at h1
  rw [h1.2]
  exact inv.len_pred

/-- From vertex 0 to itself `path` returns vertex 0 twice. -/
theorem path_zero_zero {g : cGraph} (hwf : g.wellFormed) (hV : 1 ≤ g.vertexCount) :
    path g 0 0 = .ok ([0, 0], 0) := by
  have hs : g.inRange 0 := ⟨le_refl _, by omega⟩
  obtain ⟨dist, pred, h1, h2, h3, _⟩ := dijsktra_vectors hwf hs
  have hlen := dijsktra_length hwf hs h1
  have hc : ¬ ((0 : Int) > 0 ∨ (0 : Int) > g.vertexCount ∨ (0 : Int) > 0 ∨
      (0 : Int) > g.vertexCount) := by omega
  have hl : ¬ ((pred.length : Int) ≤ 0) := by omega
  have hl2 : ¬ ((0 : Int) < 0 ∨ (pred.length : Int) ≤ 0) := by omega
  unfold path
  rw [if_neg hc, h1]
  simp only [if_neg hl, h2]
  simp only [walkBack, if_neg hl2, h2, h3]
  simp

/-- From a vertex other than 0 to itself, vertex 0 being out of its reach,
`path` reads `pred[-1]`. -/
theorem path_self_fault {g : cGraph} (hwf : g.wellFormed) {s : Int} (hs : g.inRange s)
    (hs0 : s ≠ 0) (hnr : ¬ g.Reachable s 0) : path g s s = .error .outOfRange := by
  have h0 : g.inRange 0 := ⟨le_refl _, by have := hs.1; have := hs.2; omega⟩
  obtain ⟨dist, pred, h1, h2, h3, _, h5, _⟩ := dijsktra_vectors hwf hs
  have hlen := dijsktra_length hwf hs h1
  have hp0 : vget pred 0 (-1) = -1 := h5 0 h0 hnr
  have hc : ¬ ((0 : Int) > s ∨ s > g.vertexCount ∨ (0 : Int) > s ∨ s > g.vertexCount) := by
    have := hs.1; have := hs.2; omega
  have hl : ¬ ((pred.length : Int) ≤ s) := by have := hs.2; omega
  have hl2 : ¬ (s < 0 ∨ (pred.length : Int) ≤ s) := by have := hs.1; have := hs.2; omega
  have hl3 : ¬ ((0 : Int) < 0 ∨ (pred.length : Int) ≤ 0) := by have := hs.2; omega
  obtain ⟨n, hn⟩ : ∃ n, g.vertexCount = n + 2 :=
    ⟨g.vertexCount - 2, by have := hs.1; have := hs.2; omega⟩
  have h20 : ¬ ((0 : Int) = -1) := by omega
  have h2s : ¬ ((0 : Int) = s) := fun h => hs0 h.symm
  have h3s : ¬ ((-1 : Int) = s) := by have := hs.1; omega
  unfold path
  rw [if_neg hc, h1]
  simp only [if_neg hl, h2, if_neg h20, hn]
  simp only [walkBack, if_neg hl2, h2, if_neg h2s, if_neg hl3, hp0, if_neg h3s]
  simp

/-! ## The selection scan among equal distances -/

/-- The scan of `dijsktra` over distances that are whole numbers: `min` never
grows and bounds the distance of every unprocessed vertex scanned; either
nothing was taken, or the vertex in hand is unprocessed with the distance `min`
and every unprocessed vertex scanned after it is farther. -/
theorem pickMin_last (s : DijState) :
    ∀ (l : List Int) (acc : Int × Option Int),
      (∀ v ∈ l, ∃ n : Int, vget s.dist v 0 = (n : ℚ)) →
      (pickMin s l acc).1 ≤ acc.1 ∧
      (∀ v ∈ l, vget s.sptSet v false = false →
        ((pickMin s l acc).1 : ℚ) ≤ vget s.dist v 0) ∧
      ((pickMin s l acc = acc ∧
          ∀ v ∈ l, vget s.sptSet v false = false → (acc.1 : ℚ) < vget s.dist v 0) ∨
        ∃ pre x post, l = pre ++ x :: post ∧ (pickMin s l acc).2 = some x ∧
          vget s.sptSet x false = false ∧ vget s.dist x 0 = ((pickMin s l acc).1 : ℚ) ∧
          ∀ v ∈ post, vget s.sptSet v false = false →
            ((pickMin s l acc).1 : ℚ) < vget s.dist v 0) := by
  intro l
  induction l with
  | nil =>
    intro acc _
    exact ⟨le_refl _, fun v hv => by simp at hv, Or.inl ⟨rfl, fun v hv => by simp at hv⟩⟩
  | cons a t ih =>
    intro acc hint
    obtain ⟨min, uidx⟩ := acc
    obtain ⟨n, hn⟩ := hint a (List.mem_cons_self _ _)
    have hint' : ∀ v ∈ t, ∃ n : Int, vget s.dist v 0 = (n : ℚ) :=
      fun v hv => hint v (List.mem_cons_of_mem _ hv)
    by_cases hc : vget s.sptSet a false = false ∧ vget s.dist a 0 ≤ (min : ℚ)
    · have hstep : pickMin s (a :: t) (min, uidx) = pickMin s t (n, some a) := by
        have hc' : vget s.sptSet a false = false ∧ (n : ℚ) ≤ (min : ℚ) := by
          rw [← hn]; exact hc
        simp only [pickMin, hn, toInt_intCast, if_pos hc']
      rw [hstep]
      obtain ⟨h1, h2, h3⟩ := ih (n, some a) hint'
      have hnm : n ≤ min := by
        have := hc.2
        rw [hn] at this
        exact_mod_cast this
      refine ⟨le_trans h1 hnm, ?_, Or.inr ?_⟩
      · intro v hv hsp
        rcases List.mem_cons.mp hv with h | h
        · subst h
          rw [hn]
          exact_mod_cast h1
        · exact h2 v h hsp
      · rcases h3 with ⟨h3, h4⟩ | ⟨pre, x, post, e1, e2, e3, e4, e5⟩
        · refine ⟨[], a, t, rfl, ?_, hc.1, ?_, ?_⟩
          · rw [h3]
          · rw [h3, hn]
          · rw [h3]; exact h4
        · exact ⟨a :: pre, x, post, by rw [e1]; rfl, e2, e3, e4, e5⟩
    · have hstep : pickMin s (a :: t) (min, uidx) = pickMin s t (min, uidx) := by
        simp only [pickMin, if_neg hc]
      rw [hstep]
      obtain ⟨h1, h2, h3⟩ := ih (min, uidx) hint'
      have ha : vget s.sptSet a false = false → (min : ℚ) < vget s.dist a 0 := by
        intro hsp
        by_contra hle
        exact hc ⟨hsp, not_lt.mp hle⟩
      refine ⟨h1, ?_, ?_⟩
      · intro v hv hsp
        rcases List.mem_cons.mp hv with h | h
        · subst h
          have h1q : ((pickMin s t (min, uidx)).1 : ℚ) ≤ (min : ℚ) := by exact_mod_cast h1
          exact le_of_lt (lt_of_le_of_lt h1q (ha hsp))
        · exact h2 v h hsp
      · rcases h3 with ⟨h3, h4⟩ | ⟨pre, x, post, e1, e2, e3, e4, e5⟩
        · refine Or.inl ⟨h3, ?_⟩
          intro v hv hsp
          rcases List.mem_cons.mp hv with h | h
          · subst h; exact ha hsp
          · exact h4 v h hsp
        · exact Or.inr ⟨a :: pre, x, post, by rw [e1]; rfl, e2, e3, e4, e5⟩

/-- The vertex that a round of `dijsktra` takes, the distances being whole
numbers: an unprocessed vertex of least distance, and among these the one with
the highest index. -/
theorem pickMin_ties {s : DijState} {V : Nat} {min u : Int}
    (hint : ∀ v ∈ intRange V, ∃ n : Int, vget s.dist v 0 = (n : ℚ))
    (h : pickMin s (intRange V) (INT_MAX, none) = (min, some u)) :
    u ∈ intRange V ∧ vget s.sptSet u false = false ∧ vget s.dist u 0 = (min : ℚ) ∧
      (∀ v ∈ intRange V, vget s.sptSet v false = false → vget s.dist u 0 ≤ vget s.dist v 0) ∧
      ∀ v ∈ intRange V, vget s.sptSet v false = false → vget s.dist v 0 = vget s.dist u 0 →
        v ≤ u := by
  obtain ⟨_, h2, h3⟩ := pickMin_last s (intRange V) (INT_MAX, none) hint
  rw [h] at h2 h3
  rcases h3 with ⟨h3, _⟩ | ⟨pre, x, post, e1, e2, e3, e4, e5⟩
  · simp at h3
  · simp only [Option.some.injEq] at e2
    subst e2
    have hmem : u ∈ intRange V := by rw [e1]; simp
    refine ⟨hmem, e3, e4, ?_, ?_⟩
    · intro v hv hsp
      rw [e4]; exact h2 v hv hsp
    · intro v hv hsp heq
      rw [e1] at hv
      rcases List.mem_append.mp hv with hv | hv
      · have hs : (intRange V).Pairwise (· < ·) := by
          unfold intRange
          rw [List.pairwise_map]
          exact (List.pairwise_lt_range V).imp (fun h => Int.ofNat_lt.mpr h)
        rw [e1, List.pairwise_append] at hs
        exact le_of_lt (hs.2.2 v hv u (List.mem_cons_self _ _))
      · rcases List.mem_cons.mp hv with hv | hv
        · exact le_of_eq hv
        · have := e5 v hv hsp
          rw [heq, e4] at this
          exact absurd this (lt_irrefl _)

/-! ## Whole distances -/

theorem vget_vset_int (l : List ℚ) (i : Int) (x : ℚ) (hl : ∀ j, ∃ n : Int, vget l j 0 = (n : ℚ))
    (hx : ∃ n : Int, x = (n : ℚ)) : ∀ j, ∃ n : Int, vget (vset l i x) j 0 = (n : ℚ) := by
  intro j
  by_cases hji : i = j
  · subst hji
    by_cases hr : 0 ≤ i ∧ i < (l.length : Int)
    · rw [vget_vset_self _ _ _ _ hr.1 hr.2]; exact hx
    · have : vset l i x = l := by
        unfold vset
        split
        · rfl
        · rw [List.set_eq_of_length_le]
          omega
      rw [this]; exact hl i
  · rw [vget_vset_ne _ _ _ _ _ hji]; exact hl j

theorem rEdgeAttr_mem {g : cGraph} {ei : Int} {c : ℚ} (h : g.rEdgeAttr ei = .ok c) :
    ∃ e ∈ g.vEdge, e.attr0 = c := by
  unfold cGraph.rEdgeAttr at h
  split at h
  · cases h
  · split at h
    · rename_i e he
      simp only [Except.ok.injEq] at h
      exact ⟨e, List.get?_mem he, h⟩
    · cases h

theorem relax_int {g : cGraph} (hw : ∀ e ∈ g.vEdge, ∃ n : Int, e.attr0 = (n : ℚ)) (u : Int) :
    ∀ (l : List Int) (s s1 : DijState), relax g u l s = .ok s1 →
      (∀ j, ∃ n : Int, vget s.dist j 0 = (n : ℚ)) →
      ∀ j, ∃ n : Int, vget s1.dist j 0 = (n : ℚ) := by
  intro l
  induction l with
  | nil =>
    intro s s1 h hs
    simp only [relax, Except.ok.injEq] at h
    rw [← h]; exact hs
  | cons vp rest ih =>
    intro s s1 h hs
    unfold relax at h
    split at h
    · exact ih s s1 h hs
    · split at h
      · cases h
      · rename_i cost hcost
        split at h
        · refine ih _ s1 h ?_
          simp only
          obtain ⟨e, he, hec⟩ := rEdgeAttr_mem hcost
          obtain ⟨n1, hn1⟩ := hw e he
          obtain ⟨n2, hn2⟩ := hs u
          exact vget_vset_int _ _ _ hs ⟨n2 + n1, by rw [hn2, ← hec, hn1]; push_cast; rfl⟩
        · exact ih s s1 h hs

/-- The distances stay whole numbers through the rounds of `dijsktra`, the
weights being whole numbers. -/
theorem dijLoop_int {g : cGraph} (hw : ∀ e ∈ g.vEdge, ∃ n : Int, e.attr0 = (n : ℚ)) :
    ∀ (k : Nat) (s s1 : DijState), dijLoop g k s = .ok s1 →
      (∀ j, ∃ n : Int, vget s.dist j 0 = (n : ℚ)) →
      ∀ j, ∃ n : Int, vget s1.dist j 0 = (n : ℚ) := by
  intro k
  induction k with
  | zero =>
    intro s s1 h hs
    simp only [dijLoop, Except.ok.injEq] at h
    rw [← h]; exact hs
  | succ k ih =>
    intro s s1 h hs
    unfold dijLoop at h
    split at h
    rename_i min uidx _
    split at h
    · simp only [Except.ok.injEq] at h
      rw [← h]; exact hs
    · split at h
      · cases h
      · split at h
        · cases h
        · rename_i s2 hs2
          exact ih s2 s1 h (relax_int hw _ _ _ s2 hs2 hs)

theorem dijInit_int (g : cGraph) (start : Int) :
    ∀ j, ∃ n : Int, vget (dijInit g start).dist j 0 = (n : ℚ) := by
  unfold dijInit
  simp only
  apply vget_vset_int
  · intro j
    by_cases hr : 0 ≤ j ∧ j < (g.vertexCount : Int)
    · rw [vget_replicate _ _ _ _ hr.1 hr.2]
      exact ⟨INT_MAX, rfl⟩
    · refine ⟨0, ?_⟩
      unfold vget
      split
      · simp
      · rw [List.getD_eq_default]
        · simp
        · simp only [List.length_replicate]
          omega
  · exact ⟨0, by simp⟩

/-- With whole weights every distance that `dijsktra` returns is a whole
number: the sums and comparisons of `relax`, which the code makes in `double`,
are exact. -/
theorem dijsktra_int {g : cGraph} (hw : ∀ e ∈ g.vEdge, ∃ n : Int, e.attr0 = (n : ℚ))
    {start : Int} {dist : List ℚ} {pred : List Int}
    (h : dijsktra g start = .ok (dist, pred)) :
    ∀ j, ∃ n : Int, vget dist j 0 = (n : ℚ) := by
  unfold dijsktra at h
  split at h
  · cases h
  · cases hl : dijLoop g (g.vertexCount - 1) (dijInit g start) with
    | error e => rw [hl] at h; cases h
    | ok s =>
      rw [hl] at h
      simp only [Except.ok.injEq, Prod.mk.injEq] at h
      rw [← h.1]
      exact dijLoop_int hw _ _ _ hl (dijInit_int g start)

/-- With whole weights the cost that `path` returns is a whole number. -/
theorem path_cost_int {g : cGraph} (hw : ∀ e ∈ g.vEdge, ∃ n : Int, e.attr0 = (n : ℚ))
    {start end_ : Int} {p : List Int} {c : ℚ} (h : path g start end_ = .ok (p, c)) :
    ∃ n : Int, c = (n : ℚ) := by
  unfold path at h
  split at h
  · simp only [Except.ok.injEq, Prod.mk.injEq] at h
    exact ⟨-1, by rw [← h.2]; simp⟩
  · cases hd : dijsktra g start with
    | error e => rw [hd] at h; cases h
    | ok dp =>
      obtain ⟨dist, pred⟩ := dp
      rw [hd] at h
      simp only at h
      split at h
      · cases h
      · split at h
        · simp only [Except.ok.injEq, Prod.mk.injEq] at h
          exact ⟨-1, by rw [← h.2]; simp⟩
        · split at h
          · cases h
          · simp only [Except.ok.injEq, Prod.mk.injEq] at h
            rw [← h.2]
            exact dijsktra_int hw hd end_

theorem intWeights_of_nat {g : cGraph} (h : ∀ e ∈ g.vEdge, ∃ n : ℕ, e.attr0 = (n : ℚ)) :
    ∀ e ∈ g.vEdge, ∃ n : Int, e.attr0 = (n : ℚ) := by
  intro e he
  obtain ⟨n, hn⟩ := h e he
  exact ⟨n, by rw [hn]; simp⟩

/-! ## A round of `flows` -/

/-- A round of the loop of `flows` in which `path` finds a way through: the
least capacity along the way is taken from each of its links, an edge is
removed, and the loop goes on with the graph that is left. -/
theorem flowsRound_spec {V : Nat} {start end_ : Int}
    (hs : 0 ≤ start ∧ start < (V : Int)) (he : 0 ≤ end_ ∧ end_ < (V : Int))
    (hne : start ≠ end_) {work : cGraph} (inv : FlowInv V work) {p : List Int} {c : ℚ}
    (hp : path work start end_ = .ok (p, c)) (hnil : p ≠ []) :
    ∃ maxflow work1, pathMaxflow work p (-1) INT_MAX = .ok maxflow ∧
      consume maxflow p (-1) work = .ok work1 ∧ FlowInv V work1 ∧
      work1.edgeCount < work.edgeCount ∧ 0 ≤ maxflow ∧ maxflow < INT_MAX ∧
      ∀ (n : Nat) (total : Int), flowsLoop start end_ (n + 1) work total =
        flowsLoop start end_ n work1 (wrap32 (total + maxflow)) := by
  have hs' : work.inRange start := by unfold cGraph.inRange; rw [inv.nv]; exact hs
  have he' : work.inRange end_ := by unfold cGraph.inRange; rw [inv.nv]; exact he
  have hnn := inv.nonneg
  obtain ⟨s, k, dinv, _, _, hcase⟩ :=
    path_spec inv.wf (work.vEdge.map cEdge.attr0).sum hs' he' hne
  rcases hcase with ⟨_, hp2⟩ | ⟨hpred, r, hr, hin, hp2⟩
  · rw [hp2] at hp
    simp only [Except.ok.injEq, Prod.mk.injEq] at hp
    exact absurd hp.1.symm hnil
  · rw [hp2] at hp
    simp only [Except.ok.injEq, Prod.mk.injEq] at hp
    obtain ⟨hpr, _⟩ := hp
    obtain ⟨hwalk, hcost⟩ := hr.walk dinv hin
    have hfin : vget s.dist end_ 0 < (INT_MAX : ℚ) := by
      refine lt_of_le_of_ne (dinv.dist_le end_ he') ?_
      intro h
      exact hpred ((dinv.pred_none end_ he').mpr h)
    obtain ⟨hh, hl, hch⟩ := hwalk
    obtain ⟨a, rest, hrev⟩ : ∃ a rest, r.reverse = a :: rest := by
      cases hrr : r.reverse with
      | nil => rw [hrr] at hh; simp at hh
      | cons a rest => exact ⟨a, rest, rfl⟩
    rw [hrev] at hh hl hch hcost hpr
    simp only [List.head?_cons, Option.some.injEq] at hh
    subst hh
    subst hpr
    have hmem : ∀ x ∈ a :: rest, work.inRange x := by
      intro x hx
      rw [← hrev] at hx
      exact hin x (List.mem_reverse.mp hx)
    have hnd : (a :: rest).Nodup := by
      rw [← hrev]; exact List.nodup_reverse.mpr hr.nodup
    obtain ⟨_, hlinkle⟩ := cGraph.linkCost_link_le work hnn _ _ hcost
    have hcapn : ∀ ab ∈ links (a :: rest), ∃ e, work.firstEdge ab.1 ab.2 = some e ∧
        ∃ m : ℕ, e.attr0 = (m : ℚ) := by
      intro ab hab
      obtain ⟨e, h1, _⟩ := hlinkle ab hab
      exact ⟨e, h1, inv.cap e (List.mem_of_find?_eq_some h1)⟩
    have hpos : ∀ x ∈ rest, 0 ≤ x := fun x hx => (hmem x (List.mem_cons_of_mem _ hx)).1
    have ha0 : 0 ≤ a := hs.1
    obtain ⟨mf, hm1, hm2, hm3, hm4, hm5⟩ :=
      pathMaxflow_spec work rest a INT_MAX ha0 hpos hcapn
    have hmf0 : 0 ≤ mf := hm3 (by unfold INT_MAX; omega)
    obtain ⟨b, rest', hrest⟩ : ∃ b rest', rest = b :: rest' := by
      cases rest with
      | nil =>
        simp at hl
        exact absurd hl hne
      | cons b rest' => exact ⟨b, rest', rfl⟩
    have hlink : (a, b) ∈ links (a :: rest) := by rw [hrest]; simp [links]
    have hmflt : mf < INT_MAX := by
      obtain ⟨e1, h1, h2⟩ := hlinkle _ hlink
      obtain ⟨e2, h3, h4⟩ := hm4 _ hlink
      rw [h1] at h3
      simp only [Option.some.injEq] at h3
      subst h3
      have : (mf : ℚ) < (INT_MAX : ℚ) := by linarith
      exact_mod_cast this
    have hex : ∃ ab ∈ links (a :: rest), ∃ e, work.firstEdge ab.1 ab.2 = some e ∧
        e.attr0 = (mf : ℚ) := by
      rcases hm5 with h | h
      · omega
      · exact h
    obtain ⟨work1, hc1, hc2, _, _, hc5⟩ :=
      consume_spec (fun _ => false) mf rest a work ha0 hnd hpos inv hm4
    have hneg : ¬ ((-1 : Int) ≥ 0) := by omega
    have hpm : pathMaxflow work (a :: rest) (-1) INT_MAX = .ok mf := by
      simp only [pathMaxflow, hneg, if_false]; exact hm1
    have hcs : consume mf (a :: rest) (-1) work = .ok work1 := by
      simp only [consume, hneg, if_false]; exact hc1
    refine ⟨mf, work1, hpm, hcs, hc2, hc5 hex, hmf0, hmflt, ?_⟩
    intro n total
    have hne_nil : ¬ (a :: rest = []) := by simp
    simp only [flowsLoop, hp2, hrev, hne_nil, if_false, hpm, hcs]

/-! ## `euler`: the closed trail -/

theorem adjacentOut_length {g : cGraph} (hd : g.fDirected = true) (v : Int) :
    (g.adjacentOut v).length = (g.edgeList.map Prod.fst).count v := by
  unfold cGraph.adjacentOut cGraph.edgeList
  simp only [hd, Bool.not_true, Bool.false_and, Bool.false_eq_true, if_false]
  induction g.vEdge with
  | nil => rfl
  | cons e t ih =>
    by_cases h : e.src = v
    · simp [List.filterMap_cons, h, ih]
    · simp only [List.filterMap_cons, h, if_false, List.map_cons, ih]
      rw [List.count_cons_of_ne (fun hh => h hh.symm)]

theorem degree_remove {g : cGraph} (hd : g.fDirected = true) {u v : Int}
    (h : g.hasEdge u v) (x : Int) :
    ((g.remove u v).adjacentOut x).length + (if x = u then 1 else 0) =
        (g.adjacentOut x).length ∧
      ((g.remove u v).adjacentIn x).length + (if x = v then 1 else 0) =
        (g.adjacentIn x).length := by
  have hd2 : (g.remove u v).fDirected = true := hd
  have hp := edgeList_remove hd h
  rw [adjacentOut_length hd, adjacentOut_length hd2, adjacentIn_length hd,
    adjacentIn_length hd2, ← (hp.map Prod.fst).count_eq, ← (hp.map Prod.snd).count_eq]
  simp only [List.map_cons, List.count_cons]
  constructor
  · by_cases hx : x = u
    · subst hx; simp
    · have : ¬ (u = x) := fun h => hx h.symm
      simp [hx, this]
  · by_cases hx : x = v
    · subst hx; simp
    · have : ¬ (v = x) := fun h => hx h.symm
      simp [hx, this]

/-- The loop of `euler` on a working graph in which the walk can only end at
vertex 0: what it appends is a trail of the working graph that ends at vertex
0. -/
theorem eulerLoop_trail : ∀ (n : Nat) (work : cGraph) (curr : Int) (circuit : List Int),
    work.fDirected = true →
    (∀ x, (work.adjacentOut x).length + (if x = 0 then 1 else 0) =
      (work.adjacentIn x).length + (if x = curr then 1 else 0)) →
    work.edgeCount < n →
    ∃ (tail : List Int) (work1 : cGraph),
      eulerLoop n work curr circuit = .ok (circuit ++ curr :: tail) ∧
      (links (curr :: tail) ++ work1.edgeList).Perm work.edgeList ∧
      (curr :: tail).getLast? = some 0 ∧ tail.length ≤ work.edgeCount := by
  intro n
  induction n with
  | zero => intro _ _ _ _ _ h; omega
  | succ n ih =>
    intro work curr circuit hd hbal hlt
    unfold eulerLoop
    cases hadj : work.adjacentOut curr with
    | nil =>
      have h0 := hbal curr
      rw [hadj] at h0
      simp only [List.length_nil, if_true, zero_add] at h0
      have hc : curr = 0 := by
        by_contra hne
        simp only [if_neg hne] at h0
        omega
      refine ⟨[], work, rfl, by simp [links], by simp [hc], Nat.zero_le _⟩
    | cons next tl =>
      simp only
      have hedge : work.hasEdge curr next := by
        rw [← cGraph.mem_adjacentOut, hadj]; exact List.mem_cons_self _ _
      have hcount := edgeCount_remove_edge hd hedge
      have hd2 : (work.remove curr next).fDirected = true := hd
      obtain ⟨tail, work1, h1, h2, h3, h4⟩ := ih (work.remove curr next) next
        (circuit ++ [curr]) hd2 (by
          intro x
          have hdeg := degree_remove hd hedge x
          have hb := hbal x
          by_cases hx1 : x = curr <;> by_cases hx2 : x = next <;> by_cases hx3 : x = 0 <;>
            simp only [hx1, hx2, hx3, if_true, if_false] at hdeg hb ⊢ <;> omega) (by omega)
      refine ⟨next :: tail, work1, ?_, ?_, ?_, ?_⟩
      · rw [h1]; simp
      · have hp := edgeList_remove hd hedge
        show ((curr, next) :: links (next :: tail) ++ work1.edgeList).Perm work.edgeList
        exact (List.Perm.cons _ h2).trans hp
      · rw [List.getLast?_cons_cons]; exact h3
      · simp only [List.length_cons]; omega

theorem degree_zero_of_not_inRange {g : cGraph} (hd : g.fDirected = true) (hwf : g.wellFormed)
    {x : Int} (hx : ¬ g.inRange x) :
    (g.adjacentOut x).length = 0 ∧ (g.adjacentIn x).length = 0 := by
  rw [adjacentOut_length hd, adjacentIn_length hd]
  constructor
  · rw [List.count_eq_zero]
    intro hmem
    simp only [cGraph.edgeList, List.map_map, List.mem_map, Function.comp] at hmem
    obtain ⟨e, he, rfl⟩ := hmem
    have := hwf e he
    exact hx ⟨this.1, this.2.1⟩
  · rw [List.count_eq_zero]
    intro hmem
    simp only [cGraph.edgeList, List.map_map, List.mem_map, Function.comp] at hmem
    obtain ⟨e, he, rfl⟩ := hmem
    have := hwf e he
    exact hx ⟨this.2.2.1, this.2.2.2⟩

theorem hasEdge_of_mem_edgeList {g : cGraph} {ab : Int × Int} (h : ab ∈ g.edgeList) :
    g.hasEdge ab.1 ab.2 := by
  simp only [cGraph.edgeList, List.mem_map] at h
  obtain ⟨e, he, rfl⟩ := h
  exact ⟨e, he, by simp [cGraph.joins]⟩

/-- On a directed, well formed and balanced graph `euler` returns a closed
trail from vertex 0. -/
theorem euler_trail (g : cGraph) (hd : g.isDirected = true) (hwf : g.wellFormed)
    (hbal : g.balanced) (fuel : Nat) (hfuel : g.edgeCount < fuel) :
    ∃ circuit, euler fuel g = .ok circuit ∧ circuit.head? = some 0 ∧
      circuit.getLast? = some 0 ∧ (∀ ab ∈ links circuit, g.hasEdge ab.1 ab.2) ∧
      (links circuit).Subperm g.edgeList ∧ circuit.length ≤ g.edgeCount + 1 := by
  obtain ⟨tail, work1, h1, h2, h3, h4⟩ := eulerLoop_trail fuel g 0 [] hd (by
    intro x
    by_cases hx : g.inRange x
    · rw [hbal x ((mem_intRange _ _).mpr hx)]
    · obtain ⟨a, b⟩ := degree_zero_of_not_inRange hd hwf hx
      rw [a, b]) hfuel
  have hsub : (links (0 :: tail)).Subperm g.edgeList :=
    (List.sublist_append_left _ _).subperm.trans h2.subperm
  refine ⟨0 :: tail, ?_, rfl, h3, ?_, hsub, by simp only [List.length_cons]; omega⟩
  · rw [euler_balanced fuel g hd hbal, h1]; rfl
  · intro ab hab
    exact hasEdge_of_mem_edgeList (hsub.subset hab)

/-! ## `cliques`: the groups are the components -/

theorem find_nonneg_iff (g : cGraph) (u v : Int) : 0 ≤ g.find u v ↔ g.hasEdge u v := by
  unfold cGraph.find cGraph.hasEdge
  constructor
  · intro h
    split at h
    · rename_i hlt
      have hlt' := hlt
      rw [List.findIdx_lt_length] at hlt'
      obtain ⟨e, he, hj⟩ := hlt'
      exact ⟨e, he, hj⟩
    · omega
  · rintro ⟨e, he, hj⟩
    have : g.vEdge.findIdx (g.joins u v) < g.vEdge.length :=
      List.findIdx_lt_length.mpr ⟨e, he, hj⟩
    rw [if_pos this]
    omega

theorem scanWork_none_adj (work : cGraph) (vattr : List String) (clique : List Int) :
    ∀ (us : List Int) (fin f : Bool),
      (∀ v ∈ us, 0 ≤ v ∧ v < (vattr.length : Int)) →
      scanWork work vattr clique us fin = .ok (f, none) →
        ∀ u ∈ us, vget vattr u "" ≠ "deleted" →
          ∀ v ∈ clique, ¬ (work.hasEdge u v ∨ work.hasEdge v u) := by
  intro us
  induction us with
  | nil => intro _ _ _ _ u hu; simp at hu
  | cons a t ih =>
    intro fin f hl h u hu hlive v hv
    have ha := hl a (List.mem_cons_self _ _)
    have ht : ∀ v ∈ t, 0 ≤ v ∧ v < (vattr.length : Int) :=
      fun v hv => hl v (List.mem_cons_of_mem _ hv)
    unfold scanWork at h
    rw [rVertexAttr_ok vattr a ha.1 ha.2] at h
    simp only at h
    by_cases hd : vget vattr a "" = "deleted"
    · rw [if_pos hd] at h
      rcases List.mem_cons.mp hu with hua | hua
      · subst hua; exact absurd hd hlive
      · exact ih _ _ ht h u hua hlive v hv
    · rw [if_neg hd] at h
      split at h
      · simp at h
      · rename_i hany
        rcases List.mem_cons.mp hu with hua | hua
        · subst hua
          intro hadj
          apply hany
          rw [List.any_eq_true]
          refine ⟨v, hv, ?_⟩
          simp only [Bool.or_eq_true, decide_eq_true_eq, ge_iff_le, find_nonneg_iff]
          exact hadj
        · exact ih _ _ ht h u hua hlive v hv

/-- The inner loop of `cliques`, entered with a clique whose members are joined
to `seed`: so are the members of the clique it leaves, and no vertex that is
left undeleted has an edge to or from one of them. -/
theorem growClique_joined (work : cGraph) (seed : Int) :
    ∀ (n : Nat) (vattr : List String) (clique : List Int) (vattr1 : List String)
      (clique1 : List Int) (fin : Bool), vattr.length = work.vertexCount → clique ≠ [] →
      growClique work n vattr clique = .ok (vattr1, clique1, fin) →
      (∀ c ∈ clique, work.weaklyJoined seed c) →
      (∀ c ∈ clique, c ∈ clique1) ∧ (∀ c ∈ clique1, work.weaklyJoined seed c) ∧
        ∀ u, work.inRange u → vget vattr1 u "" ≠ "deleted" →
          ∀ v ∈ clique1, ¬ (work.hasEdge u v ∨ work.hasEdge v u) := by
  intro n
  induction n with
  | zero => intro _ _ _ _ _ _ _ h; simp [growClique] at h
  | succ n ih =>
    intro vattr clique vattr1 clique1 fin hlen hne h hj
    unfold growClique at h
    rw [if_neg hne] at h
    obtain ⟨⟨f, o⟩, hscan⟩ := scanWork_ok work vattr clique (intRange work.vertexCount) true
      (intRange_stored hlen)
    rw [hscan] at h
    cases o with
      | none =>
        simp only [Except.ok.injEq, Prod.mk.injEq] at h
        obtain ⟨e1, e2, _⟩ := h
        subst e1 e2
        exact ⟨fun c hc => hc, hj, fun u hu hl v hv =>
          scanWork_none_adj work vattr clique _ _ _ (intRange_stored hlen) hscan u
            ((mem_intRange _ _).mpr hu) hl v hv⟩
      | some u =>
        simp only at h
        obtain ⟨hu, _, v, hv, hadj⟩ :=
          scanWork_some work vattr clique _ _ _ _ (intRange_stored hlen) hscan
        have hur := (mem_intRange _ _).mp hu
        rw [wVertexAttr_ok vattr u _ hur.1 (by omega)] at h
        simp only at h
        have hrec := ih _ _ _ _ _ (by rw [length_vset]; exact hlen) (by simp) h ?_
        · exact ⟨fun c hc => hrec.1 c (List.mem_append_left _ hc), hrec.2⟩
        intro c hc
        rcases List.mem_append.mp hc with hc | hc
        · exact hj c hc
        · rw [List.mem_singleton.mp hc]
          refine Relation.ReflTransGen.tail (hj v hv) ?_
          rcases hadj with hadj | hadj
          · exact Or.inr ((find_nonneg_iff _ _ _).mp hadj)
          · exact Or.inl ((find_nonneg_iff _ _ _).mp hadj)

/-- A round of the outer loop of `cliques`: the clique starts with the first
vertex that is not deleted, its members are joined to this vertex, and no
vertex that is left undeleted has an edge to or from one of them. -/
theorem newClique_joined (work : cGraph) (n : Nat) (vattr vattr1 : List String)
    (clique1 : List Int) (fin : Bool) (hlen : vattr.length = work.vertexCount)
    (h : growClique work (n + 1) vattr [] = .ok (vattr1, clique1, fin))
    (hsome : ∃ v, work.inRange v ∧ vget vattr v "" ≠ "deleted") :
    ∃ seed, seed ∈ clique1 ∧ work.inRange seed ∧
      (∀ u, work.inRange u → vget vattr u "" ≠ "deleted" → seed ≤ u) ∧
      (∀ c ∈ clique1, work.weaklyJoined seed c) ∧
      ∀ u, work.inRange u → vget vattr1 u "" ≠ "deleted" →
        ∀ v ∈ clique1, ¬ (work.hasEdge u v ∨ work.hasEdge v u) := by
  unfold growClique at h
  rw [if_pos rfl, firstLive_eq vattr _ (intRange_stored hlen)] at h
  cases hfind : (intRange work.vertexCount).find? fun vi => vget vattr vi "" ≠ "deleted" with
  | none =>
    exfalso
    obtain ⟨v, hv, hvl⟩ := hsome
    rw [List.find?_eq_none] at hfind
    have := hfind v ((mem_intRange _ _).mpr hv)
    simp at this
    exact hvl this
  | some s =>
    rw [hfind] at h
    simp only at h
    obtain ⟨_, pre, post, hsplit, hpre⟩ := List.find?_eq_some.mp hfind
    have hs := (mem_intRange _ _).mp (List.mem_of_find?_eq_some hfind)
    rw [wVertexAttr_ok vattr s _ hs.1 (by omega)] at h
    simp only at h
    have hsorted : (intRange work.vertexCount).Pairwise (· < ·) := by
      unfold intRange
      rw [List.pairwise_map]
      exact (List.pairwise_lt_range _).imp (fun h => Int.ofNat_lt.mpr h)
    obtain ⟨n', rfl⟩ : ∃ n', n = n' + 1 := by
      cases n with
      | zero => simp [growClique] at h
      | succ n' => exact ⟨n', rfl⟩
    have hgrow := growClique_joined work s (n' + 1) _ [s] vattr1 clique1 fin
      (by rw [length_vset]; exact hlen) (by simp) h
      (fun c hc => by rw [List.mem_singleton.mp hc]; exact Relation.ReflTransGen.refl)
    obtain ⟨a0, a1, a2⟩ := hgrow
    refine ⟨s, a0 s (List.mem_singleton_self _), hs, ?_, a1, a2⟩
    intro u hu hl
    have hmem : u ∈ pre ++ s :: post := by
      rw [← hsplit]; exact (mem_intRange _ _).mpr hu
    rw [hsplit, List.pairwise_append] at hsorted
    rcases List.mem_append.mp hmem with hm | hm
    · have := hpre u hm
      simp at this
      exact absurd this hl
    · rcases List.mem_cons.mp hm with hm | hm
      · exact le_of_eq hm.symm
      · exact le_of_lt ((List.pairwise_cons.mp hsorted.2.1).1 u hm)

theorem weaklyJoined_symm {g : cGraph} {a b : Int} (h : g.weaklyJoined a b) :
    g.weaklyJoined b a := by
  unfold cGraph.weaklyJoined at h ⊢
  induction h with
  | refl => exact Relation.ReflTransGen.refl
  | tail _ hbc ih => exact Relation.ReflTransGen.head hbc.symm ih

/-- The outer loop of `cliques` on a well formed graph: where the groups made
so far are components, listed by their lowest vertex, and no edge joins a
deleted vertex to one that is not, the same holds of the groups returned. -/
theorem cliquesLoop_comp (work : cGraph) (hwf : work.wellFormed) (fuel : Nat) :
    ∀ (n : Nat) (vattr : List String) (vclique : List (List Int)),
    vattr.length = work.vertexCount →
    (∃ v, work.inRange v ∧ vget vattr v "" ≠ "deleted") →
    (intRange work.vertexCount).countP (fun v => decide (vget vattr v "" ≠ "deleted")) ≤ n →
    (intRange work.vertexCount).countP (fun v => decide (vget vattr v "" ≠ "deleted")) < fuel →
    (∀ v, work.inRange v → (vget vattr v "" = "deleted" ↔ v ∈ vclique.flatten)) →
    (∀ u v, work.inRange u → work.inRange v → vget vattr v "" = "deleted" →
      vget vattr u "" ≠ "deleted" → ¬ (work.hasEdge u v ∨ work.hasEdge v u)) →
    (∀ grp ∈ vclique, ∀ a ∈ grp, ∀ b, b ∈ grp ↔ work.weaklyJoined a b) →
    (∀ grp ∈ vclique, ∃ m ∈ grp, ∀ u, work.inRange u → vget vattr u "" ≠ "deleted" → m < u) →
    vclique.Pairwise (fun c d => ∃ m ∈ c, ∀ y ∈ d, m < y) →
    ∀ groups, cliquesLoop work fuel n vattr vclique = .ok groups →
      (∀ grp ∈ groups, ∀ a ∈ grp, ∀ b, b ∈ grp ↔ work.weaklyJoined a b) ∧
      groups.Pairwise (fun c d => ∃ m ∈ c, ∀ y ∈ d, m < y) := by
  intro n
  induction n with
  | zero =>
    intro vattr vclique _ _ _ _ _ _ _ _ _ groups h
    simp [cliquesLoop] at h
  | succ n ih =>
    intro vattr vclique hlen hsome hn hfuel hdead hclosed hcomp hlow hord groups hres
    obtain ⟨m, rfl⟩ : ∃ m, fuel = m + 1 := ⟨fuel - 1, by omega⟩
    obtain ⟨vattr1, clique, fin, h1, h2, h3, h4, h5, h6, h7, h8⟩ :=
      newClique_spec work m vattr hlen hsome (by omega)
    obtain ⟨seed, j1, j2, j3, j4, j5⟩ := newClique_joined work m vattr vattr1 clique fin hlen h1 hsome
    have hpos : 0 < clique.length := List.length_pos.mpr h2
    have hdead1 : ∀ v, work.inRange v →
        (vget vattr1 v "" = "deleted" ↔ v ∈ (vclique ++ [clique]).flatten) := by
      intro v hv
      rw [h4 v hv, hdead v hv]
      simp
    have hlive1 : ∀ u, work.inRange u → vget vattr1 u "" ≠ "deleted" →
        vget vattr u "" ≠ "deleted" := by
      intro u hu hl hd
      exact hl ((h4 u hu).mpr (Or.inl hd))
    have hclosed1 : ∀ u v, work.inRange u → work.inRange v → vget vattr1 v "" = "deleted" →
        vget vattr1 u "" ≠ "deleted" → ¬ (work.hasEdge u v ∨ work.hasEdge v u) := by
      intro u v hu hv hdv hlu
      rcases (h4 v hv).mp hdv with hd | hd
      · exact hclosed u v hu hv hd (hlive1 u hu hlu)
      · exact j5 u hu hlu v hd
    have hstep : ∀ x y, x ∈ clique → (work.hasEdge x y ∨ work.hasEdge y x) → y ∈ clique := by
      intro x y hx hadj
      have hy : work.inRange y := by
        rcases hadj with h | h
        · exact (cGraph.hasEdge_inRange hwf h).2
        · exact (cGraph.hasEdge_inRange hwf h).1
      by_cases hdy : vget vattr1 y "" = "deleted"
      · rcases (h4 y hy).mp hdy with hd | hd
        · exact absurd hadj (hclosed x y (h5 x hx).1 hy hd (h5 x hx).2)
        · exact hd
      · exact absurd hadj.symm (j5 y hy hdy x hx)
    have hcomp1 : ∀ grp ∈ vclique ++ [clique], ∀ a ∈ grp, ∀ b,
        b ∈ grp ↔ work.weaklyJoined a b := by
      intro grp hg a ha b
      rcases List.mem_append.mp hg with hg | hg
      · exact hcomp grp hg a ha b
      · rw [List.mem_singleton.mp hg] at ha ⊢
        constructor
        · intro hb
          exact Relation.ReflTransGen.trans (weaklyJoined_symm (j4 a ha)) (j4 b hb)
        · intro hj
          unfold cGraph.weaklyJoined at hj
          induction hj with
          | refl => exact ha
          | tail _ hbc ihb => exact hstep _ _ ihb hbc
    have hlow1 : ∀ grp ∈ vclique ++ [clique], ∃ m ∈ grp, ∀ u, work.inRange u →
        vget vattr1 u "" ≠ "deleted" → m < u := by
      intro grp hg
      rcases List.mem_append.mp hg with hg | hg
      · obtain ⟨mm, hm1, hm2⟩ := hlow grp hg
        exact ⟨mm, hm1, fun u hu hl => hm2 u hu (hlive1 u hu hl)⟩
      · rw [List.mem_singleton.mp hg]
        refine ⟨seed, j1, ?_⟩
        intro u hu hl
        have hle := j3 u hu (hlive1 u hu hl)
        have hne : seed ≠ u := by
          intro h
          subst h
          exact hl ((h4 seed hu).mpr (Or.inr j1))
        omega
    have hord1 : (vclique ++ [clique]).Pairwise (fun c d => ∃ m ∈ c, ∀ y ∈ d, m < y) := by
      rw [List.pairwise_append]
      refine ⟨hord, List.pairwise_singleton _ _, ?_⟩
      intro c hc d hd
      rw [List.mem_singleton.mp hd]
      obtain ⟨mm, hm1, hm2⟩ := hlow c hc
      exact ⟨mm, hm1, fun y hy => hm2 y (h5 y hy).1 (h5 y hy).2⟩
    unfold cliquesLoop at hres
    rw [h1] at hres
    simp only [if_neg h2] at hres
    by_cases hfin : fin = true
    · rw [if_pos hfin] at hres
      simp only [Except.ok.injEq] at hres
      rw [← hres]
      exact ⟨hcomp1, hord1⟩
    · rw [if_neg hfin] at hres
      have hsome1 : ∃ v, work.inRange v ∧ vget vattr1 v "" ≠ "deleted" := by
        by_contra hcon
        push_neg at hcon
        exact hfin (h7.mpr hcon)
      exact ih vattr1 (vclique ++ [clique]) h3 hsome1 (by omega) (by omega) hdead1 hclosed1
        hcomp1 hlow1 hord1 groups hres

/-- Where `vattr` marks no vertex of a well formed graph with a vertex as
deleted, the groups that `cliques` returns are the sets of vertices that are
joined by chains of edges, in the order of their lowest vertices. -/
theorem cliques_comp (g : cGraph) (hwf : g.wellFormed) (vattr : List String)
    (hV : 1 ≤ g.vertexCount) (hlen : vattr.length = g.vertexCount)
    (hlive : ∀ v, g.inRange v → vget vattr v "" ≠ "deleted")
    (fuel : Nat) (hfuel : g.vertexCount < fuel) :
    ∃ groups, cliques fuel g vattr = .ok groups ∧
      groups.flatten.Perm (intRange g.vertexCount) ∧ (∀ grp ∈ groups, grp ≠ []) ∧
      (∀ grp ∈ groups, ∀ a ∈ grp, ∀ b, b ∈ grp ↔ g.weaklyJoined a b) ∧
      groups.Pairwise (fun c d => ∃ m ∈ c, ∀ y ∈ d, m < y) := by
  obtain ⟨groups, h1, h2, h3⟩ := cliques_spec g vattr hV hlen hlive fuel hfuel
  have hle : (intRange g.vertexCount).countP
      (fun v => decide (vget vattr v "" ≠ "deleted")) ≤ g.vertexCount := by
    have := List.countP_le_length (fun v => decide (vget vattr v "" ≠ "deleted"))
      (l := intRange g.vertexCount)
    simpa [intRange] using this
  obtain ⟨c1, c2⟩ := cliquesLoop_comp g hwf fuel fuel vattr [] hlen
    ⟨0, ⟨le_refl _, by omega⟩, hlive 0 ⟨le_refl _, by omega⟩⟩ (by omega) (by omega)
    (by
      intro v hv
      simp only [List.flatten_nil, List.not_mem_nil, iff_false]
      exact hlive v hv)
    (fun u v _ hv hd _ => absurd hd (hlive v hv))
    (by simp) (by simp) List.Pairwise.nil groups h1
  exact ⟨groups, h1, h2, h3, c1, c2⟩

/-! ## `dfs_cycle_finder`: closed walks and cycles -/

/-- A sequence that `path` returns between two different vertices, when it is
not empty, is a walk from the first to the second. -/
theorem path_walk {g : cGraph} (hwf : g.wellFormed) {a b : Int} (ha : g.inRange a)
    (hb : g.inRange b) (hne : a ≠ b) {p : List Int} {c : ℚ}
    (h : path g a b = .ok (p, c)) (hp : p ≠ []) : g.isWalk a b p := by
  obtain ⟨s, k, inv, _, _, hcase⟩ := path_spec hwf 0 ha hb hne
  rcases hcase with ⟨_, h2⟩ | ⟨_, r, hr, hin, h2⟩
  · rw [h2] at h
    simp only [Except.ok.injEq, Prod.mk.injEq] at h
    exact absurd h.1.symm hp
  · rw [h2] at h
    simp only [Except.ok.injEq, Prod.mk.injEq] at h
    rw [← h.1]
    exact (hr.walk inv hin).1

/-- Where no distance can reach `INT_MAX`, `path` to a vertex that can be
reached returns a sequence of two vertices or more. -/
theorem path_of_reachable {g : cGraph} (hwf : g.wellFormed) {W : ℚ} (hW : 0 ≤ W)
    (hw : ∀ e ∈ g.vEdge, 0 ≤ e.attr0 ∧ e.attr0 ≤ W)
    (hbound : (g.vertexCount : ℚ) * W < (INT_MAX : ℚ)) {a b : Int} (ha : g.inRange a)
    (hb : g.inRange b) (hne : a ≠ b) (hreach : g.Reachable a b) :
    ∃ p c, path g a b = .ok (p, c) ∧ 2 ≤ p.length := by
  obtain ⟨s, k, inv, hk, hfin, hcase⟩ := path_spec hwf W ha hb hne
  rcases hcase with ⟨h1, _⟩ | ⟨_, r, hr, hin, h2⟩
  · exfalso
    have hlt := reach_finite hwf inv hk hfin hW hw hbound b hreach
    rw [(inv.pred_none b hb).mp h1] at hlt
    exact lt_irrefl _ hlt
  · refine ⟨_, _, h2, ?_⟩
    obtain ⟨hh, hl, _⟩ := (hr.walk inv hin).1
    match hrr : r.reverse, hh, hl with
    | [], hh, _ => simp at hh
    | [x], hh, hl =>
      simp only [List.head?_cons, Option.some.injEq, List.getLast?_singleton] at hh hl
      exact absurd (hh.symm.trans hl) hne
    | _ :: _ :: _, _, _ => simp

theorem closedWalk_of_walk {g : cGraph} {w v : Int} {cycle : List Int}
    (hwalk : g.isWalk w v cycle) (hedge : g.hasEdge v w) :
    g.isClosedWalk (cycle ++ [w]) := by
  obtain ⟨hh, hl, hc⟩ := (g.isWalk_iff_chain' _ _ _).mp hwalk
  have hne : cycle ≠ [] := by
    intro h; rw [h] at hh; simp at hh
  refine ⟨?_, ?_, ?_⟩
  · have : 0 < cycle.length := List.length_pos.mpr hne
    simp only [List.length_append, List.length_singleton]
    omega
  · rw [List.head?_append_of_ne_nil _ hne, hh]
    simp
  · apply links_of_chain'
    refine List.Chain'.append hc (by simp) ?_
    intro x hx y hy
    rw [hl] at hx
    simp only [Option.mem_def, Option.some.injEq, List.head?_cons] at hx hy
    subst hx hy
    exact hedge

theorem hasCycle_of_closedWalk {g : cGraph} {c : List Int} (h : g.isClosedWalk c) :
    g.hasCycle := by
  obtain ⟨hlen, hhl, hlinks⟩ := h
  match c, hlen, hhl, hlinks with
  | a :: b :: t, _, hhl, hlinks =>
    refine ⟨a, ?_⟩
    have hab : g.hasEdge a b := hlinks (a, b) (by simp [links])
    have hchain : List.Chain' (fun x y => g.hasEdge x y) (b :: t) :=
      chain'_of_links (fun ab hab => hlinks ab (by simp [links, hab]))
    have hlast : (b :: t).getLast? = some a := by
      rw [List.getLast?_cons_cons] at hhl
      simpa using hhl.symm
    exact Relation.TransGen.head' hab (chain_reflTransGen (b :: t) b a hchain rfl hlast)

theorem foundBefore_nil (sig : List Int) : foundBefore [] sig = false := rfl

/-- The loop over the neighbours `w` of the vertex `v`: the cycles stored are
closed walks, there are as many signatures as cycles, and a cycle is stored as
soon as `path` leads back from a visited neighbour. -/
theorem cycleAdjacent_closed {g : cGraph} (hd : g.isDirected = true) (hwf : g.wellFormed)
    (hnl : g.noLoop) (visited : List Bool) {v : Int} (hv : g.inRange v) :
    ∀ (l : List Int) (s s1 : CycleState), (∀ w ∈ l, g.hasEdge v w) →
      cycleAdjacent g visited v l s = .ok s1 →
      (∀ c ∈ s.ret, g.isClosedWalk c) →
      s.vfoundCycleSignature.length = s.ret.length →
      (∀ c ∈ s1.ret, g.isClosedWalk c) ∧
        s1.vfoundCycleSignature.length = s1.ret.length ∧
        (s.ret ≠ [] → s1.ret ≠ []) ∧
        ∀ w ∈ l, vget visited w false = true →
          (∃ p c, path g w v = .ok (p, c) ∧ 2 ≤ p.length) → s1.ret ≠ [] := by
  intro l
  induction l with
  | nil =>
    intro s s1 _ h hc hlen
    simp only [cycleAdjacent, Except.ok.injEq] at h
    subst h
    exact ⟨hc, hlen, fun h => h, fun w hw => by simp at hw⟩
  | cons w rest ih =>
    intro s s1 hadj h hc hlen
    have hadj' : ∀ x ∈ rest, g.hasEdge v x := fun x hx => hadj x (List.mem_cons_of_mem _ hx)
    have hvw : g.hasEdge v w := hadj w (List.mem_cons_self _ _)
    have hw : g.inRange w := (cGraph.hasEdge_inRange hwf hvw).2
    have hne : w ≠ v := by
      obtain ⟨e, he, hj⟩ := hvw
      have hdir : g.fDirected = true := hd
      simp only [cGraph.joins, hdir, Bool.not_true, Bool.false_and, Bool.or_false,
        Bool.and_eq_true, beq_iff_eq] at hj
      intro heq
      exact hnl e he (hj.1.trans (heq.symm.trans hj.2.symm))
    unfold cycleAdjacent at h
    split at h
    · cases h
    · split at h
      · -- an unvisited neighbour goes on the stack
        rename_i hvis
        obtain ⟨a1, a2, a3, a4⟩ := ih _ s1 hadj' h hc hlen
        refine ⟨a1, a2, a3, ?_⟩
        intro x hx hxv hpath
        rcases List.mem_cons.mp hx with hxw | hxw
        · subst hxw
          rw [hxv] at hvis
          simp at hvis
        · exact a4 x hxw hxv hpath
      · have hdir : (!g.isDirected) = false := by rw [hd]; rfl
        simp only [hdir, Bool.false_eq_true, if_false] at h
        split at h
        · cases h
        · rename_i cycle cost hpath
          split at h
          · rename_i hshort
            obtain ⟨a1, a2, a3, a4⟩ := ih _ s1 hadj' h hc hlen
            refine ⟨a1, a2, a3, ?_⟩
            intro x hx hxv hp
            rcases List.mem_cons.mp hx with hxw | hxw
            · subst hxw
              obtain ⟨p, c, hp1, hp2⟩ := hp
              rw [hpath] at hp1
              simp only [Except.ok.injEq, Prod.mk.injEq] at hp1
              rw [hp1.1] at hshort
              omega
            · exact a4 x hxw hxv hp
          · split at h
            · rename_i hfound
              have hsne : s.ret ≠ [] := by
                intro hnil
                have hvn : s.vfoundCycleSignature = [] := by
                  rw [← List.length_eq_zero, hlen, hnil]; rfl
                rw [hvn, foundBefore_nil] at hfound
                cases hfound
              obtain ⟨a1, a2, a3, a4⟩ := ih _ s1 hadj' h hc hlen
              exact ⟨a1, a2, a3, fun _ _ _ _ => a3 hsne⟩
            · rename_i hlong _
              have hcne : cycle ≠ [] := by
                intro hnil; rw [hnil] at hlong; simp at hlong
              have hwalk := path_walk hwf hw hv hne hpath hcne
              have hcw := closedWalk_of_walk hwalk hvw
              obtain ⟨a1, a2, a3, a4⟩ := ih _ s1 hadj' h (by
                intro c hcm
                simp only [List.mem_append, List.mem_singleton] at hcm
                rcases hcm with hcm | hcm
                · exact hc c hcm
                · rw [hcm]; exact hcw) (by
                simp only [List.length_append, List.length_singleton, hlen])
              exact ⟨a1, a2, fun _ => a3 (by simp), fun _ _ _ _ => a3 (by simp)⟩

theorem transGen_through {R R1 : Int → Int → Prop} {v : Int}
    (h : ∀ a b, R1 a b → a ≠ v → b ≠ v → R a b) :
    ∀ {a b : Int}, Relation.TransGen R1 a b →
      Relation.TransGen R a b ∨
        (Relation.ReflTransGen R1 a v ∧ Relation.ReflTransGen R1 v b) := by
  intro a b hab
  induction hab with
  | single hstep =>
    rename_i b
    by_cases ha : a = v
    · subst ha
      exact Or.inr ⟨Relation.ReflTransGen.refl, Relation.ReflTransGen.single hstep⟩
    · by_cases hb : b = v
      · subst hb
        exact Or.inr ⟨Relation.ReflTransGen.single hstep, Relation.ReflTransGen.refl⟩
      · exact Or.inl (Relation.TransGen.single (h a b hstep ha hb))
  | tail hac hcb ih =>
    rename_i c b
    rcases ih with ih | ⟨ih1, ih2⟩
    · by_cases hc : c = v
      · subst hc
        exact Or.inr ⟨hac.to_reflTransGen, Relation.ReflTransGen.single hcb⟩
      · by_cases hb : b = v
        · subst hb
          exact Or.inr ⟨(hac.tail hcb).to_reflTransGen, Relation.ReflTransGen.refl⟩
        · exact Or.inl (ih.tail (h c b hcb hc hb))
    · exact Or.inr ⟨ih1, ih2.tail hcb⟩

/-- A cycle that appears when the vertex `v` is added runs through `v`. -/
theorem cycle_through {R R1 : Int → Int → Prop} {v : Int}
    (h : ∀ a b, R1 a b → a ≠ v → b ≠ v → R a b) (hno : ∀ y, ¬ Relation.TransGen R y y)
    {x : Int} (hx : Relation.TransGen R1 x x) :
    ∃ w, R1 v w ∧ Relation.ReflTransGen R1 w v := by
  have hvv : Relation.TransGen R1 v v := by
    rcases transGen_through h hx with h1 | ⟨h1, h2⟩
    · exact absurd h1 (hno x)
    · by_cases hxv : x = v
      · subst hxv; exact hx
      · rcases Relation.reflTransGen_iff_eq_or_transGen.mp h2 with h3 | h3
        · exact absurd h3 hxv
        · exact h3.trans_left h1
  exact Relation.TransGen.head'_iff.mp hvv

/-- What `dfs_cycle_finder` keeps true of a directed graph: the cycles stored
are closed walks, there are as many signatures as cycles, and as long as no
cycle is stored the edges between visited vertices form no cycle. -/
theorem cycleDfs_closed {g : cGraph} (hd : g.isDirected = true) (hwf : g.wellFormed)
    (hnl : g.noLoop) {W : ℚ} (hW : 0 ≤ W) (hw : ∀ e ∈ g.vEdge, 0 ≤ e.attr0 ∧ e.attr0 ≤ W)
    (hbound : (g.vertexCount : ℚ) * W < (INT_MAX : ℚ)) :
    ∀ (n : Nat) (visited : List Bool) (s : CycleState) (vis1 : List Bool) (s1 : CycleState),
      cycleDfs g n visited s = .ok (vis1, s1) →
      visited.length = g.vertexCount →
      (∀ c ∈ s.ret, g.isClosedWalk c) →
      s.vfoundCycleSignature.length = s.ret.length →
      (s.ret ≠ [] ∨ ∀ x, ¬ Relation.TransGen (visitedEdge g visited) x x) →
      vis1.length = g.vertexCount ∧ (∀ c ∈ s1.ret, g.isClosedWalk c) ∧
        s1.vfoundCycleSignature.length = s1.ret.length ∧
        (s1.ret ≠ [] ∨ ∀ x, ¬ Relation.TransGen (visitedEdge g vis1) x x) := by
  intro n
  induction n with
  | zero => intro _ _ _ _ h; simp [cycleDfs] at h
  | succ n ih =>
    intro visited s vis1 s1 h hlen hc hsl hinv
    unfold cycleDfs at h
    split at h
    · simp only [Except.ok.injEq, Prod.mk.injEq] at h
      obtain ⟨e1, e2⟩ := h
      subst e1 e2
      exact ⟨hlen, hc, hsl, hinv⟩
    · rename_i v wait hwait
      split at h
      · cases h
      · rename_i hrange
        have hv : g.inRange v := by
          unfold cGraph.inRange
          rw [← hlen]
          omega
        split at h
        · cases h
        · rename_i s2 hs2
          obtain ⟨a1, a2, a3, a4⟩ := cycleAdjacent_closed hd hwf hnl (vset visited v true) hv
            (g.adjacentOut v) _ s2 (fun w hw => (cGraph.mem_adjacentOut g v w).mp hw) hs2 hc hsl
          refine ih _ s2 vis1 s1 h (by rw [length_vset]; exact hlen) a1 a2 ?_
          by_cases hret : s.ret ≠ []
          · exact Or.inl (a3 hret)
          · have hno : ∀ x, ¬ Relation.TransGen (visitedEdge g visited) x x := by
              rcases hinv with h1 | h1
              · exact absurd h1 hret
              · exact h1
            by_cases hcyc : ∃ x, Relation.TransGen (visitedEdge g (vset visited v true)) x x
            · left
              obtain ⟨x, hx⟩ := hcyc
              obtain ⟨w, ⟨hvw, _, hwvis⟩, hback⟩ := cycle_through
                (R := visitedEdge g visited) (v := v) (by
                  intro a b hab ha hb
                  obtain ⟨h1, h2, h3⟩ := hab
                  rw [vget_vset_ne _ _ _ _ _ (Ne.symm ha)] at h2
                  rw [vget_vset_ne _ _ _ _ _ (Ne.symm hb)] at h3
                  exact ⟨h1, h2, h3⟩) hno hx
              have hwr : g.inRange w := (cGraph.hasEdge_inRange hwf hvw).2
              have hne : w ≠ v := by
                obtain ⟨e, he, hj⟩ := hvw
                have hdir : g.fDirected = true := hd
                simp only [cGraph.joins, hdir, Bool.not_true, Bool.false_and, Bool.or_false,
                  Bool.and_eq_true, beq_iff_eq] at hj
                intro heq
                exact hnl e he (hj.1.trans (heq.symm.trans hj.2.symm))
              have hreach : g.Reachable w v :=
                Relation.ReflTransGen.mono (fun a b hab => hab.1) hback
              exact a4 w ((cGraph.mem_adjacentOut g v w).mpr hvw) hwvis
                (path_of_reachable hwf hW hw hbound hwr hv hne hreach)
            · right
              intro x hx
              exact hcyc ⟨x, hx⟩

theorem cycleOuter_closed {g : cGraph} (hd : g.isDirected = true) (hwf : g.wellFormed)
    (hnl : g.noLoop) {W : ℚ} (hW : 0 ≤ W) (hw : ∀ e ∈ g.vEdge, 0 ≤ e.attr0 ∧ e.attr0 ≤ W)
    (hbound : (g.vertexCount : ℚ) * W < (INT_MAX : ℚ)) {inputStartIndex : Int}
    (hneg : inputStartIndex < 0) (fuel : Nat) :
    ∀ (n : Nat) (visited : List Bool) (s : CycleState) (ret : List (List Int)),
      cycleOuter g inputStartIndex fuel n visited s = .ok ret →
      visited.length = g.vertexCount →
      (∀ c ∈ s.ret, g.isClosedWalk c) →
      s.vfoundCycleSignature.length = s.ret.length →
      (s.ret ≠ [] ∨ ∀ x, ¬ Relation.TransGen (visitedEdge g visited) x x) →
      (∀ c ∈ ret, g.isClosedWalk c) ∧ (g.hasCycle → ret ≠ []) := by
  intro n
  induction n with
  | zero => intro _ _ _ h; simp [cycleOuter] at h
  | succ n ih =>
    intro visited s ret h hlen hc hsl hinv
    unfold cycleOuter at h
    rw [if_pos hneg] at h
    split at h
    · split at h
      · cases h
      · rename_i vis1 s1 hdfs
        obtain ⟨a1, a2, a3, a4⟩ := cycleDfs_closed hd hwf hnl hW hw hbound fuel visited _
          vis1 s1 hdfs hlen hc hsl hinv
        exact ih vis1 s1 ret h a1 a2 a3 a4
    · rename_i hall
      simp only [Except.ok.injEq] at h
      subst h
      refine ⟨hc, ?_⟩
      rintro ⟨x, hx⟩
      rcases hinv with h1 | h1
      · exact h1
      · exfalso
        have hnotmem : false ∉ visited := by
          intro hmem
          exact hall (List.indexOf_lt_length.mpr hmem)
        have hvis : ∀ y, g.inRange y → vget visited y false = true := by
          intro y hy
          have hlt : y.toNat < visited.length := by
            have := hy.1; have := hy.2; omega
          have hget : vget visited y false = visited[y.toNat] := by
            unfold vget
            rw [if_neg (by have := hy.1; omega), List.getD_eq_getElem _ _ hlt]
          rw [hget]
          cases hb : visited[y.toNat] with
          | true => rfl
          | false => exact absurd (hb ▸ List.getElem_mem hlt) hnotmem
        refine h1 x (Relation.TransGen.mono ?_ hx)
        intro a b hab
        have := cGraph.hasEdge_inRange hwf hab
        exact ⟨hab, hvis a this.1, hvis b this.2⟩

/-- What `dfs_cycle_finder` returns for a directed graph without loops when it
is to search from every vertex and no distance can reach `INT_MAX`: closed
walks, and at least one where the graph has a cycle. -/
theorem dfs_cycle_finder_closed {g : cGraph} (hd : g.isDirected = true) (hwf : g.wellFormed)
    (hnl : g.noLoop) {W : ℚ} (hW : 0 ≤ W) (hw : ∀ e ∈ g.vEdge, 0 ≤ e.attr0 ∧ e.attr0 ≤ W)
    (hbound : (g.vertexCount : ℚ) * W < (INT_MAX : ℚ)) {inputStartIndex : Int}
    (hneg : inputStartIndex < 0) (fuel : Nat) (ret : List (List Int))
    (h : dfs_cycle_finder fuel g inputStartIndex = .ok ret) :
    (∀ c ∈ ret, g.isClosedWalk c) ∧ (ret ≠ [] ↔ g.hasCycle) := by
  obtain ⟨a1, a2⟩ := cycleOuter_closed hd hwf hnl hW hw hbound hneg fuel fuel _ _ ret h
    (by simp) (by simp) rfl (Or.inr (by
      intro x hx
      obtain ⟨w, ⟨_, hvis, _⟩, _⟩ := Relation.TransGen.head'_iff.mp hx
      unfold vget at hvis
      split at hvis
      · cases hvis
      · by_cases hlt : x.toNat < g.vertexCount
        · rw [List.getD_eq_getElem _ _ (by simpa using hlt)] at hvis
          simp at hvis
        · rw [List.getD_eq_default _ _ (by simpa using hlt)] at hvis
          cases hvis))
  refine ⟨a1, ?_, a2⟩
  intro hne
  obtain ⟨c, hc⟩ := List.exists_mem_of_ne_nil ret hne
  exact hasCycle_of_closedWalk (a1 c hc)

/-! ## The claims about the rounds of `dijsktra`, the trail of `euler`, the
cycles, the components and the rounds of `flows` -/

/-- C31, counterexample: the graph of two vertices joined by one edge of the
whole weight `INT_MAX`.  Vertex 1 can be reached from vertex 0, and after `dijsktra` from
vertex 0 it has the predecessor -1 and the distance `INT_MAX`. -/
theorem dijsktra_heavy_edge_unreached :
    heavyEdgeGraph.wellFormed ∧ (∀ e ∈ heavyEdgeGraph.vEdge, e.attr0 = (INT_MAX : ℚ)) ∧
      heavyEdgeGraph.inRange 0 ∧ heavyEdgeGraph.inRange 1 ∧ heavyEdgeGraph.Reachable 0 1 ∧
      dijsktra heavyEdgeGraph 0 = .ok ([0, 2147483647], [0, -1]) :=
  ⟨by decide, by decide!, by decide, by decide,
    Relation.ReflTransGen.single (show heavyEdgeGraph.hasEdge 0 1 by decide), by decide!⟩

/-- C31, amended: on a well formed graph whose weights are natural numbers,
none above `W`, where `vertexCount * W` is less than `INT_MAX`, `dijsktra` from
a vertex `start` of the graph returns vectors in which every distance is a
whole number between 0 and `INT_MAX` (the sums and comparisons that the code
makes in `double` are exact on such values), a vertex that cannot be reached
from `start` has the
predecessor -1 and the distance `INT_MAX`, and a vertex `v` other than `start`
that can be reached has a predecessor `u` with an edge from `u` to `v`, and the
distance of `u` plus the weight that `find(u, v)` leads to. -/
theorem dijsktra_pred_dist (g : cGraph) (W : ℚ) (start : Int) (hwf : g.wellFormed)
    (hnat : ∀ e ∈ g.vEdge, ∃ n : ℕ, e.attr0 = (n : ℚ))
    (hW : 0 ≤ W) (hw : ∀ e ∈ g.vEdge, e.attr0 ≤ W)
    (hbound : (g.vertexCount : ℚ) * W < (INT_MAX : ℚ)) (hs : g.inRange start) :
    ∃ dist pred, dijsktra g start = .ok (dist, pred) ∧
      (∀ v, g.inRange v → ∃ n : Int, vget dist v 0 = (n : ℚ) ∧ 0 ≤ n ∧ n ≤ INT_MAX) ∧
      (∀ v, g.inRange v → ¬ g.Reachable start v →
        vget pred v (-1) = -1 ∧ vget dist v 0 = (INT_MAX : ℚ)) ∧
      (∀ v, g.inRange v → v ≠ start → g.Reachable start v →
        g.inRange (vget pred v (-1)) ∧ g.hasEdge (vget pred v (-1)) v ∧
        ∃ w, g.rEdgeAttr (g.find (vget pred v (-1)) v) = .ok w ∧
          vget dist v 0 = vget dist (vget pred v (-1)) 0 + w) := by
  have hw2 : ∀ e ∈ g.vEdge, 0 ≤ e.attr0 ∧ e.attr0 ≤ W := by
    intro e he
    obtain ⟨n, hn⟩ := hnat e he
    exact ⟨by rw [hn]; exact Nat.cast_nonneg n, hw e he⟩
  obtain ⟨dist, pred, h1, _, _, h4, h5, h6⟩ := dijsktra_vectors hwf hs
  refine ⟨dist, pred, h1, ?_, ?_, ?_⟩
  · intro v hv
    obtain ⟨st, k, hst, inv, _, _⟩ := dijsktra_spec hwf W hs
    rw [h1] at hst
    simp only [Except.ok.injEq, Prod.mk.injEq] at hst
    obtain ⟨n, hn⟩ := dijsktra_int (intWeights_of_nat hnat) h1 v
    have hle : vget dist v 0 ≤ (INT_MAX : ℚ) := by rw [hst.1]; exact inv.dist_le v hv
    have h0 : 0 ≤ vget dist v 0 := by
      rcases lt_or_eq_of_le hle with hlt | heq
      · rw [hst.1] at hlt ⊢
        exact (inv.bnd hW hw2 v hv hlt).1
      · rw [heq]; exact le_of_lt INT_MAX_pos
    rw [hn] at hle h0
    exact ⟨n, hn, by exact_mod_cast h0, by exact_mod_cast hle⟩
  · intro v hv hnr
    exact ⟨h5 v hv hnr, (h4 v hv).mp (h5 v hv hnr)⟩
  · intro v hv hne hreach
    exact h6 v hv hne (dijsktra_reached hwf hW hw2 hbound hs h1 v hv hreach)

/-- C31, witness: the unit test graph from vertex 0. -/
theorem dijsktra_pred_dist_witness :
    testGraph.wellFormed ∧ testGraph.inRange 0 ∧
      dijsktra testGraph 0 = .ok ([0, 1, 2, 1], [0, 0, 1, 0]) ∧
      ∃ dist pred, dijsktra testGraph 0 = .ok (dist, pred) ∧
        (∀ v, testGraph.inRange v → ∃ n : Int, vget dist v 0 = (n : ℚ) ∧ 0 ≤ n ∧
          n ≤ INT_MAX) ∧
        (∀ v, testGraph.inRange v → ¬ testGraph.Reachable 0 v →
          vget pred v (-1) = -1 ∧ vget dist v 0 = (INT_MAX : ℚ)) ∧
        (∀ v, testGraph.inRange v → v ≠ 0 → testGraph.Reachable 0 v →
          testGraph.inRange (vget pred v (-1)) ∧ testGraph.hasEdge (vget pred v (-1)) v ∧
          ∃ w, testGraph.rEdgeAttr (testGraph.find (vget pred v (-1)) v) = .ok w ∧
            vget dist v 0 = vget dist (vget pred v (-1)) 0 + w) :=
  ⟨by decide, by decide, by decide!,
    dijsktra_pred_dist testGraph 1 0 (by decide)
      (natWeights_of_den testGraph (by decide!)) (by norm_num) (by decide!) (by decide!)
      (by decide)⟩

/-- C32, counterexample: after `dijsktra` on the unit test graph from vertex 1
the entry of vertex 1 in `pred` is 0, not 1. -/
theorem dijsktra_pred_of_start_not_start :
    testGraph.inRange 1 ∧ dijsktra testGraph 1 = .ok ([1, 0, 1, 2], [1, 0, 1, 0]) ∧
      vget [1, 0, 1, 0] 1 (-1) = (0 : Int) :=
  ⟨by decide, by decide!, by decide⟩

/-- C32, amended: after `dijsktra` on a well formed graph from a vertex `start`
of the graph, the entry of `start` in `pred` is 0 and its entry in `dist` is
0. -/
theorem dijsktra_start_entries (g : cGraph) (start : Int) (hwf : g.wellFormed)
    (hs : g.inRange start) :
    ∃ dist pred, dijsktra g start = .ok (dist, pred) ∧
      vget pred start (-1) = 0 ∧ vget dist start 0 = 0 := by
  obtain ⟨dist, pred, h1, h2, h3, _⟩ := dijsktra_vectors hwf hs
  exact ⟨dist, pred, h1, h2, h3⟩

/-- C32, witness: the unit test graph from vertex 3. -/
theorem dijsktra_start_entries_witness :
    testGraph.wellFormed ∧ testGraph.inRange 3 ∧
      ∃ dist pred, dijsktra testGraph 3 = .ok (dist, pred) ∧
        vget pred 3 (-1) = 0 ∧ vget dist 3 0 = 0 :=
  ⟨by decide, by decide, dijsktra_start_entries testGraph 3 (by decide) (by decide)⟩

/-- C33, counterexample: on the graph with the edges 0 -> 1, 0 -> 2, 1 -> 3,
2 -> 3 of weight 1, after the first round from vertex 0 the vertices 1 and 2
are unprocessed at distance 1; the scan of the second round takes vertex 2,
and vertex 3 gets the predecessor 2. -/
theorem dijsktra_tie_takes_last :
    dijLoop diamondGraph 1 (dijInit diamondGraph 0) = .ok diamondState ∧
      vget diamondState.sptSet 1 false = false ∧ vget diamondState.sptSet 2 false = false ∧
      vget diamondState.dist 1 0 = 1 ∧ vget diamondState.dist 2 0 = 1 ∧
      pickMin diamondState (intRange diamondGraph.vertexCount) (INT_MAX, none) = (1, some 2) ∧
      dijsktra diamondGraph 0 = .ok ([0, 1, 1, 2], [0, 0, 0, 2]) :=
  ⟨by decide!, by decide, by decide, by decide!, by decide!, by decide!, by decide!⟩

/-- C33, amended: on a graph whose weights are natural numbers, let `s` hold
the vectors of `dijsktra` after `k` rounds and let the scan of the next round
end with a `min` other than `INT_MAX` at the vertex `u`.  Then `u` is an
unprocessed vertex of least distance, every unprocessed vertex at the same
distance has an index that is not higher, and `u` is the vertex that the round
marks as processed. -/
theorem dijsktra_picks_last_of_ties (g : cGraph) (start : Int) (k : Nat) (s : DijState)
    (min u : Int) (hw : ∀ e ∈ g.vEdge, ∃ n : ℕ, e.attr0 = (n : ℚ))
    (hs : dijLoop g k (dijInit g start) = .ok s)
    (hp : pickMin s (intRange g.vertexCount) (INT_MAX, none) = (min, some u))
    (hm : min ≠ INT_MAX) :
    g.inRange u ∧ vget s.sptSet u false = false ∧
      (∀ v, g.inRange v → vget s.sptSet v false = false →
        vget s.dist u 0 ≤ vget s.dist v 0) ∧
      (∀ v, g.inRange v → vget s.sptSet v false = false →
        vget s.dist v 0 = vget s.dist u 0 → v ≤ u) ∧
      ∀ n, dijLoop g (n + 1) s =
        match relax g u (g.adjacentOut u) { s with sptSet := vset s.sptSet u true } with
        | .error e => .error e
        | .ok s1 => dijLoop g n s1 := by
  have hint : ∀ j, ∃ n : Int, vget s.dist j 0 = (n : ℚ) :=
    dijLoop_int (fun e he => by
      obtain ⟨n, hn⟩ := hw e he
      exact ⟨(n : Int), by rw [hn]; simp⟩) k _ s hs (dijInit_int g start)
  obtain ⟨a1, a2, _, a4, a5⟩ := pickMin_ties (fun v _ => hint v) hp
  refine ⟨(mem_intRange _ _).mp a1, a2, ?_, ?_, ?_⟩
  · intro v hv hsp
    exact a4 v ((mem_intRange _ _).mpr hv) hsp
  · intro v hv hsp heq
    exact a5 v ((mem_intRange _ _).mpr hv) hsp heq
  · intro n
    cases hr : relax g u (g.adjacentOut u) { s with sptSet := vset s.sptSet u true } with
    | error e => simp only [dijLoop, hp, if_neg hm, hr]
    | ok s1 => simp only [dijLoop, hp, if_neg hm, hr]

/-- C33, witness: the second round on `diamondGraph` from vertex 0. -/
theorem dijsktra_picks_last_of_ties_witness :
    dijLoop diamondGraph 1 (dijInit diamondGraph 0) = .ok diamondState ∧
      pickMin diamondState (intRange diamondGraph.vertexCount) (INT_MAX, none) = (1, some 2) ∧
      diamondGraph.inRange 2 ∧ vget diamondState.sptSet 2 false = false ∧
      (∀ v, diamondGraph.inRange v → vget diamondState.sptSet v false = false →
        vget diamondState.dist 2 0 ≤ vget diamondState.dist v 0) ∧
      (∀ v, diamondGraph.inRange v → vget diamondState.sptSet v false = false →
        vget diamondState.dist v 0 = vget diamondState.dist 2 0 → v ≤ 2) ∧
      ∀ n, dijLoop diamondGraph (n + 1) diamondState =
        match relax diamondGraph 2 (diamondGraph.adjacentOut 2)
            { diamondState with sptSet := vset diamondState.sptSet 2 true } with
        | .error e => .error e
        | .ok s1 => dijLoop diamondGraph n s1 :=
  ⟨by decide!, by decide!,
    dijsktra_picks_last_of_ties diamondGraph 0 1 diamondState 1 2
      (natWeights_of_den diamondGraph (by decide!)) (by decide!) (by decide!) (by decide)⟩

/-- C34: on a directed, well formed graph with a vertex in which in-degree and
out-degree agree at every vertex, `euler` returns (its loop needs at most
`edgeCount + 1` rounds, the last of which finds no edge to follow) a sequence
that starts and ends at vertex 0, whose links are edges of the graph, no edge
being taken more often than the graph has it, so that it has at most
`edgeCount` links. -/
theorem euler_closed_trail (g : cGraph) (fuel : Nat) (_ : 1 ≤ g.vertexCount)
    (hd : g.isDirected = true) (hwf : g.wellFormed) (hbal : g.balanced)
    (hfuel : g.edgeCount < fuel) :
    ∃ circuit, euler fuel g = .ok circuit ∧ circuit.head? = some 0 ∧
      circuit.getLast? = some 0 ∧ (∀ ab ∈ links circuit, g.hasEdge ab.1 ab.2) ∧
      (links circuit).Subperm g.edgeList ∧ (links circuit).length ≤ g.edgeCount := by
  obtain ⟨circuit, h1, h2, h3, h4, h5, _⟩ := euler_trail g hd hwf hbal fuel hfuel
  refine ⟨circuit, h1, h2, h3, h4, h5, ?_⟩
  have := h5.length_le
  simpa [cGraph.edgeList, cGraph.edgeCount] using this

/-- C34, witness: the two cycles 0 -> 1 -> 0 and 1 -> 2 -> 1, on which `euler`
returns 0, 1, 0. -/
theorem euler_closed_trail_witness :
    1 ≤ twoLoopGraph.vertexCount ∧ twoLoopGraph.isDirected = true ∧
      twoLoopGraph.wellFormed ∧ twoLoopGraph.balanced ∧
      euler 5 twoLoopGraph = .ok [0, 1, 0] ∧
      ∃ circuit, euler 5 twoLoopGraph = .ok circuit ∧ circuit.head? = some 0 ∧
        circuit.getLast? = some 0 ∧ (∀ ab ∈ links circuit, twoLoopGraph.hasEdge ab.1 ab.2) ∧
        (links circuit).Subperm twoLoopGraph.edgeList ∧
        (links circuit).length ≤ twoLoopGraph.edgeCount :=
  ⟨by decide, by decide, by decide, by decide, by decide,
    euler_closed_trail twoLoopGraph 5 (by decide) (by decide) (by decide) (by decide)
      (by decide)⟩

/-- C35, counterexample: the directed cycle 0 -> 1 -> 0 whose first edge has
the weight `INT_MAX`.  The graph has no loop and a cycle, and `dfs_cycle_finder`
from every vertex returns no cycle: `path` from 0 to 1 finds vertex 1 at the
distance `INT_MAX`, that is unreached. -/
theorem cycle_finder_heavy_cycle :
    heavyCycleGraph.isDirected = true ∧ heavyCycleGraph.wellFormed ∧
      heavyCycleGraph.noLoop ∧
      (∀ e ∈ heavyCycleGraph.vEdge, 0 ≤ e.attr0.num ∧ e.attr0.den = 1) ∧
      heavyCycleGraph.hasCycle ∧ heavyCycleGraph.isClosedWalk [0, 1, 0] ∧
      path heavyCycleGraph 0 1 = .ok ([], -1) ∧
      dfs_cycle_finder 3 heavyCycleGraph (-1) = .ok [] :=
  ⟨by decide, by decide, by decide, by decide!,
    ⟨0, Relation.TransGen.head (show heavyCycleGraph.hasEdge 0 1 by decide)
      (Relation.TransGen.single (show heavyCycleGraph.hasEdge 1 0 by decide))⟩,
    by decide, by decide!, by decide!⟩

/-- C35, amended: on a directed, well formed graph without loops whose weights
lie between 0 and `W`, where `vertexCount * W` is less than `INT_MAX`,
`dfs_cycle_finder` with a negative start index returns, given enough rounds; it
returns a sequence if and only if the graph has a cycle, and every sequence it
returns has a link, ends where it starts and runs along edges of the graph. -/
theorem cycle_finder_iff_cycle (g : cGraph) (W : ℚ) (inputStartIndex : Int)
    (hd : g.isDirected = true) (hwf : g.wellFormed) (hnl : g.noLoop) (hW : 0 ≤ W)
    (hw : ∀ e ∈ g.vEdge, 0 ≤ e.attr0 ∧ e.attr0 ≤ W)
    (hbound : (g.vertexCount : ℚ) * W < (INT_MAX : ℚ)) (hneg : inputStartIndex < 0) :
    ∃ N, ∀ fuel, N ≤ fuel → ∃ ret, dfs_cycle_finder fuel g inputStartIndex = .ok ret ∧
      (ret ≠ [] ↔ g.hasCycle) ∧ ∀ c ∈ ret, g.isClosedWalk c := by
  obtain ⟨N, hN⟩ := dfs_cycle_finder_total hwf hnl (Or.inl hneg)
  refine ⟨N, fun fuel hfuel => ?_⟩
  obtain ⟨ret, hret⟩ := hN fuel hfuel
  obtain ⟨a1, a2⟩ := dfs_cycle_finder_closed hd hwf hnl hW hw hbound hneg fuel ret hret
  exact ⟨ret, hret, a2, a1⟩

/-- C35, witness: the ring 0 -> 1 -> 2 -> 3 -> 0, on which the one sequence
0, 1, 2, 3, 0 is returned. -/
theorem cycle_finder_iff_cycle_witness :
    ringGraph.isDirected = true ∧ ringGraph.wellFormed ∧ ringGraph.noLoop ∧
      dfs_cycle_finder 6 ringGraph (-1) = .ok [[0, 1, 2, 3, 0]] ∧
      ∃ N, ∀ fuel, N ≤ fuel → ∃ ret, dfs_cycle_finder fuel ringGraph (-1) = .ok ret ∧
        (ret ≠ [] ↔ ringGraph.hasCycle) ∧ ∀ c ∈ ret, ringGraph.isClosedWalk c :=
  ⟨by decide, by decide, by decide, by decide!,
    cycle_finder_iff_cycle ringGraph 1 (-1) (by decide) (by decide) (by decide) (by norm_num)
      (by decide!) (by decide!) (by decide)⟩

/-- C36, counterexample: the graph with the edge 0-1 and the further vertex 2,
where slot 0 is stored for vertex 0 only and holds the empty text, so that no
vertex holds "deleted" in slot 0: vertex 0 starts the first group, the scan
for a vertex to add reads slot 0 of vertex 1, which is refused, and `cliques`
fails with IndexOutOfRange, however many rounds its loops are given. -/
theorem cliques_attribute_missing :
    strandedGraph.wellFormed ∧ 1 ≤ strandedGraph.vertexCount ∧
      (∀ s ∈ [""], s ≠ "deleted") ∧ firstLive [""] (intRange 3) = .ok (some 0) ∧
      rVertexAttr ["deleted"] 1 = .error .indexOutOfRange ∧
      ∀ fuel : Nat, cliques (fuel + 2) strandedGraph [""] = .error .indexOutOfRange :=
  ⟨by decide, by decide, by decide, by decide!, rfl, fun _ => rfl⟩

/-- C36, amended: on a well formed graph with a vertex, every vertex of which
has slot 0 of its attributes stored, with a text other than "deleted",
`cliques` returns (each of its loops needs at most `vertexCount + 1` rounds)
groups that together hold every vertex once; a vertex is in the group of a
vertex `a` if and only if a chain of edges, each taken in one direction or the
other, joins it to `a`; and of two groups the one listed first has a vertex
below all vertices of the other. -/
theorem cliques_components (g : cGraph) (vattr : List String) (fuel : Nat)
    (hwf : g.wellFormed) (hV : 1 ≤ g.vertexCount) (hlen : vattr.length = g.vertexCount)
    (hlive : ∀ s ∈ vattr, s ≠ "deleted") (hfuel : g.vertexCount < fuel) :
    ∃ groups, cliques fuel g vattr = .ok groups ∧
      groups.flatten.Perm (intRange g.vertexCount) ∧ (∀ grp ∈ groups, grp ≠ []) ∧
      (∀ grp ∈ groups, ∀ a ∈ grp, ∀ b, b ∈ grp ↔ g.weaklyJoined a b) ∧
      groups.Pairwise (fun c d => ∃ m ∈ c, ∀ y ∈ d, m < y) := by
  refine cliques_comp g hwf vattr hV hlen ?_ fuel hfuel
  intro v hv
  have hlt : v.toNat < vattr.length := by have := hv.1; have := hv.2; omega
  have : vget vattr v "" = vattr[v.toNat] := by
    unfold vget
    rw [if_neg (by have := hv.1; omega), List.getD_eq_getElem _ _ hlt]
  rw [this]
  exact hlive _ (List.getElem_mem _)

/-- C36, witness: the directed graph on five vertices with the edges 3 -> 1,
4 -> 0, 2 -> 4, slot 0 of each vertex holding the empty text; the groups are
0, 4, 2 and 1, 3. -/
theorem cliques_components_witness :
    (⟨true, 5, [⟨3, 1, 1⟩, ⟨4, 0, 1⟩, ⟨2, 4, 1⟩]⟩ : cGraph).wellFormed ∧
      cliques 6 ⟨true, 5, [⟨3, 1, 1⟩, ⟨4, 0, 1⟩, ⟨2, 4, 1⟩]⟩ ["", "", "", "", ""] =
        .ok [[0, 4, 2], [1, 3]] ∧
      ∃ groups, cliques 6 ⟨true, 5, [⟨3, 1, 1⟩, ⟨4, 0, 1⟩, ⟨2, 4, 1⟩]⟩ ["", "", "", "", ""] =
          .ok groups ∧
        groups.flatten.Perm (intRange 5) ∧ (∀ grp ∈ groups, grp ≠ []) ∧
        (∀ grp ∈ groups, ∀ a ∈ grp, ∀ b, b ∈ grp ↔
          (⟨true, 5, [⟨3, 1, 1⟩, ⟨4, 0, 1⟩, ⟨2, 4, 1⟩]⟩ : cGraph).weaklyJoined a b) ∧
        groups.Pairwise (fun c d => ∃ m ∈ c, ∀ y ∈ d, m < y) :=
  ⟨by decide, by decide!,
    cliques_components ⟨true, 5, [⟨3, 1, 1⟩, ⟨4, 0, 1⟩, ⟨2, 4, 1⟩]⟩ ["", "", "", "", ""] 6
      (by decide) (by decide) (by decide) (by decide!) (by decide)⟩

/-- C37: on a directed, well formed graph with natural capacities and two
different vertices `start` and `end_` of the graph, every round of the loop of
`flows` in which `path` finds a way through a working graph takes the least
capacity of the way from each of its links and leaves a working graph of the
same kind with fewer edges, with which the loop goes on; and `flows` returns
when its loop is given more rounds than the graph has edges, the last round
being the one in which `path` finds no way. -/
theorem flows_round_removes_edge (g : cGraph) (start end_ : Int)
    (hdir : g.isDirected = true) (hwf : g.wellFormed)
    (hcap : ∀ e ∈ g.vEdge, ∃ n : ℕ, e.attr0 = (n : ℚ))
    (hs : g.inRange start) (he : g.inRange end_) (hne : start ≠ end_) :
    FlowInv g.vertexCount g ∧
    (∀ (work : cGraph) (p : List Int) (c : ℚ), FlowInv g.vertexCount work →
      path work start end_ = .ok (p, c) → p ≠ [] →
      ∃ maxflow work1, pathMaxflow work p (-1) INT_MAX = .ok maxflow ∧
        consume maxflow p (-1) work = .ok work1 ∧ FlowInv g.vertexCount work1 ∧
        work1.edgeCount < work.edgeCount ∧
        ∀ (n : Nat) (total : Int), flowsLoop start end_ (n + 1) work total =
          flowsLoop start end_ n work1 (wrap32 (total + maxflow))) ∧
    ∀ fuel, g.edgeCount < fuel →
      ∃ total vEdgeFlow, flows fuel g start end_ = .ok (total, vEdgeFlow) := by
  have inv : FlowInv g.vertexCount g := ⟨hdir, hwf, rfl, hcap⟩
  refine ⟨inv, ?_, ?_⟩
  · intro work p c hinv hp hnil
    obtain ⟨mf, work1, a1, a2, a3, a4, _, _, a7⟩ := flowsRound_spec hs he hne hinv hp hnil
    exact ⟨mf, work1, a1, a2, a3, a4, a7⟩
  · intro fuel hfuel
    exact flows_returns start end_ inv hs he hne fuel hfuel

/-- C37, witness: `crossGraph` from 0 to 3: the first round finds the way 0, 1,
2, 3 of least capacity 1 and removes its three edges. -/
theorem flows_round_removes_edge_witness :
    path crossGraph 0 3 = .ok ([0, 1, 2, 3], 3) ∧
      pathMaxflow crossGraph [0, 1, 2, 3] (-1) INT_MAX = .ok 1 ∧
      consume 1 [0, 1, 2, 3] (-1) crossGraph = .ok ⟨true, 4, [⟨0, 2, 5⟩, ⟨1, 3, 5⟩]⟩ ∧
      (∃ maxflow work1, pathMaxflow crossGraph [0, 1, 2, 3] (-1) INT_MAX = .ok maxflow ∧
        consume maxflow [0, 1, 2, 3] (-1) crossGraph = .ok work1 ∧
        FlowInv crossGraph.vertexCount work1 ∧ work1.edgeCount < crossGraph.edgeCount ∧
        ∀ (n : Nat) (total : Int), flowsLoop 0 3 (n + 1) crossGraph total =
          flowsLoop 0 3 n work1 (wrap32 (total + maxflow))) ∧
      ∃ total vEdgeFlow, flows 6 crossGraph 0 3 = .ok (total, vEdgeFlow) :=
  ⟨by decide!, by decide!, by decide!,
    (flows_round_removes_edge crossGraph 0 3 (by decide) (by decide)
      (natWeights_of_den crossGraph (by decide!)) (by decide) (by decide) (by decide)).2.1
      crossGraph [0, 1, 2, 3] 3
      (flows_round_removes_edge crossGraph 0 3 (by decide) (by decide)
        (natWeights_of_den crossGraph (by decide!)) (by decide) (by decide) (by decide)).1
      (by decide!) (by decide),
    (flows_round_removes_edge crossGraph 0 3 (by decide) (by decide)
      (natWeights_of_den crossGraph (by decide!)) (by decide) (by decide) (by decide)).2.2
      6 (by decide)⟩

/-- C38, the code at the failing inputs: on the unit test graph `path` from
vertex 0 to itself returns 0, 0 and from vertex 1 to itself 1, 0, 1, both with
cost 0: the entry of the start vertex in `pred` is 0, so the walk back from
vertex 1 goes to vertex 0 first.  On the graph with the one edge 0 -> 1, in
which vertex 0 is out of the reach of vertex 1, the walk back from vertex 1
goes to vertex 0, on to its predecessor -1 and then reads `pred[-1]`. -/
theorem path_to_itself :
    path testGraph 0 0 = .ok ([0, 0], 0) ∧ path testGraph 1 1 = .ok ([1, 0, 1], 0) ∧
      heavyArcGraph.inRange 1 ∧ ¬ heavyArcGraph.Reachable 1 0 ∧
      dijsktra heavyArcGraph 1 = .ok ([2147483647, 0], [-1, 0]) ∧
      path heavyArcGraph 1 1 = .error .outOfRange := by
  have hnr : ¬ heavyArcGraph.Reachable 1 0 := by
    intro h
    rcases Relation.ReflTransGen.cases_head h with h | ⟨c, hc, _⟩
    · omega
    · obtain ⟨e, he, hj⟩ := hc
      simp only [heavyArcGraph, List.mem_singleton] at he
      subst he
      simp [cGraph.joins] at hj
      exact absurd hj.1 (by decide)
  exact ⟨path_zero_zero (by decide) (by decide), by decide!, by decide, hnr, by decide!,
    path_self_fault (by decide) (by decide) (by decide) hnr⟩

/-! ## The working graph of `flowsKeep` and its edges that were not removed -/

theorem joins_removed {g : cGraph} (hd : g.fDirected = true) {u : Int} (hu : 0 ≤ u) (v : Int) :
    g.joins u v ⟨-1, -1, 0⟩ = false := by
  unfold cGraph.joins
  rw [hd]
  have : ((-1 : Int) == u) = false := by
    rw [beq_eq_false_iff_ne]; omega
  simp [this]

theorem find?_filter_of_imp {α : Type} (p q : α → Bool) : ∀ l : List α,
    (∀ x ∈ l, q x = true → p x = true) → (l.filter p).find? q = l.find? q := by
  intro l
  induction l with
  | nil => intro _; rfl
  | cons a t ih =>
    intro h
    have ht := ih (fun x hx => h x (List.mem_cons_of_mem _ hx))
    by_cases hp : p a = true
    · rw [List.filter_cons_of_pos hp, List.find?_cons, List.find?_cons, ht]
    · have hq : q a = false := by
        by_contra hq
        exact hp (h a (List.mem_cons_self _ _) (by simpa using hq))
      rw [List.filter_cons_of_neg hp, List.find?_cons, hq, ht]

theorem filterMap_filter_of_imp {α β : Type} (p : α → Bool) (f : α → Option β) :
    ∀ l : List α, (∀ x ∈ l, p x = false → f x = none) →
      (l.filter p).filterMap f = l.filterMap f := by
  intro l
  induction l with
  | nil => intro _; rfl
  | cons a t ih =>
    intro h
    have ht := ih (fun x hx => h x (List.mem_cons_of_mem _ hx))
    by_cases hp : p a = true
    · rw [List.filter_cons_of_pos hp, List.filterMap_cons, List.filterMap_cons, ht]
    · have hf : f a = none := h a (List.mem_cons_self _ _) (by simpa using hp)
      rw [List.filter_cons_of_neg hp, List.filterMap_cons, hf, ht]

theorem firstEdge_live {g : cGraph} (hd : g.fDirected = true) {u : Int} (hu : 0 ≤ u) (v : Int) :
    g.live.firstEdge u v = g.firstEdge u v := by
  unfold cGraph.firstEdge
  have hj : g.live.joins u v = g.joins u v := rfl
  rw [hj]
  show (g.vEdge.filter fun e => decide (0 ≤ e.src)).find? (g.joins u v) = _
  apply find?_filter_of_imp
  intro x _ hx
  rw [cGraph.joins_directed hd] at hx
  simp only [decide_eq_true_eq]
  omega

theorem adjacentOut_live {g : cGraph} (hd : g.fDirected = true) {u : Int} (hu : 0 ≤ u) :
    g.live.adjacentOut u = g.adjacentOut u := by
  unfold cGraph.adjacentOut
  show (g.vEdge.filter fun e => decide (0 ≤ e.src)).filterMap _ = _
  have hl : g.live.fDirected = g.fDirected := rfl
  rw [hl]
  apply filterMap_filter_of_imp
  intro x _ hx
  simp only [decide_eq_false_iff_not, not_le] at hx
  have h1 : ¬ x.src = u := by omega
  simp [h1, hd]

/-! ## `dijsktra` and `path` see a graph through `find` and `adjacentOut` -/

theorem relax_congr {g h : cGraph} {u : Int}
    (hfirst : ∀ v, h.firstEdge u v = g.firstEdge u v) :
    ∀ (l : List Int) (s : DijState), relax h u l s = relax g u l s := by
  intro l
  induction l with
  | nil => intro s; rfl
  | cons vp rest ih =>
    intro s
    simp only [relax, cGraph.rEdgeAttr_find, hfirst, ih]

theorem pickMin_mem (s : DijState) : ∀ (l : List Int) (acc : Int × Option Int) (u : Int),
    (pickMin s l acc).2 = some u → u ∈ l ∨ acc.2 = some u := by
  intro l
  induction l with
  | nil => intro acc u h; exact Or.inr h
  | cons a t ih =>
    intro acc u h
    obtain ⟨m, o⟩ := acc
    unfold pickMin at h
    split at h
    · rcases ih _ _ h with h1 | h1
      · exact Or.inl (List.mem_cons_of_mem _ h1)
      · simp only [Option.some.injEq] at h1
        exact Or.inl (h1 ▸ List.mem_cons_self _ _)
    · rcases ih _ _ h with h1 | h1
      · exact Or.inl (List.mem_cons_of_mem _ h1)
      · exact Or.inr h1

theorem dijLoop_congr {g h : cGraph} (hV : h.vertexCount = g.vertexCount)
    (hfirst : ∀ u v, 0 ≤ u → h.firstEdge u v = g.firstEdge u v)
    (hadj : ∀ u, 0 ≤ u → h.adjacentOut u = g.adjacentOut u) :
    ∀ (n : Nat) (s : DijState), dijLoop h n s = dijLoop g n s := by
  intro n
  induction n with
  | zero => intro s; rfl
  | succ n ih =>
    intro s
    unfold dijLoop
    rw [hV]
    cases hp : pickMin s (intRange g.vertexCount) (INT_MAX, none) with
    | mk m o =>
      simp only
      by_cases hm : m = INT_MAX
      · rw [if_pos hm, if_pos hm]
      · rw [if_neg hm, if_neg hm]
        cases o with
        | none => rfl
        | some u =>
          simp only
          have hu : 0 ≤ u := by
            have h2 : (pickMin s (intRange g.vertexCount) (INT_MAX, none)).2 = some u := by
              rw [hp]
            rcases pickMin_mem s _ _ _ h2 with h3 | h3
            · exact ((mem_intRange _ _).mp h3).1
            · cases h3
          rw [hadj u hu, relax_congr (fun v => hfirst u v hu)]
          cases relax g u (g.adjacentOut u) { s with sptSet := vset s.sptSet u true } with
          | error e => rfl
          | ok s1 => exact ih s1

theorem path_congr {g h : cGraph} (hV : h.vertexCount = g.vertexCount)
    (hfirst : ∀ u v, 0 ≤ u → h.firstEdge u v = g.firstEdge u v)
    (hadj : ∀ u, 0 ≤ u → h.adjacentOut u = g.adjacentOut u) (start end_ : Int) :
    path h start end_ = path g start end_ := by
  have hd : dijsktra h start = dijsktra g start := by
    unfold dijsktra dijInit
    rw [hV, dijLoop_congr hV hfirst hadj]
  unfold path
  rw [hV, hd]

theorem path_live {work : cGraph} (hd : work.fDirected = true) (start end_ : Int) :
    path work start end_ = path work.live start end_ :=
  (path_congr (g := work) (h := work.live) rfl (fun _ v hu => firstEdge_live hd hu v)
    (fun _ hu => adjacentOut_live hd hu) start end_).symm

/-! ## What `consumeKeep` does to the working graph -/

theorem forall₂_set {α β : Type} {R : α → β → Prop} {l : List α} {r : List β}
    (h : List.Forall₂ R l r) : ∀ (i : Nat) (k k1 : β), r.get? i = some k →
      (∀ e, R e k → R e k1) → List.Forall₂ R l (r.set i k1) := by
  induction h with
  | nil => intro i k k1 hk; simp at hk
  | @cons a b l r hab _ ih =>
    intro i k k1 hk hR
    cases i with
    | zero =>
      simp only [List.get?_cons_zero, Option.some.injEq] at hk
      subst hk
      exact List.Forall₂.cons (hR a hab) ‹_›
    | succ i =>
      simp only [List.get?_cons_succ] at hk
      exact List.Forall₂.cons hab (ih i k k1 hk hR)

theorem forall₂_mem_right {α β : Type} {R : α → β → Prop} {l : List α} {r : List β}
    (h : List.Forall₂ R l r) : ∀ k ∈ r, ∃ e ∈ l, R e k := by
  induction h with
  | nil => intro k hk; simp at hk
  | @cons a b l r hab _ ih =>
    intro k hk
    rcases List.mem_cons.mp hk with hk | hk
    · subst hk; exact ⟨a, List.mem_cons_self _ _, hab⟩
    · obtain ⟨e, he, hR⟩ := ih k hk
      exact ⟨e, List.mem_cons_of_mem _ he, hR⟩

theorem length_filter_set {α : Type} (q : α → Bool) : ∀ (l : List α) (i : Nat) (k k1 : α),
    l.get? i = some k →
      ((l.set i k1).filter q).length + (if q k = true then 1 else 0) =
        (l.filter q).length + (if q k1 = true then 1 else 0) := by
  intro l
  induction l with
  | nil => intro i k k1 hk; simp at hk
  | cons a t ih =>
    intro i k k1 hk
    cases i with
    | zero =>
      simp only [List.get?_cons_zero, Option.some.injEq] at hk
      subst hk
      simp only [List.set_cons_zero, List.filter_cons]
      by_cases h1 : q a = true <;> by_cases h2 : q k1 = true <;>
        simp [h1, h2]
    | succ i =>
      simp only [List.get?_cons_succ] at hk
      have := ih i k k1 hk
      simp only [List.set_cons_succ, List.filter_cons]
      split <;> (try simp only [List.length_cons]) <;> omega

/-- An edge of the working graph that was not removed is the edge of the input
graph with a natural capacity. -/
theorem KeepInv.mem {g work : cGraph} (inv : KeepInv g work) :
    ∀ k ∈ work.vEdge, 0 ≤ k.src →
      ∃ e ∈ g.vEdge, k.src = e.src ∧ k.dest = e.dest ∧ ∃ n : ℕ, k.attr0 = (n : ℚ) := by
  intro k hk hsrc
  obtain ⟨e, he, hR⟩ := forall₂_mem_right inv.shape k hk
  rcases hR with h | ⟨h1, h2, n, _, h3, _⟩
  · rw [h] at hsrc
    simp at hsrc
  · exact ⟨e, he, h1, h2, n, h3⟩

theorem KeepInv.flowInv {g work : cGraph} (inv : KeepInv g work) (hwf : g.wellFormed) :
    FlowInv g.vertexCount work.live where
  dir := inv.dir
  wf := by
    intro k hk
    have hk2 : k ∈ work.vEdge.filter fun e => decide (0 ≤ e.src) := hk
    rw [List.mem_filter] at hk2
    obtain ⟨e, he, h1, h2, _⟩ := inv.mem k hk2.1 (by simpa using hk2.2)
    have := hwf e he
    have hv : work.live.vertexCount = g.vertexCount := inv.nv
    rw [hv, h1, h2]
    exact this
  nv := inv.nv
  cap := by
    intro k hk
    have hk2 : k ∈ work.vEdge.filter fun e => decide (0 ≤ e.src) := hk
    rw [List.mem_filter] at hk2
    obtain ⟨e, _, _, _, n, hn⟩ := inv.mem k hk2.1 (by simpa using hk2.2)
    exact ⟨n, hn⟩

theorem KeepInv.refl {g : cGraph} (hd : g.fDirected = true)
    (hcap : ∀ e ∈ g.vEdge, ∃ n : ℕ, e.attr0 = (n : ℚ)) : KeepInv g g where
  dir := hd
  nv := rfl
  shape := by
    have : ∀ l : List cEdge, (∀ e ∈ l, ∃ n : ℕ, e.attr0 = (n : ℚ)) →
        List.Forall₂ (fun e k => k = ⟨-1, -1, 0⟩ ∨
          (k.src = e.src ∧ k.dest = e.dest ∧
            ∃ n m : ℕ, k.attr0 = (n : ℚ) ∧ e.attr0 = (m : ℚ) ∧ n ≤ m)) l l := by
      intro l
      induction l with
      | nil => intro _; exact List.Forall₂.nil
      | cons a t ih =>
        intro h
        obtain ⟨n, hn⟩ := h a (List.mem_cons_self _ _)
        exact List.Forall₂.cons (Or.inr ⟨rfl, rfl, n, n, hn, hn, le_refl _⟩)
          (ih fun e he => h e (List.mem_cons_of_mem _ he))
    exact this g.vEdge hcap

theorem firstEdge_removeKeep {g : cGraph} (hd : g.fDirected = true) (u v a b : Int)
    (hne : a ≠ u) (ha : 0 ≤ a) : (g.removeKeep u v).firstEdge a b = g.firstEdge a b := by
  unfold cGraph.firstEdge cGraph.removeKeep
  have hj : ∀ h : cGraph, h.fDirected = true → h.joins a b = g.joins a b := by
    intro h hh
    funext e
    unfold cGraph.joins
    rw [hh, hd]
  rw [hj _ hd]
  apply find?_set_findIdx
  · intro x _ hx
    rw [cGraph.joins_directed hd] at hx
    by_contra hc
    have hc2 : g.joins a b x = true := by simpa using hc
    rw [cGraph.joins_directed hd] at hc2
    exact hne (hc2.1.symm.trans hx.1)
  · exact joins_removed hd ha b

theorem consumeKeep_spec {g : cGraph} (φ : Int → Int → ℚ) (mf : Int) (hmf : 0 ≤ mf) :
    ∀ (rest : List Int) (u : Int) (work : cGraph), 0 ≤ u → (u :: rest).Nodup →
      (∀ x ∈ rest, 0 ≤ x) → KeepInv g work →
      (∀ ab ∈ links (u :: rest), ∃ e, work.firstEdge ab.1 ab.2 = some e ∧
        (mf : ℚ) ≤ e.attr0) →
      ∃ work1, consumeKeep mf rest u work = .ok work1 ∧ KeepInv g work1 ∧
        (work1.vEdge.map fun e => φ e.src e.dest * e.attr0).sum +
            (mf : ℚ) * ((links (u :: rest)).map fun ab => φ ab.1 ab.2).sum =
          (work.vEdge.map fun e => φ e.src e.dest * e.attr0).sum ∧
        work1.live.edgeCount ≤ work.live.edgeCount ∧
        ((∃ ab ∈ links (u :: rest), ∃ e, work.firstEdge ab.1 ab.2 = some e ∧
            e.attr0 = (mf : ℚ)) → work1.live.edgeCount < work.live.edgeCount) := by
  intro rest
  induction rest with
  | nil =>
    intro u work _ _ _ inv _
    refine ⟨work, rfl, inv, by simp [links], le_refl _, ?_⟩
    rintro ⟨ab, hab, _⟩
    simp [links] at hab
  | cons v rest ih =>
    intro u work hu hnd hpos inv hcap
    have hv : 0 ≤ v := hpos v (List.mem_cons_self _ _)
    have hpos' : ∀ x ∈ rest, 0 ≤ x := fun x hx => hpos x (List.mem_cons_of_mem _ hx)
    have hnd' : (v :: rest).Nodup := (List.nodup_cons.mp hnd).2
    have hunot : u ∉ v :: rest := (List.nodup_cons.mp hnd).1
    obtain ⟨e, he, hle⟩ := hcap (u, v) (by simp [links])
    simp only at he hle
    obtain ⟨hemem, hsrc, hdest⟩ := cGraph.firstEdge_spec inv.dir he
    obtain ⟨e0, _, _, _, n, hn⟩ := inv.mem e hemem (by rw [hsrc]; exact hu)
    obtain ⟨_, hget⟩ := cGraph.find_of_firstEdge he
    have hlive : (decide (0 ≤ e.src)) = true := by rw [hsrc]; simpa using hu
    have hread : work.rEdgeAttr (work.find u v) = .ok e.attr0 := by
      rw [cGraph.rEdgeAttr_find, he]
    have hu' : u ≥ 0 := hu
    have hne_of : ∀ ab ∈ links (v :: rest), ab.1 ≠ u := by
      intro ab hab h
      exact hunot (h ▸ (links_mem hab).1)
    have hpos_of : ∀ ab ∈ links (v :: rest), 0 ≤ ab.1 := by
      intro ab hab
      rcases List.mem_cons.mp (links_mem hab).1 with h | h
      · rw [h]; exact hv
      · exact hpos' _ h
    have hlinks : ((links (u :: v :: rest)).map fun ab => φ ab.1 ab.2).sum =
        φ u v + ((links (v :: rest)).map fun ab => φ ab.1 ab.2).sum := by
      simp only [links, List.map_cons, List.sum_cons]
    simp only [consumeKeep, hu', if_true, hread]
    by_cases hz : e.attr0 - (mf : ℚ) ≤ 0
    · simp only [hz, if_true]
      have heq : e.attr0 = (mf : ℚ) := le_antisymm (by linarith) hle
      have inv1 : KeepInv g (work.removeKeep u v) :=
        ⟨inv.dir, inv.nv, forall₂_set inv.shape _ e _ hget (fun _ _ => Or.inl rfl)⟩
      obtain ⟨work1, h1, h2, h3, h4, _⟩ := ih v (work.removeKeep u v) hv hnd' hpos'
        inv1 (by
          intro ab hab
          rw [firstEdge_removeKeep inv.dir u v ab.1 ab.2 (hne_of ab hab) (hpos_of ab hab)]
          exact hcap ab (by simp [links, hab]))
      have hcnt : (work.removeKeep u v).live.edgeCount + 1 = work.live.edgeCount := by
        have := length_filter_set (fun e : cEdge => decide (0 ≤ e.src)) work.vEdge
          (work.vEdge.findIdx (work.joins u v)) e ⟨-1, -1, 0⟩ hget
        simp only [hlive] at this
        simpa [cGraph.live, cGraph.edgeCount, cGraph.removeKeep] using this
      refine ⟨work1, h1, h2, ?_, by omega, fun _ => by omega⟩
      rw [hlinks]
      have hc := sum_set_findIdx work.vEdge (work.joins u v)
        (fun e => φ e.src e.dest * e.attr0) e ⟨-1, -1, 0⟩ he
      simp only [hsrc, hdest, heq, mul_zero, add_zero] at hc
      have hc2 : ((work.removeKeep u v).vEdge.map fun e => φ e.src e.dest * e.attr0).sum =
          (work.vEdge.map fun e => φ e.src e.dest * e.attr0).sum - φ u v * (mf : ℚ) := hc
      rw [hc2] at h3
      linarith
    · simp only [hz, if_false]
      have hzn : (mf : ℚ) < e.attr0 := by linarith
      have hmn : mf < (n : Int) := by
        rw [hn] at hzn
        exact_mod_cast hzn
      have hnat : ((((n : Int) - mf).toNat : ℕ) : ℚ) = e.attr0 - (mf : ℚ) := by
        have h2 : (((n : Int) - mf).toNat : Int) = (n : Int) - mf :=
          Int.toNat_of_nonneg (by omega)
        have h3 : ((((n : Int) - mf).toNat : ℕ) : ℚ) = ((((n : Int) - mf).toNat : Int) : ℚ) := by
          push_cast; rfl
        rw [h3, h2, hn]; push_cast; ring
      have hzle : ((n : Int) - mf).toNat ≤ n := by omega
      have hval : toStringAtof (e.attr0 - (mf : ℚ)) = (((n : Int) - mf).toNat : ℚ) := by
        have h1 : e.attr0 - (mf : ℚ) = (((n : Int) - mf : Int) : ℚ) := by
          rw [hn]; push_cast; ring
        rw [h1, toStringAtof_intCast, ← h1, hnat]
      rw [cGraph.wEdgeAttr_find _ he, hval]
      simp only
      generalize hz1 : ((n : Int) - mf).toNat = z at hnat hzle
      obtain ⟨e1, he1⟩ : ∃ e1 : cEdge, e1 = { e with attr0 := ((z : ℕ) : ℚ) } := ⟨_, rfl⟩
      rw [← he1]
      have hsrc1 : e1.src = u := by rw [he1]; exact hsrc
      have hdest1 : e1.dest = v := by rw [he1]; exact hdest
      have hattr1 : e1.attr0 = e.attr0 - (mf : ℚ) := by rw [he1]; exact hnat
      have hlive1 : (decide (0 ≤ e1.src)) = true := by rw [hsrc1]; simpa using hu
      have inv1 : KeepInv g (work.setEdge (work.vEdge.findIdx (work.joins u v)) e1) := by
        refine ⟨inv.dir, inv.nv, forall₂_set inv.shape _ e _ hget ?_⟩
        intro x hx
        rcases hx with hx | ⟨x1, x2, n1, m1, x3, x4, x5⟩
        · rw [hx] at hsrc
          simp only at hsrc
          omega
        · right
          refine ⟨by rw [hsrc1, ← x1, hsrc], by rw [hdest1, ← x2, hdest], z, m1, ?_, x4, ?_⟩
          · rw [he1]
          · have : (n1 : ℚ) = (n : ℚ) := by rw [← x3, hn]
            have : n1 = n := by exact_mod_cast this
            omega
      obtain ⟨work1, h1, h2, h3, h4, h5⟩ := ih v _ hv hnd' hpos' inv1 (by
          intro ab hab
          rw [cGraph.firstEdge_set inv.dir u v ab.1 ab.2 _ (hne_of ab hab) hsrc1]
          exact hcap ab (by simp [links, hab]))
      have hcnt : (work.setEdge (work.vEdge.findIdx (work.joins u v)) e1).live.edgeCount
          = work.live.edgeCount := by
        have := length_filter_set (fun e : cEdge => decide (0 ≤ e.src)) work.vEdge
          (work.vEdge.findIdx (work.joins u v)) e e1 hget
        simp only [hlive, hlive1] at this
        simpa [cGraph.live, cGraph.edgeCount, cGraph.setEdge] using this
      rw [hcnt] at h4 h5
      refine ⟨work1, h1, h2, ?_, h4, ?_⟩
      · have hc := sum_set_findIdx work.vEdge (work.joins u v)
          (fun e => φ e.src e.dest * e.attr0) e e1 he
        simp only [hsrc, hdest, hsrc1, hdest1, hattr1] at hc
        have hc2 : ((work.setEdge (work.vEdge.findIdx (work.joins u v)) e1).vEdge.map
            fun e => φ e.src e.dest * e.attr0).sum =
            (work.vEdge.map fun e => φ e.src e.dest * e.attr0).sum - φ u v * e.attr0 +
              φ u v * (e.attr0 - (mf : ℚ)) := hc
        rw [hc2] at h3
        rw [hlinks]
        linarith
      · rintro ⟨ab, hab, e2, he2, heq2⟩
        simp only [links, List.mem_cons] at hab
        rcases hab with rfl | hab
        · simp only at he2
          rw [he] at he2
          simp only [Option.some.injEq] at he2
          subst he2
          rw [heq2] at hzn
          exact absurd hzn (lt_irrefl _)
        · refine h5 ⟨ab, hab, e2, ?_, heq2⟩
          rw [cGraph.firstEdge_set inv.dir u v ab.1 ab.2 _ (hne_of ab hab) hsrc1]
          exact he2

/-! ## The rounds of `flowsKeep` -/

/-- The way that `path` finds through a working graph of `flows`: it leaves
`start`, meets no vertex twice, ends in `end_`, and each of its links has a
first edge with a natural capacity below `INT_MAX`. -/
theorem path_links {V : Nat} {start end_ : Int}
    (hs : 0 ≤ start ∧ start < (V : Int)) (he : 0 ≤ end_ ∧ end_ < (V : Int))
    (hne : start ≠ end_) {work : cGraph} (inv : FlowInv V work) {p : List Int} {c : ℚ}
    (hp : path work start end_ = .ok (p, c)) (hnil : p ≠ []) :
    ∃ rest, p = start :: rest ∧ (start :: rest).Nodup ∧ (∀ x ∈ rest, 0 ≤ x) ∧
      (start :: rest).getLast? = some end_ ∧
      ∀ ab ∈ links (start :: rest), ∃ e, work.firstEdge ab.1 ab.2 = some e ∧
        (∃ m : ℕ, e.attr0 = (m : ℚ)) ∧ e.attr0 < (INT_MAX : ℚ) := by
  have hs' : work.inRange start := by unfold cGraph.inRange; rw [inv.nv]; exact hs
  have he' : work.inRange end_ := by unfold cGraph.inRange; rw [inv.nv]; exact he
  have hnn := inv.nonneg
  obtain ⟨s, k, dinv, _, _, hcase⟩ :=
    path_spec inv.wf (work.vEdge.map cEdge.attr0).sum hs' he' hne
  rcases hcase with ⟨_, hp2⟩ | ⟨hpred, r, hr, hin, hp2⟩
  · rw [hp2] at hp
    simp only [Except.ok.injEq, Prod.mk.injEq] at hp
    exact absurd hp.1.symm hnil
  · rw [hp2] at hp
    simp only [Except.ok.injEq, Prod.mk.injEq] at hp
    obtain ⟨hpr, _⟩ := hp
    obtain ⟨hwalk, hcost⟩ := hr.walk dinv hin
    have hfin : vget s.dist end_ 0 < (INT_MAX : ℚ) := by
      refine lt_of_le_of_ne (dinv.dist_le end_ he') ?_
      intro h
      exact hpred ((dinv.pred_none end_ he').mpr h)
    obtain ⟨hh, hl, hch⟩ := hwalk
    obtain ⟨a, rest, hrev⟩ : ∃ a rest, r.reverse = a :: rest := by
      cases hrr : r.reverse with
      | nil => rw [hrr] at hh; simp at hh
      | cons a rest => exact ⟨a, rest, rfl⟩
    rw [hrev] at hh hl hch hcost hpr
    simp only [List.head?_cons, Option.some.injEq] at hh
    subst hh
    subst hpr
    have hmem : ∀ x ∈ a :: rest, work.inRange x := by
      intro x hx
      rw [← hrev] at hx
      exact hin x (List.mem_reverse.mp hx)
    have hnd : (a :: rest).Nodup := by
      rw [← hrev]; exact List.nodup_reverse.mpr hr.nodup
    obtain ⟨_, hlinkle⟩ := cGraph.linkCost_link_le work hnn _ _ hcost
    refine ⟨rest, rfl, hnd, fun x hx => (hmem x (List.mem_cons_of_mem _ hx)).1, hl, ?_⟩
    intro ab hab
    obtain ⟨e, h1, h2⟩ := hlinkle ab hab
    exact ⟨e, h1, inv.cap e (List.mem_of_find?_eq_some h1), lt_of_le_of_lt h2 hfin⟩

theorem balance_links (v : Int) : ∀ (p : List Int) (a b : Int), p.head? = some a →
    p.getLast? = some b →
    ((links p).map fun ab => balanceSign v ab.1 ab.2).sum =
      (if a = v then 1 else 0) - (if b = v then 1 else 0) := by
  intro p
  induction p with
  | nil => intro a b h; simp at h
  | cons x t ih =>
    intro a b ha hb
    simp only [List.head?_cons, Option.some.injEq] at ha
    subst ha
    cases t with
    | nil =>
      simp only [List.getLast?_singleton, Option.some.injEq] at hb
      subst hb
      simp [links]
    | cons y t2 =>
      have hb2 : (y :: t2).getLast? = some b := by
        rw [List.getLast?_cons_cons] at hb; exact hb
      have := ih y b rfl hb2
      simp only [links, List.map_cons, List.sum_cons, this]
      unfold balanceSign
      ring

theorem netCapacity_eq (g : cGraph) (v : Int) :
    g.netCapacity v = (g.vEdge.map fun e => balanceSign v e.src e.dest * e.attr0).sum := rfl

/-- A round of the loop of `flowsKeep` in which `path` finds a way through:
the least capacity along the way is taken from each of its links, an edge is
removed, and at every vertex other than `start` and `end_` the capacity that
leaves is changed by as much as the capacity that enters. -/
theorem flowsRoundKeep_spec {g : cGraph} (hwf : g.wellFormed) {start end_ : Int}
    (hs : g.inRange start) (he : g.inRange end_) (hne : start ≠ end_) {work : cGraph}
    (inv : KeepInv g work) {p : List Int} {c : ℚ}
    (hp : path work start end_ = .ok (p, c)) (hnil : p ≠ []) :
    ∃ maxflow work1, pathMaxflow work p (-1) INT_MAX = .ok maxflow ∧
      consumeKeep maxflow p (-1) work = .ok work1 ∧ KeepInv g work1 ∧
      work1.live.edgeCount < work.live.edgeCount ∧
      ∀ v, v ≠ start → v ≠ end_ → work1.netCapacity v = work.netCapacity v := by
  rw [path_live inv.dir] at hp
  obtain ⟨rest, hpr, hnd, hpos, hlast, hlinks⟩ :=
    path_links hs he hne (inv.flowInv hwf) hp hnil
  subst hpr
  have ha0 : 0 ≤ start := hs.1
  have hlinks2 : ∀ ab ∈ links (start :: rest), ∃ e, work.firstEdge ab.1 ab.2 = some e ∧
      (∃ m : ℕ, e.attr0 = (m : ℚ)) ∧ e.attr0 < (INT_MAX : ℚ) := by
    intro ab hab
    obtain ⟨e, h1, h2⟩ := hlinks ab hab
    have h0 : 0 ≤ ab.1 := by
      rcases List.mem_cons.mp (links_mem hab).1 with h | h
      · rw [h]; exact ha0
      · exact hpos _ h
    rw [firstEdge_live inv.dir h0] at h1
    exact ⟨e, h1, h2⟩
  obtain ⟨mf, hm1, hm2, hm3, hm4, hm5⟩ :=
    pathMaxflow_spec work rest start INT_MAX ha0 hpos
      (fun ab hab => by
        obtain ⟨e, h1, h2, _⟩ := hlinks2 ab hab
        exact ⟨e, h1, h2⟩)
  have hmf0 : 0 ≤ mf := hm3 (by unfold INT_MAX; omega)
  obtain ⟨b, rest', hrest⟩ : ∃ b rest', rest = b :: rest' := by
    cases rest with
    | nil =>
      simp at hlast
      exact absurd hlast hne
    | cons b rest' => exact ⟨b, rest', rfl⟩
  have hlink : (start, b) ∈ links (start :: rest) := by rw [hrest]; simp [links]
  have hmflt : mf < INT_MAX := by
    obtain ⟨e1, h1, _, h2⟩ := hlinks2 _ hlink
    obtain ⟨e2, h3, h4⟩ := hm4 _ hlink
    rw [h1] at h3
    simp only [Option.some.injEq] at h3
    subst h3
    have : (mf : ℚ) < (INT_MAX : ℚ) := by linarith
    exact_mod_cast this
  have hex : ∃ ab ∈ links (start :: rest), ∃ e, work.firstEdge ab.1 ab.2 = some e ∧
      e.attr0 = (mf : ℚ) := by
    rcases hm5 with h | h
    · omega
    · exact h
  obtain ⟨work1, hc1, hc2, _, _, hc5⟩ :=
    consumeKeep_spec (fun _ _ => 0) mf hmf0 rest start work ha0 hnd hpos inv hm4
  have hneg : ¬ ((-1 : Int) ≥ 0) := by omega
  have hpm : pathMaxflow work (start :: rest) (-1) INT_MAX = .ok mf := by
    simp only [pathMaxflow, hneg, if_false]; exact hm1
  have hcs : consumeKeep mf (start :: rest) (-1) work = .ok work1 := by
    simp only [consumeKeep, hneg, if_false]; exact hc1
  refine ⟨mf, work1, hpm, hcs, hc2, hc5 hex, ?_⟩
  intro v hvs hve
  obtain ⟨work2, hd1, _, hd3, _⟩ :=
    consumeKeep_spec (balanceSign v) mf hmf0 rest start work ha0 hnd hpos inv hm4
  rw [hc1] at hd1
  simp only [Except.ok.injEq] at hd1
  subst hd1
  rw [balance_links v (start :: rest) start end_ rfl hlast, if_neg (Ne.symm hvs),
    if_neg (Ne.symm hve)] at hd3
  rw [netCapacity_eq, netCapacity_eq, ← hd3]
  ring

/-- The loop of `flowsKeep` ends when it is given more rounds than the working
graph has edges that were not removed, and at every vertex other than `start`
and `end_` it changes the capacity that leaves by as much as the capacity that
enters. -/
theorem flowsLoopKeep_spec {g : cGraph} (hwf : g.wellFormed) {start end_ : Int}
    (hs : g.inRange start) (he : g.inRange end_) (hne : start ≠ end_) :
    ∀ (n : Nat) (work : cGraph) (total : Int), KeepInv g work → work.live.edgeCount < n →
      ∃ work1 total1, flowsLoopKeep start end_ n work total = .ok (work1, total1) ∧
        KeepInv g work1 ∧
        ∀ v, v ≠ start → v ≠ end_ → work1.netCapacity v = work.netCapacity v := by
  intro n
  induction n with
  | zero => intro _ _ _ h; omega
  | succ n ih =>
    intro work total inv hn
    have hpath : ∃ p c, path work start end_ = .ok (p, c) := by
      rw [path_live inv.dir]
      have finv := inv.flowInv hwf
      have hs' : work.live.inRange start := by
        unfold cGraph.inRange; rw [finv.nv]; exact hs
      have he' : work.live.inRange end_ := by
        unfold cGraph.inRange; rw [finv.nv]; exact he
      obtain ⟨s, k, _, _, _, hcase⟩ := path_spec finv.wf 0 hs' he' hne
      rcases hcase with ⟨_, h⟩ | ⟨_, r, _, _, h⟩
      · exact ⟨_, _, h⟩
      · exact ⟨_, _, h⟩
    obtain ⟨p, c, hp⟩ := hpath
    by_cases hnil : p = []
    · refine ⟨work, total, ?_, inv, fun _ _ _ => rfl⟩
      simp only [flowsLoopKeep, hp, hnil, if_true]
    · obtain ⟨mf, work1, h1, h2, h3, h4, h5⟩ :=
        flowsRoundKeep_spec hwf hs he hne inv hp hnil
      obtain ⟨work2, total2, k1, k2, k3⟩ := ih work1 (wrap32 (total + mf)) h3 (by omega)
      refine ⟨work2, total2, ?_, k2, fun v hvs hve => (k3 v hvs hve).trans (h5 v hvs hve)⟩
      simp only [flowsLoopKeep, hp, hnil, if_false, h1, h2]
      exact k1

/-! ## The vector `vEdgeFlow` of `flowsKeep` -/

/-- The entries of `vEdgeFlow` from index `k` on, where the working graph has
an entry for each edge of the graph. -/
theorem edgeFlow_zipWith (g work : cGraph) : ∀ (gs ws : List cEdge) (k : Nat),
    g.vEdge.drop k = gs → work.vEdge.drop k = ws → gs.length = ws.length →
    edgeFlow g work ((List.range' k gs.length).map Int.ofNat) =
      .ok (List.zipWith (fun e w => if w.dest = -1 then toInt e.attr0
        else toInt (e.attr0 - w.attr0)) gs ws) := by
  intro gs
  induction gs with
  | nil =>
    intro ws k _ _ hlen
    cases ws with
    | nil => rfl
    | cons _ _ => simp at hlen
  | cons e gs ih =>
    intro ws k hg hw hlen
    cases ws with
    | nil => simp at hlen
    | cons w ws =>
      have hge : g.vEdge.get? k = some e := by
        have h0 : (g.vEdge.drop k).get? 0 = some e := by rw [hg]; rfl
        rw [List.get?_eq_getElem?, List.getElem?_drop] at h0
        rw [List.get?_eq_getElem?]
        simpa using h0
      have hwe : work.vEdge.get? k = some w := by
        have h0 : (work.vEdge.drop k).get? 0 = some w := by rw [hw]; rfl
        rw [List.get?_eq_getElem?, List.getElem?_drop] at h0
        rw [List.get?_eq_getElem?]
        simpa using h0
      have hg2 : g.vEdge.drop (k + 1) = gs := by
        rw [← List.tail_drop, hg]; rfl
      have hw2 : work.vEdge.drop (k + 1) = ws := by
        rw [← List.tail_drop, hw]; rfl
      have hlen2 : gs.length = ws.length := by simpa using hlen
      have hrec := ih ws (k + 1) hg2 hw2 hlen2
      have htn : (Int.ofNat k).toNat = k := rfl
      have hneg : ¬ ((Int.ofNat k) < 0) := by
        have : (0 : Int) ≤ Int.ofNat k := Int.ofNat_nonneg k
        omega
      have hread : g.rEdgeAttr (Int.ofNat k) = .ok e.attr0 := by
        unfold cGraph.rEdgeAttr
        rw [if_neg hneg, htn, hge]
      have hread2 : work.rEdgeAttr (Int.ofNat k) = .ok w.attr0 := by
        unfold cGraph.rEdgeAttr
        rw [if_neg hneg, htn, hwe]
      have hdest : work.dest (Int.ofNat k) = w.dest := by
        unfold cGraph.dest
        rw [if_neg hneg, htn, hwe]
      simp only [List.length_cons, List.range'_succ, List.map_cons, edgeFlow, hread, hdest,
        hread2, hrec, List.zipWith_cons_cons]
      split <;> rfl

theorem edgeFlow_keep (g work : cGraph) (hlen : g.vEdge.length = work.vEdge.length) :
    edgeFlow g work (intRange g.edgeCount) =
      .ok (List.zipWith (fun e w => if w.dest = -1 then toInt e.attr0
        else toInt (e.attr0 - w.attr0)) g.vEdge work.vEdge) := by
  have := edgeFlow_zipWith g work g.vEdge work.vEdge 0 rfl rfl hlen
  unfold intRange cGraph.edgeCount
  rw [List.range_eq_range']
  exact this

/-- The entries of `vEdgeFlow` lie between 0 and the capacity of their edge,
and the entries of the edges that `sel` takes add up to what the capacity of
these edges lost in the working graph. -/
theorem keep_flow_sums {l r : List cEdge}
    (h : List.Forall₂ (fun e k => k = ⟨-1, -1, 0⟩ ∨
      (k.src = e.src ∧ k.dest = e.dest ∧
        ∃ n m : ℕ, k.attr0 = (n : ℚ) ∧ e.attr0 = (m : ℚ) ∧ n ≤ m)) l r)
    (hcap : ∀ e ∈ l, 0 ≤ e.dest ∧ ∃ m : ℕ, e.attr0 = (m : ℚ)) :
    (∀ ef ∈ l.zip (List.zipWith (fun e w => if w.dest = -1 then toInt e.attr0
        else toInt (e.attr0 - w.attr0)) l r), 0 ≤ ef.2 ∧ (ef.2 : ℚ) ≤ ef.1.attr0) ∧
    ∀ sel : cEdge → Bool, sel ⟨-1, -1, 0⟩ = false →
      (∀ e w : cEdge, w.src = e.src → w.dest = e.dest → sel w = sel e) →
      ((((l.zip (List.zipWith (fun e w => if w.dest = -1 then toInt e.attr0
          else toInt (e.attr0 - w.attr0)) l r)).map
            fun ef => if sel ef.1 then ef.2 else 0).sum : Int) : ℚ) =
        (l.map fun e => if sel e then e.attr0 else 0).sum -
          (r.map fun w => if sel w then w.attr0 else 0).sum := by
  induction h with
  | nil =>
    refine ⟨by simp, ?_⟩
    intro sel _ _
    simp
  | @cons e k l r hek _ ih =>
    obtain ⟨ih1, ih2⟩ := ih (fun e he => hcap e (List.mem_cons_of_mem _ he))
    obtain ⟨hdest, m, hm⟩ := hcap e (List.mem_cons_self _ _)
    have hval : ∃ x : ℕ, (if k.dest = -1 then toInt e.attr0 else toInt (e.attr0 - k.attr0)) =
        ((m : Int) - (x : Int)) ∧ x ≤ m ∧ k.attr0 = (x : ℚ) := by
      rcases hek with hk | ⟨_, h2, n, m1, h3, h4, h5⟩
      · refine ⟨0, ?_, Nat.zero_le _, by rw [hk]; simp⟩
        rw [hk]
        simp only [if_true, hm]
        have : ((m : ℕ) : ℚ) = ((m : Int) : ℚ) := by push_cast; rfl
        rw [this]
        unfold toInt
        simp
      · have hmm : m1 = m := by
          have : (m1 : ℚ) = (m : ℚ) := by rw [← h4, hm]
          exact_mod_cast this
        subst hmm
        refine ⟨n, ?_, h5, h3⟩
        have hne : ¬ k.dest = -1 := by rw [h2]; omega
        rw [if_neg hne, hm, h3]
        have : ((m1 : ℕ) : ℚ) - ((n : ℕ) : ℚ) = (((m1 : Int) - (n : Int) : Int) : ℚ) := by
          push_cast; rfl
        rw [this]
        unfold toInt
        have h0 : (0 : ℚ) ≤ (((m1 : Int) - (n : Int) : Int) : ℚ) := by
          have : (0 : Int) ≤ (m1 : Int) - (n : Int) := by omega
          exact_mod_cast this
        rw [if_pos h0]
        simp
    obtain ⟨x, hx1, hx2, hx3⟩ := hval
    constructor
    · intro ef hef
      simp only [List.zipWith_cons_cons, List.zip_cons_cons, List.mem_cons] at hef
      rcases hef with hef | hef
      · rw [hef]
        simp only
        rw [hx1, hm]
        constructor
        · omega
        · have : (m : Int) - (x : Int) ≤ (m : Int) := by omega
          exact_mod_cast this
      · exact ih1 ef hef
    · intro sel hsel hsame
      have hrec := ih2 sel hsel hsame
      simp only [List.zipWith_cons_cons, List.zip_cons_cons, List.map_cons, List.sum_cons]
      rw [Int.cast_add, hrec, hx1]
      have hselk : (if sel k = true then k.attr0 else 0) =
          (if sel e = true then (x : ℚ) else 0) := by
        rcases hek with hk | ⟨h1, h2, n, m1, h3, _, _⟩
        · have hx0 : (x : ℚ) = 0 := by rw [← hx3, hk]
          rw [hk, hsel, hx0]
          simp
        · rw [hsame e k h1 h2, hx3]
      rw [hselk, hm]
      by_cases hs : sel e = true
      · simp only [hs, if_true]
        push_cast
        ring
      · simp only [hs, if_false]
        push_cast
        ring

theorem netCapacity_split (g : cGraph) (v : Int) :
    g.netCapacity v =
      (g.vEdge.map fun e => if (e.src == v) = true then e.attr0 else 0).sum -
        (g.vEdge.map fun e => if (e.dest == v) = true then e.attr0 else 0).sum := by
  unfold cGraph.netCapacity
  induction g.vEdge with
  | nil => simp
  | cons a t ih =>
    rw [List.map_cons, List.sum_cons, List.map_cons, List.sum_cons, List.map_cons,
      List.sum_cons, ih]
    have e1 : (if (a.src == v) = true then a.attr0 else 0) =
        (if a.src = v then (1 : ℚ) else 0) * a.attr0 := by
      by_cases h : a.src = v <;> simp [h]
    have e2 : (if (a.dest == v) = true then a.attr0 else 0) =
        (if a.dest = v then (1 : ℚ) else 0) * a.attr0 := by
      by_cases h : a.dest = v <;> simp [h]
    rw [e1, e2]
    unfold balanceSign
    ring

/-- The vector that `flowsKeep` returns is a flow: on a directed, well formed
graph with natural capacities and two different vertices `start` and `end_`
of the graph, `flowsKeep` returns when its loop is given more rounds than the
graph has edges, and the entries of `vEdgeFlow` lie between 0 and the
capacities and are conserved at every vertex other than `start` and `end_`. -/
theorem flowsKeep_spec {g : cGraph} (hdir : g.isDirected = true) (hwf : g.wellFormed)
    (hcap : ∀ e ∈ g.vEdge, ∃ n : ℕ, e.attr0 = (n : ℚ)) {start end_ : Int}
    (hs : g.inRange start) (he : g.inRange end_) (hne : start ≠ end_) (fuel : Nat)
    (hfuel : g.edgeCount < fuel) :
    ∃ work total, flowsLoopKeep start end_ fuel g 0 = .ok (work, total) ∧ KeepInv g work ∧
      flowsKeep fuel g start end_ = .ok (total, List.zipWith (fun e w =>
        if w.dest = -1 then toInt e.attr0 else toInt (e.attr0 - w.attr0)) g.vEdge work.vEdge) ∧
      g.isFlow (List.zipWith (fun e w =>
        if w.dest = -1 then toInt e.attr0 else toInt (e.attr0 - w.attr0)) g.vEdge work.vEdge)
        start end_ := by
  have hd : g.fDirected = true := hdir
  have hlive : g.live.edgeCount < fuel := by
    have : g.live.edgeCount ≤ g.edgeCount := by
      unfold cGraph.live cGraph.edgeCount
      exact List.length_filter_le _ _
    omega
  obtain ⟨work, total, h1, inv, hnet⟩ :=
    flowsLoopKeep_spec hwf hs he hne fuel g 0 (KeepInv.refl hd hcap) hlive
  have hlen : g.vEdge.length = work.vEdge.length := inv.shape.length_eq
  have hflow := edgeFlow_keep g work hlen
  have hcap2 : ∀ e ∈ g.vEdge, 0 ≤ e.dest ∧ ∃ m : ℕ, e.attr0 = (m : ℚ) :=
    fun e he => ⟨(hwf e he).2.2.1, hcap e he⟩
  obtain ⟨hb, hsum⟩ := keep_flow_sums inv.shape hcap2
  refine ⟨work, total, h1, inv, ?_, ?_, hb, ?_⟩
  · unfold flowsKeep
    rw [hdir]
    simp only [Bool.not_true, Bool.false_eq_true, if_false, h1, hflow]
  · unfold cGraph.edgeCount
    rw [List.length_zipWith, ← hlen, min_self]
  · intro v hv hvs hve
    have hv0 : 0 ≤ v := ((mem_intRange _ _).mp hv).1
    have hneg : ((-1 : Int) == v) = false := by
      rw [beq_eq_false_iff_ne]; omega
    have hin := hsum (fun e => e.dest == v) hneg (fun e w _ h2 => by simp only [h2])
    have hout := hsum (fun e => e.src == v) hneg (fun e w h1 _ => by simp only [h1])
    simp only at hin hout
    have hn := hnet v hvs hve
    rw [netCapacity_split, netCapacity_split] at hn
    unfold cGraph.inflow cGraph.outflow cGraph.edgeSum
    have hq : ∀ a b : Int, (a : ℚ) = (b : ℚ) → a = b := fun a b h => by exact_mod_cast h
    apply hq
    rw [hin, hout]
    linarith

/-! ## `allocKeep`: the pairs are a matching -/

/-- The graph that `alloc` builds from a directed, well formed graph is well
formed, and has at most three times as many edges. -/
theorem allocGraph_wf (g : cGraph) (hd : g.isDirected = true) (hwf : g.wellFormed) :
    ∃ g1, allocGraph g = .ok (g1, (g.nVertex : Int), (g.nVertex : Int) + 1) ∧
      g1.fDirected = true ∧ g1.nVertex = g.nVertex + 2 ∧
      g1.edgeList = g.edgeList ++ (allocSets g).1.map (fun a => ((g.nVertex : Int), a)) ++
        (allocSets g).2.map (fun t => (t, (g.nVertex : Int) + 1)) ∧
      (∀ e ∈ g1.vEdge, e.attr0 = 1) ∧ g1.wellFormed ∧ g1.edgeCount ≤ 3 * g.edgeCount := by
  obtain ⟨g1, a1, a2, a3, a4, a5⟩ := allocGraph_spec g
  obtain ⟨s1, s2, s3, s4, s5, s6⟩ := allocSets_spec g
  have hd1 : g1.fDirected = true := a2.trans hd
  have hwf1 : g1.wellFormed := by
    rw [cGraph.wellFormed_iff_map]
    intro sd hsd
    have hsd2 : sd ∈ g1.edgeList := hsd
    rw [a4, a3] at *
    simp only [List.mem_append, List.mem_map] at hsd2
    rcases hsd2 with (hsd2 | ⟨a, ha, rfl⟩) | ⟨t, ht, rfl⟩
    · simp only [cGraph.edgeList, List.mem_map] at hsd2
      obtain ⟨e, he, rfl⟩ := hsd2
      have := hwf e he
      unfold cGraph.vertexCount at this
      push_cast
      omega
    · obtain ⟨e, he, rfl⟩ := (s5 a).mp ha
      have := hwf e he
      unfold cGraph.vertexCount at this
      push_cast
      omega
    · obtain ⟨e, he, rfl⟩ := (s6 t).mp ht
      have := hwf e he
      unfold cGraph.vertexCount at this
      push_cast
      omega
  have hcount : g1.edgeCount ≤ 3 * g.edgeCount := by
    have hl := congrArg List.length a4
    simp only [cGraph.edgeList, List.length_map, List.length_append] at hl
    unfold cGraph.edgeCount at *
    omega
  exact ⟨g1, a1, hd1, a3, a4, a5, hwf1, hcount⟩

/-- The pairs that `alloc` takes from `vEdgeFlow`, from index `k` on. -/
theorem allocPairs_zip (g : cGraph) (start end_ : Int) (f : List Int) :
    ∀ (gs : List cEdge) (fs : List Int) (k : Nat), g.vEdge.drop k = gs → f.drop k = fs →
      gs.length = fs.length →
      allocPairs g start end_ f ((List.range' k gs.length).map Int.ofNat) =
        ((gs.zip fs).filter fun ef =>
          decide (0 < ef.2) && decide (ef.1.src ≠ start) && decide (ef.1.dest ≠ end_)).map
            fun ef => (ef.1.src, ef.1.dest) := by
  intro gs
  induction gs with
  | nil => intro fs k _ _ _; rfl
  | cons e gs ih =>
    intro fs k hg hf hlen
    cases fs with
    | nil => simp at hlen
    | cons x fs =>
      have hge : g.vEdge.get? k = some e := by
        have h0 : (g.vEdge.drop k).get? 0 = some e := by rw [hg]; rfl
        rw [List.get?_eq_getElem?, List.getElem?_drop] at h0
        rw [List.get?_eq_getElem?]
        simpa using h0
      have hfe : f[k]? = some x := by
        have h0 : (f.drop k)[0]? = some x := by rw [hf]; simp
        rw [List.getElem?_drop] at h0
        simpa using h0
      have hg2 : g.vEdge.drop (k + 1) = gs := by
        rw [← List.tail_drop, hg]; rfl
      have hf2 : f.drop (k + 1) = fs := by
        rw [← List.tail_drop, hf]; rfl
      have hlen2 : gs.length = fs.length := by simpa using hlen
      have hrec := ih fs (k + 1) hg2 hf2 hlen2
      have htn : (Int.ofNat k).toNat = k := rfl
      have hneg : ¬ ((Int.ofNat k) < 0) := by
        have : (0 : Int) ≤ Int.ofNat k := Int.ofNat_nonneg k
        omega
      have hsrc : g.src (Int.ofNat k) = e.src := by
        unfold cGraph.src
        rw [if_neg hneg, htn, hge]
      have hdest : g.dest (Int.ofNat k) = e.dest := by
        unfold cGraph.dest
        rw [if_neg hneg, htn, hge]
      have hval : vget f (Int.ofNat k) 0 = x := by
        unfold vget
        rw [if_neg hneg, htn, List.getD_eq_getElem?_getD, hfe]
        rfl
      simp only [List.length_cons, List.range'_succ, List.map_cons, allocPairs, hsrc, hdest,
        hval, hrec, List.zip_cons_cons, List.filter_cons]
      by_cases h1 : x ≤ 0
      · have h1' : ¬ (0 < x) := by omega
        simp [h1, h1']
      · have h1' : 0 < x := by omega
        by_cases h2 : e.src = start
        · simp [h1, h1', h2]
        · by_cases h3 : e.dest = end_
          · simp [h1, h1', h2, h3]
          · simp [h1, h1', h2, h3]

/-- Among entries that are not negative, the entries with a key add up to 1 at
most: no two of the entries taken by a filter that wants a positive entry have
the same key. -/
theorem nodup_keys_of_sum_le_one (key : cEdge → Int) (Q : cEdge × Int → Bool) :
    ∀ L : List (cEdge × Int), (∀ ef ∈ L, 0 ≤ ef.2) →
      (∀ ef ∈ L, Q ef = true → 0 < ef.2) →
      (∀ ef ∈ L, Q ef = true →
        (L.map fun x => if key x.1 = key ef.1 then x.2 else 0).sum ≤ 1) →
      ((L.filter Q).map fun ef => key ef.1).Nodup := by
  intro L
  induction L with
  | nil => intro _ _ _; exact List.nodup_nil
  | cons h T ih =>
    intro hnn hpos hsum
    have hnnT : ∀ ef ∈ T, 0 ≤ ef.2 := fun ef he => hnn ef (List.mem_cons_of_mem _ he)
    have hmapnn : ∀ (k : Int), ∀ y ∈ T.map (fun x => if key x.1 = k then x.2 else 0), 0 ≤ y := by
      intro k y hy
      rw [List.mem_map] at hy
      obtain ⟨x, hx, rfl⟩ := hy
      split
      · exact hnnT x hx
      · exact le_refl _
    have hT : ((T.filter Q).map fun ef => key ef.1).Nodup := by
      apply ih hnnT (fun ef he => hpos ef (List.mem_cons_of_mem _ he))
      intro ef he hq
      have := hsum ef (List.mem_cons_of_mem _ he) hq
      simp only [List.map_cons, List.sum_cons] at this
      have h0 : 0 ≤ (if key h.1 = key ef.1 then h.2 else 0) := by
        split
        · exact hnn h (List.mem_cons_self _ _)
        · exact le_refl _
      omega
    by_cases hq : Q h = true
    · rw [List.filter_cons_of_pos hq, List.map_cons, List.nodup_cons]
      refine ⟨?_, hT⟩
      intro hmem
      rw [List.mem_map] at hmem
      obtain ⟨ef, hef, hkey⟩ := hmem
      rw [List.mem_filter] at hef
      have h1 := hsum h (List.mem_cons_self _ _) hq
      simp only [List.map_cons, List.sum_cons, if_true] at h1
      have h2 := hpos h (List.mem_cons_self _ _) hq
      have h3 := hpos ef (List.mem_cons_of_mem _ hef.1) hef.2
      have h4 : ef.2 ≤ (T.map fun x => if key x.1 = key h.1 then x.2 else 0).sum := by
        apply List.single_le_sum (hmapnn (key h.1))
        rw [List.mem_map]
        exact ⟨ef, hef.1, by rw [if_pos hkey]⟩
      omega
    · rw [List.filter_cons_of_neg hq]
      exact hT

/-- Entries that are 1 at most add up to no more than the number of edges that
they belong to. -/
theorem sum_le_countP (sel : cEdge → Bool) : ∀ (l : List cEdge) (f : List Int),
    (∀ ef ∈ l.zip f, ef.2 ≤ 1) →
    ((l.zip f).map fun ef => if sel ef.1 = true then ef.2 else 0).sum ≤ (l.countP sel : Int) := by
  intro l
  induction l with
  | nil => intro f _; simp
  | cons a t ih =>
    intro f hf
    cases f with
    | nil => simp
    | cons x fs =>
      have hrec := ih fs (fun ef he => hf ef (by simp [he]))
      have hx : x ≤ 1 := hf (a, x) (by simp)
      simp only [List.zip_cons_cons, List.map_cons, List.sum_cons, List.countP_cons]
      by_cases hs : sel a = true
      · simp only [hs, if_true]
        push_cast
        omega
      · simp only [hs, if_false]
        push_cast
        omega

theorem countP_snd_le_one (g g1 : cGraph)
    (h4 : g1.edgeList = g.edgeList ++ (allocSets g).1.map (fun a => ((g.nVertex : Int), a)) ++
      (allocSets g).2.map (fun t => (t, (g.nVertex : Int) + 1)))
    (a : Int) (hnot : ∀ e ∈ g.vEdge, e.dest ≠ a) (ha : a ≠ (g.nVertex : Int) + 1) :
    g1.vEdge.countP (fun e => e.dest == a) ≤ 1 := by
  have hc : g1.vEdge.countP (fun e => e.dest == a) =
      g1.edgeList.countP (fun p => p.2 == a) := by
    unfold cGraph.edgeList
    rw [List.countP_map]
    rfl
  rw [hc, h4, List.countP_append, List.countP_append]
  have h1 : g.edgeList.countP (fun p => p.2 == a) = 0 := by
    rw [List.countP_eq_zero]
    intro p hp
    unfold cGraph.edgeList at hp
    rw [List.mem_map] at hp
    obtain ⟨e, he, rfl⟩ := hp
    simpa using hnot e he
  have h2 : ((allocSets g).2.map (fun t => (t, (g.nVertex : Int) + 1))).countP
      (fun p => p.2 == a) = 0 := by
    rw [List.countP_eq_zero]
    intro p hp
    rw [List.mem_map] at hp
    obtain ⟨t, _, rfl⟩ := hp
    simpa using Ne.symm ha
  have h3 : ((allocSets g).1.map (fun x => ((g.nVertex : Int), x))).countP
      (fun p => p.2 == a) ≤ 1 := by
    rw [List.countP_map]
    have hnd : (allocSets g).1.Nodup := (allocSets_spec g).1.imp (fun h => ne_of_lt h)
    have := List.nodup_iff_count_le_one.mp hnd a
    unfold List.count at this
    exact this
  omega

theorem countP_fst_le_one (g g1 : cGraph)
    (h4 : g1.edgeList = g.edgeList ++ (allocSets g).1.map (fun a => ((g.nVertex : Int), a)) ++
      (allocSets g).2.map (fun t => (t, (g.nVertex : Int) + 1)))
    (t : Int) (hnot : ∀ e ∈ g.vEdge, e.src ≠ t) (ht : t ≠ (g.nVertex : Int)) :
    g1.vEdge.countP (fun e => e.src == t) ≤ 1 := by
  have hc : g1.vEdge.countP (fun e => e.src == t) =
      g1.edgeList.countP (fun p => p.1 == t) := by
    unfold cGraph.edgeList
    rw [List.countP_map]
    rfl
  rw [hc, h4, List.countP_append, List.countP_append]
  have h1 : g.edgeList.countP (fun p => p.1 == t) = 0 := by
    rw [List.countP_eq_zero]
    intro p hp
    unfold cGraph.edgeList at hp
    rw [List.mem_map] at hp
    obtain ⟨e, he, rfl⟩ := hp
    simpa using hnot e he
  have h2 : ((allocSets g).1.map (fun x => ((g.nVertex : Int), x))).countP
      (fun p => p.1 == t) = 0 := by
    rw [List.countP_eq_zero]
    intro p hp
    rw [List.mem_map] at hp
    obtain ⟨x, _, rfl⟩ := hp
    simpa using Ne.symm ht
  have h3 : ((allocSets g).2.map (fun x => (x, (g.nVertex : Int) + 1))).countP
      (fun p => p.1 == t) ≤ 1 := by
    rw [List.countP_map]
    have hnd : (allocSets g).2.Nodup := (allocSets_spec g).2.1.imp (fun h => ne_of_lt h)
    have := List.nodup_iff_count_le_one.mp hnd t
    unfold List.count at this
    exact this
  omega

/-- On a directed, well formed graph whose edges lead from agents to tasks, no
vertex being both, `allocKeep` returns (the loop of `flowsKeep` being given
more than `3 * edgeCount` rounds) pairs that are edges of the graph, no two of
them with the same agent and no two with the same task. -/
theorem allocKeep_spec (g : cGraph) (hd : g.isDirected = true) (hwf : g.wellFormed)
    (hbip : g.isBipartite) (fuel : Nat) (hfuel : 3 * g.edgeCount < fuel) :
    ∃ g1 pairs, allocKeep fuel g = .ok (g1, pairs) ∧ g.isMatching pairs := by
  obtain ⟨g1, a1, a2, a3, a4, a5, a6, a7⟩ := allocGraph_wf g hd hwf
  have hs : g1.inRange (g.nVertex : Int) := by
    unfold cGraph.inRange cGraph.vertexCount; rw [a3]; push_cast; omega
  have he : g1.inRange ((g.nVertex : Int) + 1) := by
    unfold cGraph.inRange cGraph.vertexCount; rw [a3]; push_cast; omega
  obtain ⟨work, total, _, _, hf, hlen, hbound, hcons⟩ :=
    flowsKeep_spec (g := g1) a2 a6 (fun e he => ⟨1, by rw [a5 e he]; norm_num⟩) hs he
      (by omega) fuel (by omega)
  generalize List.zipWith (fun e w => if w.dest = -1 then toInt e.attr0
    else toInt (e.attr0 - w.attr0)) g1.vEdge work.vEdge = f at hf hlen hbound hcons
  have hpairs := allocPairs_zip g1 (g.nVertex : Int) ((g.nVertex : Int) + 1) f g1.vEdge f 0
    rfl rfl hlen.symm
  have hrange : (List.range' 0 g1.vEdge.length).map Int.ofNat = intRange g1.edgeCount := by
    unfold intRange cGraph.edgeCount
    rw [List.range_eq_range']
  rw [hrange] at hpairs
  refine ⟨g1, allocPairs g1 (g.nVertex : Int) ((g.nVertex : Int) + 1) f
    (intRange g1.edgeCount), ?_, ?_⟩
  · unfold allocKeep
    rw [a1]
    simp only [hf]
  rw [hpairs]
  have horig : ∀ ef ∈ g1.vEdge.zip f,
      (decide (0 < ef.2) && decide (ef.1.src ≠ (g.nVertex : Int)) &&
        decide (ef.1.dest ≠ (g.nVertex : Int) + 1)) = true →
      0 < ef.2 ∧ ∃ e ∈ g.vEdge, e.src = ef.1.src ∧ e.dest = ef.1.dest := by
    intro ef hef hq
    simp only [Bool.and_eq_true, decide_eq_true_eq] at hq
    obtain ⟨⟨q1, q2⟩, q3⟩ := hq
    refine ⟨q1, ?_⟩
    have hmem : (ef.1.src, ef.1.dest) ∈ g1.edgeList := by
      unfold cGraph.edgeList
      rw [List.mem_map]
      exact ⟨ef.1, (List.of_mem_zip hef).1, rfl⟩
    rw [a4] at hmem
    simp only [List.mem_append, List.mem_map, Prod.mk.injEq] at hmem
    rcases hmem with (hm | ⟨x, _, hx, _⟩) | ⟨x, _, _, hx⟩
    · unfold cGraph.edgeList at hm
      rw [List.mem_map] at hm
      obtain ⟨e, he1, he2⟩ := hm
      simp only [Prod.mk.injEq] at he2
      exact ⟨e, he1, he2.1, he2.2⟩
    · exact absurd hx.symm q2
    · exact absurd hx.symm q3
  have hnn : ∀ ef ∈ g1.vEdge.zip f, 0 ≤ ef.2 := fun ef hef => (hbound ef hef).1
  have hle1 : ∀ ef ∈ g1.vEdge.zip f, ef.2 ≤ 1 := by
    intro ef hef
    have h1 := (hbound ef hef).2
    rw [a5 ef.1 (List.of_mem_zip hef).1] at h1
    exact_mod_cast h1
  have hinR : ∀ e ∈ g.vEdge, ∀ v, (v = e.src ∨ v = e.dest) →
      v ∈ intRange g1.vertexCount ∧ v ≠ (g.nVertex : Int) ∧ v ≠ (g.nVertex : Int) + 1 := by
    intro e he1 v hv
    have := hwf e he1
    unfold cGraph.vertexCount at this
    rw [mem_intRange]
    unfold cGraph.vertexCount
    rw [a3]
    push_cast
    rcases hv with rfl | rfl <;> omega
  refine ⟨?_, ?_, ?_⟩
  · intro p hp
    rw [List.mem_map] at hp
    obtain ⟨ef, hef, rfl⟩ := hp
    rw [List.mem_filter] at hef
    obtain ⟨_, e, he1, he2, he3⟩ := horig ef hef.1 hef.2
    unfold cGraph.edgeList
    rw [List.mem_map]
    exact ⟨e, he1, by rw [he2, he3]⟩
  · rw [List.map_map]
    apply nodup_keys_of_sum_le_one (fun e => e.src) _ _ hnn (fun ef hef hq => (horig ef hef hq).1)
    intro ef hef hq
    obtain ⟨_, e, he1, he2, _⟩ := horig ef hef hq
    obtain ⟨r1, r2, r3⟩ := hinR e he1 ef.1.src (Or.inl he2.symm)
    have hc := hcons ef.1.src r1 r2 r3
    have hin : g1.inflow f ef.1.src ≤ 1 := by
      have h1 := sum_le_countP (fun x => x.dest == ef.1.src) g1.vEdge f hle1
      have h2 := countP_snd_le_one g g1 a4 ef.1.src
        (fun x hx => by rw [← he2]; exact fun h => hbip e he1 x hx h.symm) r3
      unfold cGraph.inflow cGraph.edgeSum
      omega
    rw [hc] at hin
    unfold cGraph.outflow cGraph.edgeSum at hin
    simpa only [beq_iff_eq] using hin
  · rw [List.map_map]
    apply nodup_keys_of_sum_le_one (fun e => e.dest) _ _ hnn
      (fun ef hef hq => (horig ef hef hq).1)
    intro ef hef hq
    obtain ⟨_, e, he1, _, he3⟩ := horig ef hef hq
    obtain ⟨r1, r2, r3⟩ := hinR e he1 ef.1.dest (Or.inr he3.symm)
    have hc := hcons ef.1.dest r1 r2 r3
    have hout : g1.outflow f ef.1.dest ≤ 1 := by
      have h1 := sum_le_countP (fun x => x.src == ef.1.dest) g1.vEdge f hle1
      have h2 := countP_fst_le_one g g1 a4 ef.1.dest
        (fun x hx => by rw [← he3]; exact fun h => hbip x hx e he1 h) r2
      unfold cGraph.outflow cGraph.edgeSum
      omega
    rw [← hc] at hout
    unfold cGraph.inflow cGraph.edgeSum at hout
    simpa only [beq_iff_eq] using hout

/-- Over the store that keeps the edge indices: `flowsKeep` sends one unit
through the graph with the edges 0 -> 1, 1 -> 2, 2 -> 3, 0 -> 2, 1 -> 3, as
`flows` does, and reports it on the first three edges; `allocKeep` returns the
pair (1, 2) for the agents 0 and 1 with the one task 2, and the one pair (3, 1)
for the agents 2 and 3 with the edges 3 -> 1, 3 -> 0, 2 -> 1. -/
theorem flowsKeep_examples :
    flowsKeep 6 crossGraph 0 3 = .ok (1, [1, 1, 1, 0, 0]) ∧
      (flows 6 crossGraph 0 3).map Prod.fst = .ok 1 ∧
      (allocKeep 6 oneTaskGraph).map Prod.snd = .ok [(1, 2)] ∧
      (allocKeep 8 greedyTaskGraph).map Prod.snd = .ok [(3, 1)] :=
  ⟨by decide!, by decide!, by decide!, by decide!⟩

/-! ## The rounds and the total of `flows` do not depend on the store -/

theorem filter_set_findIdx_out {α : Type} (p q : α → Bool) (t : α) (hpt : p t = false) :
    ∀ l : List α, (∀ x ∈ l, q x = true → p x = true) →
      (l.set (l.findIdx q) t).filter p = (l.filter p).eraseIdx ((l.filter p).findIdx q) := by
  intro l
  induction l with
  | nil => intro _; rfl
  | cons a r ih =>
    intro h
    have hr := ih (fun x hx => h x (List.mem_cons_of_mem _ hx))
    by_cases hq : q a = true
    · have hp : p a = true := h a (List.mem_cons_self _ _) hq
      rw [List.findIdx_cons, hq, List.filter_cons_of_pos hp, List.findIdx_cons, hq]
      simp only [cond_true, List.set_cons_zero, List.eraseIdx_cons_zero]
      rw [List.filter_cons_of_neg (by simp [hpt])]
    · have hq' : q a = false := by simpa using hq
      rw [List.findIdx_cons, hq']
      simp only [cond_false, List.set_cons_succ]
      by_cases hp : p a = true
      · rw [List.filter_cons_of_pos hp, List.filter_cons_of_pos hp, List.findIdx_cons, hq']
        simp only [cond_false, List.eraseIdx_cons_succ]
        rw [hr]
      · rw [List.filter_cons_of_neg hp, List.filter_cons_of_neg hp, hr]

theorem filter_set_findIdx_in {α : Type} (p q : α → Bool) (e1 : α) (hp1 : p e1 = true) :
    ∀ l : List α, (∀ x ∈ l, q x = true → p x = true) →
      (l.set (l.findIdx q) e1).filter p = (l.filter p).set ((l.filter p).findIdx q) e1 := by
  intro l
  induction l with
  | nil => intro _; rfl
  | cons a r ih =>
    intro h
    have hr := ih (fun x hx => h x (List.mem_cons_of_mem _ hx))
    by_cases hq : q a = true
    · have hp : p a = true := h a (List.mem_cons_self _ _) hq
      rw [List.findIdx_cons, hq, List.filter_cons_of_pos hp, List.findIdx_cons, hq]
      simp only [cond_true, List.set_cons_zero]
      rw [List.filter_cons_of_pos hp1]
    · have hq' : q a = false := by simpa using hq
      rw [List.findIdx_cons, hq']
      simp only [cond_false, List.set_cons_succ]
      by_cases hp : p a = true
      · rw [List.filter_cons_of_pos hp, List.filter_cons_of_pos hp, List.findIdx_cons, hq']
        simp only [cond_false, List.set_cons_succ]
        rw [hr]
      · rw [List.filter_cons_of_neg hp, List.filter_cons_of_neg hp, hr]

theorem joins_live_of_joins {g : cGraph} (hd : g.fDirected = true) {u : Int} (hu : 0 ≤ u)
    (v : Int) : ∀ x ∈ g.vEdge, g.joins u v x = true → decide (0 ≤ x.src) = true := by
  intro x _ hx
  rw [cGraph.joins_directed hd] at hx
  simp only [decide_eq_true_eq]
  omega

theorem live_removeKeep {g : cGraph} (hd : g.fDirected = true) {u : Int} (hu : 0 ≤ u)
    (v : Int) : (g.removeKeep u v).live = g.live.remove u v := by
  unfold cGraph.removeKeep cGraph.live cGraph.remove
  simp only
  congr 1
  exact filter_set_findIdx_out _ _ _ (by decide) g.vEdge (joins_live_of_joins hd hu v)

theorem live_setEdge {g : cGraph} (hd : g.fDirected = true) {u : Int} (hu : 0 ≤ u)
    (v : Int) (e1 : cEdge) (h1 : 0 ≤ e1.src) :
    (g.setEdge (g.vEdge.findIdx (g.joins u v)) e1).live =
      g.live.setEdge (g.live.vEdge.findIdx (g.live.joins u v)) e1 := by
  unfold cGraph.setEdge cGraph.live
  simp only
  congr 1
  exact filter_set_findIdx_in _ _ _ (by simpa using h1) g.vEdge (joins_live_of_joins hd hu v)

theorem pathMaxflow_live {work : cGraph} (hd : work.fDirected = true) :
    ∀ (p : List Int) (u m : Int), pathMaxflow work p u m = pathMaxflow work.live p u m := by
  intro p
  induction p with
  | nil => intro u m; rfl
  | cons v rest ih =>
    intro u m
    unfold pathMaxflow
    by_cases hu : u ≥ 0
    · rw [if_pos hu, if_pos hu, cGraph.rEdgeAttr_find, cGraph.rEdgeAttr_find,
        firstEdge_live hd hu]
      cases work.firstEdge u v with
      | none => rfl
      | some e =>
        simp only
        split
        · exact ih _ _
        · exact ih _ _
    · rw [if_neg hu, if_neg hu]
      exact ih _ _

/-- What `consumeKeep` leaves of the edges that were not removed is what
`consume` makes of them over the store that renumbers. -/
theorem consumeKeep_live (mf : Int) : ∀ (p : List Int) (u : Int) (work : cGraph),
    work.fDirected = true →
      (consumeKeep mf p u work).map cGraph.live = consume mf p u work.live := by
  intro p
  induction p with
  | nil => intro u work _; rfl
  | cons v rest ih =>
    intro u work hd
    unfold consumeKeep consume
    by_cases hu : u ≥ 0
    · rw [if_pos hu, if_pos hu, cGraph.rEdgeAttr_find, cGraph.rEdgeAttr_find,
        firstEdge_live hd hu]
      cases hfe : work.firstEdge u v with
      | none => rfl
      | some e =>
        simp only
        have hsrc : 0 ≤ e.src := by
          rw [(cGraph.firstEdge_spec hd hfe).2.1]; exact hu
        by_cases hz : e.attr0 - (mf : ℚ) ≤ 0
        · rw [if_pos hz, if_pos hz, ← live_removeKeep hd hu]
          exact ih _ _ hd
        · rw [if_neg hz, if_neg hz, cGraph.wEdgeAttr_find _ hfe,
            cGraph.wEdgeAttr_find _ ((firstEdge_live hd hu v).trans hfe)]
          simp only
          have hl := live_setEdge hd hu v
            { src := e.src, dest := e.dest, attr0 := toStringAtof (e.attr0 - (mf : ℚ)) } hsrc
          rw [← hl]
          exact ih _ _ hd
    · rw [if_neg hu, if_neg hu]
      exact ih _ _ hd

theorem consumeKeep_dir (mf : Int) : ∀ (p : List Int) (u : Int) (work work1 : cGraph),
    work.fDirected = true → consumeKeep mf p u work = .ok work1 → work1.fDirected = true := by
  intro p
  induction p with
  | nil =>
    intro u work work1 hd h
    simp only [consumeKeep, Except.ok.injEq] at h
    rw [← h]; exact hd
  | cons v rest ih =>
    intro u work work1 hd h
    unfold consumeKeep at h
    split at h
    · split at h
      · cases h
      · split at h
        · exact ih _ (work.removeKeep u v) _ hd h
        · split at h
          · cases h
          · rename_i c _ w2 hw
            refine ih _ _ _ ?_ h
            unfold cGraph.wEdgeAttr at hw
            split at hw
            · cases hw
            · split at hw
              · simp only [Except.ok.injEq] at hw
                rw [← hw]; exact hd
              · cases hw
    · exact ih _ _ _ hd h

/-- The loop of `flowsKeep` makes the rounds of the loop of `flows`: the same
ways, the same total, and the working graph of `flows` is what is left of the
edges that were not removed. -/
theorem flowsLoopKeep_live (start end_ : Int) : ∀ (n : Nat) (work : cGraph) (total : Int),
    work.fDirected = true →
      (flowsLoopKeep start end_ n work total).map (fun r => (r.1.live, r.2)) =
        flowsLoop start end_ n work.live total := by
  intro n
  induction n with
  | zero => intro work total _; rfl
  | succ n ih =>
    intro work total hd
    unfold flowsLoopKeep flowsLoop
    rw [← path_live hd]
    cases path work start end_ with
    | error e => rfl
    | ok p =>
      simp only
      by_cases hnil : p.1 = []
      · rw [if_pos hnil, if_pos hnil]; rfl
      · rw [if_neg hnil, if_neg hnil, ← pathMaxflow_live hd]
        cases pathMaxflow work p.1 (-1) INT_MAX with
        | error e => rfl
        | ok mf =>
          simp only
          have hc := consumeKeep_live mf p.1 (-1) work hd
          cases hk : consumeKeep mf p.1 (-1) work with
          | error e =>
            rw [hk] at hc
            rw [← hc]; rfl
          | ok work1 =>
            rw [hk] at hc
            rw [← hc]
            exact ih work1 _ (consumeKeep_dir mf _ _ _ _ hd hk)

theorem live_of_wellFormed {g : cGraph} (hwf : g.wellFormed) : g.live = g := by
  unfold cGraph.live
  have : g.vEdge.filter (fun e => decide (0 ≤ e.src)) = g.vEdge := by
    rw [List.filter_eq_self]
    intro e he
    simpa using (hwf e he).1
  rw [this]

/-- The total that `flowsKeep` returns is the total that `flows` returns: the
store decides on the vector `vEdgeFlow` only. -/
theorem flowsKeep_total (g : cGraph) (hwf : g.wellFormed) (start end_ : Int) (fuel : Nat) :
    (flowsKeep fuel g start end_).map Prod.fst = (flows fuel g start end_).map Prod.fst := by
  unfold flowsKeep flows
  by_cases hd : g.isDirected = true
  · have hd2 : g.fDirected = true := hd
    rw [hd]
    simp only [Bool.not_true, Bool.false_eq_true, if_false]
    have h := flowsLoopKeep_live start end_ fuel g 0 hd2
    rw [live_of_wellFormed hwf] at h
    rw [← h]
    cases flowsLoopKeep start end_ fuel g 0 with
    | error e => rfl
    | ok r =>
      obtain ⟨work, total⟩ := r
      have hrange : ∀ ei ∈ intRange g.edgeCount, 0 ≤ ei ∧ ei < (g.edgeCount : Int) :=
        fun ei h => (mem_intRange _ _).mp h
      obtain ⟨f1, hf1⟩ := edgeFlow_ok g work _ hrange
      obtain ⟨f2, hf2⟩ := edgeFlow_ok g work.live _ hrange
      simp only [Except.map, hf1, hf2]
  · have hd2 : g.isDirected = false := by simpa using hd
    rw [hd2]
    rfl

/-! ## The claims about the cost of `path`, the vector of `flows` and the pairs
of `alloc` -/

/-- C1, amended: in a well formed graph (simple or not) whose edge weights are
natural numbers, none above `W`, with `vertexCount * W` below `INT_MAX`, for
distinct vertices `u`, `v` with `v` reachable from `u`, `path g u v` returns a
vertex sequence that starts at `u`, ends at `v`, whose consecutive vertices are
joined by edges of `g`, together with the sum of the slot 0 values of those
edges, which is a whole number between 0 and `INT_MAX`: the sums that the code
forms in `double` are exact on such values. -/
theorem path_walk_cost (g : cGraph) (W : ℚ) (u v : Int) (hwf : g.wellFormed)
    (hnat : ∀ e ∈ g.vEdge, ∃ n : ℕ, e.attr0 = (n : ℚ))
    (hw : ∀ e ∈ g.vEdge, e.attr0 ≤ W)
    (hbound : (g.vertexCount : ℚ) * W < (INT_MAX : ℚ))
    (hu : g.inRange u) (hv : g.inRange v) (huv : u ≠ v) (hreach : g.Reachable u v) :
    ∃ p c, path g u v = .ok (p, c) ∧ g.isWalk u v p ∧ g.linkCost p = .ok c ∧
      ∃ n : Int, c = (n : ℚ) ∧ 0 ≤ n ∧ n < INT_MAX := by
  have hw2 : ∀ e ∈ g.vEdge, 0 ≤ e.attr0 ∧ e.attr0 ≤ W := by
    intro e he
    obtain ⟨n, hn⟩ := hnat e he
    exact ⟨by rw [hn]; exact Nat.cast_nonneg n, hw e he⟩
  have hW : 0 ≤ W := by
    rcases Relation.ReflTransGen.cases_head hreach with h | ⟨c, ⟨e, he, _⟩, _⟩
    · exact absurd h huv
    · exact le_trans (hw2 e he).1 (hw2 e he).2
  obtain ⟨s, k, inv, hk, hfin, hcase⟩ := path_spec hwf W hu hv huv
  have hdist := reach_finite hwf inv hk hfin hW hw2 hbound v hreach
  rcases hcase with ⟨hp, _⟩ | ⟨_, r, hr, hin, hpath⟩
  · have := (inv.pred_none v hv).mp hp
    rw [this] at hdist
    exact absurd hdist (lt_irrefl _)
  · obtain ⟨h1, h2⟩ := hr.walk inv hin
    obtain ⟨n, hn⟩ := path_cost_int (intWeights_of_nat hnat) hpath
    have h0 := (inv.bnd hW hw2 v hv hdist).1
    rw [hn] at h0 hdist
    exact ⟨r.reverse, vget s.dist v 0, hpath, h1, h2, n, hn, by exact_mod_cast h0,
      by exact_mod_cast hdist⟩

/-- C1, witness: the unit test graph a-b, b-c, a-d from a = 0 to c = 2. -/
theorem path_walk_cost_witness :
    testGraph.Reachable 0 2 ∧ path testGraph 0 2 = .ok ([0, 1, 2], 2) ∧
      ∃ p c, path testGraph 0 2 = .ok (p, c) ∧ testGraph.isWalk 0 2 p ∧
        testGraph.linkCost p = .ok c ∧ ∃ n : Int, c = (n : ℚ) ∧ 0 ≤ n ∧ n < INT_MAX :=
  ⟨(Relation.ReflTransGen.single (show testGraph.hasEdge 0 1 by decide)).tail
      (show testGraph.hasEdge 1 2 by decide), by decide!,
    path_walk_cost testGraph 1 0 2 (by decide) (natWeights_of_den testGraph (by decide!))
      (by decide!) (by decide!) (by decide) (by decide) (by decide)
      ((Relation.ReflTransGen.single (show testGraph.hasEdge 0 1 by decide)).tail
        (show testGraph.hasEdge 1 2 by decide))⟩

end PathFinder
